import Mathlib

/-!
# HEX: board model, win detection, shortest-connection cost and move cascade

A shallow embedding of the Hex engine of `src/HEX/HEX.cpp` (console game with the
minimax opponent) and `src/Code/mainwindow.cpp` (Qt game with the rule cascade).

* Coordinates are C++ `int`s and are modelled by `Int`; every read of the grid in the
  source happens after a bounds check, so the grid is a total function on coordinates
  of which only the cells `0 ≤ r, c < size` are ever inspected.
* Distances, costs and flat cell indices are non-negative `int`s and are modelled by
  `Nat`, scores by `Int`, both without wrap-around; for the board sizes of the program
  (at most 20) no value leaves the 32-bit range, the largest distance being
  `INT_MAX / 4 + size * size`.
* Code that mutates the shared board (`makeMove`, `undoMove` and the probing loops of the
  cascade) passes the game along explicitly.
* `while` loops are functions recursive on a fuel argument.  The fuel given to the search
  of `checkWin`, to the relaxation loop and to the backtracking loop is proved sufficient
  (`bfsLoop_iff`, `finalState_inv`, `backtrack_fuel_enough`), so these loops really end
  with their exit condition.
* The recursion of `SmarterAI::minimax` is a function recursive on a fuel argument that
  returns `none` only when the fuel runs out; every level of the recursion fills a cell,
  and a call with more fuel than the board has Empty cells is proved to return
  (`minimax_returns`).  The search depth and the scores are unbounded integers, which is
  the C++ arithmetic as long as no 32-bit overflow occurs; the statements about the
  returned scores carry the range in which none occurs, and `wrap32` is the value of an
  integer as a 32-bit `int`.
* `minimaxExhaustive` is the text of `SmarterAI::minimax` with the test `beta <= alpha`
  deleted; without the test `alpha` and `beta` are never read and every call returns with
  the board restored, so it is written as a function of the board, recursive on the same
  fuel as `minimax`.
* `galeX`, `galeStep` and the other `gale` definitions model no code: they are the walk
  along the border between the two colours by which a full board is shown to have a
  winner.  `specScore`, `stoneCount` and `pairCount` follow the wording of the
  specification and are compared with `evaluateBoard`; `mirror` is the board transposed
  with the stones exchanged, on which the two cost searches are compared.
-/

/-! # Part I: definitions

## The program: board, win detection, cost search and move cascade -/

namespace Hex

/-- The six hex offsets `kHexDirections` (row delta, column delta), in source order.
`HEX.cpp` spells the same table as the two arrays `dr` and `dc`. -/
def kHexDirections : List (Int × Int) :=
  [(-1, 0), (-1, 1), (0, -1), (0, 1), (1, -1), (1, 0)]

/-- The data of `class HexGame`: the size `N` and the `N × N` grid of characters
(`'.'` empty, `'X'`, `'O'`). -/
structure HexGame where
  size : Nat
  board : Int → Int → Char

namespace HexGame

/-- The bounds test `r >= 0 && r < N && c >= 0 && c < N`. -/
def inBounds (g : HexGame) (r c : Int) : Bool :=
  decide (0 ≤ r) && decide (r < g.size) && decide (0 ≤ c) && decide (c < g.size)

/-- The grid after the assignment `board[r][c] = ch`. -/
def setCell (g : HexGame) (r c : Int) (ch : Char) : HexGame :=
  { size := g.size, board := fun i j => if i = r ∧ j = c then ch else g.board i j }

/-- `HexGame::makeMove`: the result flag and the game afterwards. -/
def makeMove (g : HexGame) (r c : Int) (player : Char) : Bool × HexGame :=
  if !g.inBounds r c || g.board r c != '.' then (false, g)
  else (true, g.setCell r c player)

/-- `HexGame::undoMove`. -/
def undoMove (g : HexGame) (r c : Int) : HexGame :=
  if g.inBounds r c then g.setCell r c '.' else g

/-- `HexGame::isCellEmpty`. -/
def isCellEmpty (g : HexGame) (r c : Int) : Bool :=
  g.inBounds r c && g.board r c == '.'

/-- `HexGame::getCell` of `HEX.cpp`, with `'#'` outside the board. -/
def getCell (g : HexGame) (r c : Int) : Char :=
  if !g.inBounds r c then '#' else g.board r c

/-- `HexGame::isFull`: no cell of the grid is `'.'`. -/
def isFull (g : HexGame) : Bool :=
  (List.range g.size).all fun r =>
    (List.range g.size).all fun c => g.board r c != '.'

end HexGame

/-- The `visited` matrix together with the queue of the search. -/
abbrev BfsState := (Int → Int → Bool) × List (Int × Int)

/-- The seeding statement: mark the cell and push it when `player` owns it. -/
def bfsSeed (g : HexGame) (player : Char) (st : BfsState) (p : Int × Int) : BfsState :=
  if g.board p.1 p.2 == player then
    (fun i j => if i = p.1 ∧ j = p.2 then true else st.1 i j, st.2 ++ [p])
  else st

/-- The body of the loop over the six directions around the popped cell `(r, c)`. -/
def bfsVisit (g : HexGame) (player : Char) (r c : Int) (st : BfsState)
    (d : Int × Int) : BfsState :=
  let nr := r + d.1
  let nc := c + d.2
  if g.inBounds nr nc && !st.1 nr nc && g.board nr nc == player then
    (fun i j => if i = nr ∧ j = nc then true else st.1 i j, st.2 ++ [(nr, nc)])
  else st

/-- The loop `while (!q.empty())`: pop the front cell, answer `true` when it lies on the
target edge, otherwise push its unvisited neighbours owned by `player`.  One unit of
fuel is one iteration; the queue running empty answers `false`. -/
def bfsLoop (g : HexGame) (player : Char) (goal : Int → Int → Bool) :
    Nat → (Int → Int → Bool) → List (Int × Int) → Bool
  | 0, _, _ => false
  | _ + 1, _, [] => false
  | fuel + 1, visited, (r, c) :: q =>
      if goal r c then true
      else
        let st := kHexDirections.foldl (bfsVisit g player r c) (visited, q)
        bfsLoop g player goal fuel st.1 st.2

/-- Fuel for `bfsLoop`: every iteration pops a cell, at most `size` cells are pushed by
the seeding and every later push marks a new cell, so the loop has ended after this many
iterations. -/
def bfsFuel (g : HexGame) : Nat := 2 * (g.size * g.size) + g.size + 1

/-- The search from the left column (`board[r][0]`) to the column `N - 1`. -/
def bfsHorizontal (g : HexGame) (player : Char) : Bool :=
  let st := ((List.range g.size).map fun r : Nat => ((r : Int), (0 : Int))).foldl
    (bfsSeed g player) (fun _ _ => false, [])
  bfsLoop g player (fun _ c => c == (g.size : Int) - 1) (bfsFuel g) st.1 st.2

/-- The search from the top row (`board[0][c]`) to the row `N - 1`. -/
def bfsVertical (g : HexGame) (player : Char) : Bool :=
  let st := ((List.range g.size).map fun c : Nat => ((0 : Int), (c : Int))).foldl
    (bfsSeed g player) (fun _ _ => false, [])
  bfsLoop g player (fun r _ => r == (g.size : Int) - 1) (bfsFuel g) st.1 st.2

namespace Console

/-- `HexGame::checkWin` of `src/HEX/HEX.cpp`: the horizontal search for `'X'`, the
vertical one for every other player character. -/
def checkWin (g : HexGame) (player : Char) : Bool :=
  if player == 'X' then bfsHorizontal g player else bfsVertical g player

end Console

namespace Gui

/-- `HexGame::hasHorizontalConnection` of `src/Code/mainwindow.cpp`. -/
def hasHorizontalConnection (g : HexGame) : Bool := bfsHorizontal g 'X'

/-- `HexGame::hasVerticalConnection` of `src/Code/mainwindow.cpp`. -/
def hasVerticalConnection (g : HexGame) : Bool := bfsVertical g 'O'

/-- `HexGame::checkWin` of `src/Code/mainwindow.cpp`. -/
def checkWin (g : HexGame) (player : Char) : Bool :=
  if player == 'X' then hasHorizontalConnection g
  else if player == 'O' then hasVerticalConnection g
  else false

end Gui

/-- The sentinel `INF = 1'000'000'000`. -/
def INF : Nat := 1000000000

/-- The value `std::numeric_limits<int>::max() / 4` that `cellCost` gives to a cell of
the opponent. -/
def blockedCost : Nat := 2147483647 / 4

/-- The lambda `cellCost` of the side `own` playing against `opp`. -/
def cellCost (own opp : Char) (cell : Char) : Nat :=
  if cell == opp then blockedCost else if cell == own then 0 else 1

/-- The vectors `dist` and `parent` and the priority queue `pq` of `(distance, index)`
pairs. -/
structure CostState where
  dist : Nat → Nat
  parent : Nat → Int
  pq : List (Nat × Nat)

/-- The order of `std::pair<int,int>`: by distance, then by index. -/
def pairLe (a b : Nat × Nat) : Bool :=
  decide (a.1 < b.1) || (a.1 == b.1 && decide (a.2 ≤ b.2))

/-- The element `pq.top()` of the min-queue (`std::greater`): the least pair. -/
def pqTop : List (Nat × Nat) → Option (Nat × Nat)
  | [] => none
  | a :: rest =>
      match pqTop rest with
      | none => some a
      | some m => if pairLe a m then some a else some m

/-- The seeding loop body for the start-edge cell `p`: cells whose cost is at least
`INF` are skipped, the others get their own cost as distance and are pushed. -/
def costSeed (g : HexGame) (own opp : Char) (st : CostState) (p : Int × Int) : CostState :=
  let cost := cellCost own opp (g.board p.1 p.2)
  if cost ≥ INF then st
  else
    let idx := (p.1 * g.size + p.2).toNat
    { dist := fun i => if i = idx then cost else st.dist i
      parent := st.parent
      pq := (cost, idx) :: st.pq }

/-- The body of the loop over the six directions around the popped index `v` with
popped distance `d`. -/
def relaxStep (g : HexGame) (own opp : Char) (d v : Nat) (st : CostState)
    (dir : Int × Int) : CostState :=
  let r : Int := ((v / g.size : Nat) : Int)
  let c : Int := ((v % g.size : Nat) : Int)
  let nr := r + dir.1
  let nc := c + dir.2
  if nr < 0 ∨ nr ≥ g.size ∨ nc < 0 ∨ nc ≥ g.size then st
  else
    let cell := g.board nr nc
    if cell == opp then st
    else
      let add := if cell == own then 0 else 1
      let nv := (nr * g.size + nc).toNat
      if st.dist nv > d + add then
        { dist := fun i => if i = nv then d + add else st.dist i
          parent := fun i => if i = nv then (v : Int) else st.parent i
          pq := (d + add, nv) :: st.pq }
      else st

/-- The loop `while (!pq.empty())`: pop the least pair, drop it when it is stale or at
least `INF`, otherwise relax the six neighbours.  One unit of fuel is one iteration. -/
def relaxLoop (g : HexGame) (own opp : Char) : Nat → CostState → CostState
  | 0, st => st
  | fuel + 1, st =>
      match pqTop st.pq with
      | none => st
      | some (d, v) =>
          let st1 : CostState := { st with pq := st.pq.erase (d, v) }
          if d ≠ st1.dist v ∨ d ≥ INF then relaxLoop g own opp fuel st1
          else relaxLoop g own opp fuel (kHexDirections.foldl (relaxStep g own opp d v) st1)

/-- Fuel for `relaxLoop`: an iteration removes one pair and every push lowers one
recorded distance, so the queue length plus the sum of the distances falls each time. -/
def relaxFuel (g : HexGame) : Nat := g.size * g.size * INF + g.size + 1

/-- The scan of the target edge: the least distance and the first index reaching it. -/
def bestStep (g : HexGame) (dist : Nat → Nat) (acc : Int × Nat) (p : Int × Int) : Int × Nat :=
  let idx := (p.1 * g.size + p.2).toNat
  if dist idx < acc.2 then ((idx : Int), dist idx) else acc

/-- The loop `while (cur != -1)` that walks the parent pointers from the best target
cell and prepends the cells that are `'.'`. -/
def backtrack (g : HexGame) (parent : Nat → Int) : Nat → Int → List (Int × Int) → List (Int × Int)
  | 0, _, acc => acc
  | fuel + 1, cur, acc =>
      if cur = -1 then acc
      else
        let r : Int := cur / g.size
        let c : Int := cur % g.size
        let acc1 := if g.board r c == '.' then (r, c) :: acc else acc
        backtrack g parent fuel (parent cur.toNat) acc1

/-- The common text of `minMovesForXToWin` and `minMovesForOToWin`; the two functions
differ only in the two stone characters and in the start and target edge cells
(`startCell k`, `goalCell k` for `k = 0 .. size - 1`).  The result is the returned cost
and the value written to `*path`, `none` when the function leaves `*path` alone. -/
def minMovesCore (g : HexGame) (own opp : Char) (startCell goalCell : Nat → Int × Int) :
    Nat × Option (List (Int × Int)) :=
  let st0 : CostState := { dist := fun _ => INF, parent := fun _ => -1, pq := [] }
  let st1 := ((List.range g.size).map startCell).foldl (costSeed g own opp) st0
  let st2 := relaxLoop g own opp (relaxFuel g) st1
  let best := ((List.range g.size).map goalCell).foldl (bestStep g st2.dist) ((-1 : Int), INF)
  let path :=
    if best.1 ≠ -1 ∧ best.2 < INF then
      some (backtrack g st2.parent (g.size * g.size + 1) best.1 [])
    else none
  (if best.2 ≥ INF then INF else best.2, path)

namespace Gui

/-- `MainWindow::minMovesForXToWin`, called with a path pointer: seeds `(r, 0)`, targets
`(r, size - 1)`. -/
def minMovesForXToWinPath (g : HexGame) : Nat × Option (List (Int × Int)) :=
  minMovesCore g 'X' 'O' (fun r => ((r : Int), 0)) (fun r => ((r : Int), (g.size : Int) - 1))

/-- `MainWindow::minMovesForOToWin`, called with a path pointer: seeds `(0, c)`, targets
`(size - 1, c)`. -/
def minMovesForOToWinPath (g : HexGame) : Nat × Option (List (Int × Int)) :=
  minMovesCore g 'O' 'X' (fun c => (0, (c : Int))) (fun c => ((g.size : Int) - 1, (c : Int)))

/-- `MainWindow::minMovesForXToWin(nullptr)`: the cost alone. -/
def minMovesForXToWin (g : HexGame) : Nat := (minMovesForXToWinPath g).1

/-- `MainWindow::minMovesForOToWin(nullptr)`: the cost alone. -/
def minMovesForOToWin (g : HexGame) : Nat := (minMovesForOToWinPath g).1

/-- `MainWindow::isXOneMoveFromWin`. -/
def isXOneMoveFromWin (g : HexGame) : Bool := decide (minMovesForXToWin g ≤ 1)

/-- `MainWindow::isXTwoMovesFromWin`. -/
def isXTwoMovesFromWin (g : HexGame) : Bool := decide (minMovesForXToWin g ≤ 2)

/-- The C function `abs` on `int`. -/
def absInt (x : Int) : Int := if x < 0 then -x else x

/-- `MainWindow::shortestPathToConnectO`. -/
def shortestPathToConnectO (g : HexGame) (r c : Int) : Int :=
  let distToTop := r
  let distToBottom := (g.size : Int) - 1 - r
  let xNearby : Int := kHexDirections.foldl
    (fun n d => if g.inBounds (r + d.1) (c + d.2) && g.board (r + d.1) (c + d.2) == 'X'
      then n + 1 else n) 0
  distToTop + distToBottom + xNearby * 2

/-- The loop `for (cell : path) if (cell == (r, c)) { ...; break; }` as a test. -/
def onPath (path : List (Int × Int)) (r c : Int) : Bool :=
  path.any fun cell => cell.1 == r && cell.2 == c

/-- `MainWindow::evaluateMoveForO`: the score and the game as the function leaves it.
The function probes `makeMove(r, c, 'X')` and then calls `undoMove(r, c)`, which clears
the cell whether or not the probe placed a stone. -/
def evaluateMoveForO (g : HexGame) (r c playerLastR playerLastC : Int)
    (baseThreatCost : Nat) (threatPath : List (Int × Int))
    (baseOPathCost : Nat) (oPath : List (Int × Int)) : Int × HexGame :=
  let size : Int := g.size
  if checkWin g 'O' then (5000000, g)
  else
    let newThreat : Int := minMovesForXToWin g
    let threatDelta : Int := (baseThreatCost : Int) - newThreat
    let s1 : Int := if newThreat ≤ 1 then 800000 else 0
    let s2 : Int := if threatDelta > 0 then s1 + threatDelta * 400000 else s1
    let s3 : Int := if onPath threatPath r c then s2 + 180000 else s2
    let newOPathCost : Int := minMovesForOToWin g
    let oGain : Int := (baseOPathCost : Int) - newOPathCost
    let s4 : Int := if newOPathCost ≤ 1 then s3 + 700000 else s3
    let s5 : Int := if oGain > 0 then s4 + oGain * 300000 else s4
    let s6 : Int := if onPath oPath r c then s5 + 250000 else s5
    let g1 := (g.makeMove r c 'X').2
    let xWinHere := checkWin g1 'X'
    let g2 := g1.undoMove r c
    if xWinHere then (3000000, g2)
    else
      let s7 : Int :=
        if isXOneMoveFromWin g2 then s6 + 2500000
        else if isXTwoMovesFromWin g2 then s6 + 2000000 else s6
      let pathScore := shortestPathToConnectO g2 r c
      let s8 : Int := s7 + (size * 3 - pathScore) * 8000
      let s9 : Int := if r ≥ size - 2 then s8 + 120000 else s8
      let s10 : Int :=
        if playerLastR ≥ size - 2 ∧ absInt (r - playerLastR) ≤ 1 then s9 + 120000 else s9
      let distToPlayer := absInt (r - playerLastR) + absInt (c - playerLastC)
      let s11 : Int := if distToPlayer ≤ 2 then s10 + (3 - distToPlayer) * 10000 else s10
      let s12 : Int := if c ≥ size - 3 then s11 + 8000 else s11
      let s13 : Int := if r ≤ 1 ∨ r ≥ size - 2 then s12 + 5000 else s12
      let neighbors : Int := kHexDirections.foldl
        (fun n d =>
          if g2.inBounds (r + d.1) (c + d.2) then
            let n1 := if g2.board (r + d.1) (c + d.2) == 'O' then n + 2 else n
            if g2.board (r + d.1) (c + d.2) == 'X' then n1 + 1 else n1
          else n) 0
      let s14 : Int := s13 + neighbors * 1000
      let centerDist := absInt (r - size / 2) + absInt (c - size / 2)
      (s14 + (size - centerDist) * 200, g2)

/-- The variables `bestR`, `bestC`, `bestScore` of the cascade. -/
structure Best where
  bestR : Int
  bestC : Int
  bestScore : Int

/-- The body of the inner loop building `emptyCells`: the pair is the list and
`cellCount`; nothing is added once `cellCount` has reached 50. -/
def collectCell (g : HexGame) (r : Nat) (acc : List (Int × Int) × Nat) (c : Nat) :
    List (Int × Int) × Nat :=
  if acc.2 < 50 then
    if g.isCellEmpty r c then (acc.1 ++ [((r : Int), (c : Int))], acc.2 + 1) else acc
  else acc

/-- The body of the outer loop building `emptyCells`. -/
def collectRow (g : HexGame) (acc : List (Int × Int) × Nat) (r : Nat) :
    List (Int × Int) × Nat :=
  if acc.2 < 50 then (List.range g.size).foldl (collectCell g r) acc else acc

/-- The list `emptyCells`: the Empty cells in row-major order, the scan stopping once
`cellCount` reaches 50. -/
def collectEmpty (g : HexGame) : List (Int × Int) :=
  ((List.range g.size).foldl (collectRow g) ([], 0)).1

/-- The first loop of the immediate-loss rule: the first cell of the threat path that is
Empty. -/
def firstEmptyOn (g : HexGame) : List (Int × Int) → Option (Int × Int)
  | [] => none
  | cell :: rest =>
      if !g.isCellEmpty cell.1 cell.2 then firstEmptyOn g rest else some cell

/-- The second loop of the immediate-loss rule: the first candidate after which X is no
longer one move from winning. -/
def findBlocker : HexGame → List (Int × Int) → HexGame × Option (Int × Int)
  | g, [] => (g, none)
  | g, cell :: rest =>
      let g1 := (g.makeMove cell.1 cell.2 'O').2
      let stillWin := isXOneMoveFromWin g1
      let g2 := g1.undoMove cell.1 cell.2
      if !stillWin then (g2, some cell) else findBlocker g2 rest

/-- The loops of the two place-and-check rules: the first candidate accepted by `keep`
on which an X stone makes `checkWin('X')` true. -/
def findWinningCell (keep : Int × Int → Bool) :
    HexGame → List (Int × Int) → HexGame × Option (Int × Int)
  | g, [] => (g, none)
  | g, cell :: rest =>
      if !keep cell then findWinningCell keep g rest
      else
        let g1 := (g.makeMove cell.1 cell.2 'X').2
        let xWinsHere := checkWin g1 'X'
        let g2 := g1.undoMove cell.1 cell.2
        if xWinsHere then (g2, some cell) else findWinningCell keep g2 rest

/-- Rule 1 (immediate loss): with `threatCost <= 1`, the first Empty cell of the threat
path, else the first candidate that breaks the threat. -/
def ruleImmediateLoss (threatCost : Nat) (threatPath emptyCells : List (Int × Int))
    (st : HexGame × Best) : HexGame × Best :=
  if st.2.bestR == -1 && decide (threatCost ≤ 1) then
    let b1 : Best :=
      match firstEmptyOn st.1 threatPath with
      | some cell => ⟨cell.1, cell.2, 7000000⟩
      | none => st.2
    if b1.bestR == -1 then
      let res := findBlocker st.1 emptyCells
      match res.2 with
      | some cell => (res.1, ⟨cell.1, cell.2, 6800000⟩)
      | none => (res.1, b1)
    else (st.1, b1)
  else st

/-- Rule 2 (hard block): the first candidate on which X would win at once. -/
def ruleBlockWinningCell (emptyCells : List (Int × Int)) (st : HexGame × Best) :
    HexGame × Best :=
  if st.2.bestR == -1 then
    let res := findWinningCell (fun _ => true) st.1 emptyCells
    match res.2 with
    | some cell => (res.1, ⟨cell.1, cell.2, 7200000⟩)
    | none => (res.1, st.2)
  else st

/-- Rule 3 (bottom row block): the same test restricted to the row `boardSize - 1`. -/
def ruleBlockBottomRow (emptyCells : List (Int × Int)) (st : HexGame × Best) :
    HexGame × Best :=
  if st.2.bestR == -1 then
    let res := findWinningCell (fun cell => cell.1 == (st.1.size : Int) - 1) st.1 emptyCells
    match res.2 with
    | some cell => (res.1, ⟨cell.1, cell.2, 6500000⟩)
    | none => (res.1, st.2)
  else st

/-- The state of the loop of rule 4: game, `bestRaise`, `bestCenter` and the choice. -/
structure SpoilState where
  game : HexGame
  bestRaise : Int
  bestCenter : Int
  best : Best

/-- The loop body of rule 4 for one candidate. -/
def spoilStep (threatCost : Nat) (st : SpoilState) (cell : Int × Int) : SpoilState :=
  if cell.1 != (st.game.size : Int) - 1 then st
  else
    let g1 := (st.game.makeMove cell.1 cell.2 'O').2
    let newCost := minMovesForXToWin g1
    let g2 := g1.undoMove cell.1 cell.2
    let raise : Int := (newCost : Int) - (threatCost : Int)
    let centerDist := absInt (cell.2 - ((st.game.size / 2 : Nat) : Int))
    if raise > st.bestRaise ∨ (raise = st.bestRaise ∧ centerDist < st.bestCenter) then
      { game := g2, bestRaise := raise, bestCenter := centerDist,
        best := ⟨cell.1, cell.2, 5800000⟩ }
    else { st with game := g2 }

/-- Rule 4 (spoil the bottom row): when X holds at least `boardSize / 3` cells of the last
row or `threatCost <= 3`, the last-row candidate raising X's cost most, ties to the
centre. -/
def ruleSpoilBottomRow (threatCost : Nat) (emptyCells : List (Int × Int))
    (st : HexGame × Best) : HexGame × Best :=
  if st.2.bestR == -1 then
    let bottomX : Nat := (List.range st.1.size).foldl
      (fun n c => if st.1.board ((st.1.size : Int) - 1) (c : Int) == 'X' then n + 1 else n) 0
    if decide (bottomX ≥ st.1.size / 3) || decide (threatCost ≤ 3) then
      let res := emptyCells.foldl (spoilStep threatCost)
        { game := st.1, bestRaise := -1000000000, bestCenter := 1000000, best := st.2 }
      (res.game, res.best)
    else st
  else st

/-- The state of the loop of the short-threat rule: game, `bestRaise`, `bestCenter`,
`bestRowBias` and the choice. -/
structure ThreatState where
  game : HexGame
  bestRaise : Int
  bestCenter : Int
  bestRowBias : Int
  best : Best

/-- The loop body of the short-threat rule for one candidate. -/
def threatStep (threatCost : Nat) (st : ThreatState) (cell : Int × Int) : ThreatState :=
  let g1 := (st.game.makeMove cell.1 cell.2 'O').2
  let newCost := minMovesForXToWin g1
  let g2 := g1.undoMove cell.1 cell.2
  let raise : Int := (newCost : Int) - (threatCost : Int)
  let half : Int := ((st.game.size / 2 : Nat) : Int)
  let centerDist := absInt (cell.1 - half) + absInt (cell.2 - half)
  if raise > st.bestRaise ∨ (raise = st.bestRaise ∧ cell.1 > st.bestRowBias) ∨
      (raise = st.bestRaise ∧ cell.1 = st.bestRowBias ∧ centerDist < st.bestCenter) then
    { game := g2, bestRaise := raise, bestCenter := centerDist, bestRowBias := cell.1,
      best := ⟨cell.1, cell.2, 4000000⟩ }
  else { st with game := g2 }

/-- Rule 5 (short threat, `threatCost <= 2`): not guarded by `bestR == -1`.  It first
takes the front of the threat path when `threatCost <= 1`, then scans every candidate for
the largest raise of X's cost, ties to the larger row, then to the centre. -/
def ruleShortThreat (threatCost : Nat) (threatPath emptyCells : List (Int × Int))
    (st : HexGame × Best) : HexGame × Best :=
  if threatCost ≤ 2 then
    let b1 : Best :=
      match threatPath with
      | cell :: _ => if threatCost ≤ 1 then ⟨cell.1, cell.2, 5000000⟩ else st.2
      | [] => st.2
    let res := emptyCells.foldl (threatStep threatCost)
      { game := st.1, bestRaise := -1, bestCenter := 1000000, bestRowBias := -1, best := b1 }
    (res.game, res.best)
  else st

/-- The arguments every call of `evaluateMoveForO` in the cascade shares. -/
structure EvalArgs where
  playerLastR : Int
  playerLastC : Int
  threatCost : Nat
  threatPath : List (Int × Int)
  oPathCost : Nat
  oPath : List (Int × Int)

/-- The probe `makeMove(r, c, 'O'); score = evaluateMoveForO(r, c, ...); undoMove(r, c)`. -/
def evalProbe (a : EvalArgs) (g : HexGame) (r c : Int) : Int × HexGame :=
  let g1 := (g.makeMove r c 'O').2
  let res := evaluateMoveForO g1 r c a.playerLastR a.playerLastC a.threatCost a.threatPath
    a.oPathCost a.oPath
  (res.1, res.2.undoMove r c)

/-- The state of the loops that keep the best `evaluateMoveForO` score over a path. -/
structure ScoreState where
  game : HexGame
  localBest : Int
  best : Best

/-- The loop body of rule 6 for one cell of the threat path. -/
def reinforceStep (a : EvalArgs) (st : ScoreState) (cell : Int × Int) : ScoreState :=
  if !st.game.isCellEmpty cell.1 cell.2 then st
  else
    let res := evalProbe a st.game cell.1 cell.2
    if res.1 > st.localBest then
      { game := res.2, localBest := res.1, best := ⟨cell.1, cell.2, res.1⟩ }
    else { st with game := res.2 }

/-- Rule 6: with no choice yet, `threatCost <= 3` and a non-empty threat path, the Empty
cell of the threat path with the best `evaluateMoveForO` score. -/
def ruleReinforceThreatPath (a : EvalArgs) (st : HexGame × Best) : HexGame × Best :=
  if st.2.bestR == -1 && decide (a.threatCost ≤ 3) && !a.threatPath.isEmpty then
    let res := a.threatPath.foldl (reinforceStep a)
      { game := st.1, localBest := -1000000000, best := st.2 }
    (res.game, res.best)
  else st

/-- The opening move: the centre when Empty, else the front of O's own path. -/
def openingMove (g : HexGame) (oPath : List (Int × Int)) (b : Best) : Best :=
  let center : Int := ((g.size / 2 : Nat) : Int)
  if g.isCellEmpty center center then ⟨center, center, 3500000⟩
  else
    match oPath with
    | cell :: _ => ⟨cell.1, cell.2, 3400000⟩
    | [] => b

/-- The lambda `evalState`. -/
def evalState (g : HexGame) : Int :=
  let xCost : Int := minMovesForXToWin g
  let oCost : Int := minMovesForOToWin g
  (50 - min 50 oCost) * 30000 - (50 - min 50 xCost) * 32000

/-- Insertion into a list sorted by descending score, after the entries of equal score. -/
def insertDesc (x : Int × Int × Int) : List (Int × Int × Int) → List (Int × Int × Int)
  | [] => [x]
  | y :: ys => if y.1 ≥ x.1 then y :: insertDesc x ys else x :: y :: ys

/-- The call `std::sort(..., a.score > b.score)`.  The C++ sort leaves the order of
entries with equal score open; the model keeps them in their original order, and no
theorem of this file depends on the order of entries of equal score. -/
def sortDesc (l : List (Int × Int × Int)) : List (Int × Int × Int) :=
  l.foldl (fun acc x => insertDesc x acc) []

/-- The lambda `buildXCands`: the 12 candidates of largest bias. -/
def buildXCands (size : Nat) (emptyCells : List (Int × Int)) : List (Int × Int) :=
  let tmp := emptyCells.map fun cell =>
    let b1 : Int := if cell.1 ≥ (size : Int) - 2 then 400 else 0
    let b2 : Int := if cell.1 = (size : Int) - 1 then b1 + 800 else b1
    let centerDist := absInt (cell.1 - ((size / 2 : Nat) : Int)) +
      absInt (cell.2 - ((size / 2 : Nat) : Int))
    (b2 - centerDist * 5, cell.1, cell.2)
  ((sortDesc tmp).take (min 12 tmp.length)).map fun t => (t.2.1, t.2.2)

/-- The candidate list `oCands` of the two-ply search, sorted. -/
def buildOCands (g : HexGame) (oPath emptyCells : List (Int × Int)) : List (Int × Int × Int) :=
  let fromPath := (oPath.filter fun cell => g.isCellEmpty cell.1 cell.2).map
    fun cell => ((300 : Int), cell.1, cell.2)
  let fromEmpty := emptyCells.map fun cell =>
    let q1 : Int := if cell.1 ≥ (g.size : Int) - 2 then 200 else 0
    let q2 : Int := if cell.1 = (g.size : Int) - 1 then q1 + 400 else q1
    let centerDist := absInt (cell.1 - ((g.size / 2 : Nat) : Int)) +
      absInt (cell.2 - ((g.size / 2 : Nat) : Int))
    (q2 - centerDist * 3, cell.1, cell.2)
  sortDesc (fromPath ++ fromEmpty)

/-- The inner loop of the two-ply search over X's replies: game and `worstForO`. -/
def replyStep (st : HexGame × Int) (xc : Int × Int) : HexGame × Int :=
  let g1 := (st.1.makeMove xc.1 xc.2 'X').2
  let worst : Int :=
    if checkWin g1 'X' then min st.2 (-100000000) else min st.2 (evalState g1)
  (g1.undoMove xc.1 xc.2, worst)

/-- The state of the outer loop of the two-ply search. -/
structure PlyState where
  game : HexGame
  globalBest : Int
  chosenR : Int
  chosenC : Int
  best : Best

/-- The outer loop of the two-ply search over O's candidates; it stops at a candidate
that wins at once. -/
def twoPlyLoop (emptyCells : List (Int × Int)) : PlyState → List (Int × Int × Int) → PlyState
  | st, [] => st
  | st, cand :: rest =>
      let r := cand.2.1
      let c := cand.2.2
      if !st.game.isCellEmpty r c then twoPlyLoop emptyCells st rest
      else
        let g1 := (st.game.makeMove r c 'O').2
        if checkWin g1 'O' then
          { st with game := g1.undoMove r c, best := ⟨r, c, 100000000⟩ }
        else
          let xCandidates := buildXCands g1.size emptyCells
          let inner : HexGame × Int :=
            if xCandidates.isEmpty then (g1, evalState g1)
            else xCandidates.foldl replyStep (g1, 2000000000)
          let g2 := inner.1.undoMove r c
          if inner.2 > st.globalBest then
            twoPlyLoop emptyCells
              { st with game := g2, globalBest := inner.2, chosenR := r, chosenC := c } rest
          else twoPlyLoop emptyCells { st with game := g2 } rest

/-- The two-ply search `O -> X -> evaluation` over at most 18 candidates. -/
def twoPly (oPath emptyCells : List (Int × Int)) (st : HexGame × Best) : HexGame × Best :=
  let oCands := buildOCands st.1 oPath emptyCells
  let res := twoPlyLoop emptyCells
    { game := st.1, globalBest := -2000000000, chosenR := -1, chosenC := -1, best := st.2 }
    (oCands.take (min 18 oCands.length))
  if res.best.bestR == -1 && res.chosenR != -1 then
    (res.game, ⟨res.chosenR, res.chosenC, res.globalBest⟩)
  else (res.game, res.best)

/-- The first loop of the local fallback: it records every candidate in `topMoves` and
stops at a candidate on which O wins at once. -/
def fallbackScan (a : EvalArgs) :
    HexGame → List (Int × Int × Int) → Best → List (Int × Int) →
      HexGame × List (Int × Int × Int) × Best
  | g, topMoves, b, [] => (g, topMoves, b)
  | g, topMoves, b, cell :: rest =>
      let q1 : Int :=
        if absInt (cell.1 - a.playerLastR) + absInt (cell.2 - a.playerLastC) ≤ 2 then 1000 else 0
      let q2 : Int := if cell.1 = 0 ∨ cell.1 = (g.size : Int) - 1 then q1 + 500 else q1
      let topMoves1 := topMoves ++ [(q2, cell.1 * (g.size : Int) + cell.2, cell.2)]
      let g1 := (g.makeMove cell.1 cell.2 'O').2
      if checkWin g1 'O' then (g1.undoMove cell.1 cell.2, topMoves1, ⟨cell.1, cell.2, 5000000⟩)
      else fallbackScan a (g1.undoMove cell.1 cell.2) topMoves1 b rest

/-- The second loop of the local fallback over the first 20 entries of `topMoves`. -/
def fallbackStep (a : EvalArgs) (st : HexGame × Best) (t : Int × Int × Int) : HexGame × Best :=
  let r : Int := t.2.1 / (st.1.size : Int)
  let c : Int := t.2.1 % (st.1.size : Int)
  let res := evalProbe a st.1 r c
  if res.1 > st.2.bestScore then (res.2, ⟨r, c, res.1⟩) else (res.2, st.2)

/-- The local-pattern fallback. -/
def localFallback (a : EvalArgs) (emptyCells : List (Int × Int)) (st : HexGame × Best) :
    HexGame × Best :=
  let scan := fallbackScan a st.1 [] st.2 emptyCells
  (scan.2.1.take (min 20 scan.2.1.length)).foldl (fallbackStep a) (scan.1, scan.2.2)

/-- Rule 7: with no choice yet, the opening move on the first turn, then the two-ply
search, then the local fallback.  The flag is the value of `aiFirstMove` afterwards. -/
def ruleSearch (a : EvalArgs) (emptyCells : List (Int × Int)) (aiFirstMove : Bool)
    (st : HexGame × Best) : (HexGame × Best) × Bool :=
  if st.2.bestR == -1 then
    let st1 : HexGame × Best :=
      if aiFirstMove then (st.1, openingMove st.1 a.oPath st.2) else st
    let st2 := if st1.2.bestR == -1 then twoPly a.oPath emptyCells st1 else st1
    let st3 := if st2.2.bestR == -1 then localFallback a emptyCells st2 else st2
    (st3, false)
  else (st, aiFirstMove)

/-- The loop body of the last rule for one cell of O's own path. -/
def ownPathStep (a : EvalArgs) (st : ScoreState) (cell : Int × Int) : ScoreState :=
  if !st.game.isCellEmpty cell.1 cell.2 then st
  else
    let res := evalProbe a st.game cell.1 cell.2
    if res.1 > st.localBest then
      { game := res.2, localBest := res.1,
        best := ⟨cell.1, cell.2, st.best.bestScore⟩ }
    else { st with game := res.2 }

/-- Rule 8: with no choice yet, the best-scoring Empty cell of O's own path. -/
def ruleOwnPath (a : EvalArgs) (st : HexGame × Best) : HexGame × Best :=
  if st.2.bestR == -1 && !a.oPath.isEmpty then
    let res := a.oPath.foldl (ownPathStep a)
      { game := st.1, localBest := -1000000000, best := st.2 }
    if res.best.bestR != -1 then (res.game, { res.best with bestScore := res.localBest })
    else (res.game, res.best)
  else st

/-- The rule cascade: the decision of the lambda in `MainWindow::triggerAIMove`, up to the final
`makeMove`: the game as the probing leaves it, the choice (`bestR == -1` when there is
none) and the value of `aiFirstMove`. -/
def cascade (g : HexGame) (aiFirstMove : Bool) (playerLastR playerLastC : Int) :
    (HexGame × Best) × Bool :=
  let tp := minMovesForXToWinPath g
  let threatPath := tp.2.getD []
  let threatCost := tp.1
  let op := minMovesForOToWinPath g
  let oPath := op.2.getD []
  let oPathCost := op.1
  let emptyCells := collectEmpty g
  let a : EvalArgs := ⟨playerLastR, playerLastC, threatCost, threatPath, oPathCost, oPath⟩
  let st0 : HexGame × Best := (g, ⟨-1, -1, -1000000000⟩)
  let st1 := ruleImmediateLoss threatCost threatPath emptyCells st0
  let st2 := ruleBlockWinningCell emptyCells st1
  let st3 := ruleBlockBottomRow emptyCells st2
  let st4 := ruleSpoilBottomRow threatCost emptyCells st3
  let st5 := ruleShortThreat threatCost threatPath emptyCells st4
  let st6 := ruleReinforceThreatPath a st5
  let st7 := ruleSearch a emptyCells aiFirstMove st6
  (ruleOwnPath a st7.1, st7.2)

/-- The cell chosen by the cascade, `none` when `bestR == -1`. -/
def chosenCell (g : HexGame) (aiFirstMove : Bool) (playerLastR playerLastC : Int) :
    Option (Int × Int) :=
  let res := cascade g aiFirstMove playerLastR playerLastC
  if res.1.2.bestR != -1 then some (res.1.2.bestR, res.1.2.bestC) else none

/-- The lambda of `MainWindow::triggerAIMove` on a game that is not over: the decision
followed by `makeMove(bestR, bestC, 'O')` when a cell was chosen.  The result is the game
and the flag `aiFirstMove`. -/
def triggerAIMove (g : HexGame) (aiFirstMove : Bool) (playerLastR playerLastC : Int) :
    HexGame × Bool :=
  let res := cascade g aiFirstMove playerLastR playerLastC
  if res.1.2.bestR != -1 then
    ((res.1.1.makeMove res.1.2.bestR res.1.2.bestC 'O').2, false)
  else (res.1.1, res.2)

end Gui

end Hex

/-! ## Routes, paths of the search and loop invariants -/

namespace Hex

/-- Hex adjacency: `q` is `p` moved by one of the six offsets. -/
def HexAdj (p q : Int × Int) : Prop := (q.1 - p.1, q.2 - p.2) ∈ kHexDirections

instance (p q : Int × Int) : Decidable (HexAdj p q) := by unfold HexAdj; infer_instance

/-- Cells reachable from a seed cell satisfying `S` by hex steps through cells
satisfying `ok`. -/
inductive Reach (ok S : Int × Int → Prop) : Int × Int → Prop
  | seed (p : Int × Int) : S p → ok p → Reach ok S p
  | step (p q : Int × Int) : Reach ok S p → HexAdj p q → ok q → Reach ok S q

/-- The cell `p` is on the board and holds the stone `player`. -/
def Owned (g : HexGame) (player : Char) (p : Int × Int) : Prop :=
  g.inBounds p.1 p.2 = true ∧ g.board p.1 p.2 = player

/-- A route: a non-empty sequence of cells satisfying `ok`, consecutive cells
hex-adjacent, whose first cell satisfies `S` and whose last cell satisfies `G`. -/
def IsRoute (ok S G : Int × Int → Prop) (route : List (Int × Int)) : Prop :=
  (∀ p ∈ route, ok p) ∧ route.Chain' HexAdj ∧
    (∃ a, route.head? = some a ∧ S a) ∧ (∃ z, route.getLast? = some z ∧ G z)

/-- Number of board cells not yet marked in `visited`. -/
def unvisited (g : HexGame) (vis : Int → Int → Bool) : Nat :=
  ((Finset.range g.size ×ˢ Finset.range g.size).filter
    fun p : Nat × Nat => vis (p.1 : Int) (p.2 : Int) = false).card

/-- The loop invariant of the search. `D` lists the directions already handled around
the cell `cur` being expanded (`none` between two iterations). -/
structure BfsInv (g : HexGame) (player : Char) (goal : Int → Int → Bool)
    (S : Int × Int → Prop) (cur : Option (Int × Int)) (D : List (Int × Int))
    (vis : Int → Int → Bool) (q : List (Int × Int)) : Prop where
  queued : ∀ p ∈ q, vis p.1 p.2 = true
  sound : ∀ p : Int × Int, vis p.1 p.2 = true → Reach (Owned g player) S p
  seeds : ∀ p : Int × Int, S p → g.inBounds p.1 p.2 = true → g.board p.1 p.2 = player →
    vis p.1 p.2 = true
  done : ∀ p : Int × Int, vis p.1 p.2 = true → p ∈ q ∨ some p = cur ∨
    (goal p.1 p.2 = false ∧ ∀ d ∈ kHexDirections, g.inBounds (p.1 + d.1) (p.2 + d.2) = true →
      g.board (p.1 + d.1) (p.2 + d.2) = player → vis (p.1 + d.1) (p.2 + d.2) = true)
  expanding : ∀ p, cur = some p → vis p.1 p.2 = true ∧ ∀ d ∈ D,
    g.inBounds (p.1 + d.1) (p.2 + d.2) = true →
      g.board (p.1 + d.1) (p.2 + d.2) = player → vis (p.1 + d.1) (p.2 + d.2) = true

/-- The starting edge of a side: column 0 for `'X'`, row 0 for `'O'`. -/
def onStartEdge (s : Char) (p : Int × Int) : Prop :=
  if s = 'X' then p.2 = 0 else p.1 = 0

/-- The target edge of a side: column `N - 1` for `'X'`, row `N - 1` for `'O'`. -/
def onTargetEdge (g : HexGame) (s : Char) (p : Int × Int) : Prop :=
  if s = 'X' then p.2 = (g.size : Int) - 1 else p.1 = (g.size : Int) - 1

/-- A winning chain of `s`: a sequence of cells all owned by `s`, consecutive cells
hex-adjacent, from the starting edge of `s` to its target edge. -/
def WinningChain (g : HexGame) (s : Char) : Prop :=
  ∃ route : List (Int × Int), IsRoute (Owned g s) (onStartEdge s) (onTargetEdge g s) route

/-- The flat index `id(r, c) = r * size + c` of a cell. -/
def cellId (g : HexGame) (p : Int × Int) : Nat := (p.1 * g.size + p.2).toNat

/-- The cell `(v / size, v % size)` of a flat index. -/
def cellOf (g : HexGame) (v : Nat) : Int × Int :=
  (((v / g.size : Nat) : Int), ((v % g.size : Nat) : Int))

/-- The cost a step onto a cell adds: `0` on an own stone, `1` otherwise. -/
def stepCost (g : HexGame) (own : Char) (q : Int × Int) : Nat :=
  if g.board q.1 q.2 == own then 0 else 1

/-- The paths the cost search explores: they begin on any cell of the start edge, which
is charged its `cellCost` (also when the opponent owns it), and continue through cells the
opponent does not own, each charged its `stepCost`.  `Walk p k` says that such a path
ends in `p` with total charge `k`. -/
inductive Walk (g : HexGame) (own opp : Char) (S : Int × Int → Prop) : Int × Int → Nat → Prop
  | seed (p : Int × Int) : S p → g.inBounds p.1 p.2 = true →
      Walk g own opp S p (cellCost own opp (g.board p.1 p.2))
  | step (p q : Int × Int) (k : Nat) : Walk g own opp S p k → HexAdj p q →
      g.inBounds q.1 q.2 = true → g.board q.1 q.2 ≠ opp →
      Walk g own opp S q (k + stepCost g own q)

/-- The edge out of `v` in direction `d` is relaxed with respect to `dist`. -/
def EdgeRelaxed (g : HexGame) (own opp : Char) (dist : Nat → Nat) (v : Nat)
    (d : Int × Int) : Prop :=
  g.inBounds ((cellOf g v).1 + d.1) ((cellOf g v).2 + d.2) = true →
  g.board ((cellOf g v).1 + d.1) ((cellOf g v).2 + d.2) ≠ opp →
  dist (cellId g ((cellOf g v).1 + d.1, (cellOf g v).2 + d.2))
    ≤ dist v + stepCost g own ((cellOf g v).1 + d.1, (cellOf g v).2 + d.2)

/-- The invariant of the relaxation loop.  `cur` is the index being expanded and `D` the
directions already handled around it (`none` between two iterations). -/
structure CostInv (g : HexGame) (own opp : Char) (S : Int × Int → Prop)
    (cur : Option Nat) (D : List (Int × Int)) (st : CostState) : Prop where
  distLe : ∀ v, st.dist v ≤ INF
  pqIn : ∀ e ∈ st.pq, e.2 < g.size * g.size
  sound : ∀ v, v < g.size * g.size → st.dist v < INF →
    Walk g own opp S (cellOf g v) (st.dist v)
  seeds : ∀ p : Int × Int, S p → g.inBounds p.1 p.2 = true →
    st.dist (cellId g p) ≤ cellCost own opp (g.board p.1 p.2)
  settled : ∀ v, v < g.size * g.size → st.dist v < INF →
    (st.dist v, v) ∈ st.pq ∨ some v = cur ∨ ∀ d ∈ kHexDirections, EdgeRelaxed g own opp st.dist v d
  expanding : ∀ v, cur = some v → v < g.size * g.size ∧ st.dist v < INF ∧
    ∀ d ∈ D, EdgeRelaxed g own opp st.dist v d

/-- The termination measure of the relaxation loop. -/
def costMeasure (g : HexGame) (st : CostState) : Nat :=
  st.pq.length + (Finset.range (g.size * g.size)).sum st.dist

/-- The state of the seeding loop: every recorded distance is the cost of a start-edge
cell and is queued. -/
structure SeedInv (g : HexGame) (own opp : Char) (S : Int × Int → Prop)
    (st : CostState) : Prop where
  distLe : ∀ v, st.dist v ≤ INF
  pqIn : ∀ e ∈ st.pq, e.2 < g.size * g.size
  isSeed : ∀ v, v < g.size * g.size → st.dist v < INF →
    S (cellOf g v) ∧ st.dist v = cellCost own opp (g.board (cellOf g v).1 (cellOf g v).2)
  queued : ∀ v, v < g.size * g.size → st.dist v < INF → (st.dist v, v) ∈ st.pq
  noParent : ∀ v, st.parent v = -1

/-- The state in which `minMovesCore` leaves the relaxation loop. -/
def finalState (g : HexGame) (own opp : Char) (startCell : Nat → Int × Int) : CostState :=
  relaxLoop g own opp (relaxFuel g)
    (((List.range g.size).map startCell).foldl (costSeed g own opp)
      { dist := fun _ => INF, parent := fun _ => -1, pq := [] })

/-- The cell `p` is on the board and not owned by `t`. -/
def NotOwnedBy (g : HexGame) (t : Char) (p : Int × Int) : Prop :=
  g.inBounds p.1 p.2 = true ∧ g.board p.1 p.2 ≠ t

/-- The charge of a route: one per cell that `own` does not hold. -/
def routeCost (g : HexGame) (own : Char) (route : List (Int × Int)) : Nat :=
  (route.map (stepCost g own)).sum

/-- The start and target cells listed by the loops of `minMovesCore` are exactly the
board cells satisfying `S` and `G`. -/
structure EdgeSpec (g : HexGame) (startCell goalCell : Nat → Int × Int)
    (S G : Int × Int → Prop) : Prop where
  startIn : ∀ p ∈ (List.range g.size).map startCell, g.inBounds p.1 p.2 = true ∧ S p
  startAll : ∀ p : Int × Int, S p → g.inBounds p.1 p.2 = true →
    p ∈ (List.range g.size).map startCell
  goalIn : ∀ p ∈ (List.range g.size).map goalCell, g.inBounds p.1 p.2 = true ∧ G p
  goalAll : ∀ p : Int × Int, G p → g.inBounds p.1 p.2 = true →
    p ∈ (List.range g.size).map goalCell

/-- The opponent of a side. -/
def opponent (s : Char) : Char := if s = 'X' then 'O' else 'X'

/-- A route of the side `s`: a sequence of board cells none of which the opponent owns,
consecutive cells hex-adjacent, from the starting edge of `s` to its target edge. -/
def SideRoute (g : HexGame) (s : Char) (route : List (Int × Int)) : Prop :=
  IsRoute (NotOwnedBy g (opponent s)) (onStartEdge s) (onTargetEdge g s) route

/-- The number of Empty cells on a route. -/
def emptyCount (g : HexGame) (route : List (Int × Int)) : Nat :=
  route.countP fun p => g.board p.1 p.2 == '.'

/-- Every cell of the board holds `'.'`, `'X'` or `'O'`. -/
def WellFormed (g : HexGame) : Prop :=
  ∀ r c : Int, g.inBounds r c = true →
    g.board r c = '.' ∨ g.board r c = 'X' ∨ g.board r c = 'O'

namespace Gui

/-- The raise of X's cost that the short-threat rule computes for a candidate. -/
def raiseOf (g : HexGame) (tc : Nat) (q : Int × Int) : Int :=
  (minMovesForXToWin (g.makeMove q.1 q.2 'O').2 : Int) - (tc : Int)

/-- The invariant of the loop of the short-threat rule after the candidates `P`: the
game is restored, and once a candidate was seen the choice is one of them with the
largest raise. -/
def ThreatInv (g : HexGame) (tc : Nat) (P : List (Int × Int)) (st : ThreatState) : Prop :=
  st.game = g ∧ (∀ q ∈ P, raiseOf g tc q ≤ st.bestRaise) ∧
    ((P = [] ∧ st.bestRaise = -1) ∨
      ∃ q ∈ P, st.best = ⟨q.1, q.2, 4000000⟩ ∧ st.bestRaise = raiseOf g tc q)

end Gui

/-- Following the parent pointers from `v` reaches a cell without parent after `k` steps. -/
inductive ChainLen (parent : Nat → Int) : Nat → Nat → Prop
  | root (v : Nat) : parent v = -1 → ChainLen parent v 0
  | step (v u k : Nat) : parent v = (u : Int) → ChainLen parent u k → ChainLen parent v (k + 1)

/-- The cell `a` lies on the parent chain that starts in `v`. -/
inductive OnChain (parent : Nat → Int) (a : Nat) : Nat → Prop
  | self : OnChain parent a a
  | step (v u : Nat) : parent v = (u : Int) → OnChain parent a u → OnChain parent a v

/-- The invariant of the parent pointers: queued indices are cells, a parent is a cell
with no larger distance, and every parent chain ends. -/
structure ParentInv (g : HexGame) (st : CostState) : Prop where
  pqIn : ∀ e ∈ st.pq, e.2 < g.size * g.size
  parentLe : ∀ v, st.parent v = -1 ∨
    ∃ u : Nat, st.parent v = (u : Int) ∧ u < g.size * g.size ∧ st.dist u ≤ st.dist v
  rooted : ∀ v, ∃ k, ChainLen st.parent v k

/-- The geometry of the parent pointers: a parent is a hex neighbour, a cell with a
parent is not owned by the opponent, and a reached cell without parent is a start-edge
cell still holding its seed distance. -/
structure TreeInv (g : HexGame) (own opp : Char) (S : Int × Int → Prop)
    (st : CostState) : Prop where
  edge : ∀ v u : Nat, st.parent v = (u : Int) → v < g.size * g.size ∧
    HexAdj (cellOf g u) (cellOf g v) ∧ g.board (cellOf g v).1 (cellOf g v).2 ≠ opp
  rootSeed : ∀ v, v < g.size * g.size → st.dist v < INF → st.parent v = -1 →
    S (cellOf g v) ∧ st.dist v = cellCost own opp (g.board (cellOf g v).1 (cellOf g v).2)

end Hex

/-! ## Concrete positions -/

namespace Hex

/-- The 5×5 board whose only stones are X stones on `(2,0)`, `(2,1)`, `(2,3)`, `(2,4)`. -/
def board5 : HexGame :=
  { size := 5
    board := fun r c => if r = 2 ∧ (c = 0 ∨ c = 1 ∨ c = 3 ∨ c = 4) then 'X' else '.' }

/-- A 7×7 position in which O holds the whole left column, so that X has no route: X
holds `(3,1)…(3,6)` and `(0,1)`. -/
def wallBoard : HexGame :=
  { size := 7
    board := fun r c =>
      if c = 0 then 'O' else if r = 3 then 'X' else if r = 0 ∧ c = 1 then 'X' else '.' }

/-- A 7×7 position in which O holds the whole left column; X holds `(3,2)…(3,6)`, `(0,1)`
and `(0,2)`, and `(3,1)` is Empty. -/
def wallGapBoard : HexGame :=
  { size := 7
    board := fun r c =>
      if c = 0 then 'O'
      else if r = 3 then (if c = 1 then '.' else 'X')
      else if r = 0 ∧ (c = 1 ∨ c = 2) then 'X' else '.' }

/-- A 7×7 position with O to move in which X threatens twice: rows 1 and 5 are X except
for the Empty cells `(1,3)` and `(5,3)`; the columns 0 and 6 and the cells `(3,1)`, `(3,5)`
are X, every other cell is O (24 X stones, 23 O stones). -/
def doubleThreatBoard : HexGame :=
  { size := 7
    board := fun r c =>
      if r = 1 ∨ r = 5 then (if c = 3 then '.' else 'X')
      else if c = 0 ∨ c = 6 then 'X'
      else if r = 3 ∧ (c = 1 ∨ c = 5) then 'X'
      else 'O' }

/-- A 7×7 position with O to move: X holds the last row except `(6,4)`, O holds
`(0,0)…(0,4)`. -/
def singleGapBoard : HexGame :=
  { size := 7
    board := fun r c =>
      if r = 6 then (if c = 4 then '.' else 'X')
      else if r = 0 ∧ c ≤ 4 then 'O' else '.' }

/-- An 8×8 position with O to move: X holds the last row except `(7,4)`, O holds
`(0,0)…(0,5)`; the gap `(7,4)` is the 51st Empty cell in row-major order. -/
def lateGapBoard : HexGame :=
  { size := 8
    board := fun r c =>
      if r = 7 then (if c = 4 then '.' else 'X')
      else if r = 0 ∧ c ≤ 5 then 'O' else '.' }

end Hex

/-! ## The minimax engine of the console program (`SmarterAI` of `src/HEX/HEX.cpp`) -/

namespace Hex

namespace Console

/-- The constant `INT_MIN` of a 32-bit `int`. -/
def INT_MIN : Int := -2147483648

/-- The constant `INT_MAX` of a 32-bit `int`. -/
def INT_MAX : Int := 2147483647

/-- The data members of `class SmarterAI`. -/
structure SmarterAI where
  playerChar : Char
  opponentChar : Char
  maxDepth : Int

/-- The constructor `SmarterAI(char aiChar, int depth)`. -/
def SmarterAI.ofChar (aiChar : Char) (depth : Int) : SmarterAI :=
  { playerChar := aiChar
    opponentChar := if aiChar == 'X' then 'O' else 'X'
    maxDepth := depth }

/-- The cells visited by the nested loops `for r < N` / `for c < N`, in visiting order. -/
def allCells (n : Nat) : List (Int × Int) :=
  ((List.range n).map fun r : Nat =>
    (List.range n).map fun c : Nat => ((r : Int), (c : Int))).flatten

/-- The inner loop of `scorePlayer` over the six neighbours of `(r, c)`. -/
def scoreNeighbours (g : HexGame) (player : Char) (r c : Int) (score : Int) : Int :=
  kHexDirections.foldl
    (fun s d =>
      let nr := r + d.1
      let nc := c + d.2
      if g.inBounds nr nc && g.getCell nr nc == player then s + 3 else s)
    score

/-- `SmarterAI::scorePlayer`: 5 for every stone of `player`, 3 for every neighbouring
stone of `player` of each such stone. -/
def scorePlayer (g : HexGame) (player : Char) : Int :=
  (allCells g.size).foldl
    (fun score p =>
      if g.getCell p.1 p.2 == player then scoreNeighbours g player p.1 p.2 (score + 5)
      else score)
    0

/-- `SmarterAI::evaluateBoard`. -/
def evaluateBoard (ai : SmarterAI) (g : HexGame) : Int :=
  scorePlayer g ai.playerChar - scorePlayer g ai.opponentChar

/-- The nested loops of `SmarterAI::minimax` over the cells still to visit, with the
recursive call passed as `child`.  The state is the game, `bestScore`, `alpha` and `beta`;
the result is the returned score and the game at the return, `none` when a recursive call
did not return. -/
def minimaxLoop (child : HexGame → Int → Int → Option (Int × HexGame)) (mover : Char)
    (isMaximizing : Bool) :
    List (Int × Int) → HexGame → Int → Int → Int → Option (Int × HexGame)
  | [], g, bestScore, _, _ => some (bestScore, g)
  | (r, c) :: rest, g, bestScore, alpha, beta =>
      if g.isCellEmpty r c then
        match child (g.makeMove r c mover).2 alpha beta with
        | none => none
        | some (score, g2) =>
            let g3 := g2.undoMove r c
            let bestScore1 := if isMaximizing then max bestScore score else min bestScore score
            let alpha1 := if isMaximizing then max alpha bestScore1 else alpha
            let beta1 := if isMaximizing then beta else min beta bestScore1
            if beta1 ≤ alpha1 then some (bestScore1, g3)
            else minimaxLoop child mover isMaximizing rest g3 bestScore1 alpha1 beta1
      else minimaxLoop child mover isMaximizing rest g bestScore alpha beta

/-- `SmarterAI::minimax`, with the game passed through.  One unit of fuel is one level of
the recursion; `none` is returned only when the fuel runs out. -/
def minimax (ai : SmarterAI) :
    Nat → HexGame → Int → Bool → Int → Int → Option (Int × HexGame)
  | 0, _, _, _, _, _ => none
  | fuel + 1, g, depth, isMaximizing, alpha, beta =>
      if checkWin g ai.playerChar then some (100000 - (ai.maxDepth - depth), g)
      else if checkWin g ai.opponentChar then some (-100000 + (ai.maxDepth - depth), g)
      else if depth == 0 || g.isFull then some (evaluateBoard ai g, g)
      else
        minimaxLoop
          (fun g1 a b => minimax ai fuel g1 (depth - 1) (!isMaximizing) a b)
          (if isMaximizing then ai.playerChar else ai.opponentChar) isMaximizing
          (allCells g.size) g (if isMaximizing then INT_MIN else INT_MAX) alpha beta

/-- The nested loops of `SmarterAI::chooseMove` over the cells still to visit; the state
is the game, `bestScore` and `bestMove`. -/
def chooseLoop (ai : SmarterAI) (fuel : Nat) :
    List (Int × Int) → HexGame → Int → Int × Int → Option ((Int × Int) × HexGame)
  | [], g, _, bestMove => some (bestMove, g)
  | (r, c) :: rest, g, bestScore, bestMove =>
      if g.isCellEmpty r c then
        match minimax ai fuel (g.makeMove r c ai.playerChar).2 (ai.maxDepth - 1) false
            INT_MIN INT_MAX with
        | none => none
        | some (score, g2) =>
            let g3 := g2.undoMove r c
            if score > bestScore then chooseLoop ai fuel rest g3 score (r, c)
            else chooseLoop ai fuel rest g3 bestScore bestMove
      else chooseLoop ai fuel rest g bestScore bestMove

/-- `SmarterAI::chooseMove`: the returned cell and the game at the return.  Every level of
the recursion fills one more cell, so `size * size + 1` levels are never exceeded. -/
def chooseMove (ai : SmarterAI) (g : HexGame) : Option ((Int × Int) × HexGame) :=
  chooseLoop ai (g.size * g.size + 1) (allCells g.size) g INT_MIN (-1, -1)

end Console

/-- Number of Empty cells of the board. -/
def numEmpty (g : HexGame) : Nat := unvisited g fun i j => g.board i j != '.'

end Hex

/-! ## Predicates of the minimax engine, invariants of the cascade and a small position -/

namespace Hex

namespace Console

/-- After the AI has played the cell `m`, the opponent has no Empty cell whose stone
completes the opponent's connection. -/
def NoWinningReply (ai : SmarterAI) (g : HexGame) (m : Int × Int) : Prop :=
  ∀ r c : Int, (g.setCell m.1 m.2 ai.playerChar).isCellEmpty r c = true →
    checkWin ((g.setCell m.1 m.2 ai.playerChar).setCell r c ai.opponentChar)
      ai.opponentChar = false

end Console

/-- A 2×2 position with O to move: X holds `(0,0)` and connects with a stone on `(0,1)`;
the other three cells are Empty. -/
def cornerBoard : HexGame :=
  { size := 2, board := fun r c => if r = 0 ∧ c = 0 then 'X' else '.' }

namespace Gui

/-- The state of the cascade between two rules is in order for the starting game `g`:
the game is `g` again and the choice is either absent (`bestR == -1`) or an Empty cell
of `g`. -/
def ChoiceOk (g : HexGame) (st : HexGame × Best) : Prop :=
  st.1 = g ∧ (st.2.bestR = -1 ∨ g.isCellEmpty st.2.bestR st.2.bestC = true)

/-- The invariant of the outer loop of the two-ply search started on the game `g`: the
game is `g` again, the choice of the cascade is absent or an Empty cell of `g`, and the
candidate kept by the loop is either absent, `globalBest` still holding its initial value,
or an Empty cell of `g`. -/
structure PlyOk (g : HexGame) (st : PlyState) : Prop where
  game : st.game = g
  best : st.best.bestR = -1 ∨ g.isCellEmpty st.best.bestR st.best.bestC = true
  chosen : (st.chosenR = -1 ∧ st.globalBest = -2000000000) ∨
    g.isCellEmpty st.chosenR st.chosenC = true

end Gui

end Hex

/-! ## Stones and adjacent pairs of a side -/

namespace Hex

namespace Console

/-- The cells of the board that hold the character `s`. -/
def ownedCells (g : HexGame) (s : Char) : Finset (Int × Int) :=
  (allCells g.size).toFinset.filter fun p => g.board p.1 p.2 = s

/-- The number `S` of cells owned by `s`. -/
def stoneCount (g : HexGame) (s : Char) : Nat := (ownedCells g s).card

/-- The number `P` of adjacent pairs of `s`: the unordered pairs of hex-adjacent cells
both owned by `s`, each pair counted once, with its cells in row-major order. -/
def pairCount (g : HexGame) (s : Char) : Nat :=
  ((ownedCells g s ×ˢ ownedCells g s).filter fun pq : (Int × Int) × (Int × Int) =>
    (pq.1.1 < pq.2.1 ∨ (pq.1.1 = pq.2.1 ∧ pq.1.2 < pq.2.2)) ∧ HexAdj pq.1 pq.2).card

/-- The score of a side as the specification words it: 5 per stone and 3 per adjacent
pair. -/
def specScore (g : HexGame) (s : Char) : Int :=
  5 * (stoneCount g s : Int) + 3 * (pairCount g s : Int)

end Console

end Hex

/-! ## The exhaustive search -/

namespace Hex

namespace Console

/-- The cell loop of the exhaustive search, the loop of `minimax` with the test
`beta <= alpha` deleted: every Empty cell of `g` is searched.  Without the test `alpha`
and `beta` are never read, and every recursive call returns with the board restored, so
the loop is a function of the board and of `bestScore` alone; `child` gives the value of
the search on the board with the stone placed. -/
def exhaustiveLoop (child : HexGame → Int) (mover : Char) (isMaximizing : Bool)
    (g : HexGame) : List (Int × Int) → Int → Int
  | [], bestScore => bestScore
  | (r, c) :: rest, bestScore =>
      if g.isCellEmpty r c then
        let score := child (g.setCell r c mover)
        exhaustiveLoop child mover isMaximizing g rest
          (if isMaximizing then max bestScore score else min bestScore score)
      else exhaustiveLoop child mover isMaximizing g rest bestScore

/-- The exhaustive minimax: `minimax` with the test `beta <= alpha` deleted.  One unit of
fuel is one level of the recursion; the value `0` of the level without fuel is never used
when the fuel exceeds the number of Empty cells. -/
def minimaxExhaustive (ai : SmarterAI) : Nat → HexGame → Int → Bool → Int
  | 0, _, _, _ => 0
  | fuel + 1, g, depth, isMaximizing =>
      if checkWin g ai.playerChar then 100000 - (ai.maxDepth - depth)
      else if checkWin g ai.opponentChar then -100000 + (ai.maxDepth - depth)
      else if depth == 0 || g.isFull then evaluateBoard ai g
      else
        exhaustiveLoop (fun g1 => minimaxExhaustive ai fuel g1 (depth - 1) (!isMaximizing))
          (if isMaximizing then ai.playerChar else ai.opponentChar) isMaximizing g
          (allCells g.size) (if isMaximizing then INT_MIN else INT_MAX)

/-- The cell loop of `chooseMove` over the exhaustive search. -/
def chooseLoopExhaustive (ai : SmarterAI) (fuel : Nat) (g : HexGame) :
    List (Int × Int) → Int → Int × Int → Int × Int
  | [], _, bestMove => bestMove
  | (r, c) :: rest, bestScore, bestMove =>
      if g.isCellEmpty r c then
        let score := minimaxExhaustive ai fuel (g.setCell r c ai.playerChar)
          (ai.maxDepth - 1) false
        if score > bestScore then chooseLoopExhaustive ai fuel g rest score (r, c)
        else chooseLoopExhaustive ai fuel g rest bestScore bestMove
      else chooseLoopExhaustive ai fuel g rest bestScore bestMove

/-- The cell `chooseMove` selects when it searches exhaustively. -/
def chooseMoveExhaustive (ai : SmarterAI) (g : HexGame) : Int × Int :=
  chooseLoopExhaustive ai (g.size * g.size + 1) g (allCells g.size) INT_MIN (-1, -1)

/-- The relation between the score `r` that the pruned search returns on the window
`(alpha, beta)` and the exhaustive value `v`: a score at or below `alpha` is an upper
bound of `v`, a score at or above `beta` a lower bound, a score inside the window is
`v`. -/
def FailSoft (alpha beta r v : Int) : Prop :=
  (r ≤ alpha → v ≤ r) ∧ (beta ≤ r → r ≤ v) ∧ (alpha < r → r < beta → r = v)

end Console

end Hex

/-! ## The order of the short-threat rule -/

namespace Hex

namespace Gui

/-- The distance to the centre `|r - N/2| + |c - N/2|` by which the short-threat rule
breaks its last ties. -/
def centreDist (g : HexGame) (q : Int × Int) : Int :=
  absInt (q.1 - ((g.size / 2 : Nat) : Int)) + absInt (q.2 - ((g.size / 2 : Nat) : Int))

/-- The candidate `q` does not beat `cell` in the order of the short-threat rule: its
raise of X's cost is not larger; with the same raise its row is not larger; with the same
raise and row its distance to the centre is not smaller. -/
def NotBetter (g : HexGame) (tc : Nat) (cell q : Int × Int) : Prop :=
  raiseOf g tc q ≤ raiseOf g tc cell ∧
    (raiseOf g tc q = raiseOf g tc cell →
      q.1 ≤ cell.1 ∧ (q.1 = cell.1 → centreDist g cell ≤ centreDist g q))

/-- The invariant of the loop of the short-threat rule after the candidates `P`, with the
tie-breaks: the game is restored, and once a candidate was seen the choice is a candidate
that none of them beats, its raise, row and distance to the centre being the recorded
ones. -/
def ThreatLex (g : HexGame) (tc : Nat) (P : List (Int × Int)) (st : ThreatState) : Prop :=
  st.game = g ∧
    ((P = [] ∧ st.bestRaise = -1) ∨
      ∃ cell ∈ P, st.best = ⟨cell.1, cell.2, 4000000⟩ ∧ st.bestRaise = raiseOf g tc cell ∧
        st.bestRowBias = cell.1 ∧ st.bestCenter = centreDist g cell ∧
        ∀ q ∈ P, NotBetter g tc cell q)

end Gui

end Hex

/-! ## The walk along the border between the colours, and two more positions -/

namespace Hex

/-- A 7×7 position with O to move for the first time: the only stone is an X stone on
the centre `(3,3)`. -/
def centreStoneBoard : HexGame :=
  { size := 7, board := fun r c => if r = 3 ∧ c = 3 then 'X' else '.' }

end Hex

namespace Hex

/-- The colouring of the whole plane that extends a board: the cells to the left and to
the right of the board count as X (`true`), the cells above and below it as O, and a
cell of the board counts as X exactly when it holds `'X'`. -/
def galeX (g : HexGame) (p : Int × Int) : Bool :=
  if p.2 < 0 ∨ (g.size : Int) ≤ p.2 then true
  else if p.1 < 0 ∨ (g.size : Int) ≤ p.1 then false
  else g.board p.1 p.2 == 'X'

/-- Row offset of the `k`-th neighbour, the six neighbours taken in cyclic order around
a cell. -/
def galeDR (k : Nat) : Int :=
  match k % 6 with
  | 0 => 0
  | 1 => -1
  | 2 => -1
  | 3 => 0
  | 4 => 1
  | _ => 1

/-- Column offset of the `k`-th neighbour. -/
def galeDC (k : Nat) : Int :=
  match k % 6 with
  | 0 => 1
  | 1 => 1
  | 2 => 0
  | 3 => -1
  | 4 => -1
  | _ => 0

/-- An edge between two neighbouring cells: the cell on the X side and the index of the
neighbour on the O side. -/
abbrev GaleState := (Int × Int) × Nat

/-- The cell on the O side of an edge. -/
def galeOther (s : GaleState) : Int × Int := (s.1.1 + galeDR s.2, s.1.2 + galeDC s.2)

/-- One step along the border between the colours: the cell `t` next to both cells of
the edge replaces the cell of its own colour. -/
def galeStep (g : HexGame) (s : GaleState) : GaleState :=
  if galeX g (s.1.1 + galeDR (s.2 + 5), s.1.2 + galeDC (s.2 + 5)) then
    ((s.1.1 + galeDR (s.2 + 5), s.1.2 + galeDC (s.2 + 5)), (s.2 + 1) % 6)
  else (s.1, (s.2 + 5) % 6)

/-- One step along the border in the other direction. -/
def galePrev (g : HexGame) (s : GaleState) : GaleState :=
  if galeX g (s.1.1 + galeDR (s.2 + 1), s.1.2 + galeDC (s.2 + 1)) then
    ((s.1.1 + galeDR (s.2 + 1), s.1.2 + galeDC (s.2 + 1)), (s.2 + 5) % 6)
  else (s.1, (s.2 + 1) % 6)

/-- The edge at the upper left corner of the board, between the cell `(0, -1)` left of
the board and the cell `(-1, 0)` above it. -/
def galeStart : GaleState := ((0, -1), 1)

/-- The edge reached after `n` steps from the upper left corner. -/
def galeWalk (g : HexGame) (n : Nat) : GaleState := (galeStep g)^[n] galeStart

/-- An edge between an X cell in the rows of the board, not right of the board, and an
O cell not below the board. -/
def GaleBox (g : HexGame) (s : GaleState) : Prop :=
  s.2 < 6 ∧ galeX g s.1 = true ∧ galeX g (galeOther s) = false ∧
    0 ≤ s.1.1 ∧ s.1.1 < g.size ∧ -1 ≤ s.1.2 ∧ s.1.2 < g.size ∧
    -1 ≤ (galeOther s).1 ∧ (galeOther s).1 < g.size

/-- An edge whose X cell is not in the last column and whose O cell is not in the last
row. -/
def GaleInside (g : HexGame) (s : GaleState) : Prop :=
  GaleBox g s ∧ s.1.2 + 1 < g.size ∧ (galeOther s).1 + 1 < g.size

/-- An edge whose X cell is in the last column or whose O cell is in the last row. -/
def GaleWon (g : HexGame) (s : GaleState) : Prop :=
  GaleBox g s ∧ (s.1.2 + 1 = g.size ∨ (galeOther s).1 + 1 = g.size)

/-- The X cell of the edge is left of the board or connected to the first column by X
stones, and the O cell is above the board or connected to the first row by O stones. -/
def GaleChain (g : HexGame) (s : GaleState) : Prop :=
  (s.1.2 = -1 ∨ Reach (Owned g 'X') (fun p => p.2 = 0) s.1) ∧
    ((galeOther s).1 = -1 ∨ Reach (Owned g 'O') (fun p => p.1 = 0) (galeOther s))

/-- The edges of `GaleInside` lie in this finite set. -/
def galeStates (g : HexGame) : Finset GaleState :=
  (Finset.Icc (0 : Int) ((g.size : Int) - 1) ×ˢ Finset.Icc (-1 : Int) ((g.size : Int) - 2))
    ×ˢ Finset.range 6

/-- A full 2 × 2 board: X holds the first row, O the second. -/
def filledBoard : HexGame :=
  { size := 2, board := fun r _ => if r = 0 then 'X' else 'O' }

end Hex

/-! ## Distances along the parent pointers, and filling a path -/

namespace Hex

/-- The distances along the parent pointers: a cell with a parent is at least the charge
of its own cell further than the parent. -/
def StepInv (g : HexGame) (own : Char) (st : CostState) : Prop :=
  ∀ v u : Nat, st.parent v = (u : Int) → st.dist u + stepCost g own (cellOf g v) ≤ st.dist v

/-- The game after `makeMove(r, c, s)` on every cell of `path`, in order. -/
def fillPath (g : HexGame) (s : Char) (path : List (Int × Int)) : HexGame :=
  path.foldl (fun h p => (h.makeMove p.1 p.2 s).2) g

end Hex

/-! ## The mirrored board and a position with a walled target edge -/

namespace Hex

/-- Exchange of the two stone characters; every other character is kept. -/
def swapXO (ch : Char) : Char := if ch = 'X' then 'O' else if ch = 'O' then 'X' else ch

/-- The board obtained by transposing rows and columns and exchanging X and O stones. -/
def mirror (g : HexGame) : HexGame :=
  { size := g.size, board := fun r c => swapXO (g.board c r) }

/-- A 2×2 position in which O holds the whole last column, so that no path of X's cost
search reaches its target edge; the first column is Empty. -/
def edgeWallBoard : HexGame :=
  { size := 2, board := fun _ c => if c = 1 then 'O' else '.' }

end Hex

/-! ## 32-bit values, and the board with the cells of one side filled in -/

namespace Hex

namespace Console

/-- The value of an integer as a 32-bit two's complement `int`, the type in which the
source computes depths and scores. -/
def wrap32 (x : Int) : Int := (x + 2147483648) % 4294967296 - 2147483648

end Console

/-- The board on which every cell that does not hold `keep` counts as a stone `other`. -/
def fillOthers (g : HexGame) (keep other : Char) : HexGame :=
  { size := g.size, board := fun r c => if g.board r c = keep then keep else other }

end Hex

/-! # Part II: theorems -/

namespace Hex

theorem hexAdj_iff (p q : Int × Int) :
    HexAdj p q ↔ ∃ d ∈ kHexDirections, q = (p.1 + d.1, p.2 + d.2) := by
  constructor
  · intro h
    refine ⟨_, h, ?_⟩
    ext <;> simp
  · rintro ⟨d, hd, rfl⟩
    simpa [HexAdj] using hd

theorem hexAdj_symm {p q : Int × Int} (h : HexAdj p q) : HexAdj q p := by
  obtain ⟨r, c⟩ := p
  obtain ⟨r', c'⟩ := q
  simp only [HexAdj, kHexDirections, List.mem_cons, Prod.mk.injEq, List.mem_singleton,
    List.not_mem_nil, or_false] at h ⊢
  omega

theorem hexAdj_ne {p q : Int × Int} (h : HexAdj p q) : p ≠ q := by
  rintro rfl
  obtain ⟨r, c⟩ := p
  simp only [HexAdj, kHexDirections, List.mem_cons, Prod.mk.injEq, List.mem_singleton,
    List.not_mem_nil, or_false] at h
  omega

theorem Reach.ok {ok S : Int × Int → Prop} {p : Int × Int} (h : Reach ok S p) : ok p := by
  cases h with
  | seed _ _ h => exact h
  | step _ _ _ _ h => exact h

theorem reach_of_chain {ok S : Int × Int → Prop} :
    ∀ (route : List (Int × Int)) (a z : Int × Int), Reach ok S a →
      List.Chain' HexAdj (a :: route) → (∀ p ∈ route, ok p) →
      (a :: route).getLast? = some z → Reach ok S z := by
  intro route
  induction route with
  | nil => intro a z ha _ _ hz; simp at hz; subst hz; exact ha
  | cons b rest ih =>
      intro a z ha hc hok hz
      rw [List.chain'_cons] at hc
      apply ih b z (Reach.step a b ha hc.1 (hok b (List.mem_cons_self _ _))) hc.2
        (fun p hp => hok p (List.mem_cons_of_mem _ hp))
      simpa [List.getLast?_cons_cons] using hz

theorem reach_iff_route {ok S : Int × Int → Prop} (z : Int × Int) :
    Reach ok S z ↔ ∃ route, IsRoute ok S (fun p => p = z) route := by
  constructor
  · intro h
    induction h with
    | seed p hs hok =>
        exact ⟨[p], by simpa using hok, by simp, ⟨p, rfl, hs⟩, ⟨p, rfl, rfl⟩⟩
    | step p q _ hadj hok ih =>
        obtain ⟨route, h1, h2, ⟨a, ha, hsa⟩, ⟨z, hz, hzp⟩⟩ := ih
        subst hzp
        refine ⟨route ++ [q], ?_, ?_, ⟨a, ?_, hsa⟩, ⟨q, by simp, rfl⟩⟩
        · intro x hx
          rcases List.mem_append.1 hx with hx | hx
          · exact h1 x hx
          · simp only [List.mem_singleton] at hx; subst hx; exact hok
        · apply List.Chain'.append h2 (by simp)
          intro x hx y hy
          simp only [List.head?_cons, Option.mem_def, Option.some.injEq] at hy
          rw [Option.mem_def, hz] at hx
          cases hx; subst hy; exact hadj
        · cases route with
          | nil => simp at ha
          | cons b rest => simpa using ha
  · rintro ⟨route, h1, h2, ⟨a, ha, hsa⟩, ⟨z', hz, rfl⟩⟩
    cases route with
    | nil => simp at ha
    | cons b rest =>
        simp only [List.head?_cons, Option.some.injEq] at ha
        subst ha
        exact reach_of_chain rest b z' (Reach.seed b hsa (h1 b (List.mem_cons_self _ _))) h2
          (fun p hp => h1 p (List.mem_cons_of_mem _ hp)) hz

theorem inBounds_iff (g : HexGame) (r c : Int) :
    g.inBounds r c = true ↔ 0 ≤ r ∧ r < g.size ∧ 0 ≤ c ∧ c < g.size := by
  simp [HexGame.inBounds, and_assoc]

theorem unvisited_mark (g : HexGame) (vis : Int → Int → Bool) (r c : Int)
    (hb : g.inBounds r c = true) (hv : vis r c = false) :
    unvisited g (fun i j => if i = r ∧ j = c then true else vis i j) + 1 ≤ unvisited g vis := by
  rw [inBounds_iff] at hb
  apply Finset.card_lt_card
  rw [Finset.ssubset_iff_of_subset]
  · refine ⟨(r.toNat, c.toNat), ?_, ?_⟩
    · simp only [Finset.mem_filter, Finset.mem_product, Finset.mem_range]
      refine ⟨⟨by omega, by omega⟩, ?_⟩
      have h1 : ((r.toNat : Nat) : Int) = r := by omega
      have h2 : ((c.toNat : Nat) : Int) = c := by omega
      rw [h1, h2]; exact hv
    · simp only [Finset.mem_filter, Finset.mem_product, Finset.mem_range, not_and]
      intro _
      have h1 : ((r.toNat : Nat) : Int) = r := by omega
      have h2 : ((c.toNat : Nat) : Int) = c := by omega
      simp [h1, h2]
  · intro p hp
    simp only [Finset.mem_filter, Finset.mem_product, Finset.mem_range] at hp ⊢
    refine ⟨hp.1, ?_⟩
    by_cases h : (p.1 : Int) = r ∧ (p.2 : Int) = c
    · simp [h] at hp
    · simpa [h] using hp.2

theorem unvisited_le (g : HexGame) (vis : Int → Int → Bool) :
    unvisited g vis ≤ g.size * g.size := by
  unfold unvisited
  calc _ ≤ (Finset.range g.size ×ˢ Finset.range g.size).card := Finset.card_filter_le _ _
    _ = g.size * g.size := by simp

theorem bfsVisit_inv {g : HexGame} {player : Char} {goal : Int → Int → Bool}
    {S : Int × Int → Prop} {r c : Int} {D : List (Int × Int)} {st : BfsState}
    (d : Int × Int) (hd : d ∈ kHexDirections)
    (h : BfsInv g player goal S (some (r, c)) D st.1 st.2) :
    BfsInv g player goal S (some (r, c)) (d :: D) (bfsVisit g player r c st d).1
        (bfsVisit g player r c st d).2 ∧
      (bfsVisit g player r c st d).2.length + 2 * unvisited g (bfsVisit g player r c st d).1
        ≤ st.2.length + 2 * unvisited g st.1 := by
  obtain ⟨vis, q⟩ := st
  unfold bfsVisit
  by_cases hc : (g.inBounds (r + d.1) (c + d.2) && !vis (r + d.1) (c + d.2) &&
      g.board (r + d.1) (c + d.2) == player) = true
  · simp only [hc, if_true]
    simp only [Bool.and_eq_true, Bool.not_eq_true', beq_iff_eq] at hc
    obtain ⟨⟨hb, hv⟩, ho⟩ := hc
    have hmono : ∀ i j, vis i j = true →
        (if i = r + d.1 ∧ j = c + d.2 then true else vis i j) = true := by
      intro i j hij; split <;> simp [hij]
    refine ⟨⟨?_, ?_, ?_, ?_, ?_⟩, ?_⟩
    · intro p hp
      rcases List.mem_append.1 hp with hp | hp
      · exact hmono _ _ (h.queued p hp)
      · simp only [List.mem_singleton] at hp; subst hp; simp
    · intro p hp
      by_cases hpe : p.1 = r + d.1 ∧ p.2 = c + d.2
      · have hcur := (h.expanding (r, c) rfl).1
        have hreach := h.sound (r, c) hcur
        have hq : p = (r + d.1, c + d.2) := Prod.ext hpe.1 hpe.2
        subst hq
        exact Reach.step (r, c) _ hreach ((hexAdj_iff _ _).2 ⟨d, hd, rfl⟩) ⟨hb, ho⟩
      · simp only [hpe, if_false] at hp
        exact h.sound p hp
    · intro p hs hbp hop
      exact hmono _ _ (h.seeds p hs hbp hop)
    · intro p hp
      by_cases hpe : p.1 = r + d.1 ∧ p.2 = c + d.2
      · left
        have hq : p = (r + d.1, c + d.2) := Prod.ext hpe.1 hpe.2
        simp [hq]
      · simp only [hpe, if_false] at hp
        rcases h.done p hp with h1 | h1 | ⟨h1, h2⟩
        · exact Or.inl (List.mem_append_left _ h1)
        · exact Or.inr (Or.inl h1)
        · exact Or.inr (Or.inr ⟨h1, fun d' hd' hb' ho' => hmono _ _ (h2 d' hd' hb' ho')⟩)
    · intro p hp
      cases hp
      obtain ⟨h1, h2⟩ := h.expanding (r, c) rfl
      refine ⟨hmono _ _ h1, ?_⟩
      intro d' hd' hb' ho'
      rcases List.mem_cons.1 hd' with rfl | hd'
      · simp
      · exact hmono _ _ (h2 d' hd' hb' ho')
    · have := unvisited_mark g vis _ _ hb hv
      simp only [List.length_append, List.length_singleton]
      omega
  · simp only [hc]
    refine ⟨⟨h.queued, h.sound, h.seeds, h.done, ?_⟩, le_refl _⟩
    intro p hp
    cases hp
    obtain ⟨h1, h2⟩ := h.expanding (r, c) rfl
    refine ⟨h1, ?_⟩
    intro d' hd' hb' ho'
    rcases List.mem_cons.1 hd' with rfl | hd'
    · by_contra hnv
      apply hc
      simp only [Bool.and_eq_true, Bool.not_eq_true', beq_iff_eq]
      exact ⟨⟨hb', by simpa using hnv⟩, ho'⟩
    · exact h2 d' hd' hb' ho'

theorem bfsVisit_fold_inv {g : HexGame} {player : Char} {goal : Int → Int → Bool}
    {S : Int × Int → Prop} {r c : Int} :
    ∀ (ds : List (Int × Int)) (D : List (Int × Int)) (st : BfsState),
      (∀ d ∈ ds, d ∈ kHexDirections) →
      BfsInv g player goal S (some (r, c)) D st.1 st.2 →
      BfsInv g player goal S (some (r, c)) (ds.reverse ++ D)
          (ds.foldl (bfsVisit g player r c) st).1 (ds.foldl (bfsVisit g player r c) st).2 ∧
        (ds.foldl (bfsVisit g player r c) st).2.length +
            2 * unvisited g (ds.foldl (bfsVisit g player r c) st).1
          ≤ st.2.length + 2 * unvisited g st.1 := by
  intro ds
  induction ds with
  | nil => intro D st _ h; exact ⟨by simpa using h, le_refl _⟩
  | cons d ds ih =>
      intro D st hds h
      have h1 := bfsVisit_inv d (hds d (List.mem_cons_self _ _)) h
      have h2 := ih (d :: D) (bfsVisit g player r c st d)
        (fun x hx => hds x (List.mem_cons_of_mem _ hx)) h1.1
      simp only [List.foldl_cons, List.reverse_cons, List.append_assoc, List.singleton_append]
      exact ⟨h2.1, le_trans h2.2 h1.2⟩

/-- The search answers `true` exactly when a reachable cell satisfies `goal`, provided
the fuel exceeds the termination measure. -/
theorem bfsLoop_iff {g : HexGame} {player : Char} {goal : Int → Int → Bool}
    {S : Int × Int → Prop} :
    ∀ (fuel : Nat) (vis : Int → Int → Bool) (q : List (Int × Int)),
      BfsInv g player goal S none [] vis q →
      q.length + 2 * unvisited g vis < fuel →
      (bfsLoop g player goal fuel vis q = true ↔
        ∃ p : Int × Int, Reach (Owned g player) S p ∧ goal p.1 p.2 = true) := by
  intro fuel
  induction fuel with
  | zero => intro vis q _ hf; omega
  | succ fuel ih =>
      intro vis q h hf
      cases q with
      | nil =>
          simp only [bfsLoop, Bool.false_eq_true, false_iff, not_exists, not_and]
          intro p hp
          have hvis : vis p.1 p.2 = true := by
            induction hp with
            | seed p hs hok => exact h.seeds p hs hok.1 hok.2
            | step p q _ hadj hok ihp =>
                obtain ⟨hb, ho⟩ := hok
                rcases h.done p ihp with h1 | h1 | ⟨_, h2⟩
                · cases h1
                · cases h1
                · obtain ⟨d, hd, rfl⟩ := (hexAdj_iff _ _).1 hadj
                  exact h2 d hd hb ho
          rcases h.done p hvis with h1 | h1 | ⟨h1, _⟩
          · cases h1
          · cases h1
          · simp [h1]
      | cons p q =>
          obtain ⟨r, c⟩ := p
          by_cases hg : goal r c = true
          · simp only [bfsLoop, hg, if_true, true_iff]
            exact ⟨(r, c), h.sound (r, c) (h.queued _ (List.mem_cons_self _ _)), hg⟩
          · simp only [bfsLoop, hg, Bool.false_eq_true, if_false]
            have h0 : BfsInv g player goal S (some (r, c)) [] vis q := by
              refine ⟨fun p hp => h.queued p (List.mem_cons_of_mem _ hp), h.sound, h.seeds,
                ?_, ?_⟩
              · intro p hp
                rcases h.done p hp with h1 | h1 | h1
                · rcases List.mem_cons.1 h1 with rfl | h1
                  · exact Or.inr (Or.inl rfl)
                  · exact Or.inl h1
                · cases h1
                · exact Or.inr (Or.inr h1)
              · intro p hp
                cases hp
                exact ⟨h.queued _ (List.mem_cons_self _ _), by simp⟩
            obtain ⟨h1, h2⟩ := bfsVisit_fold_inv kHexDirections [] (vis, q)
              (fun _ hd => hd) h0
            apply ih
            · refine ⟨h1.queued, h1.sound, h1.seeds, ?_, by simp⟩
              intro p hp
              rcases h1.done p hp with h3 | h3 | h3
              · exact Or.inl h3
              · cases h3
                right; right
                refine ⟨by simpa using hg, ?_⟩
                intro d hd hb ho
                exact (h1.expanding (r, c) rfl).2 d (by simpa using hd) hb ho
              · exact Or.inr (Or.inr h3)
            · simp only [List.length_cons] at hf
              simp only at h2
              omega

theorem bfsSeed_fold (g : HexGame) (player : Char) :
    ∀ (L : List (Int × Int)) (st : BfsState),
      (∀ p : Int × Int, (L.foldl (bfsSeed g player) st).1 p.1 p.2 = true ↔
        st.1 p.1 p.2 = true ∨ (p ∈ L ∧ g.board p.1 p.2 = player)) ∧
      (∀ p : Int × Int, p ∈ (L.foldl (bfsSeed g player) st).2 ↔
        p ∈ st.2 ∨ (p ∈ L ∧ g.board p.1 p.2 = player)) ∧
      (L.foldl (bfsSeed g player) st).2.length ≤ st.2.length + L.length := by
  intro L
  induction L with
  | nil => intro st; simp
  | cons a L ih =>
      intro st
      simp only [List.foldl_cons]
      by_cases ho : g.board a.1 a.2 = player
      · have hs : bfsSeed g player st a =
            (fun i j => if i = a.1 ∧ j = a.2 then true else st.1 i j, st.2 ++ [a]) := by
          simp [bfsSeed, ho]
        rw [hs]
        obtain ⟨h1, h2, h3⟩ := ih
          (fun i j => if i = a.1 ∧ j = a.2 then true else st.1 i j, st.2 ++ [a])
        refine ⟨?_, ?_, ?_⟩
        · intro p
          rw [h1 p]
          by_cases hpa : p = a
          · subst hpa; simp [ho]
          · have hp : ¬ (p.1 = a.1 ∧ p.2 = a.2) := fun h => hpa (Prod.ext h.1 h.2)
            simp [hp, hpa]
        · intro p
          rw [h2 p]
          by_cases hpa : p = a
          · subst hpa; simp [ho]
          · simp [hpa]
        · simp only [List.length_append, List.length_singleton, List.length_cons,
            List.length_nil] at h3 ⊢
          omega
      · have hs : bfsSeed g player st a = st := by simp [bfsSeed, ho]
        rw [hs]
        obtain ⟨h1, h2, h3⟩ := ih st
        refine ⟨?_, ?_, ?_⟩
        · intro p
          rw [h1 p]
          by_cases hpa : p = a
          · subst hpa; simp [ho]
          · simp [hpa]
        · intro p
          rw [h2 p]
          by_cases hpa : p = a
          · subst hpa; simp [ho]
          · simp [hpa]
        · simp only [List.length_cons]; omega

/-- The seeded search decides reachability of the target edge from the seed cells. -/
theorem bfs_seeded_iff (g : HexGame) (player : Char) (goal : Int → Int → Bool)
    (start : Nat → Int × Int) (S : Int × Int → Prop)
    (hin : ∀ p ∈ (List.range g.size).map start, g.inBounds p.1 p.2 = true ∧ S p)
    (hS : ∀ p : Int × Int, S p → g.inBounds p.1 p.2 = true →
      p ∈ (List.range g.size).map start) :
    bfsLoop g player goal (bfsFuel g)
        (((List.range g.size).map start).foldl (bfsSeed g player) (fun _ _ => false, [])).1
        (((List.range g.size).map start).foldl (bfsSeed g player) (fun _ _ => false, [])).2
        = true ↔
      ∃ p : Int × Int, Reach (Owned g player) S p ∧ goal p.1 p.2 = true := by
  obtain ⟨h1, h2, h3⟩ := bfsSeed_fold g player ((List.range g.size).map start)
    (fun _ _ => false, [])
  apply bfsLoop_iff
  · refine ⟨?_, ?_, ?_, ?_, by simp⟩
    · intro p hp
      rw [h1 p]; right
      simpa using (h2 p).1 hp
    · intro p hp
      rcases (h1 p).1 hp with h | ⟨hm, ho⟩
      · simp at h
      · exact Reach.seed p (hin p hm).2 ⟨(hin p hm).1, ho⟩
    · intro p hs hb ho
      rw [h1 p]; right
      exact ⟨hS p hs hb, ho⟩
    · intro p hp
      left
      rw [h2 p]; right
      rcases (h1 p).1 hp with h | h
      · simp at h
      · exact h
  · have := unvisited_le g
      (((List.range g.size).map start).foldl (bfsSeed g player) (fun _ _ => false, [])).1
    simp only [List.length_nil, List.length_map, List.length_range, zero_add] at h3
    unfold bfsFuel
    omega

theorem bfsHorizontal_iff (g : HexGame) (player : Char) :
    bfsHorizontal g player = true ↔
      ∃ p : Int × Int, Reach (Owned g player) (fun p => p.2 = 0) p ∧ p.2 = (g.size : Int) - 1 := by
  unfold bfsHorizontal
  simp only
  rw [bfs_seeded_iff g player _ _ (fun p => p.2 = 0)]
  · simp
  · intro p hp
    simp only [List.mem_map, List.mem_range] at hp
    obtain ⟨k, hk, rfl⟩ := hp
    simp only [inBounds_iff, and_true]
    omega
  · intro p hs hb
    rw [inBounds_iff] at hb
    simp only [List.mem_map, List.mem_range]
    exact ⟨p.1.toNat, by omega, Prod.ext (by simp; omega) (by simp [hs])⟩

theorem bfsVertical_iff (g : HexGame) (player : Char) :
    bfsVertical g player = true ↔
      ∃ p : Int × Int, Reach (Owned g player) (fun p => p.1 = 0) p ∧ p.1 = (g.size : Int) - 1 := by
  unfold bfsVertical
  simp only
  rw [bfs_seeded_iff g player _ _ (fun p => p.1 = 0)]
  · simp
  · intro p hp
    simp only [List.mem_map, List.mem_range] at hp
    obtain ⟨k, hk, rfl⟩ := hp
    simp only [inBounds_iff, and_true]
    omega
  · intro p hs hb
    rw [inBounds_iff] at hb
    simp only [List.mem_map, List.mem_range]
    exact ⟨p.2.toNat, by omega, Prod.ext (by simp [hs]) (by simp; omega)⟩

theorem onStartEdge_X : onStartEdge 'X' = fun p => p.2 = 0 := by
  funext p; simp [onStartEdge]

theorem onStartEdge_O : onStartEdge 'O' = fun p => p.1 = 0 := by
  funext p; simp [onStartEdge]

theorem exists_reach_iff_route {ok S G : Int × Int → Prop} :
    (∃ p, Reach ok S p ∧ G p) ↔ ∃ route, IsRoute ok S G route := by
  constructor
  · rintro ⟨p, hp, hg⟩
    obtain ⟨route, h1, h2, h3, ⟨z, hz, rfl⟩⟩ := (reach_iff_route p).1 hp
    exact ⟨route, h1, h2, h3, ⟨z, hz, hg⟩⟩
  · rintro ⟨route, h1, h2, h3, ⟨z, hz, hg⟩⟩
    exact ⟨z, (reach_iff_route z).2 ⟨route, h1, h2, h3, ⟨z, hz, rfl⟩⟩, hg⟩

theorem console_checkWin_iff (g : HexGame) (s : Char) (hs : s = 'X' ∨ s = 'O') :
    Console.checkWin g s = true ↔ WinningChain g s := by
  unfold WinningChain
  rw [← exists_reach_iff_route]
  rcases hs with rfl | rfl
  · simp [Console.checkWin, bfsHorizontal_iff, onStartEdge_X, onTargetEdge]
  · simp [Console.checkWin, bfsVertical_iff, onStartEdge_O, onTargetEdge]

theorem gui_checkWin_iff (g : HexGame) (s : Char) (hs : s = 'X' ∨ s = 'O') :
    Gui.checkWin g s = true ↔ WinningChain g s := by
  unfold WinningChain
  rw [← exists_reach_iff_route]
  rcases hs with rfl | rfl
  · simp [Gui.checkWin, Gui.hasHorizontalConnection, bfsHorizontal_iff, onStartEdge_X,
      onTargetEdge]
  · simp [Gui.checkWin, Gui.hasVerticalConnection, bfsVertical_iff, onStartEdge_O,
      onTargetEdge]

theorem cellOf_inBounds (g : HexGame) (v : Nat) (hv : v < g.size * g.size) :
    g.inBounds (cellOf g v).1 (cellOf g v).2 = true := by
  have hpos : 0 < g.size := by
    rcases Nat.eq_zero_or_pos g.size with h | h
    · rw [h] at hv; simp at hv
    · exact h
  rw [inBounds_iff]
  have h1 : v / g.size < g.size := Nat.div_lt_of_lt_mul hv
  have h2 : v % g.size < g.size := Nat.mod_lt _ hpos
  simp only [cellOf]
  exact ⟨Int.ofNat_nonneg _, by exact_mod_cast h1, Int.ofNat_nonneg _, by exact_mod_cast h2⟩

theorem cellId_cellOf (g : HexGame) (v : Nat) : cellId g (cellOf g v) = v := by
  simp only [cellId, cellOf]
  have h := Nat.div_add_mod' v g.size
  have h2 : ((v / g.size : Nat) : Int) * (g.size : Int) + ((v % g.size : Nat) : Int)
      = ((v / g.size * g.size + v % g.size : Nat) : Int) := by push_cast; ring
  rw [h2, Int.toNat_natCast, h]

theorem cellId_lt (g : HexGame) (p : Int × Int) (hp : g.inBounds p.1 p.2 = true) :
    cellId g p < g.size * g.size := by
  rw [inBounds_iff] at hp
  obtain ⟨r, c⟩ := p
  simp only at hp
  obtain ⟨a, rfl⟩ := Int.eq_ofNat_of_zero_le hp.1
  obtain ⟨b, rfl⟩ := Int.eq_ofNat_of_zero_le hp.2.2.1
  have ha : a < g.size := by omega
  have hb : b < g.size := by omega
  have h2 : ((a : Int) * (g.size : Int) + (b : Int)) = ((a * g.size + b : Nat) : Int) := by
    push_cast; ring
  simp only [cellId, h2, Int.toNat_natCast]
  calc a * g.size + b < a * g.size + g.size := by omega
    _ = (a + 1) * g.size := by ring
    _ ≤ g.size * g.size := Nat.mul_le_mul_right _ ha

theorem cellOf_cellId (g : HexGame) (p : Int × Int) (hp : g.inBounds p.1 p.2 = true) :
    cellOf g (cellId g p) = p := by
  rw [inBounds_iff] at hp
  obtain ⟨r, c⟩ := p
  simp only at hp
  obtain ⟨a, rfl⟩ := Int.eq_ofNat_of_zero_le hp.1
  obtain ⟨b, rfl⟩ := Int.eq_ofNat_of_zero_le hp.2.2.1
  have ha : a < g.size := by omega
  have hb : b < g.size := by omega
  have hpos : 0 < g.size := by omega
  have h2 : ((a : Int) * (g.size : Int) + (b : Int)) = ((a * g.size + b : Nat) : Int) := by
    push_cast; ring
  simp only [cellId, cellOf, h2, Int.toNat_natCast]
  have h3 : (a * g.size + b) / g.size = a := by
    rw [Nat.add_comm, Nat.add_mul_div_right _ _ hpos, Nat.div_eq_of_lt hb, Nat.zero_add]
  have h4 : (a * g.size + b) % g.size = b := by
    rw [Nat.add_comm, Nat.add_mul_mod_self_right, Nat.mod_eq_of_lt hb]
  rw [h3, h4]

theorem cellCost_lt_INF (own opp cell : Char) : cellCost own opp cell < INF := by
  unfold cellCost INF blockedCost
  split
  · decide
  · split <;> decide

theorem sum_lower (n : Nat) (dist : Nat → Nat) (nv x : Nat) (hnv : nv < n) (hx : x < dist nv) :
    (Finset.range n).sum (fun i => if i = nv then x else dist i) + 1
      ≤ (Finset.range n).sum dist := by
  apply Nat.succ_le_of_lt
  apply Finset.sum_lt_sum
  · intro i _
    by_cases h : i = nv
    · subst h; simp; omega
    · simp [h]
  · exact ⟨nv, Finset.mem_range.2 hnv, by simpa using hx⟩

theorem relaxStep_inv {g : HexGame} {own opp : Char} {S : Int × Int → Prop} {v d : Nat}
    {D : List (Int × Int)} {st : CostState} (dir : Int × Int) (hdir : dir ∈ kHexDirections)
    (hd : st.dist v = d) (h : CostInv g own opp S (some v) D st) :
    CostInv g own opp S (some v) (dir :: D) (relaxStep g own opp d v st dir) ∧
      (relaxStep g own opp d v st dir).dist v = d ∧
      costMeasure g (relaxStep g own opp d v st dir) ≤ costMeasure g st := by
  obtain ⟨hvn, hvd, hD⟩ := h.expanding v rfl
  have hq : (((v / g.size : Nat) : Int) + dir.1, ((v % g.size : Nat) : Int) + dir.2)
      = ((cellOf g v).1 + dir.1, (cellOf g v).2 + dir.2) := rfl
  -- the unchanged state keeps the invariant once the new direction is known relaxed
  have keep : EdgeRelaxed g own opp st.dist v dir →
      CostInv g own opp S (some v) (dir :: D) st ∧ st.dist v = d ∧
        costMeasure g st ≤ costMeasure g st := by
    intro he
    refine ⟨⟨h.distLe, h.pqIn, h.sound, h.seeds, h.settled, ?_⟩, hd, le_refl _⟩
    intro v' hv'
    cases hv'
    refine ⟨hvn, hvd, ?_⟩
    intro d' hd'
    rcases List.mem_cons.1 hd' with rfl | hd'
    · exact he
    · exact hD d' hd'
  unfold relaxStep
  simp only
  by_cases hb : g.inBounds ((cellOf g v).1 + dir.1) ((cellOf g v).2 + dir.2) = true
  case neg =>
    have hcond : ((v / g.size : Nat) : Int) + dir.1 < 0 ∨
        ((v / g.size : Nat) : Int) + dir.1 ≥ g.size ∨
        ((v % g.size : Nat) : Int) + dir.2 < 0 ∨ ((v % g.size : Nat) : Int) + dir.2 ≥ g.size := by
      rw [inBounds_iff] at hb
      simp only [cellOf] at hb
      omega
    rw [if_pos hcond]
    exact keep (fun hb' => absurd hb' hb)
  case pos =>
    have hcond : ¬ (((v / g.size : Nat) : Int) + dir.1 < 0 ∨
        ((v / g.size : Nat) : Int) + dir.1 ≥ g.size ∨
        ((v % g.size : Nat) : Int) + dir.2 < 0 ∨ ((v % g.size : Nat) : Int) + dir.2 ≥ g.size) := by
      have hb' := hb
      rw [inBounds_iff] at hb'
      simp only [cellOf] at hb'
      omega
    rw [if_neg hcond]
    by_cases ho : g.board ((cellOf g v).1 + dir.1) ((cellOf g v).2 + dir.2) = opp
    · have ho' : (g.board (((v / g.size : Nat) : Int) + dir.1)
          (((v % g.size : Nat) : Int) + dir.2) == opp) = true := by
        simpa using ho
      rw [if_pos ho']
      exact keep (fun _ hne => absurd ho hne)
    · have ho' : ¬ (g.board (((v / g.size : Nat) : Int) + dir.1)
          (((v % g.size : Nat) : Int) + dir.2) == opp) = true := by
        simpa using ho
      rw [if_neg ho']
      have hid : ((((v / g.size : Nat) : Int) + dir.1) * (g.size : Int) +
          (((v % g.size : Nat) : Int) + dir.2)).toNat
          = cellId g ((cellOf g v).1 + dir.1, (cellOf g v).2 + dir.2) := rfl
      have hadd : (if (g.board (((v / g.size : Nat) : Int) + dir.1)
          (((v % g.size : Nat) : Int) + dir.2) == own) = true then 0 else 1)
          = stepCost g own ((cellOf g v).1 + dir.1, (cellOf g v).2 + dir.2) := rfl
      rw [hid, hadd]
      generalize hqd : ((cellOf g v).1 + dir.1, (cellOf g v).2 + dir.2) = q at *
      have hqb : g.inBounds q.1 q.2 = true := by rw [← hqd]; exact hb
      have hqo : g.board q.1 q.2 ≠ opp := by rw [← hqd]; exact ho
      have hnvlt := cellId_lt g q hqb
      have hcq := cellOf_cellId g q hqb
      have hadj : HexAdj (cellOf g v) q := by
        rw [hexAdj_iff]; exact ⟨dir, hdir, hqd.symm⟩
      have hne : v ≠ cellId g q := by
        intro hv
        have : cellOf g v = q := by rw [hv]; exact hcq
        exact hexAdj_ne hadj this
      by_cases hlt : st.dist (cellId g q) > d + stepCost g own q
      · rw [if_pos hlt]
        have hdle : ∀ i, (if i = cellId g q then d + stepCost g own q else st.dist i)
            ≤ st.dist i := by
          intro i
          by_cases hi : i = cellId g q
          · subst hi; simp; omega
          · simp [hi]
        have hrel : ∀ u d', u ≠ cellId g q → EdgeRelaxed g own opp st.dist u d' →
            EdgeRelaxed g own opp
              (fun i => if i = cellId g q then d + stepCost g own q else st.dist i) u d' := by
          intro u d' hu he hb1 ho1
          have := he hb1 ho1
          simp only [hu, if_false]
          exact le_trans (hdle _) this
        refine ⟨⟨?_, ?_, ?_, ?_, ?_, ?_⟩, ?_, ?_⟩
        · intro i
          exact le_trans (hdle i) (h.distLe i)
        · intro e he
          rcases List.mem_cons.1 he with rfl | he
          · exact hnvlt
          · exact h.pqIn e he
        · intro u hu hud
          by_cases hi : u = cellId g q
          · subst hi
            simp only [if_true]
            rw [hcq]
            have hw := h.sound v hvn hvd
            rw [hd] at hw
            exact Walk.step _ _ _ hw hadj hqb hqo
          · simp only [hi, if_false] at hud ⊢
            exact h.sound u hu hud
        · intro p hs hpb
          exact le_trans (hdle _) (h.seeds p hs hpb)
        · intro u hu hud
          by_cases hi : u = cellId g q
          · subst hi
            left; simp
          · simp only [hi, if_false] at hud ⊢
            rcases h.settled u hu hud with h1 | h1 | h1
            · exact Or.inl (List.mem_cons_of_mem _ h1)
            · exact Or.inr (Or.inl h1)
            · exact Or.inr (Or.inr fun d' hd' => hrel u d' hi (h1 d' hd'))
        · intro v' hv'
          cases hv'
          refine ⟨hvn, by simpa [hne] using hvd, ?_⟩
          intro d' hd'
          rcases List.mem_cons.1 hd' with rfl | hd'
          · intro _ _
            rw [hqd]
            simp [hne, hd]
          · exact hrel v d' hne (hD d' hd')
        · simp [hne, hd]
        · have := sum_lower (g.size * g.size) st.dist (cellId g q) (d + stepCost g own q)
            hnvlt hlt
          simp only [costMeasure, List.length_cons]
          omega
      · rw [if_neg hlt]
        apply keep
        intro _ _
        rw [hqd, hd]
        omega

theorem relaxStep_fold_inv {g : HexGame} {own opp : Char} {S : Int × Int → Prop} {v d : Nat} :
    ∀ (ds D : List (Int × Int)) (st : CostState), (∀ x ∈ ds, x ∈ kHexDirections) →
      st.dist v = d → CostInv g own opp S (some v) D st →
      CostInv g own opp S (some v) (ds.reverse ++ D) (ds.foldl (relaxStep g own opp d v) st) ∧
        (ds.foldl (relaxStep g own opp d v) st).dist v = d ∧
        costMeasure g (ds.foldl (relaxStep g own opp d v) st) ≤ costMeasure g st := by
  intro ds
  induction ds with
  | nil => intro D st _ hd h; exact ⟨by simpa using h, hd, le_refl _⟩
  | cons x ds ih =>
      intro D st hds hd h
      obtain ⟨h1, h2, h3⟩ := relaxStep_inv x (hds x (List.mem_cons_self _ _)) hd h
      obtain ⟨h4, h5, h6⟩ := ih (x :: D) (relaxStep g own opp d v st x)
        (fun y hy => hds y (List.mem_cons_of_mem _ hy)) h2 h1
      simp only [List.foldl_cons, List.reverse_cons, List.append_assoc, List.singleton_append]
      exact ⟨h4, h5, le_trans h6 h3⟩

theorem pqTop_eq_none {l : List (Nat × Nat)} (h : pqTop l = none) : l = [] := by
  cases l with
  | nil => rfl
  | cons a rest =>
      simp only [pqTop] at h
      split at h
      · cases h
      · split at h <;> cases h

theorem pqTop_mem : ∀ {l : List (Nat × Nat)} {e : Nat × Nat}, pqTop l = some e → e ∈ l := by
  intro l
  induction l with
  | nil => intro e h; simp [pqTop] at h
  | cons a rest ih =>
      intro e h
      simp only [pqTop] at h
      split at h
      · cases h; exact List.mem_cons_self _ _
      · rename_i m hm
        split at h
        · cases h; exact List.mem_cons_self _ _
        · cases h; exact List.mem_cons_of_mem _ (ih hm)

theorem costMeasure_erase (g : HexGame) (st : CostState) (e : Nat × Nat) (he : e ∈ st.pq) :
    costMeasure g { st with pq := st.pq.erase e } + 1 = costMeasure g st := by
  have hlen : (st.pq.erase e).length + 1 = st.pq.length := by
    rw [List.length_erase_of_mem he]
    have : 0 < st.pq.length := List.length_pos_of_mem he
    omega
  show (st.pq.erase e).length + (Finset.range (g.size * g.size)).sum st.dist + 1
    = st.pq.length + (Finset.range (g.size * g.size)).sum st.dist
  omega

/-- With fuel above the termination measure the relaxation loop ends with an empty queue
and keeps the invariant. -/
theorem relaxLoop_inv {g : HexGame} {own opp : Char} {S : Int × Int → Prop} :
    ∀ (fuel : Nat) (st : CostState), CostInv g own opp S none [] st →
      costMeasure g st < fuel →
      CostInv g own opp S none [] (relaxLoop g own opp fuel st) ∧
        (relaxLoop g own opp fuel st).pq = [] := by
  intro fuel
  induction fuel with
  | zero => intro st _ hf; omega
  | succ fuel ih =>
      intro st h hf
      unfold relaxLoop
      cases htop : pqTop st.pq with
      | none => exact ⟨h, pqTop_eq_none htop⟩
      | some e =>
          obtain ⟨d, v⟩ := e
          have hmem := pqTop_mem htop
          have hv := h.pqIn _ hmem
          have hlen := costMeasure_erase g st (d, v) hmem
          simp only
          by_cases hstale : d ≠ st.dist v ∨ d ≥ INF
          · rw [if_pos hstale]
            apply ih
            · refine ⟨h.distLe, fun e he => h.pqIn e (List.mem_of_mem_erase he), h.sound,
                h.seeds, ?_, by simp⟩
              intro u hu hud
              have hud' : st.dist u < INF := hud
              rcases h.settled u hu hud with h1 | h1 | h1
              · left
                apply (List.mem_erase_of_ne ?_).2 h1
                intro heq
                have h3 : st.dist u = d := congrArg Prod.fst heq
                have h4 : u = v := congrArg Prod.snd heq
                subst h4
                rcases hstale with h2 | h2
                · exact h2 h3.symm
                · omega
              · cases h1
              · exact Or.inr (Or.inr h1)
            · omega
          · rw [if_neg hstale]
            have hd : st.dist v = d := by
              by_contra hne
              exact hstale (Or.inl (fun h' => hne h'.symm))
            have hdi : d < INF := by
              by_contra hne
              exact hstale (Or.inr (by omega))
            have h0 : CostInv g own opp S (some v) []
                { st with pq := st.pq.erase (d, v) } := by
              refine ⟨h.distLe, fun e he => h.pqIn e (List.mem_of_mem_erase he), h.sound,
                h.seeds, ?_, ?_⟩
              · intro u hu hud
                by_cases huv : u = v
                · exact Or.inr (Or.inl (by rw [huv]))
                · rcases h.settled u hu hud with h1 | h1 | h1
                  · left
                    apply (List.mem_erase_of_ne ?_).2 h1
                    intro heq
                    cases heq
                    exact huv rfl
                  · cases h1
                  · exact Or.inr (Or.inr h1)
              · intro v' hv'
                cases hv'
                exact ⟨hv, by simpa [hd] using hdi, by simp⟩
            obtain ⟨h1, h2, h3⟩ := relaxStep_fold_inv kHexDirections []
              { st with pq := st.pq.erase (d, v) } (fun _ hx => hx) hd h0
            apply ih
            · refine ⟨h1.distLe, h1.pqIn, h1.sound, h1.seeds, ?_, by simp⟩
              intro u hu hud
              rcases h1.settled u hu hud with h4 | h4 | h4
              · exact Or.inl h4
              · have huv : u = v := Option.some.inj h4
                subst huv
                right; right
                intro x hx
                exact (h1.expanding u rfl).2.2 x (by simpa using hx)
              · exact Or.inr (Or.inr h4)
            · omega

/-- After the loop every path of the search is dominated by the recorded distance. -/
theorem dist_le_of_walk {g : HexGame} {own opp : Char} {S : Int × Int → Prop}
    {st : CostState} (h : CostInv g own opp S none [] st) (hpq : st.pq = [])
    {p : Int × Int} {k : Nat} (hw : Walk g own opp S p k) : st.dist (cellId g p) ≤ k := by
  induction hw with
  | seed p hs hb => exact h.seeds p hs hb
  | step p q k hw hadj hb ho ih =>
      have hpb : g.inBounds p.1 p.2 = true := by
        cases hw with
        | seed _ _ hb => exact hb
        | step _ _ _ _ _ hb _ => exact hb
      by_cases hlt : st.dist (cellId g p) < INF
      · rcases h.settled _ (cellId_lt g p hpb) hlt with h1 | h1 | h1
        · rw [hpq] at h1; cases h1
        · cases h1
        · obtain ⟨d, hd, rfl⟩ := (hexAdj_iff _ _).1 hadj
          have := h1 d hd
          unfold EdgeRelaxed at this
          rw [cellOf_cellId g p hpb] at this
          have := this hb ho
          omega
      · have := h.distLe (cellId g q)
        omega

theorem costSeed_fold (g : HexGame) (own opp : Char) (S : Int × Int → Prop) :
    ∀ (L : List (Int × Int)) (st : CostState),
      (∀ p ∈ L, g.inBounds p.1 p.2 = true ∧ S p) → SeedInv g own opp S st →
      SeedInv g own opp S (L.foldl (costSeed g own opp) st) ∧
        (∀ v, st.dist v < INF → (L.foldl (costSeed g own opp) st).dist v < INF) ∧
        (∀ p ∈ L, (L.foldl (costSeed g own opp) st).dist (cellId g p) < INF) ∧
        (L.foldl (costSeed g own opp) st).pq.length ≤ st.pq.length + L.length := by
  intro L
  induction L with
  | nil => intro st _ h; simpa using h
  | cons a L ih =>
      intro st hL h
      obtain ⟨hab, has⟩ := hL a (List.mem_cons_self _ _)
      have hc := cellCost_lt_INF own opp (g.board a.1 a.2)
      have hs : costSeed g own opp st a =
          { dist := fun i => if i = cellId g a then cellCost own opp (g.board a.1 a.2)
              else st.dist i
            parent := st.parent
            pq := (cellCost own opp (g.board a.1 a.2), cellId g a) :: st.pq } := by
        unfold costSeed
        simp only [ge_iff_le, not_le.2 hc, if_false]
        rfl
      have h' : SeedInv g own opp S (costSeed g own opp st a) := by
        rw [hs]
        refine ⟨?_, ?_, ?_, ?_, h.noParent⟩
        · intro v
          by_cases hv : v = cellId g a
          · simp only [hv, if_true]; omega
          · simp only [hv, if_false]; exact h.distLe v
        · intro e he
          rcases List.mem_cons.1 he with rfl | he
          · exact cellId_lt g a hab
          · exact h.pqIn e he
        · intro v hv hvd
          by_cases hva : v = cellId g a
          · subst hva
            simp only [if_true]
            rw [cellOf_cellId g a hab]
            exact ⟨has, rfl⟩
          · simp only [hva, if_false] at hvd ⊢
            exact h.isSeed v hv hvd
        · intro v hv hvd
          by_cases hva : v = cellId g a
          · subst hva
            simp
          · simp only [hva, if_false] at hvd ⊢
            exact List.mem_cons_of_mem _ (h.queued v hv hvd)
      obtain ⟨h1, h2, h3, h4⟩ := ih (costSeed g own opp st a)
        (fun p hp => hL p (List.mem_cons_of_mem _ hp)) h'
      simp only [List.foldl_cons]
      have hmono : ∀ v, st.dist v < INF → (costSeed g own opp st a).dist v < INF := by
        intro v hv
        rw [hs]
        by_cases hva : v = cellId g a
        · simp only [hva, if_true]; exact hc
        · simp only [hva, if_false]; exact hv
      refine ⟨h1, fun v hv => h2 v (hmono v hv), ?_, ?_⟩
      · intro p hp
        rcases List.mem_cons.1 hp with rfl | hp
        · apply h2
          rw [hs]
          simp only [if_true]
          exact hc
        · exact h3 p hp
      · have hlen : (costSeed g own opp st a).pq.length = st.pq.length + 1 := by
          rw [hs]; rfl
        simp only [List.length_cons]
        omega

theorem bestStep_fold (g : HexGame) (dist : Nat → Nat) :
    ∀ (L : List (Int × Int)) (acc : Int × Nat),
      (L.foldl (bestStep g dist) acc).2 ≤ acc.2 ∧
      (∀ p ∈ L, (L.foldl (bestStep g dist) acc).2 ≤ dist (cellId g p)) ∧
      (L.foldl (bestStep g dist) acc = acc ∨
        ∃ p ∈ L, L.foldl (bestStep g dist) acc = ((cellId g p : Int), dist (cellId g p))) := by
  intro L
  induction L with
  | nil => intro acc; simp
  | cons a L ih =>
      intro acc
      obtain ⟨h1, h2, h3⟩ := ih (bestStep g dist acc a)
      simp only [List.foldl_cons]
      have hs : bestStep g dist acc a =
          if dist (cellId g a) < acc.2 then ((cellId g a : Int), dist (cellId g a)) else acc := rfl
      by_cases hlt : dist (cellId g a) < acc.2
      · rw [hs, if_pos hlt] at h1 h2 h3 ⊢
        refine ⟨by simp only at h1; omega, ?_, ?_⟩
        · intro p hp
          rcases List.mem_cons.1 hp with rfl | hp
          · exact h1
          · exact h2 p hp
        · right
          rcases h3 with h3 | ⟨p, hp, h3⟩
          · exact ⟨a, List.mem_cons_self _ _, h3⟩
          · exact ⟨p, List.mem_cons_of_mem _ hp, h3⟩
      · rw [hs, if_neg hlt] at h1 h2 h3 ⊢
        refine ⟨h1, ?_, ?_⟩
        · intro p hp
          rcases List.mem_cons.1 hp with rfl | hp
          · omega
          · exact h2 p hp
        · rcases h3 with h3 | ⟨p, hp, h3⟩
          · exact Or.inl h3
          · exact Or.inr ⟨p, List.mem_cons_of_mem _ hp, h3⟩

theorem sum_dist_le (n : Nat) (dist : Nat → Nat) (h : ∀ v, dist v ≤ INF) :
    (Finset.range n).sum dist ≤ n * INF := by
  calc (Finset.range n).sum dist ≤ (Finset.range n).sum (fun _ => INF) :=
        Finset.sum_le_sum (fun i _ => h i)
    _ = n * INF := by simp

/-- The relaxation loop of `minMovesCore` ends with an empty queue, and its final state
satisfies the invariant. -/
theorem finalState_inv (g : HexGame) (own opp : Char) (startCell : Nat → Int × Int)
    (S : Int × Int → Prop)
    (hin : ∀ p ∈ (List.range g.size).map startCell, g.inBounds p.1 p.2 = true ∧ S p)
    (hS : ∀ p : Int × Int, S p → g.inBounds p.1 p.2 = true →
      p ∈ (List.range g.size).map startCell) :
    CostInv g own opp S none [] (finalState g own opp startCell) ∧
      (finalState g own opp startCell).pq = [] := by
  have h0 : SeedInv g own opp S { dist := fun _ => INF, parent := fun _ => -1, pq := [] } :=
    ⟨fun _ => le_refl _, by simp, by simp, by simp, by simp⟩
  obtain ⟨h1, _, h3, h4⟩ := costSeed_fold g own opp S _ _ hin h0
  apply relaxLoop_inv
  · refine ⟨h1.distLe, h1.pqIn, ?_, ?_, ?_, by simp⟩
    · intro v hv hvd
      obtain ⟨hs, he⟩ := h1.isSeed v hv hvd
      rw [he]
      exact Walk.seed _ hs (cellOf_inBounds g v hv)
    · intro p hs hb
      have hlt := h3 p (hS p hs hb)
      have := (h1.isSeed _ (cellId_lt g p hb) hlt).2
      rw [cellOf_cellId g p hb] at this
      omega
    · intro v hv hvd
      exact Or.inl (h1.queued v hv hvd)
  · have hsum := sum_dist_le (g.size * g.size)
      (((List.range g.size).map startCell).foldl (costSeed g own opp)
        { dist := fun _ => INF, parent := fun _ => -1, pq := [] }).dist h1.distLe
    simp only [List.length_nil, List.length_map, List.length_range, zero_add] at h4
    unfold costMeasure relaxFuel
    omega

/-- The cost returned by `minMovesCore`, characterised through the paths of the search:
it never exceeds `INF`, it is dominated by every path ending on a target cell, and when
it is below `INF` it is the charge of such a path. -/
theorem minMovesCore_cost (g : HexGame) (own opp : Char) (startCell goalCell : Nat → Int × Int)
    (S : Int × Int → Prop)
    (hin : ∀ p ∈ (List.range g.size).map startCell, g.inBounds p.1 p.2 = true ∧ S p)
    (hS : ∀ p : Int × Int, S p → g.inBounds p.1 p.2 = true →
      p ∈ (List.range g.size).map startCell)
    (hgoal : ∀ p ∈ (List.range g.size).map goalCell, g.inBounds p.1 p.2 = true) :
    (minMovesCore g own opp startCell goalCell).1 ≤ INF ∧
    (∀ p ∈ (List.range g.size).map goalCell, ∀ k, Walk g own opp S p k →
      (minMovesCore g own opp startCell goalCell).1 ≤ k) ∧
    ((minMovesCore g own opp startCell goalCell).1 < INF →
      ∃ p ∈ (List.range g.size).map goalCell,
        Walk g own opp S p (minMovesCore g own opp startCell goalCell).1) := by
  obtain ⟨hinv, hpq⟩ := finalState_inv g own opp startCell S hin hS
  obtain ⟨h1, h2, h3⟩ := bestStep_fold g (finalState g own opp startCell).dist
    ((List.range g.size).map goalCell) ((-1 : Int), INF)
  have hcost : (minMovesCore g own opp startCell goalCell).1 =
      (((List.range g.size).map goalCell).foldl
        (bestStep g (finalState g own opp startCell).dist) ((-1 : Int), INF)).2 := by
    have h0 : (minMovesCore g own opp startCell goalCell).1 =
        if (((List.range g.size).map goalCell).foldl
            (bestStep g (finalState g own opp startCell).dist) ((-1 : Int), INF)).2 ≥ INF
        then INF
        else (((List.range g.size).map goalCell).foldl
            (bestStep g (finalState g own opp startCell).dist) ((-1 : Int), INF)).2 := rfl
    rw [h0]
    split
    · simp only at h1; omega
    · rfl
  rw [hcost]
  refine ⟨h1, ?_, ?_⟩
  · intro p hp k hw
    exact le_trans (h2 p hp) (dist_le_of_walk hinv hpq hw)
  · intro hlt
    rcases h3 with h3 | ⟨p, hp, h3⟩
    · rw [h3] at hlt; simp at hlt
    · refine ⟨p, hp, ?_⟩
      rw [h3] at hlt ⊢
      simp only at hlt ⊢
      have hb := hgoal p hp
      have := hinv.sound _ (cellId_lt g p hb) hlt
      rwa [cellOf_cellId g p hb] at this

theorem walk_inBounds {g : HexGame} {own opp : Char} {S : Int × Int → Prop} {p : Int × Int}
    {k : Nat} (hw : Walk g own opp S p k) : g.inBounds p.1 p.2 = true := by
  cases hw with
  | seed _ _ hb => exact hb
  | step _ _ _ _ _ hb _ => exact hb

theorem cellCost_eq_stepCost (g : HexGame) (own opp : Char) (p : Int × Int)
    (h : g.board p.1 p.2 ≠ opp) : cellCost own opp (g.board p.1 p.2) = stepCost g own p := by
  simp [cellCost, stepCost, h]

theorem walk_of_chain {g : HexGame} {own opp : Char} {S : Int × Int → Prop} :
    ∀ (route : List (Int × Int)) (a z : Int × Int) (k : Nat), Walk g own opp S a k →
      List.Chain' HexAdj (a :: route) → (∀ p ∈ route, NotOwnedBy g opp p) →
      (a :: route).getLast? = some z → Walk g own opp S z (k + routeCost g own route) := by
  intro route
  induction route with
  | nil => intro a z k ha _ _ hz; simp at hz; subst hz; simpa [routeCost] using ha
  | cons b rest ih =>
      intro a z k ha hc hok hz
      rw [List.chain'_cons] at hc
      have hb := hok b (List.mem_cons_self _ _)
      have := ih b z _ (Walk.step a b k ha hc.1 hb.1 hb.2) hc.2
        (fun p hp => hok p (List.mem_cons_of_mem _ hp))
        (by simpa [List.getLast?_cons_cons] using hz)
      simpa [routeCost, Nat.add_assoc] using this

/-- A route through cells the opponent does not own is a path of the search with the
same charge. -/
theorem walk_of_route {g : HexGame} {own opp : Char} {S G : Int × Int → Prop}
    {route : List (Int × Int)} (h : IsRoute (NotOwnedBy g opp) S G route) :
    ∃ z, G z ∧ Walk g own opp S z (routeCost g own route) := by
  obtain ⟨h1, h2, ⟨a, ha, hsa⟩, ⟨z, hz, hg⟩⟩ := h
  cases route with
  | nil => simp at ha
  | cons b rest =>
      simp only [List.head?_cons, Option.some.injEq] at ha
      subst ha
      have hb := h1 b (List.mem_cons_self _ _)
      have hw := walk_of_chain rest b z _ (@Walk.seed g own opp S b hsa hb.1) h2
        (fun p hp => h1 p (List.mem_cons_of_mem _ hp)) hz
      rw [cellCost_eq_stepCost g own opp b hb.2] at hw
      refine ⟨z, hg, ?_⟩
      simpa [routeCost] using hw

/-- A path of the search charged less than `blockedCost` started on a cell the opponent
does not own: it is a route with the same charge. -/
theorem route_of_walk {g : HexGame} {own opp : Char} {S : Int × Int → Prop} {z : Int × Int}
    {k : Nat} (hw : Walk g own opp S z k) :
    blockedCost ≤ k ∨
      ∃ route, IsRoute (NotOwnedBy g opp) S (fun p => p = z) route ∧ routeCost g own route = k := by
  induction hw with
  | seed p hs hb =>
      by_cases ho : g.board p.1 p.2 = opp
      · left; simp [cellCost, ho]
      · right
        refine ⟨[p], ⟨?_, by simp, ⟨p, rfl, hs⟩, ⟨p, rfl, rfl⟩⟩, ?_⟩
        · intro x hx
          simp only [List.mem_singleton] at hx
          subst hx
          exact ⟨hb, ho⟩
        · simp [routeCost, cellCost_eq_stepCost g own opp p ho]
  | step p q k _ hadj hb ho ih =>
      rcases ih with ih | ⟨route, ⟨h1, h2, ⟨a, ha, hsa⟩, ⟨z, hz, hzp⟩⟩, hcost⟩
      · left; omega
      · right
        subst hzp
        refine ⟨route ++ [q], ⟨?_, ?_, ⟨a, ?_, hsa⟩, ⟨q, by simp, rfl⟩⟩, ?_⟩
        · intro x hx
          rcases List.mem_append.1 hx with hx | hx
          · exact h1 x hx
          · simp only [List.mem_singleton] at hx; subst hx; exact ⟨hb, ho⟩
        · apply List.Chain'.append h2 (by simp)
          intro x hx y hy
          simp only [List.head?_cons, Option.mem_def, Option.some.injEq] at hy
          rw [Option.mem_def, hz] at hx
          cases hx; subst hy; exact hadj
        · cases route with
          | nil => simp at ha
          | cons b rest => simpa using ha
        · simp [routeCost] at hcost ⊢
          omega

/-- Every route contains a route without repeated cells between the same end cells. -/
theorem exists_nodup_route {ok : Int × Int → Prop} :
    ∀ (route : List (Int × Int)) (a z : Int × Int), (∀ p ∈ route, ok p) →
      List.Chain' HexAdj route → route.head? = some a → route.getLast? = some z →
      ∃ route', (∀ p ∈ route', ok p) ∧ List.Chain' HexAdj route' ∧ route'.head? = some a ∧
        route'.getLast? = some z ∧ route'.Nodup := by
  intro route
  induction route with
  | nil => intro a z _ _ ha _; simp at ha
  | cons b rest ih =>
      intro a z hok hc ha hz
      simp only [List.head?_cons, Option.some.injEq] at ha
      subst ha
      cases rest with
      | nil =>
          exact ⟨[b], hok, by simp, rfl, hz, by simp⟩
      | cons c rest =>
          rw [List.chain'_cons] at hc
          obtain ⟨r', h1, h2, h3, h4, h5⟩ := ih c z
            (fun p hp => hok p (List.mem_cons_of_mem _ hp)) hc.2 rfl
            (by simpa [List.getLast?_cons_cons] using hz)
          by_cases hmem : b ∈ r'
          · obtain ⟨pre, post, hsplit⟩ := List.append_of_mem hmem
            subst hsplit
            refine ⟨b :: post, ?_, ?_, rfl, ?_, ?_⟩
            · intro p hp
              exact h1 p (List.mem_append_right _ hp)
            · exact (List.chain'_append.1 h2).2.1
            · rw [← h4, List.getLast?_append]
              cases hl : (b :: post).getLast? with
              | none => simp at hl
              | some x => simp
            · exact (List.nodup_append.1 h5).2.1
          · cases r' with
            | nil => simp at h3
            | cons c' r'' =>
                simp only [List.head?_cons, Option.some.injEq] at h3
                subst h3
                refine ⟨b :: c' :: r'', ?_, ?_, rfl, ?_, ?_⟩
                · intro p hp
                  rcases List.mem_cons.1 hp with rfl | hp
                  · exact hok _ (List.mem_cons_self _ _)
                  · exact h1 p hp
                · exact List.chain'_cons.2 ⟨hc.1, h2⟩
                · simpa [List.getLast?_cons_cons] using h4
                · exact List.nodup_cons.2 ⟨hmem, h5⟩

theorem nodup_length_le (g : HexGame) (route : List (Int × Int)) (hn : route.Nodup)
    (hb : ∀ p ∈ route, g.inBounds p.1 p.2 = true) : route.length ≤ g.size * g.size := by
  have h1 : (route.map (cellId g)).Nodup := by
    apply List.Nodup.map_on _ hn
    intro x hx y hy hxy
    rw [← cellOf_cellId g x (hb x hx), ← cellOf_cellId g y (hb y hy), hxy]
  have h2 : route.map (cellId g) ⊆ List.range (g.size * g.size) := by
    intro v hv
    obtain ⟨p, hp, rfl⟩ := List.mem_map.1 hv
    exact List.mem_range.2 (cellId_lt g p (hb p hp))
  have := (List.subperm_of_subset h1 h2).length_le
  simpa using this

theorem routeCost_le_length (g : HexGame) (own : Char) (route : List (Int × Int)) :
    routeCost g own route ≤ route.length := by
  induction route with
  | nil => simp [routeCost]
  | cons a rest ih =>
      simp only [routeCost, List.map_cons, List.sum_cons, List.length_cons] at ih ⊢
      have : stepCost g own a ≤ 1 := by unfold stepCost; split <;> omega
      omega

theorem edgeSpec_X (g : HexGame) :
    EdgeSpec g (fun r => ((r : Int), 0)) (fun r => ((r : Int), (g.size : Int) - 1))
      (fun p => p.2 = 0) (fun p => p.2 = (g.size : Int) - 1) := by
  refine ⟨?_, ?_, ?_, ?_⟩
  · intro p hp
    simp only [List.mem_map, List.mem_range] at hp
    obtain ⟨k, hk, rfl⟩ := hp
    simp only [inBounds_iff, and_true]
    omega
  · intro p hs hb
    rw [inBounds_iff] at hb
    simp only [List.mem_map, List.mem_range]
    exact ⟨p.1.toNat, by omega, Prod.ext (by simp; omega) (by simp [hs])⟩
  · intro p hp
    simp only [List.mem_map, List.mem_range] at hp
    obtain ⟨k, hk, rfl⟩ := hp
    simp only [inBounds_iff, and_true]
    omega
  · intro p hs hb
    rw [inBounds_iff] at hb
    simp only [List.mem_map, List.mem_range]
    exact ⟨p.1.toNat, by omega, Prod.ext (by simp; omega) (by simp [hs])⟩

theorem edgeSpec_O (g : HexGame) :
    EdgeSpec g (fun c => (0, (c : Int))) (fun c => ((g.size : Int) - 1, (c : Int)))
      (fun p => p.1 = 0) (fun p => p.1 = (g.size : Int) - 1) := by
  refine ⟨?_, ?_, ?_, ?_⟩
  · intro p hp
    simp only [List.mem_map, List.mem_range] at hp
    obtain ⟨k, hk, rfl⟩ := hp
    simp only [inBounds_iff, and_true]
    omega
  · intro p hs hb
    rw [inBounds_iff] at hb
    simp only [List.mem_map, List.mem_range]
    exact ⟨p.2.toNat, by omega, Prod.ext (by simp [hs]) (by simp; omega)⟩
  · intro p hp
    simp only [List.mem_map, List.mem_range] at hp
    obtain ⟨k, hk, rfl⟩ := hp
    simp only [inBounds_iff, and_true]
    omega
  · intro p hs hb
    rw [inBounds_iff] at hb
    simp only [List.mem_map, List.mem_range]
    exact ⟨p.2.toNat, by omega, Prod.ext (by simp [hs]) (by simp; omega)⟩

section Core

variable {g : HexGame} {own opp : Char} {startCell goalCell : Nat → Int × Int}
  {S G : Int × Int → Prop}

theorem core_le_INF (E : EdgeSpec g startCell goalCell S G) :
    (minMovesCore g own opp startCell goalCell).1 ≤ INF :=
  (minMovesCore_cost g own opp startCell goalCell S E.startIn E.startAll
    (fun p hp => (E.goalIn p hp).1)).1

theorem core_le_walk (E : EdgeSpec g startCell goalCell S G) {z : Int × Int} {k : Nat}
    (hz : G z) (hw : Walk g own opp S z k) :
    (minMovesCore g own opp startCell goalCell).1 ≤ k :=
  (minMovesCore_cost g own opp startCell goalCell S E.startIn E.startAll
    (fun p hp => (E.goalIn p hp).1)).2.1 z (E.goalAll z hz (walk_inBounds hw)) k hw

theorem core_walk (E : EdgeSpec g startCell goalCell S G)
    (h : (minMovesCore g own opp startCell goalCell).1 < INF) :
    ∃ z, G z ∧ Walk g own opp S z (minMovesCore g own opp startCell goalCell).1 := by
  obtain ⟨p, hp, hw⟩ := (minMovesCore_cost g own opp startCell goalCell S E.startIn E.startAll
    (fun p hp => (E.goalIn p hp).1)).2.2 h
  exact ⟨p, (E.goalIn p hp).2, hw⟩

theorem walk_zero_of_reach (hne : own ≠ opp) {z : Int × Int}
    (h : Reach (Owned g own) S z) : Walk g own opp S z 0 := by
  induction h with
  | seed p hs hok =>
      have := @Walk.seed g own opp S p hs hok.1
      simpa [cellCost, hok.2, hne] using this
  | step p q _ hadj hok ih =>
      have := Walk.step p q 0 ih hadj hok.1 (by rw [hok.2]; exact hne)
      simpa [stepCost, hok.2] using this

theorem reach_of_walk_zero {z : Int × Int} {k : Nat} (h : Walk g own opp S z k) (hk : k = 0) :
    Reach (Owned g own) S z := by
  induction h with
  | seed p hs hb =>
      refine Reach.seed p hs ⟨hb, ?_⟩
      unfold cellCost at hk
      split at hk
      · simp [blockedCost] at hk
      · split at hk
        · rename_i h; simpa using h
        · omega
  | step p q k _ hadj hb ho ih =>
      have hk0 : k = 0 := by omega
      have hs0 : stepCost g own q = 0 := by omega
      refine Reach.step p q (ih hk0) hadj ⟨hb, ?_⟩
      unfold stepCost at hs0
      split at hs0
      · rename_i h; simpa using h
      · omega

/-- The cost is `0` exactly when a chain of own stones joins the two edges. -/
theorem core_zero_iff (E : EdgeSpec g startCell goalCell S G) (hne : own ≠ opp) :
    (minMovesCore g own opp startCell goalCell).1 = 0 ↔ ∃ z, Reach (Owned g own) S z ∧ G z := by
  constructor
  · intro h0
    have hlt : (minMovesCore g own opp startCell goalCell).1 < INF := by
      rw [h0]; decide
    obtain ⟨z, hz, hw⟩ := core_walk E hlt
    exact ⟨z, reach_of_walk_zero hw h0, hz⟩
  · rintro ⟨z, hr, hz⟩
    have := core_le_walk E hz (walk_zero_of_reach hne hr)
    omega

end Core

/-- A stone of `own` keeps every path of the search and does not raise its charge. -/
theorem walk_setCell_own {g : HexGame} {own opp : Char} {S : Int × Int → Prop} (r c : Int)
    (hne : own ≠ opp) {z : Int × Int} {k : Nat}
    (hw : Walk g own opp S z k) : ∃ k', k' ≤ k ∧ Walk (g.setCell r c own) own opp S z k' := by
  have hboard : ∀ p : Int × Int, (g.setCell r c own).board p.1 p.2 =
      if p.1 = r ∧ p.2 = c then own else g.board p.1 p.2 := fun _ => rfl
  induction hw with
  | seed p hs hb =>
      refine ⟨_, ?_, @Walk.seed (g.setCell r c own) own opp S p hs hb⟩
      rw [hboard]
      split
      · simp [cellCost, hne]
      · exact le_refl _
  | step p q k _ hadj hb ho ih =>
      obtain ⟨k', hk', hw'⟩ := ih
      have ho' : (g.setCell r c own).board q.1 q.2 ≠ opp := by
        rw [hboard]; split
        · exact hne
        · exact ho
      refine ⟨_, ?_, Walk.step p q k' hw' hadj hb ho'⟩
      have : stepCost (g.setCell r c own) own q ≤ stepCost g own q := by
        unfold stepCost
        rw [hboard]
        split
        · simp
        · exact le_refl _
      omega

/-- A stone of `opp` on any cell creates no cheaper path of the search for `own`. -/
theorem walk_setCell_opp {g : HexGame} {own opp : Char} {S : Int × Int → Prop} (r c : Int)
    {z : Int × Int} {k' : Nat} (hw : Walk (g.setCell r c opp) own opp S z k') :
    ∃ k, k ≤ k' ∧ Walk g own opp S z k := by
  have hboard : ∀ p : Int × Int, (g.setCell r c opp).board p.1 p.2 =
      if p.1 = r ∧ p.2 = c then opp else g.board p.1 p.2 := fun _ => rfl
  induction hw with
  | seed p hs hb =>
      refine ⟨_, ?_, @Walk.seed g own opp S p hs hb⟩
      rw [hboard]
      split
      · simp only [cellCost, beq_self_eq_true, if_true]
        split
        · exact le_refl _
        · split <;> simp [blockedCost]
      · exact le_refl _
  | step p q k _ hadj hb ho ih =>
      obtain ⟨k0, hk0, hw0⟩ := ih
      rw [hboard] at ho
      have hq : ¬ (q.1 = r ∧ q.2 = c) := by
        intro h; simp [h] at ho
      simp only [hq, if_false] at ho
      refine ⟨_, ?_, Walk.step p q k0 hw0 hadj hb ho⟩
      have : stepCost (g.setCell r c opp) own q = stepCost g own q := by
        unfold stepCost
        rw [hboard]
        simp [hq]
      omega

theorem makeMove_of_empty (g : HexGame) (r c : Int) (player : Char)
    (h : g.isCellEmpty r c = true) : g.makeMove r c player = (true, g.setCell r c player) := by
  simp only [HexGame.isCellEmpty, Bool.and_eq_true, beq_iff_eq] at h
  simp [HexGame.makeMove, h.1, h.2]

theorem routeCost_eq_emptyCount (g : HexGame) (hwf : WellFormed g) (own opp : Char)
    (hoo : (own = 'X' ∧ opp = 'O') ∨ (own = 'O' ∧ opp = 'X')) :
    ∀ route : List (Int × Int), (∀ p ∈ route, NotOwnedBy g opp p) →
      routeCost g own route = emptyCount g route := by
  intro route
  induction route with
  | nil => intro _; simp [routeCost, emptyCount]
  | cons a rest ih =>
      intro h
      have hrest := ih (fun p hp => h p (List.mem_cons_of_mem _ hp))
      obtain ⟨hb, ho⟩ := h a (List.mem_cons_self _ _)
      simp only [routeCost, emptyCount, List.map_cons, List.sum_cons, List.countP_cons] at hrest ⊢
      rw [hrest]
      have : stepCost g own a = if (g.board a.1 a.2 == '.') = true then 1 else 0 := by
        unfold stepCost
        rcases hoo with ⟨rfl, rfl⟩ | ⟨rfl, rfl⟩
        · rcases hwf a.1 a.2 hb with h1 | h1 | h1
          · simp [h1]
          · simp [h1]
          · exact absurd h1 ho
        · rcases hwf a.1 a.2 hb with h1 | h1 | h1
          · simp [h1]
          · exact absurd h1 ho
          · simp [h1]
      omega

section Core

variable {g : HexGame} {own opp : Char} {startCell goalCell : Nat → Int × Int}
  {S G : Int × Int → Prop}

/-- When a route exists, the cost is the least number of Empty cells over all routes. -/
theorem core_eq_min (E : EdgeSpec g startCell goalCell S G) (hwf : WellFormed g)
    (hsize : g.size ≤ 23170)
    (hoo : (own = 'X' ∧ opp = 'O') ∨ (own = 'O' ∧ opp = 'X'))
    (hex : ∃ route, IsRoute (NotOwnedBy g opp) S G route) :
    (∃ route, IsRoute (NotOwnedBy g opp) S G route ∧
      emptyCount g route = (minMovesCore g own opp startCell goalCell).1) ∧
    ∀ route, IsRoute (NotOwnedBy g opp) S G route →
      (minMovesCore g own opp startCell goalCell).1 ≤ emptyCount g route := by
  have hall : ∀ route, IsRoute (NotOwnedBy g opp) S G route →
      (minMovesCore g own opp startCell goalCell).1 ≤ emptyCount g route := by
    intro route hr
    obtain ⟨z, hz, hw⟩ := @walk_of_route g own opp S G route hr
    rw [routeCost_eq_emptyCount g hwf own opp hoo route hr.1] at hw
    exact core_le_walk E hz hw
  refine ⟨?_, hall⟩
  obtain ⟨route, h1, h2, ⟨a, ha, hsa⟩, ⟨z, hz, hg⟩⟩ := hex
  obtain ⟨r', k1, k2, k3, k4, k5⟩ := exists_nodup_route route a z h1 h2 ha hz
  have hr' : IsRoute (NotOwnedBy g opp) S G r' := ⟨k1, k2, ⟨a, k3, hsa⟩, ⟨z, k4, hg⟩⟩
  have hlen := nodup_length_le g r' k5 (fun p hp => (k1 p hp).1)
  have hcost := routeCost_le_length g own r'
  have hle := hall r' hr'
  rw [← routeCost_eq_emptyCount g hwf own opp hoo r' k1] at hle
  have hsq : g.size * g.size ≤ 23170 * 23170 := Nat.mul_le_mul hsize hsize
  have hsmall : (minMovesCore g own opp startCell goalCell).1 < blockedCost := by
    have : (23170 * 23170 : Nat) < blockedCost := by decide
    omega
  have hinf : (minMovesCore g own opp startCell goalCell).1 < INF := by
    have : blockedCost < INF := by decide
    omega
  obtain ⟨z', hz', hw⟩ := core_walk E hinf
  rcases route_of_walk hw with hbig | ⟨rt, ⟨q1, q2, q3, ⟨z'', q4, q5⟩⟩, hc⟩
  · omega
  · subst q5
    refine ⟨rt, ⟨q1, q2, q3, ⟨_, q4, hz'⟩⟩, ?_⟩
    rw [← routeCost_eq_emptyCount g hwf own opp hoo rt q1]
    exact hc

/-- A further stone of `own` never raises the cost of `own`. -/
theorem core_setCell_own (r c : Int) (E : EdgeSpec g startCell goalCell S G)
    (E' : EdgeSpec (g.setCell r c own) startCell goalCell S G) (hne : own ≠ opp) :
    (minMovesCore (g.setCell r c own) own opp startCell goalCell).1
      ≤ (minMovesCore g own opp startCell goalCell).1 := by
  by_cases hlt : (minMovesCore g own opp startCell goalCell).1 < INF
  · obtain ⟨z, hz, hw⟩ := core_walk E hlt
    obtain ⟨k', hk', hw'⟩ := walk_setCell_own r c hne hw
    exact le_trans (core_le_walk E' hz hw') hk'
  · have := @core_le_INF (g.setCell r c own) own opp startCell goalCell S G E'
    omega

/-- A further stone of `opp` never lowers the cost of `own`. -/
theorem core_setCell_opp (r c : Int) (E : EdgeSpec g startCell goalCell S G)
    (E' : EdgeSpec (g.setCell r c opp) startCell goalCell S G) :
    (minMovesCore g own opp startCell goalCell).1
      ≤ (minMovesCore (g.setCell r c opp) own opp startCell goalCell).1 := by
  by_cases hlt : (minMovesCore (g.setCell r c opp) own opp startCell goalCell).1 < INF
  · obtain ⟨z, hz, hw⟩ := core_walk E' hlt
    obtain ⟨k, hk, hw0⟩ := walk_setCell_opp r c hw
    exact le_trans (core_le_walk E hz hw0) hk
  · have := @core_le_INF g own opp startCell goalCell S G E
    omega

end Core

theorem onTargetEdge_X (g : HexGame) :
    onTargetEdge g 'X' = fun p => p.2 = (g.size : Int) - 1 := by
  funext p; simp [onTargetEdge]

theorem onTargetEdge_O (g : HexGame) :
    onTargetEdge g 'O' = fun p => p.1 = (g.size : Int) - 1 := by
  funext p; simp [onTargetEdge]

/-- C1: for every board and each side `s` in `{X, O}`, `checkWin(s)` (both the one of
`HEX.cpp` and the one of `mainwindow.cpp`) returns true if and only if there is a sequence
of cells all owned by `s`, consecutive cells hex-adjacent by one of the six offsets, that
starts on the starting edge of `s` (column 0 for X, row 0 for O) and ends on its target
edge (column `N - 1` for X, row `N - 1` for O). -/
theorem checkWin_iff_winning_chain (g : HexGame) :
    (Console.checkWin g 'X' = true ↔ WinningChain g 'X') ∧
    (Console.checkWin g 'O' = true ↔ WinningChain g 'O') ∧
    (Gui.checkWin g 'X' = true ↔ WinningChain g 'X') ∧
    (Gui.checkWin g 'O' = true ↔ WinningChain g 'O') :=
  ⟨console_checkWin_iff g 'X' (Or.inl rfl), console_checkWin_iff g 'O' (Or.inr rfl),
    gui_checkWin_iff g 'X' (Or.inl rfl), gui_checkWin_iff g 'O' (Or.inr rfl)⟩

/-- C2: on a board whose cells are `'.'`, `'X'` or `'O'` (of a size whose cell count stays
below `INT_MAX / 4`), whenever at least one route of the side exists (hex-adjacent cells
not owned by the opponent, from its starting edge to its target edge),
`minMovesForXToWin` / `minMovesForOToWin` returns exactly the minimum over all such routes
of the number of Empty cells on the route: some route has that many Empty cells and no
route has fewer. -/
theorem minMoves_eq_least_empty_count (g : HexGame) (hwf : WellFormed g)
    (hsize : g.size ≤ 23170) :
    ((∃ route, SideRoute g 'X' route) →
      (∃ route, SideRoute g 'X' route ∧ emptyCount g route = Gui.minMovesForXToWin g) ∧
      ∀ route, SideRoute g 'X' route → Gui.minMovesForXToWin g ≤ emptyCount g route) ∧
    ((∃ route, SideRoute g 'O' route) →
      (∃ route, SideRoute g 'O' route ∧ emptyCount g route = Gui.minMovesForOToWin g) ∧
      ∀ route, SideRoute g 'O' route → Gui.minMovesForOToWin g ≤ emptyCount g route) := by
  constructor
  · intro hex
    have := @core_eq_min g 'X' 'O' _ _ _ _ (edgeSpec_X g) hwf hsize (Or.inl ⟨rfl, rfl⟩)
    simp only [SideRoute, onStartEdge_X, onTargetEdge_X, opponent, if_true] at hex ⊢
    exact this hex
  · intro hex
    have := @core_eq_min g 'O' 'X' _ _ _ _ (edgeSpec_O g) hwf hsize (Or.inr ⟨rfl, rfl⟩)
    have ho : opponent 'O' = 'X' := by decide
    simp only [SideRoute, onStartEdge_O, onTargetEdge_O, ho] at hex ⊢
    exact this hex

theorem board5_wellFormed : WellFormed board5 := by
  intro r c _
  simp only [board5]
  split
  · right; left; rfl
  · left; rfl

theorem board5_route :
    SideRoute board5 'X' [(2, 0), (2, 1), (2, 2), (2, 3), (2, 4)] := by
  refine ⟨?_, ?_, ⟨(2, 0), rfl, ?_⟩, ⟨(2, 4), rfl, ?_⟩⟩
  · intro p hp
    simp only [List.mem_cons, List.mem_singleton, List.not_mem_nil, or_false] at hp
    rcases hp with rfl | rfl | rfl | rfl | rfl <;> exact ⟨by decide, by decide⟩
  · simp only [List.chain'_cons, List.chain'_singleton, and_true]
    decide
  · simp [onStartEdge]
  · simp [onTargetEdge, board5]

/-- Witness of C2 on the 5×5 board with the X row broken at `(2, 2)`. -/
theorem minMoves_eq_least_empty_count_witness :
    (∃ route, SideRoute board5 'X' route ∧
      emptyCount board5 route = Gui.minMovesForXToWin board5) ∧
    ∀ route, SideRoute board5 'X' route →
      Gui.minMovesForXToWin board5 ≤ emptyCount board5 route :=
  (minMoves_eq_least_empty_count board5 board5_wellFormed (by decide)).1 ⟨_, board5_route⟩

/-- C3: `minMovesForXToWin` returns 0 if and only if `checkWin('X')` is true, and
`minMovesForOToWin` returns 0 if and only if `checkWin('O')` is true. -/
theorem minMoves_zero_iff_checkWin (g : HexGame) :
    (Gui.minMovesForXToWin g = 0 ↔ Gui.checkWin g 'X' = true) ∧
    (Gui.minMovesForOToWin g = 0 ↔ Gui.checkWin g 'O' = true) := by
  constructor
  · have h := @core_zero_iff g 'X' 'O' _ _ _ _ (edgeSpec_X g) (by decide)
    simp only [Gui.checkWin, Gui.hasHorizontalConnection, bfsHorizontal_iff, beq_self_eq_true,
      if_true]
    exact h
  · have h := @core_zero_iff g 'O' 'X' _ _ _ _ (edgeSpec_O g) (by decide)
    have hox : ('O' == 'X') = false := by decide
    simp only [Gui.checkWin, Gui.hasVerticalConnection, bfsVertical_iff, beq_self_eq_true,
      if_true, hox, Bool.false_eq_true, if_false]
    exact h

/-- C4: placing a stone of a side on an Empty cell never raises that side's cost:
`minMovesForXToWin` after an X stone and `minMovesForOToWin` after an O stone are at most
the values before. -/
theorem own_stone_never_raises_cost (g : HexGame) (r c : Int)
    (h : g.isCellEmpty r c = true) :
    Gui.minMovesForXToWin (g.makeMove r c 'X').2 ≤ Gui.minMovesForXToWin g ∧
    Gui.minMovesForOToWin (g.makeMove r c 'O').2 ≤ Gui.minMovesForOToWin g := by
  rw [makeMove_of_empty g r c 'X' h, makeMove_of_empty g r c 'O' h]
  exact ⟨core_setCell_own r c (edgeSpec_X g) (edgeSpec_X (g.setCell r c 'X')) (by decide),
    core_setCell_own r c (edgeSpec_O g) (edgeSpec_O (g.setCell r c 'O')) (by decide)⟩

/-- Witness of C4: an X or O stone on the Empty cell `(2, 2)` of the 5×5 board. -/
theorem own_stone_never_raises_cost_witness :
    board5.isCellEmpty 2 2 = true ∧
    Gui.minMovesForXToWin (board5.makeMove 2 2 'X').2 ≤ Gui.minMovesForXToWin board5 ∧
    Gui.minMovesForOToWin (board5.makeMove 2 2 'O').2 ≤ Gui.minMovesForOToWin board5 :=
  ⟨by decide, own_stone_never_raises_cost board5 2 2 (by decide)⟩

/-- C5: placing a stone of a side on an Empty cell never lowers the opponent's cost
(`INF` being the largest value a cost takes): `minMovesForOToWin` after an X stone and
`minMovesForXToWin` after an O stone are at least the values before, and no cost exceeds
the sentinel. -/
theorem own_stone_never_lowers_opponent_cost (g : HexGame) (r c : Int)
    (h : g.isCellEmpty r c = true) :
    Gui.minMovesForOToWin g ≤ Gui.minMovesForOToWin (g.makeMove r c 'X').2 ∧
    Gui.minMovesForXToWin g ≤ Gui.minMovesForXToWin (g.makeMove r c 'O').2 ∧
    Gui.minMovesForOToWin (g.makeMove r c 'X').2 ≤ INF ∧
    Gui.minMovesForXToWin (g.makeMove r c 'O').2 ≤ INF := by
  rw [makeMove_of_empty g r c 'X' h, makeMove_of_empty g r c 'O' h]
  exact ⟨core_setCell_opp r c (edgeSpec_O g) (edgeSpec_O (g.setCell r c 'X')),
    core_setCell_opp r c (edgeSpec_X g) (edgeSpec_X (g.setCell r c 'O')),
    core_le_INF (edgeSpec_O (g.setCell r c 'X')), core_le_INF (edgeSpec_X (g.setCell r c 'O'))⟩

/-- Witness of C5: an X or O stone on the Empty cell `(2, 2)` of the 5×5 board. -/
theorem own_stone_never_lowers_opponent_cost_witness :
    board5.isCellEmpty 2 2 = true ∧
    Gui.minMovesForOToWin board5 ≤ Gui.minMovesForOToWin (board5.makeMove 2 2 'X').2 ∧
    Gui.minMovesForXToWin board5 ≤ Gui.minMovesForXToWin (board5.makeMove 2 2 'O').2 ∧
    Gui.minMovesForOToWin (board5.makeMove 2 2 'X').2 ≤ INF ∧
    Gui.minMovesForXToWin (board5.makeMove 2 2 'O').2 ≤ INF :=
  ⟨by decide, own_stone_never_lowers_opponent_cost board5 2 2 (by decide)⟩

/-- C8: on the 5×5 board whose only stones are X stones on `(2,0)`, `(2,1)`, `(2,3)` and
`(2,4)`, `minMovesForXToWin` returns 1 and writes the one-element path `[(2,2)]`. -/
theorem minMovesForXToWin_board5 :
    Gui.minMovesForXToWin board5 = 1 ∧
    Gui.minMovesForXToWinPath board5 = (1, some [(2, 2)]) := by
  decide!

theorem undoMove_makeMove (g : HexGame) (r c : Int) (player : Char)
    (h : g.isCellEmpty r c = true) : (g.makeMove r c player).2.undoMove r c = g := by
  rw [makeMove_of_empty g r c player h]
  simp only [HexGame.isCellEmpty, Bool.and_eq_true, beq_iff_eq] at h
  have hb : (g.setCell r c player).inBounds r c = true := h.1
  simp only [HexGame.undoMove, hb, if_true]
  obtain ⟨size, board⟩ := g
  simp only [HexGame.setCell, HexGame.mk.injEq, true_and]
  funext i j
  by_cases hij : i = r ∧ j = c
  · obtain ⟨rfl, rfl⟩ := hij
    simp only [and_self, if_true]
    exact h.2.symm
  · simp [hij]

namespace Gui

theorem collectCell_fold (g : HexGame) (r : Nat) :
    ∀ (cs : List Nat) (acc : List (Int × Int) × Nat),
      acc.2 = acc.1.length →
      (cs.foldl (collectCell g r) acc).2 = (cs.foldl (collectCell g r) acc).1.length ∧
      (cs.foldl (collectCell g r) acc).2 ≤ acc.2 + cs.length ∧
      (∀ q ∈ (cs.foldl (collectCell g r) acc).1,
        q ∈ acc.1 ∨ (g.isCellEmpty q.1 q.2 = true)) ∧
      (acc.2 + cs.length ≤ 50 → ∀ q : Int × Int, q ∈ acc.1 ∨
        (∃ c ∈ cs, q = ((r : Int), (c : Int)) ∧ g.isCellEmpty q.1 q.2 = true) →
        q ∈ (cs.foldl (collectCell g r) acc).1) := by
  intro cs
  induction cs with
  | nil =>
      intro acc h
      simp only [List.foldl_nil, List.length_nil, Nat.add_zero, Nat.zero_mul, le_refl, true_and]
      exact ⟨h, fun q hq => Or.inl hq, fun _ q hq => by
        rcases hq with hq | ⟨_, hc, _⟩
        · exact hq
        · simp at hc⟩
  | cons c cs ih =>
      intro acc h
      simp only [List.foldl_cons, List.length_cons]
      have hstep : (collectCell g r acc c).2 = (collectCell g r acc c).1.length ∧
          (collectCell g r acc c).2 ≤ acc.2 + 1 ∧
          (∀ q ∈ (collectCell g r acc c).1, q ∈ acc.1 ∨ g.isCellEmpty q.1 q.2 = true) ∧
          (acc.2 + 1 ≤ 50 → ∀ q : Int × Int, q ∈ acc.1 ∨
            (q = ((r : Int), (c : Int)) ∧ g.isCellEmpty q.1 q.2 = true) →
            q ∈ (collectCell g r acc c).1) := by
        unfold collectCell
        by_cases hlt : acc.2 < 50
        · by_cases he : g.isCellEmpty r c = true
          · simp only [hlt, he, if_true, List.length_append, List.length_singleton]
            refine ⟨by omega, le_refl _, ?_, ?_⟩
            · intro q hq
              rcases List.mem_append.1 hq with hq | hq
              · exact Or.inl hq
              · simp only [List.mem_singleton] at hq; subst hq; exact Or.inr he
            · intro _ q hq
              rcases hq with hq | ⟨rfl, _⟩
              · exact List.mem_append_left _ hq
              · simp
          · simp only [hlt, he, if_true, Bool.false_eq_true, if_false]
            refine ⟨h, by omega, fun q hq => Or.inl hq, ?_⟩
            intro _ q hq
            rcases hq with hq | ⟨rfl, hq⟩
            · exact hq
            · exact absurd hq he
        · simp only [hlt, if_false]
          refine ⟨h, by omega, fun q hq => Or.inl hq, ?_⟩
          intro h50; omega
      obtain ⟨s1, s2, s3, s4⟩ := hstep
      obtain ⟨h1, h2, h3, h4⟩ := ih (collectCell g r acc c) s1
      refine ⟨h1, by omega, ?_, ?_⟩
      · intro q hq
        rcases h3 q hq with hq | hq
        · exact s3 q hq
        · exact Or.inr hq
      · intro h50 q hq
        apply h4 (by omega)
        rcases hq with hq | ⟨c', hc', hq⟩
        · exact Or.inl (s4 (by omega) q (Or.inl hq))
        · rcases List.mem_cons.1 hc' with rfl | hc'
          · exact Or.inl (s4 (by omega) q (Or.inr hq))
          · exact Or.inr ⟨c', hc', hq⟩

theorem collectRow_fold (g : HexGame) :
    ∀ (rs : List Nat) (acc : List (Int × Int) × Nat),
      acc.2 = acc.1.length →
      (rs.foldl (collectRow g) acc).2 = (rs.foldl (collectRow g) acc).1.length ∧
      (rs.foldl (collectRow g) acc).2 ≤ acc.2 + rs.length * g.size ∧
      (∀ q ∈ (rs.foldl (collectRow g) acc).1,
        q ∈ acc.1 ∨ (g.isCellEmpty q.1 q.2 = true)) ∧
      (acc.2 + rs.length * g.size ≤ 50 → ∀ q : Int × Int, q ∈ acc.1 ∨
        (∃ r ∈ rs, ∃ c, c < g.size ∧ q = ((r : Int), (c : Int)) ∧
          g.isCellEmpty q.1 q.2 = true) →
        q ∈ (rs.foldl (collectRow g) acc).1) := by
  intro rs
  induction rs with
  | nil =>
      intro acc h
      simp only [List.foldl_nil, List.length_nil, Nat.add_zero, Nat.zero_mul, le_refl, true_and]
      exact ⟨h, fun q hq => Or.inl hq, fun _ q hq => by
        rcases hq with hq | ⟨_, hc, _⟩
        · exact hq
        · simp at hc⟩
  | cons r rs ih =>
      intro acc h
      simp only [List.foldl_cons, List.length_cons]
      have hmul : (rs.length + 1) * g.size = rs.length * g.size + g.size := by ring
      have hstep : (collectRow g acc r).2 = (collectRow g acc r).1.length ∧
          (collectRow g acc r).2 ≤ acc.2 + g.size ∧
          (∀ q ∈ (collectRow g acc r).1, q ∈ acc.1 ∨ g.isCellEmpty q.1 q.2 = true) ∧
          (acc.2 + g.size ≤ 50 → ∀ q : Int × Int, q ∈ acc.1 ∨
            (∃ c, c < g.size ∧ q = ((r : Int), (c : Int)) ∧ g.isCellEmpty q.1 q.2 = true) →
            q ∈ (collectRow g acc r).1) := by
        unfold collectRow
        obtain ⟨h1, h2, h3, h4⟩ := collectCell_fold g r (List.range g.size) acc h
        simp only [List.length_range] at h2 h4
        by_cases hlt : acc.2 < 50
        · simp only [hlt, if_true]
          refine ⟨h1, h2, h3, ?_⟩
          intro h50 q hq
          apply h4 h50
          rcases hq with hq | ⟨c, hc, hq⟩
          · exact Or.inl hq
          · exact Or.inr ⟨c, List.mem_range.2 hc, hq⟩
        · simp only [hlt, if_false]
          refine ⟨h, by omega, fun q hq => Or.inl hq, ?_⟩
          intro h50 q hq
          rcases hq with hq | ⟨c, hc, _⟩
          · exact hq
          · omega
      obtain ⟨s1, s2, s3, s4⟩ := hstep
      obtain ⟨h1, h2, h3, h4⟩ := ih (collectRow g acc r) s1
      refine ⟨h1, by omega, ?_, ?_⟩
      · intro q hq
        rcases h3 q hq with hq | hq
        · exact s3 q hq
        · exact Or.inr hq
      · intro h50 q hq
        apply h4 (by omega)
        rcases hq with hq | ⟨r', hr', hq⟩
        · exact Or.inl (s4 (by omega) q (Or.inl hq))
        · rcases List.mem_cons.1 hr' with rfl | hr'
          · exact Or.inl (s4 (by omega) q (Or.inr hq))
          · exact Or.inr ⟨r', hr', hq⟩

/-- Every candidate of the cascade is an Empty cell of the board. -/
theorem collectEmpty_empty (g : HexGame) :
    ∀ q ∈ collectEmpty g, g.isCellEmpty q.1 q.2 = true := by
  intro q hq
  rcases (collectRow_fold g (List.range g.size) ([], 0) rfl).2.2.1 q hq with h | h
  · simp at h
  · exact h

/-- On a board of at most 50 cells every Empty cell is a candidate of the cascade. -/
theorem mem_collectEmpty_of_small (g : HexGame) (hsize : g.size * g.size ≤ 50)
    (q : Int × Int) (hq : g.isCellEmpty q.1 q.2 = true) : q ∈ collectEmpty g := by
  apply (collectRow_fold g (List.range g.size) ([], 0) rfl).2.2.2
  · simpa using hsize
  · right
    have hb : g.inBounds q.1 q.2 = true := by
      simp only [HexGame.isCellEmpty, Bool.and_eq_true] at hq
      exact hq.1
    rw [inBounds_iff] at hb
    refine ⟨q.1.toNat, List.mem_range.2 (by omega), q.2.toNat, by omega, ?_, hq⟩
    exact Prod.ext (by simp; omega) (by simp; omega)

theorem findBlocker_game :
    ∀ (L : List (Int × Int)) (g : HexGame), (∀ q ∈ L, g.isCellEmpty q.1 q.2 = true) →
      (findBlocker g L).1 = g := by
  intro L
  induction L with
  | nil => intro g _; rfl
  | cons a L ih =>
      intro g h
      have hu := undoMove_makeMove g a.1 a.2 'O' (h a (List.mem_cons_self _ _))
      simp only [findBlocker, hu]
      split
      · rfl
      · exact ih g (fun q hq => h q (List.mem_cons_of_mem _ hq))

theorem findWinningCell_game (keep : Int × Int → Bool) :
    ∀ (L : List (Int × Int)) (g : HexGame), (∀ q ∈ L, g.isCellEmpty q.1 q.2 = true) →
      (findWinningCell keep g L).1 = g := by
  intro L
  induction L with
  | nil => intro g _; rfl
  | cons a L ih =>
      intro g h
      have hu := undoMove_makeMove g a.1 a.2 'X' (h a (List.mem_cons_self _ _))
      have hrest := ih g (fun q hq => h q (List.mem_cons_of_mem _ hq))
      simp only [findWinningCell, hu]
      split
      · exact hrest
      · split
        · rfl
        · exact hrest

theorem spoilStep_fold_game (tc : Nat) :
    ∀ (L : List (Int × Int)) (st : SpoilState),
      (∀ q ∈ L, st.game.isCellEmpty q.1 q.2 = true) →
      (L.foldl (spoilStep tc) st).game = st.game := by
  intro L
  induction L with
  | nil => intro st _; rfl
  | cons a L ih =>
      intro st h
      have hu := undoMove_makeMove st.game a.1 a.2 'O' (h a (List.mem_cons_self _ _))
      have hstep : (spoilStep tc st a).game = st.game := by
        unfold spoilStep
        split
        · rfl
        · simp only [hu]
          split <;> rfl
      simp only [List.foldl_cons]
      rw [ih (spoilStep tc st a) (by rw [hstep]; exact fun q hq => h q (List.mem_cons_of_mem _ hq)),
        hstep]

theorem ruleImmediateLoss_game (tc : Nat) (tp L : List (Int × Int)) (st : HexGame × Best)
    (h : ∀ q ∈ L, st.1.isCellEmpty q.1 q.2 = true) :
    (ruleImmediateLoss tc tp L st).1 = st.1 := by
  unfold ruleImmediateLoss
  have := findBlocker_game L st.1 h
  split
  · simp only
    split
    · split <;> simp [this]
    · rfl
  · rfl

theorem ruleBlockWinningCell_game (L : List (Int × Int)) (st : HexGame × Best)
    (h : ∀ q ∈ L, st.1.isCellEmpty q.1 q.2 = true) :
    (ruleBlockWinningCell L st).1 = st.1 := by
  unfold ruleBlockWinningCell
  have := findWinningCell_game (fun _ => true) L st.1 h
  split
  · simp only
    split <;> simp [this]
  · rfl

theorem ruleBlockBottomRow_game (L : List (Int × Int)) (st : HexGame × Best)
    (h : ∀ q ∈ L, st.1.isCellEmpty q.1 q.2 = true) :
    (ruleBlockBottomRow L st).1 = st.1 := by
  unfold ruleBlockBottomRow
  have := findWinningCell_game (fun cell => cell.1 == (st.1.size : Int) - 1) L st.1 h
  split
  · simp only
    split <;> simp [this]
  · rfl

theorem ruleSpoilBottomRow_game (tc : Nat) (L : List (Int × Int)) (st : HexGame × Best)
    (h : ∀ q ∈ L, st.1.isCellEmpty q.1 q.2 = true) :
    (ruleSpoilBottomRow tc L st).1 = st.1 := by
  unfold ruleSpoilBottomRow
  split
  · simp only
    split
    · exact spoilStep_fold_game tc L _ h
    · rfl
  · rfl

theorem threatStep_inv (g : HexGame) (tc : Nat) (P : List (Int × Int)) (st : ThreatState)
    (a : Int × Int) (ha : g.isCellEmpty a.1 a.2 = true) (hr : 0 ≤ raiseOf g tc a)
    (h : ThreatInv g tc P st) : ThreatInv g tc (P ++ [a]) (threatStep tc st a) := by
  obtain ⟨hg, hmax, hsel⟩ := h
  have hu := undoMove_makeMove g a.1 a.2 'O' ha
  unfold threatStep
  simp only [hg, hu]
  have hraise : (minMovesForXToWin (g.makeMove a.1 a.2 'O').2 : Int) - (tc : Int)
      = raiseOf g tc a := rfl
  rw [hraise]
  split
  · rename_i hcond
    refine ⟨rfl, ?_, Or.inr ⟨a, by simp, rfl, rfl⟩⟩
    intro q hq
    rcases List.mem_append.1 hq with hq | hq
    · have := hmax q hq
      simp only
      rcases hcond with h1 | h1 | h1 <;> omega
    · simp only [List.mem_singleton] at hq; subst hq; exact le_refl _
  · rename_i hcond
    have hle : raiseOf g tc a ≤ st.bestRaise := by
      by_contra hlt
      exact hcond (Or.inl (by omega))
    refine ⟨rfl, ?_, ?_⟩
    · intro q hq
      rcases List.mem_append.1 hq with hq | hq
      · exact hmax q hq
      · simp only [List.mem_singleton] at hq; subst hq; exact hle
    · rcases hsel with ⟨_, h1⟩ | ⟨q, hq, h1⟩
      · omega
      · exact Or.inr ⟨q, List.mem_append_left _ hq, h1⟩

theorem threatStep_fold_inv (g : HexGame) (tc : Nat) :
    ∀ (L P : List (Int × Int)) (st : ThreatState),
      (∀ q ∈ L, g.isCellEmpty q.1 q.2 = true ∧ 0 ≤ raiseOf g tc q) →
      ThreatInv g tc P st → ThreatInv g tc (P ++ L) (L.foldl (threatStep tc) st) := by
  intro L
  induction L with
  | nil => intro P st _ h; simpa using h
  | cons a L ih =>
      intro P st hL h
      obtain ⟨ha, hr⟩ := hL a (List.mem_cons_self _ _)
      have := ih (P ++ [a]) (threatStep tc st a)
        (fun q hq => hL q (List.mem_cons_of_mem _ hq)) (threatStep_inv g tc P st a ha hr h)
      simpa using this

theorem isCellEmpty_row_ne (g : HexGame) (q : Int × Int) (h : g.isCellEmpty q.1 q.2 = true) :
    (q.1 == -1) = false := by
  simp only [HexGame.isCellEmpty, Bool.and_eq_true] at h
  have := (inBounds_iff g q.1 q.2).1 h.1
  simp only [beq_eq_false_iff_ne, ne_eq]
  omega

theorem raiseOf_nonneg (g : HexGame) (q : Int × Int) (h : g.isCellEmpty q.1 q.2 = true) :
    0 ≤ raiseOf g (minMovesForXToWin g) q := by
  unfold raiseOf
  rw [makeMove_of_empty g q.1 q.2 'O' h]
  simp only
  have : minMovesForXToWin g ≤ minMovesForXToWin (g.setCell q.1 q.2 'O') :=
    core_setCell_opp q.1 q.2 (edgeSpec_X g) (edgeSpec_X (g.setCell q.1 q.2 'O'))
  omega

/-- Under a short threat (`threatCost <= 2`) with at least one candidate, the cascade
leaves the board as it found it and chooses a candidate whose raise of X's cost is the
largest among all candidates. -/
theorem cascade_short_threat (g : HexGame) (aiFirstMove : Bool) (plR plC : Int)
    (hc : minMovesForXToWin g ≤ 2) (hne : collectEmpty g ≠ []) :
    ∃ cell ∈ collectEmpty g,
      cascade g aiFirstMove plR plC =
        ((g, ⟨cell.1, cell.2, 4000000⟩), aiFirstMove) ∧
      ∀ q ∈ collectEmpty g,
        raiseOf g (minMovesForXToWin g) q ≤ raiseOf g (minMovesForXToWin g) cell := by
  have hE := collectEmpty_empty g
  -- the four rules before the short-threat rule restore the board
  generalize hst1 : ruleImmediateLoss (minMovesForXToWinPath g).1
    ((minMovesForXToWinPath g).2.getD []) (collectEmpty g) (g, ⟨-1, -1, -1000000000⟩) = st1
  have h1 : st1.1 = g := by
    rw [← hst1]; exact ruleImmediateLoss_game _ _ _ _ hE
  generalize hst2 : ruleBlockWinningCell (collectEmpty g) st1 = st2
  have h2 : st2.1 = g := by
    rw [← hst2, ruleBlockWinningCell_game _ _ (by rw [h1]; exact hE), h1]
  generalize hst3 : ruleBlockBottomRow (collectEmpty g) st2 = st3
  have h3 : st3.1 = g := by
    rw [← hst3, ruleBlockBottomRow_game _ _ (by rw [h2]; exact hE), h2]
  generalize hst4 : ruleSpoilBottomRow (minMovesForXToWinPath g).1 (collectEmpty g) st3 = st4
  have h4 : st4.1 = g := by
    rw [← hst4, ruleSpoilBottomRow_game _ _ _ (by rw [h3]; exact hE), h3]
  -- the loop of the short-threat rule
  have hfold := fun b1 => threatStep_fold_inv g (minMovesForXToWin g) (collectEmpty g) []
    { game := st4.1, bestRaise := -1, bestCenter := 1000000, bestRowBias := -1, best := b1 }
    (fun q hq => ⟨hE q hq, raiseOf_nonneg g q (hE q hq)⟩) ⟨h4, by simp, Or.inl ⟨rfl, rfl⟩⟩
  have hloop : ∀ b1 : Best, ∃ cell ∈ collectEmpty g,
      (((collectEmpty g).foldl (threatStep (minMovesForXToWin g))
          { game := st4.1, bestRaise := -1, bestCenter := 1000000, bestRowBias := -1,
            best := b1 }).game,
        ((collectEmpty g).foldl (threatStep (minMovesForXToWin g))
          { game := st4.1, bestRaise := -1, bestCenter := 1000000, bestRowBias := -1,
            best := b1 }).best) = (g, (⟨cell.1, cell.2, 4000000⟩ : Best)) ∧
      ∀ q ∈ collectEmpty g,
        raiseOf g (minMovesForXToWin g) q ≤ raiseOf g (minMovesForXToWin g) cell := by
    intro b1
    obtain ⟨k1, k2, k3⟩ := hfold b1
    simp only [List.nil_append] at k2 k3
    rcases k3 with ⟨k3, _⟩ | ⟨cell, hcell, k4, k6⟩
    · exact absurd k3 hne
    · refine ⟨cell, hcell, Prod.ext k1 k4, ?_⟩
      intro q hq
      rw [← k6]
      exact k2 q hq
  have hshort : ∃ cell ∈ collectEmpty g,
      ruleShortThreat (minMovesForXToWin g) ((minMovesForXToWinPath g).2.getD [])
        (collectEmpty g) st4 = (g, ⟨cell.1, cell.2, 4000000⟩) ∧
      ∀ q ∈ collectEmpty g,
        raiseOf g (minMovesForXToWin g) q ≤ raiseOf g (minMovesForXToWin g) cell := by
    unfold ruleShortThreat
    rw [if_pos hc]
    exact hloop _
  obtain ⟨cell, hcell, hres, hmax⟩ := hshort
  refine ⟨cell, hcell, ?_, hmax⟩
  have hrow := isCellEmpty_row_ne g cell (hE cell hcell)
  have hchoose : cascade g aiFirstMove plR plC =
      (ruleOwnPath ⟨plR, plC, (minMovesForXToWinPath g).1, (minMovesForXToWinPath g).2.getD [],
          (minMovesForOToWinPath g).1, (minMovesForOToWinPath g).2.getD []⟩
        (ruleSearch ⟨plR, plC, (minMovesForXToWinPath g).1, (minMovesForXToWinPath g).2.getD [],
          (minMovesForOToWinPath g).1, (minMovesForOToWinPath g).2.getD []⟩ (collectEmpty g)
          aiFirstMove
          (ruleReinforceThreatPath ⟨plR, plC, (minMovesForXToWinPath g).1,
            (minMovesForXToWinPath g).2.getD [],
            (minMovesForOToWinPath g).1, (minMovesForOToWinPath g).2.getD []⟩
            (ruleShortThreat (minMovesForXToWin g) ((minMovesForXToWinPath g).2.getD [])
              (collectEmpty g) st4))).1,
       (ruleSearch ⟨plR, plC, (minMovesForXToWinPath g).1, (minMovesForXToWinPath g).2.getD [],
          (minMovesForOToWinPath g).1, (minMovesForOToWinPath g).2.getD []⟩ (collectEmpty g)
          aiFirstMove
          (ruleReinforceThreatPath ⟨plR, plC, (minMovesForXToWinPath g).1,
            (minMovesForXToWinPath g).2.getD [],
            (minMovesForOToWinPath g).1, (minMovesForOToWinPath g).2.getD []⟩
            (ruleShortThreat (minMovesForXToWin g) ((minMovesForXToWinPath g).2.getD [])
              (collectEmpty g) st4))).2) := by
    rw [← hst4, ← hst3, ← hst2, ← hst1]
    rfl
  rw [hchoose, hres]
  simp [ruleReinforceThreatPath, ruleSearch, ruleOwnPath, hrow]

end Gui

theorem no_route_of_wall (g : HexGame) (h : ∀ r : Int, g.board r 0 = 'O') :
    ¬ ∃ route, SideRoute g 'X' route := by
  rintro ⟨route, h1, _, ⟨a, ha, hsa⟩, _⟩
  have hmem : a ∈ route := List.mem_of_mem_head? ha
  have hno := (h1 a hmem).2
  simp only [onStartEdge, if_true] at hsa
  apply hno
  rw [hsa]
  exact h a.1

/-- C6 (failing input): on `wallBoard` no route of X exists, yet `minMovesForXToWin`
returns `536870911 = INT_MAX / 4`, not the sentinel `1000000000`. -/
theorem minMovesForXToWin_wallBoard :
    (¬ ∃ route, SideRoute wallBoard 'X' route) ∧
    Gui.minMovesForXToWin wallBoard = 536870911 ∧
    Gui.minMovesForXToWin wallBoard ≠ INF := by
  refine ⟨no_route_of_wall wallBoard (fun r => by simp [wallBoard]), ?_, ?_⟩ <;> decide!

/-- On `wallGapBoard`, a position of a finished game in which O is connected and no
route of X exists, `minMovesForXToWin` returns a cost below the sentinel and writes the
path `[(3,1)]`. -/
theorem minMovesForXToWinPath_wallGapBoard :
    (¬ ∃ route, SideRoute wallGapBoard 'X' route) ∧
    Gui.minMovesForXToWinPath wallGapBoard = (536870912, some [(3, 1)]) := by
  refine ⟨no_route_of_wall wallGapBoard (fun r => by simp [wallGapBoard]), ?_⟩
  decide!

/-- C9 (counterexample): on `doubleThreatBoard` X's cost is 1, the cascade chooses
`(5,3)`, and on the board after that O move X's cost is still 1 and O is not connected. -/
theorem cascade_double_threat :
    Gui.minMovesForXToWin doubleThreatBoard = 1 ∧
    Gui.chosenCell doubleThreatBoard false 5 2 = some (5, 3) ∧
    ¬ (1 < Gui.minMovesForXToWin (Gui.triggerAIMove doubleThreatBoard false 5 2).1 ∨
      Gui.checkWin (Gui.triggerAIMove doubleThreatBoard false 5 2).1 'O' = true) := by
  decide!

/-- C9 (amended): on every board on which X's cost is 1 and some candidate of the
cascade (one of the first 50 Empty cells in row-major order), played as O, raises X's cost
above 1, the cascade chooses an Empty cell, plays O there, and X's cost on the resulting
board is greater than 1. -/
theorem cascade_blocks_single_threat (g : HexGame) (aiFirstMove : Bool) (plR plC : Int)
    (hcost : Gui.minMovesForXToWin g = 1) (q : Int × Int) (hq : q ∈ Gui.collectEmpty g)
    (hblock : 1 < Gui.minMovesForXToWin (g.makeMove q.1 q.2 'O').2) :
    ∃ cell, Gui.chosenCell g aiFirstMove plR plC = some cell ∧
      g.isCellEmpty cell.1 cell.2 = true ∧
      (Gui.triggerAIMove g aiFirstMove plR plC).1 = (g.makeMove cell.1 cell.2 'O').2 ∧
      1 < Gui.minMovesForXToWin (Gui.triggerAIMove g aiFirstMove plR plC).1 := by
  obtain ⟨cell, hcell, hres, hmax⟩ := Gui.cascade_short_threat g aiFirstMove plR plC
    (by omega) (List.ne_nil_of_mem hq)
  have hempty := Gui.collectEmpty_empty g cell hcell
  have hrow := Gui.isCellEmpty_row_ne g cell hempty
  have hne : (cell.1 != -1) = true := by simp [bne, hrow]
  have h1 : Gui.chosenCell g aiFirstMove plR plC = some cell := by
    simp only [Gui.chosenCell, hres, hne, if_true]
  have h2 : (Gui.triggerAIMove g aiFirstMove plR plC).1 = (g.makeMove cell.1 cell.2 'O').2 := by
    simp only [Gui.triggerAIMove, hres, hne, if_true]
  refine ⟨cell, h1, hempty, h2, ?_⟩
  rw [h2]
  have := hmax q hq
  unfold Gui.raiseOf at this
  omega

/-- Witness of the amended C9 on `singleGapBoard`, where `(6,4)` is the blocking cell. -/
theorem cascade_blocks_single_threat_witness :
    ∃ cell, Gui.chosenCell singleGapBoard false 6 3 = some cell ∧
      singleGapBoard.isCellEmpty cell.1 cell.2 = true ∧
      (Gui.triggerAIMove singleGapBoard false 6 3).1
        = (singleGapBoard.makeMove cell.1 cell.2 'O').2 ∧
      1 < Gui.minMovesForXToWin (Gui.triggerAIMove singleGapBoard false 6 3).1 :=
  cascade_blocks_single_threat singleGapBoard false 6 3 (by decide!) (6, 4) (by decide!)
    (by decide!)

/-- C10 (failing input): on `lateGapBoard` X is not connected and `(7,4)` is the one
Empty cell on which an X stone connects X, yet the cascade chooses a cell other than
`(7,4)`: it chooses among the first 50 Empty cells, and `(7,4)` is the 51st. -/
theorem cascade_misses_late_gap :
    Gui.checkWin lateGapBoard 'X' = false ∧
    (∀ r < 8, ∀ c < 8, lateGapBoard.isCellEmpty (r : Nat) (c : Nat) = true →
      (Gui.checkWin (lateGapBoard.makeMove (r : Nat) (c : Nat) 'X').2 'X' = true ↔
        (r = 7 ∧ c = 4))) ∧
    (7, 4) ∉ Gui.collectEmpty lateGapBoard ∧
    ∃ cell, Gui.chosenCell lateGapBoard false 7 3 = some cell ∧ cell ≠ (7, 4) := by
  have hmem : ((7, 4) : Int × Int) ∉ Gui.collectEmpty lateGapBoard := by decide!
  refine ⟨by decide!, by decide!, hmem, ?_⟩
  obtain ⟨cell, hcell, hres, _⟩ := Gui.cascade_short_threat lateGapBoard false 7 3
    (by decide!) (by decide!)
  have hempty := Gui.collectEmpty_empty lateGapBoard cell hcell
  have hrow := Gui.isCellEmpty_row_ne lateGapBoard cell hempty
  have hne : (cell.1 != -1) = true := by simp [bne, hrow]
  refine ⟨cell, by simp only [Gui.chosenCell, hres, hne, if_true], ?_⟩
  intro h
  rw [h] at hcell
  exact hmem hcell

theorem chainLen_unique {parent : Nat → Int} {v j k : Nat}
    (h1 : ChainLen parent v j) (h2 : ChainLen parent v k) : j = k := by
  induction h1 generalizing k with
  | root v hv =>
      cases h2 with
      | root _ _ => rfl
      | step _ u _ hu _ => rw [hv] at hu; omega
  | step v u j hu _ ih =>
      cases h2 with
      | root _ hv => rw [hv] at hu; omega
      | step _ u' k' hu' h' =>
          have : u = u' := by rw [hu] at hu'; exact_mod_cast hu'
          subst this
          rw [ih h']

theorem onChain_chainLen {parent : Nat → Int} {a v k : Nat}
    (h : OnChain parent a v) (hk : ChainLen parent v k) : ∃ j, j ≤ k ∧ ChainLen parent a j := by
  induction h generalizing k with
  | self => exact ⟨k, le_refl _, hk⟩
  | step v u hu _ ih =>
      cases hk with
      | root _ hv => rw [hv] at hu; omega
      | step _ u' k' hu' h' =>
          have : u = u' := by rw [hu] at hu'; exact_mod_cast hu'
          subst this
          obtain ⟨j, hj, hc⟩ := ih h'
          exact ⟨j, by omega, hc⟩

theorem onChain_dist_le {g : HexGame} {st : CostState} (hp : ParentInv g st) {a v : Nat}
    (h : OnChain st.parent a v) : st.dist a ≤ st.dist v := by
  induction h with
  | self => exact le_refl _
  | step v u hu _ ih =>
      rcases hp.parentLe v with h1 | ⟨u', h1, _, h3⟩
      · rw [h1] at hu; omega
      · have : u = u' := by rw [hu] at h1; exact_mod_cast h1
        subst this
        omega

/-- A parent chain of `k` steps visits `k + 1` different cells, so `k` is below the
number of cells. -/
theorem chainLen_lt {g : HexGame} {st : CostState} (hp : ParentInv g st) {v k : Nat}
    (hv : v < g.size * g.size) (h : ChainLen st.parent v k) : k < g.size * g.size := by
  have key : ∀ {v k : Nat}, v < g.size * g.size → ChainLen st.parent v k →
      ∃ l : List Nat, l.length = k + 1 ∧ l.Nodup ∧
        ∀ x ∈ l, x < g.size * g.size ∧ ∃ j, j ≤ k ∧ ChainLen st.parent x j := by
    intro v k hv h
    induction h with
    | root v hr =>
        refine ⟨[v], rfl, by simp, ?_⟩
        intro x hx
        simp only [List.mem_singleton] at hx
        subst hx
        exact ⟨hv, 0, le_refl _, ChainLen.root x hr⟩
    | step v u k hu hc ih =>
        have hu' : u < g.size * g.size := by
          rcases hp.parentLe v with h1 | ⟨u', h1, h2, _⟩
          · rw [h1] at hu; omega
          · have : u = u' := by rw [hu] at h1; exact_mod_cast h1
            subst this; exact h2
        obtain ⟨l, hl, hn, hx⟩ := ih hu'
        refine ⟨v :: l, by simp [hl], ?_, ?_⟩
        · refine List.nodup_cons.2 ⟨?_, hn⟩
          intro hmem
          obtain ⟨_, j, hj, hcj⟩ := hx v hmem
          have := chainLen_unique hcj (ChainLen.step v u k hu hc)
          omega
        · intro x hxm
          rcases List.mem_cons.1 hxm with rfl | hxm
          · exact ⟨hv, k + 1, le_refl _, ChainLen.step _ u k hu hc⟩
          · obtain ⟨h1, j, hj, hcj⟩ := hx x hxm
            exact ⟨h1, j, by omega, hcj⟩
  obtain ⟨l, hl, hn, hx⟩ := key hv h
  have hsub : l ⊆ List.range (g.size * g.size) := fun x hxm =>
    List.mem_range.2 (hx x hxm).1
  have := (List.subperm_of_subset hn hsub).length_le
  simp only [List.length_range] at this
  omega

theorem parentInv_update {g : HexGame} {st : CostState} (hp : ParentInv g st)
    (v nv x : Nat) (hv : v < g.size * g.size) (hnv : nv < g.size * g.size)
    (hx : st.dist v ≤ x) (hlt : x < st.dist nv) :
    ParentInv g
      { dist := fun i => if i = nv then x else st.dist i
        parent := fun i => if i = nv then (v : Int) else st.parent i
        pq := (x, nv) :: st.pq } := by
  have hvne : v ≠ nv := by
    intro h; subst h; omega
  have hoff : ∀ a, OnChain st.parent a v → a ≠ nv := by
    intro a ha h
    subst h
    have := onChain_dist_le hp ha
    omega
  -- chains that avoid `nv` survive unchanged
  have keep : ∀ {w k : Nat}, ChainLen st.parent w k → (∀ a, OnChain st.parent a w → a ≠ nv) →
      ChainLen (fun i => if i = nv then (v : Int) else st.parent i) w k := by
    intro w k h
    induction h with
    | root w hr =>
        intro hoffw
        have : w ≠ nv := hoffw w OnChain.self
        exact ChainLen.root w (by simp [this, hr])
    | step w u k hu _ ih =>
        intro hoffw
        have hw : w ≠ nv := hoffw w OnChain.self
        refine ChainLen.step w u k (by simp [hw, hu]) (ih ?_)
        intro a ha
        exact hoffw a (OnChain.step w u hu ha)
  obtain ⟨kv, hkv⟩ := hp.rooted v
  have hv' := keep hkv hoff
  refine ⟨?_, ?_, ?_⟩
  · intro e he
    rcases List.mem_cons.1 he with rfl | he
    · exact hnv
    · exact hp.pqIn e he
  · intro w
    by_cases hw : w = nv
    · subst hw
      right
      refine ⟨v, by simp, hv, ?_⟩
      simp only [hvne, if_false, if_true]
      exact hx
    · rcases hp.parentLe w with h1 | ⟨u, h1, h2, h3⟩
      · left; simp [hw, h1]
      · right
        refine ⟨u, by simp [hw, h1], h2, ?_⟩
        simp only [hw, if_false]
        by_cases hu : u = nv
        · subst hu; simp only [if_true]; omega
        · simp only [hu, if_false]; exact h3
  · intro w
    obtain ⟨k, hk⟩ := hp.rooted w
    induction hk with
    | root w hr =>
        by_cases hw : w = nv
        · subst hw
          exact ⟨kv + 1, ChainLen.step w v kv (by simp) hv'⟩
        · exact ⟨0, ChainLen.root w (by simp [hw, hr])⟩
    | step w u k hu _ ih =>
        by_cases hw : w = nv
        · subst hw
          exact ⟨kv + 1, ChainLen.step w v kv (by simp) hv'⟩
        · obtain ⟨k', hk'⟩ := ih
          exact ⟨k' + 1, ChainLen.step w u k' (by simp [hw, hu]) hk'⟩

/-- The two outcomes of one relaxation step: nothing changes, or the distance of the
neighbour `q` is lowered to `d + stepCost q`, its parent set to `v`, and the pair pushed. -/
theorem relaxStep_cases (g : HexGame) (own opp : Char) (d v : Nat) (st : CostState)
    (dir : Int × Int) :
    relaxStep g own opp d v st dir = st ∨
      (g.inBounds ((cellOf g v).1 + dir.1) ((cellOf g v).2 + dir.2) = true ∧
        d + stepCost g own ((cellOf g v).1 + dir.1, (cellOf g v).2 + dir.2)
          < st.dist (cellId g ((cellOf g v).1 + dir.1, (cellOf g v).2 + dir.2)) ∧
        relaxStep g own opp d v st dir =
          { dist := fun i =>
              if i = cellId g ((cellOf g v).1 + dir.1, (cellOf g v).2 + dir.2)
              then d + stepCost g own ((cellOf g v).1 + dir.1, (cellOf g v).2 + dir.2)
              else st.dist i
            parent := fun i =>
              if i = cellId g ((cellOf g v).1 + dir.1, (cellOf g v).2 + dir.2)
              then (v : Int) else st.parent i
            pq := (d + stepCost g own ((cellOf g v).1 + dir.1, (cellOf g v).2 + dir.2),
              cellId g ((cellOf g v).1 + dir.1, (cellOf g v).2 + dir.2)) :: st.pq }) := by
  unfold relaxStep
  simp only
  by_cases hb : g.inBounds ((cellOf g v).1 + dir.1) ((cellOf g v).2 + dir.2) = true
  case neg =>
    have hcond : ((v / g.size : Nat) : Int) + dir.1 < 0 ∨
        ((v / g.size : Nat) : Int) + dir.1 ≥ g.size ∨
        ((v % g.size : Nat) : Int) + dir.2 < 0 ∨ ((v % g.size : Nat) : Int) + dir.2 ≥ g.size := by
      rw [inBounds_iff] at hb
      simp only [cellOf] at hb
      omega
    rw [if_pos hcond]
    exact Or.inl rfl
  case pos =>
    have hcond : ¬ (((v / g.size : Nat) : Int) + dir.1 < 0 ∨
        ((v / g.size : Nat) : Int) + dir.1 ≥ g.size ∨
        ((v % g.size : Nat) : Int) + dir.2 < 0 ∨ ((v % g.size : Nat) : Int) + dir.2 ≥ g.size) := by
      have hb' := hb
      rw [inBounds_iff] at hb'
      simp only [cellOf] at hb'
      omega
    rw [if_neg hcond]
    by_cases ho : (g.board (((v / g.size : Nat) : Int) + dir.1)
        (((v % g.size : Nat) : Int) + dir.2) == opp) = true
    · rw [if_pos ho]
      exact Or.inl rfl
    · rw [if_neg ho]
      have hid : ((((v / g.size : Nat) : Int) + dir.1) * (g.size : Int) +
          (((v % g.size : Nat) : Int) + dir.2)).toNat
          = cellId g ((cellOf g v).1 + dir.1, (cellOf g v).2 + dir.2) := rfl
      have hadd : (if (g.board (((v / g.size : Nat) : Int) + dir.1)
          (((v % g.size : Nat) : Int) + dir.2) == own) = true then 0 else 1)
          = stepCost g own ((cellOf g v).1 + dir.1, (cellOf g v).2 + dir.2) := rfl
      rw [hid, hadd]
      by_cases hlt : st.dist (cellId g ((cellOf g v).1 + dir.1, (cellOf g v).2 + dir.2))
          > d + stepCost g own ((cellOf g v).1 + dir.1, (cellOf g v).2 + dir.2)
      · rw [if_pos hlt]
        exact Or.inr ⟨hb, hlt, rfl⟩
      · rw [if_neg hlt]
        exact Or.inl rfl

theorem relaxStep_parentInv {g : HexGame} {own opp : Char} {d v : Nat} {st : CostState}
    (dir : Int × Int) (hv : v < g.size * g.size) (hd : st.dist v = d) (hp : ParentInv g st) :
    ParentInv g (relaxStep g own opp d v st dir) ∧
      (relaxStep g own opp d v st dir).dist v = d := by
  rcases relaxStep_cases g own opp d v st dir with h | ⟨hb, hlt, h⟩
  · rw [h]; exact ⟨hp, hd⟩
  · rw [h]
    refine ⟨parentInv_update hp v _ _ hv (cellId_lt g _ hb) (by omega) hlt, ?_⟩
    have hne : v ≠ cellId g ((cellOf g v).1 + dir.1, (cellOf g v).2 + dir.2) := by
      intro heq
      rw [← heq] at hlt
      omega
    simp only [hne, if_false]
    exact hd

theorem relaxStep_fold_parentInv {g : HexGame} {own opp : Char} {d v : Nat}
    (hv : v < g.size * g.size) :
    ∀ (ds : List (Int × Int)) (st : CostState), st.dist v = d → ParentInv g st →
      ParentInv g (ds.foldl (relaxStep g own opp d v) st) := by
  intro ds
  induction ds with
  | nil => intro st _ hp; exact hp
  | cons x ds ih =>
      intro st hd hp
      obtain ⟨h1, h2⟩ := @relaxStep_parentInv g own opp d v st x hv hd hp
      exact ih _ h2 h1

/-- The relaxation loop keeps the invariant of the parent pointers. -/
theorem relaxLoop_parentInv {g : HexGame} {own opp : Char} :
    ∀ (fuel : Nat) (st : CostState), ParentInv g st →
      ParentInv g (relaxLoop g own opp fuel st) := by
  intro fuel
  induction fuel with
  | zero => intro st hp; exact hp
  | succ fuel ih =>
      intro st hp
      unfold relaxLoop
      cases htop : pqTop st.pq with
      | none => exact hp
      | some e =>
          obtain ⟨d, v⟩ := e
          have hmem := pqTop_mem htop
          have hv := hp.pqIn _ hmem
          have hp1 : ParentInv g { st with pq := st.pq.erase (d, v) } :=
            ⟨fun e he => hp.pqIn e (List.mem_of_mem_erase he), hp.parentLe, hp.rooted⟩
          simp only
          by_cases hstale : d ≠ st.dist v ∨ d ≥ INF
          · rw [if_pos hstale]
            exact ih _ hp1
          · rw [if_neg hstale]
            have hd : st.dist v = d := by
              by_contra hne
              exact hstale (Or.inl (fun h' => hne h'.symm))
            exact ih _ (relaxStep_fold_parentInv hv kHexDirections _ hd hp1)

/-- In the state in which `minMovesCore` leaves the relaxation loop every parent chain
ends. -/
theorem finalState_parentInv (g : HexGame) (own opp : Char) (startCell : Nat → Int × Int)
    (S : Int × Int → Prop)
    (hin : ∀ p ∈ (List.range g.size).map startCell, g.inBounds p.1 p.2 = true ∧ S p) :
    ParentInv g (finalState g own opp startCell) := by
  have h0 : SeedInv g own opp S { dist := fun _ => INF, parent := fun _ => -1, pq := [] } :=
    ⟨fun _ => le_refl _, by simp, by simp, by simp, by simp⟩
  obtain ⟨h1, _, _, _⟩ := costSeed_fold g own opp S _ _ hin h0
  apply relaxLoop_parentInv
  exact ⟨h1.pqIn, fun v => Or.inl (h1.noParent v),
    fun v => ⟨0, ChainLen.root v (h1.noParent v)⟩⟩

theorem backtrack_root (g : HexGame) (parent : Nat → Int) (fuel : Nat)
    (acc : List (Int × Int)) : backtrack g parent fuel (-1) acc = acc := by
  cases fuel <;> simp [backtrack]

theorem backtrack_of_chainLen (g : HexGame) (parent : Nat → Int) {v k : Nat}
    (h : ChainLen parent v k) :
    ∀ (extra : Nat) (acc : List (Int × Int)),
      backtrack g parent (k + extra + 1) (v : Int) acc
        = backtrack g parent (k + 1) (v : Int) acc := by
  induction h with
  | root v hr =>
      intro extra acc
      have hne : ¬ ((v : Int) = -1) := by omega
      simp only [backtrack, hne, if_false, Int.toNat_natCast, hr, backtrack_root]
  | step v u k hu _ ih =>
      intro extra acc
      have hne : ¬ ((v : Int) = -1) := by omega
      have e1 : k + 1 + extra + 1 = (k + extra + 1) + 1 := by omega
      rw [e1]
      simp only [backtrack, hne, if_false, Int.toNat_natCast, hu]
      exact ih extra _

/-- The fuel `size * size + 1` that `minMovesCore` gives the backtracking loop is enough:
from every cell the walk along the parent pointers reaches `-1` before the fuel runs out,
so that more fuel leaves the path unchanged. -/
theorem backtrack_fuel_enough (g : HexGame) (own opp : Char) (startCell : Nat → Int × Int)
    (S : Int × Int → Prop)
    (hin : ∀ p ∈ (List.range g.size).map startCell, g.inBounds p.1 p.2 = true ∧ S p)
    (v : Nat) (hv : v < g.size * g.size) (extra : Nat) (acc : List (Int × Int)) :
    backtrack g (finalState g own opp startCell).parent (g.size * g.size + 1 + extra) (v : Int) acc
      = backtrack g (finalState g own opp startCell).parent (g.size * g.size + 1) (v : Int) acc := by
  have hp := finalState_parentInv g own opp startCell S hin
  obtain ⟨k, hk⟩ := hp.rooted v
  have hlt := chainLen_lt hp hv hk
  have e1 : g.size * g.size + 1 + extra = k + (g.size * g.size - k + extra) + 1 := by omega
  have e2 : g.size * g.size + 1 = k + (g.size * g.size - k) + 1 := by omega
  rw [e1, backtrack_of_chainLen g _ hk]
  conv_rhs => rw [e2, backtrack_of_chainLen g _ hk]

theorem relaxStep_not_opp (g : HexGame) (own opp : Char) (d v : Nat) (st : CostState)
    (dir : Int × Int)
    (h : relaxStep g own opp d v st dir ≠ st) :
    g.board ((cellOf g v).1 + dir.1) ((cellOf g v).2 + dir.2) ≠ opp := by
  intro ho
  apply h
  unfold relaxStep
  simp only
  split
  · rfl
  · have ho' : (g.board (((v / g.size : Nat) : Int) + dir.1)
        (((v % g.size : Nat) : Int) + dir.2) == opp) = true := by
      simpa using ho
    rw [if_pos ho']

theorem relaxStep_treeInv {g : HexGame} {own opp : Char} {S : Int × Int → Prop} {d v : Nat}
    {st : CostState} (dir : Int × Int) (hdir : dir ∈ kHexDirections)
    (hv : v < g.size * g.size) (ht : TreeInv g own opp S st) :
    TreeInv g own opp S (relaxStep g own opp d v st dir) := by
  by_cases hsame : relaxStep g own opp d v st dir = st
  · rw [hsame]; exact ht
  · have hno := relaxStep_not_opp g own opp d v st dir hsame
    rcases relaxStep_cases g own opp d v st dir with h | ⟨hb, hlt, h⟩
    · exact absurd h hsame
    · rw [h]
      have hcq := cellOf_cellId g ((cellOf g v).1 + dir.1, (cellOf g v).2 + dir.2) hb
      refine ⟨?_, ?_⟩
      · intro w u hw
        by_cases hwn : w = cellId g ((cellOf g v).1 + dir.1, (cellOf g v).2 + dir.2)
        · subst hwn
          simp only [if_true] at hw
          have huv : u = v := by exact_mod_cast hw.symm
          subst huv
          refine ⟨cellId_lt g ((cellOf g u).1 + dir.1, (cellOf g u).2 + dir.2) hb, ?_, ?_⟩
          · rw [hcq, hexAdj_iff]
            exact ⟨dir, hdir, rfl⟩
          · rw [hcq]; exact hno
        · simp only [hwn, if_false] at hw
          exact ht.edge w u hw
      · intro w hw hwd hwp
        by_cases hwn : w = cellId g ((cellOf g v).1 + dir.1, (cellOf g v).2 + dir.2)
        · subst hwn
          simp only [if_true] at hwp
          omega
        · simp only [hwn, if_false] at hwd hwp ⊢
          exact ht.rootSeed w hw hwd hwp

theorem relaxStep_fold_treeInv {g : HexGame} {own opp : Char} {S : Int × Int → Prop}
    {d v : Nat} (hv : v < g.size * g.size) :
    ∀ (ds : List (Int × Int)) (st : CostState), (∀ x ∈ ds, x ∈ kHexDirections) →
      TreeInv g own opp S st → TreeInv g own opp S (ds.foldl (relaxStep g own opp d v) st) := by
  intro ds
  induction ds with
  | nil => intro st _ ht; exact ht
  | cons x ds ih =>
      intro st hds ht
      exact ih _ (fun y hy => hds y (List.mem_cons_of_mem _ hy))
        (relaxStep_treeInv x (hds x (List.mem_cons_self _ _)) hv ht)

theorem relaxLoop_treeInv {g : HexGame} {own opp : Char} {S : Int × Int → Prop} :
    ∀ (fuel : Nat) (st : CostState), (∀ e ∈ st.pq, e.2 < g.size * g.size) →
      TreeInv g own opp S st →
      TreeInv g own opp S (relaxLoop g own opp fuel st) := by
  intro fuel
  induction fuel with
  | zero => intro st _ ht; exact ht
  | succ fuel ih =>
      intro st hpq ht
      unfold relaxLoop
      cases htop : pqTop st.pq with
      | none => exact ht
      | some e =>
          obtain ⟨d, v⟩ := e
          have hmem := pqTop_mem htop
          have hv := hpq _ hmem
          have hpq1 : ∀ e ∈ st.pq.erase (d, v), e.2 < g.size * g.size :=
            fun e he => hpq e (List.mem_of_mem_erase he)
          have ht1 : TreeInv g own opp S { st with pq := st.pq.erase (d, v) } :=
            ⟨ht.edge, ht.rootSeed⟩
          simp only
          by_cases hstale : d ≠ st.dist v ∨ d ≥ INF
          · rw [if_pos hstale]
            exact ih _ hpq1 ht1
          · rw [if_neg hstale]
            have hd : st.dist v = d := by
              by_contra hne
              exact hstale (Or.inl (fun h' => hne h'.symm))
            apply ih
            · -- queued indices stay cells
              have : ∀ (ds : List (Int × Int)) (s : CostState),
                  (∀ e ∈ s.pq, e.2 < g.size * g.size) →
                  ∀ e ∈ (ds.foldl (relaxStep g own opp d v) s).pq, e.2 < g.size * g.size := by
                intro ds
                induction ds with
                | nil => intro s hs; exact hs
                | cons x ds ihd =>
                    intro s hs
                    apply ihd
                    rcases relaxStep_cases g own opp d v s x with h | ⟨hb, _, h⟩
                    · rw [h]; exact hs
                    · rw [h]
                      intro e he
                      rcases List.mem_cons.1 he with rfl | he
                      · exact cellId_lt g ((cellOf g v).1 + x.1, (cellOf g v).2 + x.2) hb
                      · exact hs e he
              exact this kHexDirections _ hpq1
            · exact relaxStep_fold_treeInv hv kHexDirections _ (fun _ hx => hx) ht1

theorem finalState_treeInv (g : HexGame) (own opp : Char) (startCell : Nat → Int × Int)
    (S : Int × Int → Prop)
    (hin : ∀ p ∈ (List.range g.size).map startCell, g.inBounds p.1 p.2 = true ∧ S p) :
    TreeInv g own opp S (finalState g own opp startCell) := by
  have h0 : SeedInv g own opp S { dist := fun _ => INF, parent := fun _ => -1, pq := [] } :=
    ⟨fun _ => le_refl _, by simp, by simp, by simp, by simp⟩
  obtain ⟨h1, _, _, _⟩ := costSeed_fold g own opp S _ _ hin h0
  apply relaxLoop_treeInv _ _ h1.pqIn
  refine ⟨?_, ?_⟩
  · intro v u hvu
    rw [h1.noParent v] at hvu
    omega
  · intro v hv hvd _
    exact h1.isSeed v hv hvd

theorem cellOf_cast (g : HexGame) (v : Nat) :
    (((v : Int) / (g.size : Int)), ((v : Int) % (g.size : Int))) = cellOf g v := by
  simp only [cellOf]
  push_cast
  rfl

theorem not_opp_of_cellCost_lt {own opp cell : Char} (h : cellCost own opp cell < blockedCost) :
    cell ≠ opp := by
  intro ho
  simp [cellCost, ho] at h

/-- Along a parent chain that starts in a cell of distance below `blockedCost`, the
backtracking loop lists the Empty cells of a route from the start edge to that cell, in
route order. -/
theorem backtrack_route {g : HexGame} {own opp : Char} {S : Int × Int → Prop}
    {st : CostState} (hp : ParentInv g st) (ht : TreeInv g own opp S st) {v k : Nat}
    (h : ChainLen st.parent v k) :
    v < g.size * g.size → st.dist v < blockedCost →
    ∃ route : List (Int × Int), (∀ p ∈ route, NotOwnedBy g opp p) ∧ route.Chain' HexAdj ∧
      (∃ a, route.head? = some a ∧ S a) ∧ route.getLast? = some (cellOf g v) ∧
      ∀ acc, backtrack g st.parent (k + 1) (v : Int) acc
        = route.filter (fun p => g.board p.1 p.2 == '.') ++ acc := by
  have hBI : blockedCost < INF := by decide
  induction h with
  | root v hr =>
      intro hv hd
      obtain ⟨hs, hc⟩ := ht.rootSeed v hv (by omega) hr
      have hno : g.board (cellOf g v).1 (cellOf g v).2 ≠ opp :=
        not_opp_of_cellCost_lt (by rw [← hc]; exact hd)
      refine ⟨[cellOf g v], ?_, by simp, ⟨_, rfl, hs⟩, rfl, ?_⟩
      · intro p hpm
        simp only [List.mem_singleton] at hpm
        subst hpm
        exact ⟨cellOf_inBounds g v hv, hno⟩
      · intro acc
        have hne : ¬ ((v : Int) = -1) := by omega
        have hcell := cellOf_cast g v
        simp only [Prod.ext_iff] at hcell
        simp only [backtrack, hne, if_false, hcell.1, hcell.2, List.filter_cons,
          List.filter_nil]
        split <;> simp
  | step v u k hu _ ih =>
      intro hv hd
      obtain ⟨_, hadj, hno⟩ := ht.edge v u hu
      have hule : u < g.size * g.size ∧ st.dist u ≤ st.dist v := by
        rcases hp.parentLe v with h1 | ⟨u', h1, h2, h3⟩
        · rw [h1] at hu; omega
        · have : u = u' := by rw [hu] at h1; exact_mod_cast h1
          subst this; exact ⟨h2, h3⟩
      obtain ⟨route, r1, r2, r3, r4, r5⟩ := ih hule.1 (by omega)
      refine ⟨route ++ [cellOf g v], ?_, ?_, ?_, by simp, ?_⟩
      · intro p hpm
        rcases List.mem_append.1 hpm with hpm | hpm
        · exact r1 p hpm
        · simp only [List.mem_singleton] at hpm
          subst hpm
          exact ⟨cellOf_inBounds g v hv, hno⟩
      · apply List.Chain'.append r2 (by simp)
        intro x hx y hy
        simp only [List.head?_cons, Option.mem_def, Option.some.injEq] at hy
        rw [Option.mem_def, r4] at hx
        cases hx; subst hy; exact hadj
      · obtain ⟨a, ha, hsa⟩ := r3
        refine ⟨a, ?_, hsa⟩
        cases route with
        | nil => simp at ha
        | cons b rest => simpa using ha
      · intro acc
        have hne : ¬ ((v : Int) = -1) := by omega
        have hcell := cellOf_cast g v
        simp only [Prod.ext_iff] at hcell
        rw [backtrack]
        simp only [hne, if_false, hcell.1, hcell.2, Int.toNat_natCast, hu, r5,
          List.filter_append, List.filter_cons, List.filter_nil, List.append_assoc]
        split <;> simp

section Core

variable {g : HexGame} {own opp : Char} {startCell goalCell : Nat → Int × Int}
  {S G : Int × Int → Prop}

/-- With a route present (and a cell count below `INT_MAX / 4`) the cost is smaller than
the charge of an opponent cell. -/
theorem core_lt_blocked (E : EdgeSpec g startCell goalCell S G) (hsize : g.size ≤ 23170)
    (hex : ∃ route, IsRoute (NotOwnedBy g opp) S G route) :
    (minMovesCore g own opp startCell goalCell).1 < blockedCost := by
  obtain ⟨route, h1, h2, ⟨a, ha, hsa⟩, ⟨z, hz, hg⟩⟩ := hex
  obtain ⟨r', k1, k2, k3, k4, k5⟩ := exists_nodup_route route a z h1 h2 ha hz
  have hr' : IsRoute (NotOwnedBy g opp) S G r' := ⟨k1, k2, ⟨a, k3, hsa⟩, ⟨z, k4, hg⟩⟩
  have hlen := nodup_length_le g r' k5 (fun p hp => (k1 p hp).1)
  have hcost := routeCost_le_length g own r'
  obtain ⟨z', hz', hw⟩ := @walk_of_route g own opp S G r' hr'
  have hle := core_le_walk E hz' hw
  have hsq : g.size * g.size ≤ 23170 * 23170 := Nat.mul_le_mul hsize hsize
  have : (23170 * 23170 : Nat) < blockedCost := by decide
  omega

/-- With a route present, `minMovesCore` writes a path, and the path is the list of the
Empty cells, in route order, of a route from the start edge to the target edge. -/
theorem core_path_route (E : EdgeSpec g startCell goalCell S G) (hsize : g.size ≤ 23170)
    (hex : ∃ route, IsRoute (NotOwnedBy g opp) S G route) :
    ∃ route, IsRoute (NotOwnedBy g opp) S G route ∧
      (minMovesCore g own opp startCell goalCell).2
        = some (route.filter fun p => g.board p.1 p.2 == '.') := by
  have hsmall := @core_lt_blocked g own opp startCell goalCell S G E hsize hex
  have hBI : blockedCost < INF := by decide
  have hp := finalState_parentInv g own opp startCell S E.startIn
  have ht := finalState_treeInv g own opp startCell S E.startIn
  obtain ⟨_, _, h3⟩ := bestStep_fold g (finalState g own opp startCell).dist
    ((List.range g.size).map goalCell) ((-1 : Int), INF)
  have hcost : (minMovesCore g own opp startCell goalCell).1 =
      if (((List.range g.size).map goalCell).foldl
          (bestStep g (finalState g own opp startCell).dist) ((-1 : Int), INF)).2 ≥ INF
      then INF
      else (((List.range g.size).map goalCell).foldl
          (bestStep g (finalState g own opp startCell).dist) ((-1 : Int), INF)).2 := rfl
  have hpath : (minMovesCore g own opp startCell goalCell).2 =
      if (((List.range g.size).map goalCell).foldl
            (bestStep g (finalState g own opp startCell).dist) ((-1 : Int), INF)).1 ≠ -1 ∧
          (((List.range g.size).map goalCell).foldl
            (bestStep g (finalState g own opp startCell).dist) ((-1 : Int), INF)).2 < INF
      then some (backtrack g (finalState g own opp startCell).parent (g.size * g.size + 1)
        (((List.range g.size).map goalCell).foldl
          (bestStep g (finalState g own opp startCell).dist) ((-1 : Int), INF)).1 [])
      else none := rfl
  rcases h3 with h3 | ⟨p, hpm, h3⟩
  · rw [h3] at hcost
    simp only [ge_iff_le, le_refl, if_true] at hcost
    omega
  · rw [h3] at hcost hpath
    simp only at hcost hpath
    have hdist : (finalState g own opp startCell).dist (cellId g p) < blockedCost := by
      split at hcost <;> omega
    have hcond : ((cellId g p : Nat) : Int) ≠ -1 ∧
        (finalState g own opp startCell).dist (cellId g p) < INF := ⟨by omega, by omega⟩
    rw [if_pos hcond] at hpath
    obtain ⟨hpb, hpg⟩ := E.goalIn p hpm
    have hlt := cellId_lt g p hpb
    obtain ⟨k, hk⟩ := hp.rooted (cellId g p)
    have hklt := chainLen_lt hp hlt hk
    obtain ⟨route, r1, r2, r3, r4, r5⟩ := backtrack_route hp ht hk hlt hdist
    refine ⟨route, ⟨r1, r2, r3, ⟨p, ?_, hpg⟩⟩, ?_⟩
    · rw [r4, cellOf_cellId g p hpb]
    · rw [hpath]
      have e2 : g.size * g.size + 1 = k + (g.size * g.size - k) + 1 := by omega
      rw [e2, backtrack_of_chainLen g _ hk, r5]
      simp

end Core

/-- Whenever a route of the side exists (on a board of size at most 23170),
`minMovesForXToWin` / `minMovesForOToWin` writes a path, and the path is exactly the list
of the Empty cells, in route order from the starting edge towards the target edge, of
some route of the side. -/
theorem path_lists_empty_cells_of_route (g : HexGame) (hsize : g.size ≤ 23170) :
    ((∃ route, SideRoute g 'X' route) →
      ∃ route, SideRoute g 'X' route ∧
        (Gui.minMovesForXToWinPath g).2 = some (route.filter fun p => g.board p.1 p.2 == '.')) ∧
    ((∃ route, SideRoute g 'O' route) →
      ∃ route, SideRoute g 'O' route ∧
        (Gui.minMovesForOToWinPath g).2
          = some (route.filter fun p => g.board p.1 p.2 == '.')) := by
  constructor
  · intro hex
    have := @core_path_route g 'X' 'O' _ _ _ _ (edgeSpec_X g) hsize
    simp only [SideRoute, onStartEdge_X, onTargetEdge_X, opponent, if_true] at hex ⊢
    exact this hex
  · intro hex
    have := @core_path_route g 'O' 'X' _ _ _ _ (edgeSpec_O g) hsize
    have ho : opponent 'O' = 'X' := by decide
    simp only [SideRoute, onStartEdge_O, onTargetEdge_O, ho] at hex ⊢
    exact this hex

end Hex

/-! ## The board operations `makeMove`, `undoMove` and `isFull` -/

namespace Hex

theorem makeMove_fst (g : HexGame) (r c : Int) (side : Char) :
    (g.makeMove r c side).1 = (g.inBounds r c && g.board r c == '.') := by
  unfold HexGame.makeMove
  by_cases hb : g.inBounds r c = true <;> by_cases he : g.board r c = '.' <;>
    simp [hb, he]

theorem makeMove_of_not_empty (g : HexGame) (r c : Int) (side : Char)
    (h : g.isCellEmpty r c = false) : g.makeMove r c side = (false, g) := by
  have h1 := makeMove_fst g r c side
  unfold HexGame.isCellEmpty at h
  rw [h] at h1
  unfold HexGame.makeMove at h1 ⊢
  split
  · rfl
  · rename_i hc
    rw [if_neg hc] at h1
    cases h1

theorem setCell_board_self (g : HexGame) (r c : Int) (ch : Char) :
    (g.setCell r c ch).board r c = ch := by
  simp [HexGame.setCell]

theorem setCell_board_ne (g : HexGame) (r c : Int) (ch : Char) (i j : Int)
    (h : (i, j) ≠ (r, c)) : (g.setCell r c ch).board i j = g.board i j := by
  have h2 : ¬ (i = r ∧ j = c) := fun hh => h (Prod.ext hh.1 hh.2)
  simp [HexGame.setCell, h2]

theorem setCell_size (g : HexGame) (r c : Int) (ch : Char) :
    (g.setCell r c ch).size = g.size := rfl

theorem isFull_iff_forall (g : HexGame) :
    g.isFull = true ↔ ∀ r c : Int, g.inBounds r c = true → g.board r c ≠ '.' := by
  unfold HexGame.isFull
  simp only [List.all_eq_true, List.mem_range, bne_iff_ne, ne_eq, inBounds_iff]
  constructor
  · intro h r c ⟨h1, h2, h3, h4⟩
    have := h r.toNat (by omega) c.toNat (by omega)
    rwa [Int.toNat_of_nonneg h1, Int.toNat_of_nonneg h3] at this
  · intro h r hr c hc
    exact h r c ⟨by omega, by omega, by omega, by omega⟩

/-- C11: for every board, all coordinates `(r, c)` (negative and too-large ones included)
and every side, `makeMove(r, c, side)` returns false if and only if `(r, c)` is out of
bounds or the cell is not Empty, and in that case the game it leaves behind is the game it
was called on: every cell is unchanged. -/
theorem makeMove_false_iff_invalid (g : HexGame) (r c : Int) (side : Char) :
    ((g.makeMove r c side).1 = false ↔ (g.inBounds r c = false ∨ g.board r c ≠ '.')) ∧
    ((g.inBounds r c = false ∨ g.board r c ≠ '.') → (g.makeMove r c side).2 = g) := by
  have hiff : (g.inBounds r c = false ∨ g.board r c ≠ '.') ↔ g.isCellEmpty r c = false := by
    unfold HexGame.isCellEmpty
    by_cases hb : g.inBounds r c = true <;> by_cases he : g.board r c = '.' <;> simp [hb, he]
  constructor
  · rw [hiff, makeMove_fst]
    rfl
  · intro h
    rw [makeMove_of_not_empty g r c side (hiff.1 h)]

/-- C12: for every board, every in-bounds Empty cell `(r, c)` and every side,
`makeMove(r, c, side)` returns true, the board afterwards holds `side` at `(r, c)` and is
identical to the original board at every other cell, and the size is unchanged. -/
theorem makeMove_sets_only_that_cell (g : HexGame) (r c : Int) (side : Char)
    (hb : g.inBounds r c = true) (he : g.board r c = '.') :
    (g.makeMove r c side).1 = true ∧
    (g.makeMove r c side).2.board r c = side ∧
    (∀ i j : Int, (i, j) ≠ (r, c) → (g.makeMove r c side).2.board i j = g.board i j) ∧
    (g.makeMove r c side).2.size = g.size := by
  have h : g.isCellEmpty r c = true := by simp [HexGame.isCellEmpty, hb, he]
  rw [makeMove_of_empty g r c side h]
  exact ⟨rfl, setCell_board_self g r c side, fun i j hij => setCell_board_ne g r c side i j hij,
    rfl⟩

theorem makeMove_sets_only_that_cell_witness :
    board5.inBounds 1 3 = true ∧ board5.board 1 3 = '.' ∧
    (board5.makeMove 1 3 'O').1 = true ∧
    (board5.makeMove 1 3 'O').2.board 1 3 = 'O' ∧
    (∀ i j : Int, (i, j) ≠ (1, 3) → (board5.makeMove 1 3 'O').2.board i j = board5.board i j) ∧
    (board5.makeMove 1 3 'O').2.size = board5.size :=
  ⟨by decide, by decide, makeMove_sets_only_that_cell board5 1 3 'O' (by decide) (by decide)⟩

/-- C13: for every board, cell `(r, c)` and side, if `makeMove(r, c, side)` returns true
then an immediately following `undoMove(r, c)` gives back the original game: the same size
and the same content in every cell. -/
theorem undoMove_after_makeMove_restores (g : HexGame) (r c : Int) (side : Char)
    (h : (g.makeMove r c side).1 = true) :
    (g.makeMove r c side).2.undoMove r c = g := by
  rw [makeMove_fst] at h
  exact undoMove_makeMove g r c side h

theorem undoMove_after_makeMove_restores_witness :
    (board5.makeMove 1 3 'X').1 = true ∧ (board5.makeMove 1 3 'X').2.undoMove 1 3 = board5 :=
  ⟨by decide, undoMove_after_makeMove_restores board5 1 3 'X' (by decide)⟩

/-- C14: for every board and all coordinates `(r, c)`: when `(r, c)` is in bounds,
`undoMove(r, c)` leaves `'.'` in that cell whatever it held before, leaves every other cell
and the size unchanged; when `(r, c)` is out of bounds, `undoMove` leaves the whole game
unchanged. -/
theorem undoMove_clears_only_that_cell (g : HexGame) (r c : Int) :
    (g.inBounds r c = true →
      (g.undoMove r c).board r c = '.' ∧
      (∀ i j : Int, (i, j) ≠ (r, c) → (g.undoMove r c).board i j = g.board i j) ∧
      (g.undoMove r c).size = g.size) ∧
    (g.inBounds r c = false → g.undoMove r c = g) := by
  constructor
  · intro hb
    simp only [HexGame.undoMove, hb, if_true]
    exact ⟨setCell_board_self g r c '.', fun i j hij => setCell_board_ne g r c '.' i j hij, rfl⟩
  · intro hb
    simp [HexGame.undoMove, hb]

/-- C15: for every board, `isFull()` returns true if and only if no cell of the board
(no in-bounds cell) is Empty (`'.'`). -/
theorem isFull_iff_no_empty_cell (g : HexGame) :
    g.isFull = true ↔ ¬ ∃ r c : Int, g.inBounds r c = true ∧ g.board r c = '.' := by
  rw [isFull_iff_forall]
  constructor
  · rintro h ⟨r, c, hb, he⟩
    exact h r c hb he
  · intro h r c hb he
    exact h ⟨r, c, hb, he⟩

end Hex

/-! ## The minimax engine: cells, Empty-cell count and score bounds -/

namespace Hex

open Console

theorem mem_allCells (n : Nat) (p : Int × Int) :
    p ∈ allCells n ↔ 0 ≤ p.1 ∧ p.1 < n ∧ 0 ≤ p.2 ∧ p.2 < n := by
  unfold allCells
  simp only [List.mem_flatten, List.mem_map, List.mem_range]
  constructor
  · rintro ⟨l, ⟨r, hr, rfl⟩, hp⟩
    simp only [List.mem_map, List.mem_range] at hp
    obtain ⟨c, hc, rfl⟩ := hp
    simp only
    omega
  · rintro ⟨h1, h2, h3, h4⟩
    refine ⟨_, ⟨p.1.toNat, by omega, rfl⟩, ?_⟩
    simp only [List.mem_map, List.mem_range]
    refine ⟨p.2.toNat, by omega, ?_⟩
    exact Prod.ext (by simp; omega) (by simp; omega)

theorem mem_allCells_iff_inBounds (g : HexGame) (p : Int × Int) :
    p ∈ allCells g.size ↔ g.inBounds p.1 p.2 = true := by
  rw [mem_allCells, inBounds_iff]

theorem allCells_length (n : Nat) : (allCells n).length = n * n := by
  unfold allCells
  simp [List.length_flatten, Function.comp_def]

theorem numEmpty_le (g : HexGame) : numEmpty g ≤ g.size * g.size := by
  unfold numEmpty unvisited
  refine (Finset.card_filter_le _ _).trans ?_
  simp

theorem numEmpty_setCell (g : HexGame) (r c : Int) (ch : Char)
    (h : g.isCellEmpty r c = true) (hch : ch ≠ '.') :
    numEmpty (g.setCell r c ch) + 1 ≤ numEmpty g := by
  simp only [HexGame.isCellEmpty, Bool.and_eq_true, beq_iff_eq] at h
  have hv : (fun i j => g.board i j != '.') r c = false := by simp [h.2]
  have := unvisited_mark g (fun i j => g.board i j != '.') r c h.1 hv
  have heq : (fun i j => (g.setCell r c ch).board i j != '.') =
      (fun i j => if i = r ∧ j = c then true else g.board i j != '.') := by
    funext i j
    by_cases hij : i = r ∧ j = c
    · simp [HexGame.setCell, hij, hch]
    · simp [HexGame.setCell, hij]
  unfold numEmpty
  rw [heq]
  exact this

theorem undoMove_setCell (g : HexGame) (r c : Int) (ch : Char)
    (h : g.isCellEmpty r c = true) : (g.setCell r c ch).undoMove r c = g := by
  have := undoMove_makeMove g r c ch h
  rwa [makeMove_of_empty g r c ch h] at this

theorem exists_empty_of_not_isFull (g : HexGame) (h : g.isFull = false) :
    ∃ p ∈ allCells g.size, g.isCellEmpty p.1 p.2 = true := by
  have h2 : ¬ (g.isFull = true) := by simp [h]
  rw [isFull_iff_forall] at h2
  push_neg at h2
  obtain ⟨r, c, hb, he⟩ := h2
  refine ⟨(r, c), (mem_allCells_iff_inBounds g (r, c)).2 hb, ?_⟩
  simp [HexGame.isCellEmpty, hb, he]

theorem scoreNeighbours_fold_bounds (g : HexGame) (player : Char) (r c : Int) :
    ∀ (l : List (Int × Int)) (s : Int),
      s ≤ l.foldl (fun s d =>
          if g.inBounds (r + d.1) (c + d.2) && g.getCell (r + d.1) (c + d.2) == player
          then s + 3 else s) s ∧
      l.foldl (fun s d =>
          if g.inBounds (r + d.1) (c + d.2) && g.getCell (r + d.1) (c + d.2) == player
          then s + 3 else s) s ≤ s + 3 * (l.length : Int) := by
  intro l
  induction l with
  | nil => intro s; simp
  | cons a rest ih =>
      intro s
      simp only [List.foldl_cons, List.length_cons]
      split
      · have h2 := ih (s + 3)
        push_cast
        omega
      · have h2 := ih s
        push_cast
        omega

theorem scoreNeighbours_bounds (g : HexGame) (player : Char) (r c s : Int) :
    s ≤ scoreNeighbours g player r c s ∧ scoreNeighbours g player r c s ≤ s + 18 := by
  have h := scoreNeighbours_fold_bounds g player r c kHexDirections s
  have hl : (kHexDirections.length : Int) = 6 := rfl
  rw [hl] at h
  unfold scoreNeighbours
  exact h

theorem scorePlayer_fold_bounds (g : HexGame) (player : Char) :
    ∀ (l : List (Int × Int)) (s : Int),
      s ≤ l.foldl (fun score p =>
          if g.getCell p.1 p.2 == player then scoreNeighbours g player p.1 p.2 (score + 5)
          else score) s ∧
      l.foldl (fun score p =>
          if g.getCell p.1 p.2 == player then scoreNeighbours g player p.1 p.2 (score + 5)
          else score) s ≤ s + 23 * (l.length : Int) := by
  intro l
  induction l with
  | nil => intro s; simp
  | cons a rest ih =>
      intro s
      simp only [List.foldl_cons, List.length_cons]
      split
      · have h1 := scoreNeighbours_bounds g player a.1 a.2 (s + 5)
        have h2 := ih (scoreNeighbours g player a.1 a.2 (s + 5))
        push_cast
        omega
      · have h2 := ih s
        push_cast
        omega

theorem scorePlayer_bounds (g : HexGame) (player : Char) :
    0 ≤ scorePlayer g player ∧ scorePlayer g player ≤ 23 * ((g.size * g.size : Nat) : Int) := by
  have h := scorePlayer_fold_bounds g player (allCells g.size) 0
  rw [allCells_length] at h
  unfold scorePlayer
  omega

theorem evaluateBoard_bounds (ai : SmarterAI) (g : HexGame) :
    -(23 * ((g.size * g.size : Nat) : Int)) ≤ evaluateBoard ai g ∧
    evaluateBoard ai g ≤ 23 * ((g.size * g.size : Nat) : Int) := by
  have h1 := scorePlayer_bounds g ai.playerChar
  have h2 := scorePlayer_bounds g ai.opponentChar
  unfold evaluateBoard
  omega

end Hex

/-! ## The minimax engine: every call returns with the board restored -/

namespace Hex

open Console

/-- The cell loop of `minimax` on a game `g` whose recursive calls return with the game
restored and a score in `[lo, hi]`: the loop returns with the game `g`, and its score lies
in `[lo, hi]` as soon as one Empty cell was visited. -/
theorem minimaxLoop_spec (child : HexGame → Int → Int → Option (Int × HexGame))
    (mover : Char) (isMax : Bool) (g : HexGame) (lo hi : Int)
    (hchild : ∀ r c a b, g.isCellEmpty r c = true →
      ∃ v, child (g.setCell r c mover) a b = some (v, g.setCell r c mover) ∧ lo ≤ v ∧ v ≤ hi) :
    ∀ (l : List (Int × Int)) (best alpha beta : Int),
      (isMax = true → best ≤ hi) → (isMax = false → lo ≤ best) →
      ∃ v, minimaxLoop child mover isMax l g best alpha beta = some (v, g) ∧
        (((∃ p ∈ l, g.isCellEmpty p.1 p.2 = true) ∨ (lo ≤ best ∧ best ≤ hi)) →
          lo ≤ v ∧ v ≤ hi) := by
  intro l
  induction l with
  | nil =>
      intro best alpha beta _ _
      refine ⟨best, rfl, ?_⟩
      rintro (⟨p, hp, _⟩ | h)
      · simp at hp
      · exact h
  | cons a rest ih =>
      intro best alpha beta h1 h2
      obtain ⟨r, c⟩ := a
      by_cases he : g.isCellEmpty r c = true
      · obtain ⟨v, hv, hlo, hhi⟩ := hchild r c alpha beta he
        rw [minimaxLoop, if_pos he, makeMove_of_empty g r c mover he]
        simp only [hv, undoMove_setCell g r c mover he]
        cases isMax
        · have hb := h2 rfl
          simp only [Bool.false_eq_true, if_false]
          have hb1 : lo ≤ min best v ∧ min best v ≤ hi := by omega
          split
          · exact ⟨_, rfl, fun _ => hb1⟩
          · obtain ⟨w, hw, hwb⟩ := ih (min best v) alpha (min beta (min best v))
              (fun _ => hb1.2) (fun _ => hb1.1)
            exact ⟨w, hw, fun _ => hwb (Or.inr hb1)⟩
        · have hb := h1 rfl
          simp only [if_true]
          have hb1 : lo ≤ max best v ∧ max best v ≤ hi := by omega
          split
          · exact ⟨_, rfl, fun _ => hb1⟩
          · obtain ⟨w, hw, hwb⟩ := ih (max best v) (max alpha (max best v)) beta
              (fun _ => hb1.2) (fun _ => hb1.1)
            exact ⟨w, hw, fun _ => hwb (Or.inr hb1)⟩
      · obtain ⟨w, hw, hwb⟩ := ih best alpha beta h1 h2
        rw [minimaxLoop, if_neg he]
        refine ⟨w, hw, ?_⟩
        rintro (⟨p, hp, hpe⟩ | h)
        · rcases List.mem_cons.1 hp with rfl | hp
          · exact absurd hpe he
          · exact hwb (Or.inl ⟨p, hp, hpe⟩)
        · exact hwb (Or.inr h)

/-- Every call of `minimax` with more fuel than the board has Empty cells returns, with
the game restored, a score between the bounds `lo` and `hi` that enclose the values of the
terminal positions below it. -/
theorem minimax_spec (ai : SmarterAI) (hp : ai.playerChar ≠ '.') (ho : ai.opponentChar ≠ '.')
    (n : Nat) (lo hi : Int)
    (hlo : lo ≤ -(23 * ((n * n : Nat) : Int))) (hhi : 23 * ((n * n : Nat) : Int) ≤ hi) :
    ∀ (fuel : Nat) (g : HexGame) (depth : Int) (isMax : Bool) (alpha beta : Int),
      g.size = n → numEmpty g < fuel →
      lo ≤ 100000 - (ai.maxDepth - depth) - (numEmpty g : Int) →
      100000 - (ai.maxDepth - depth) ≤ hi →
      lo ≤ -100000 + (ai.maxDepth - depth) →
      -100000 + (ai.maxDepth - depth) + (numEmpty g : Int) ≤ hi →
      lo ≤ INT_MAX → INT_MIN ≤ hi →
      ∃ v, minimax ai fuel g depth isMax alpha beta = some (v, g) ∧ lo ≤ v ∧ v ≤ hi := by
  intro fuel
  induction fuel with
  | zero => intro g _ _ _ _ _ h; omega
  | succ fuel ih =>
      intro g depth isMax alpha beta hn hf b1 b2 b3 b4 b5 b6
      rw [minimax]
      split
      · exact ⟨_, rfl, by omega, by omega⟩
      split
      · exact ⟨_, rfl, by omega, by omega⟩
      split
      · have := evaluateBoard_bounds ai g
        rw [hn] at this
        exact ⟨_, rfl, by omega, by omega⟩
      · rename_i _ _ hnf
        simp only [Bool.or_eq_true, not_or, Bool.not_eq_true] at hnf
        have hmover : (if isMax = true then ai.playerChar else ai.opponentChar) ≠ '.' := by
          cases isMax <;> simp [hp, ho]
        obtain ⟨v, hv, hvb⟩ := minimaxLoop_spec
          (fun g1 a b => minimax ai fuel g1 (depth - 1) (!isMax) a b)
          (if isMax = true then ai.playerChar else ai.opponentChar) isMax g lo hi
          (by
            intro r c a b he
            have hdec := numEmpty_setCell g r c _ he hmover
            exact ih _ (depth - 1) (!isMax) a b hn (by omega) (by omega) (by omega)
              (by omega) (by omega) b5 b6)
          (allCells g.size) (if isMax = true then INT_MIN else INT_MAX) alpha beta
          (by intro h; simp [h]; exact b6) (by intro h; simp [h]; exact b5)
        exact ⟨v, hv, hvb (Or.inl (exists_empty_of_not_isFull g hnf.2))⟩

end Hex

namespace Hex

open Console

theorem ofChar_playerChar (aiChar : Char) (depth : Int) :
    (SmarterAI.ofChar aiChar depth).playerChar = aiChar := rfl

theorem ofChar_maxDepth (aiChar : Char) (depth : Int) :
    (SmarterAI.ofChar aiChar depth).maxDepth = depth := rfl

theorem ofChar_opponent_ne_empty (aiChar : Char) (depth : Int) :
    (SmarterAI.ofChar aiChar depth).opponentChar ≠ '.' := by
  unfold SmarterAI.ofChar
  simp only
  split <;> decide

theorem ofChar_opponent_ne_player (aiChar : Char) (depth : Int) :
    (SmarterAI.ofChar aiChar depth).opponentChar ≠ aiChar := by
  unfold SmarterAI.ofChar
  simp only
  by_cases h : aiChar = 'X'
  · subst h; decide
  · have h2 : (aiChar == 'X') = false := by simpa using h
    rw [h2]
    simp only [Bool.false_eq_true, if_false]
    exact fun hh => h hh.symm

/-- Termination of `minimax` with the board restored: a call with more fuel than the
board has Empty cells returns, and the game at the return is the game at the call. -/
theorem minimax_returns (ai : SmarterAI) (hp : ai.playerChar ≠ '.')
    (ho : ai.opponentChar ≠ '.') (fuel : Nat) (g : HexGame) (depth : Int) (isMax : Bool)
    (alpha beta : Int) (hf : numEmpty g < fuel) :
    ∃ v, minimax ai fuel g depth isMax alpha beta = some (v, g) := by
  have hA1 : ai.maxDepth - depth ≤ max (ai.maxDepth - depth) (-(ai.maxDepth - depth)) :=
    le_max_left _ _
  have hA2 : -(ai.maxDepth - depth) ≤ max (ai.maxDepth - depth) (-(ai.maxDepth - depth)) :=
    le_max_right _ _
  generalize max (ai.maxDepth - depth) (-(ai.maxDepth - depth)) = A at hA1 hA2
  have hI1 : INT_MIN = -2147483648 := rfl
  have hI2 : INT_MAX = 2147483647 := rfl
  obtain ⟨v, hv, _⟩ := minimax_spec ai hp ho g.size
    (-(100000 + A + (numEmpty g : Int) + 23 * ((g.size * g.size : Nat) : Int)))
    (100000 + A + (numEmpty g : Int) + 23 * ((g.size * g.size : Nat) : Int))
    (by omega) (by omega) fuel g depth isMax alpha beta rfl hf
    (by omega) (by omega) (by omega) (by omega) (by omega) (by omega)
  exact ⟨v, hv⟩

theorem minimaxLoop_frame (child : HexGame → Int → Int → Option (Int × HexGame))
    (mover : Char) (isMax : Bool) (g : HexGame)
    (hchild : ∀ r c a b v g2, g.isCellEmpty r c = true →
      child (g.setCell r c mover) a b = some (v, g2) → g2 = g.setCell r c mover) :
    ∀ (l : List (Int × Int)) (best alpha beta v : Int) (g2 : HexGame),
      minimaxLoop child mover isMax l g best alpha beta = some (v, g2) → g2 = g := by
  intro l
  induction l with
  | nil =>
      intro best alpha beta v g2 h
      rw [minimaxLoop] at h
      exact (congrArg Prod.snd (Option.some.inj h)).symm
  | cons a rest ih =>
      intro best alpha beta v g2 h
      obtain ⟨r, c⟩ := a
      by_cases he : g.isCellEmpty r c = true
      · rw [minimaxLoop, if_pos he, makeMove_of_empty g r c mover he] at h
        simp only at h
        cases hc : child (g.setCell r c mover) alpha beta with
        | none => rw [hc] at h; cases h
        | some res =>
            obtain ⟨w, g1⟩ := res
            rw [hc] at h
            have hg1 := hchild r c alpha beta w g1 he hc
            subst hg1
            simp only [undoMove_setCell g r c mover he] at h
            cases isMax
            · simp only [Bool.false_eq_true, if_false] at h
              split at h
              · exact (congrArg Prod.snd (Option.some.inj h)).symm
              · exact ih _ _ _ _ _ h
            · simp only [if_true] at h
              split at h
              · exact (congrArg Prod.snd (Option.some.inj h)).symm
              · exact ih _ _ _ _ _ h
      · rw [minimaxLoop, if_neg he] at h
        exact ih _ _ _ _ _ h

/-- Whatever the fuel and the characters of the two sides, a call of `minimax` that
returns, the returns through the alpha-beta cutoff included, returns with the game it was
called on. -/
theorem minimax_frame (ai : SmarterAI) :
    ∀ (fuel : Nat) (g : HexGame) (depth : Int) (isMax : Bool) (alpha beta v : Int)
      (g2 : HexGame), minimax ai fuel g depth isMax alpha beta = some (v, g2) → g2 = g := by
  intro fuel
  induction fuel with
  | zero => intro g depth isMax alpha beta v g2 h; rw [minimax] at h; cases h
  | succ fuel ih =>
      intro g depth isMax alpha beta v g2 h
      rw [minimax] at h
      split at h
      · exact (congrArg Prod.snd (Option.some.inj h)).symm
      split at h
      · exact (congrArg Prod.snd (Option.some.inj h)).symm
      split at h
      · exact (congrArg Prod.snd (Option.some.inj h)).symm
      · exact minimaxLoop_frame _ _ isMax g
          (fun r c a b w g1 _ hc => ih _ _ _ _ _ _ _ hc) _ _ _ _ _ _ h

/-- The cell loop of `chooseMove` on a game `g` on which the search below every Empty
cell `p` returns the score `sc p` with the game restored: the loop returns with the game
`g`, and its cell is either the incoming `bestMove`, no Empty cell of the list scoring
above the incoming `bestScore`, or an Empty cell of the list of the largest score. -/
theorem chooseLoop_spec (ai : SmarterAI) (fuel : Nat) (g : HexGame) (sc : Int × Int → Int)
    (hsc : ∀ r c, g.isCellEmpty r c = true →
      minimax ai fuel (g.setCell r c ai.playerChar) (ai.maxDepth - 1) false INT_MIN INT_MAX =
        some (sc (r, c), g.setCell r c ai.playerChar)) :
    ∀ (l : List (Int × Int)) (bs : Int) (bm : Int × Int),
      ∃ m, chooseLoop ai fuel l g bs bm = some (m, g) ∧
        ((m = bm ∧ ∀ p ∈ l, g.isCellEmpty p.1 p.2 = true → sc p ≤ bs) ∨
         (m ∈ l ∧ g.isCellEmpty m.1 m.2 = true ∧ bs < sc m ∧
            ∀ p ∈ l, g.isCellEmpty p.1 p.2 = true → sc p ≤ sc m)) := by
  intro l
  induction l with
  | nil =>
      intro bs bm
      exact ⟨bm, rfl, Or.inl ⟨rfl, fun p hp => by simp at hp⟩⟩
  | cons a rest ih =>
      intro bs bm
      obtain ⟨r, c⟩ := a
      by_cases he : g.isCellEmpty r c = true
      · rw [chooseLoop, if_pos he, makeMove_of_empty g r c _ he]
        simp only [hsc r c he, undoMove_setCell g r c _ he]
        by_cases hgt : sc (r, c) > bs
        · rw [if_pos hgt]
          obtain ⟨m, hm, hcase⟩ := ih (sc (r, c)) (r, c)
          refine ⟨m, hm, Or.inr ?_⟩
          rcases hcase with ⟨rfl, hall⟩ | ⟨hmem, hme, hlt, hall⟩
          · refine ⟨List.mem_cons_self _ _, he, hgt, ?_⟩
            intro p hp hpe
            rcases List.mem_cons.1 hp with rfl | hp
            · exact le_refl _
            · exact hall p hp hpe
          · refine ⟨List.mem_cons_of_mem _ hmem, hme, by omega, ?_⟩
            intro p hp hpe
            rcases List.mem_cons.1 hp with rfl | hp
            · omega
            · exact hall p hp hpe
        · rw [if_neg hgt]
          obtain ⟨m, hm, hcase⟩ := ih bs bm
          refine ⟨m, hm, ?_⟩
          rcases hcase with ⟨rfl, hall⟩ | ⟨hmem, hme, hlt, hall⟩
          · left
            refine ⟨rfl, ?_⟩
            intro p hp hpe
            rcases List.mem_cons.1 hp with rfl | hp
            · omega
            · exact hall p hp hpe
          · right
            refine ⟨List.mem_cons_of_mem _ hmem, hme, hlt, ?_⟩
            intro p hp hpe
            rcases List.mem_cons.1 hp with rfl | hp
            · omega
            · exact hall p hp hpe
      · rw [chooseLoop, if_neg he]
        obtain ⟨m, hm, hcase⟩ := ih bs bm
        refine ⟨m, hm, ?_⟩
        rcases hcase with ⟨rfl, hall⟩ | ⟨hmem, hme, hlt, hall⟩
        · left
          refine ⟨rfl, ?_⟩
          intro p hp hpe
          rcases List.mem_cons.1 hp with rfl | hp
          · exact absurd hpe he
          · exact hall p hp hpe
        · right
          refine ⟨List.mem_cons_of_mem _ hmem, hme, hlt, ?_⟩
          intro p hp hpe
          rcases List.mem_cons.1 hp with rfl | hp
          · exact absurd hpe he
          · exact hall p hp hpe

/-- The search below every first move returns: there is a score function `sc` giving, for
every Empty cell, the value `minimax` returns for it inside `chooseMove`, and `chooseMove`
returns with the game restored and with `(-1, -1)` or an Empty cell of the largest
score. -/
theorem chooseMove_spec (ai : SmarterAI) (hp : ai.playerChar ≠ '.')
    (ho : ai.opponentChar ≠ '.') (g : HexGame) :
    ∃ (sc : Int × Int → Int) (m : Int × Int),
      (∀ r c, g.isCellEmpty r c = true →
        minimax ai (g.size * g.size + 1) (g.setCell r c ai.playerChar) (ai.maxDepth - 1) false
          INT_MIN INT_MAX = some (sc (r, c), g.setCell r c ai.playerChar)) ∧
      chooseMove ai g = some (m, g) ∧
      ((m = (-1, -1) ∧ ∀ p, g.isCellEmpty p.1 p.2 = true → sc p ≤ INT_MIN) ∨
       (g.isCellEmpty m.1 m.2 = true ∧ INT_MIN < sc m ∧
          ∀ p, g.isCellEmpty p.1 p.2 = true → sc p ≤ sc m)) := by
  have hsc : ∀ r c, g.isCellEmpty r c = true →
      minimax ai (g.size * g.size + 1) (g.setCell r c ai.playerChar) (ai.maxDepth - 1) false
        INT_MIN INT_MAX =
      some ((((minimax ai (g.size * g.size + 1) (g.setCell r c ai.playerChar)
        (ai.maxDepth - 1) false INT_MIN INT_MAX).map Prod.fst).getD 0),
        g.setCell r c ai.playerChar) := by
    intro r c he
    have hle := numEmpty_le (g.setCell r c ai.playerChar)
    have hsz : (g.setCell r c ai.playerChar).size = g.size := rfl
    rw [hsz] at hle
    obtain ⟨v, hv⟩ := minimax_returns ai hp ho (g.size * g.size + 1)
      (g.setCell r c ai.playerChar) (ai.maxDepth - 1) false INT_MIN INT_MAX (by omega)
    rw [hv]
    rfl
  have hmemE : ∀ p : Int × Int, g.isCellEmpty p.1 p.2 = true → p ∈ allCells g.size := by
    intro p hpe
    rw [mem_allCells_iff_inBounds]
    simp only [HexGame.isCellEmpty, Bool.and_eq_true] at hpe
    exact hpe.1
  obtain ⟨m, hm, hcase⟩ := chooseLoop_spec ai (g.size * g.size + 1) g
    (fun p => ((minimax ai (g.size * g.size + 1) (g.setCell p.1 p.2 ai.playerChar)
        (ai.maxDepth - 1) false INT_MIN INT_MAX).map Prod.fst).getD 0) hsc
    (allCells g.size) INT_MIN (-1, -1)
  refine ⟨fun p => ((minimax ai (g.size * g.size + 1) (g.setCell p.1 p.2 ai.playerChar)
        (ai.maxDepth - 1) false INT_MIN INT_MAX).map Prod.fst).getD 0, m, hsc, hm, ?_⟩
  rcases hcase with ⟨rfl, hall⟩ | ⟨_, hme, hlt, hall⟩
  · exact Or.inl ⟨rfl, fun p hpe => hall p (hmemE p hpe) hpe⟩
  · exact Or.inr ⟨hme, hlt, fun p hpe => hall p (hmemE p hpe) hpe⟩

end Hex

/-! ## The cell returned by `chooseMove` -/

namespace Hex

open Console

/-- On a board of size at most 20 every score that `chooseMove` receives from `minimax`
lies between -100000 and 100000. -/
theorem firstMove_score_bounds (ai : SmarterAI) (hp : ai.playerChar ≠ '.')
    (ho : ai.opponentChar ≠ '.') (g : HexGame) (hsize : g.size ≤ 20) (r c : Int)
    (v : Int) (g2 : HexGame)
    (hv : minimax ai (g.size * g.size + 1) (g.setCell r c ai.playerChar) (ai.maxDepth - 1)
      false INT_MIN INT_MAX = some (v, g2)) : -100000 ≤ v ∧ v ≤ 100000 := by
  have hle := numEmpty_le (g.setCell r c ai.playerChar)
  have hsz : (g.setCell r c ai.playerChar).size = g.size := rfl
  rw [hsz] at hle
  have hsq : g.size * g.size ≤ 400 := Nat.mul_le_mul hsize hsize
  have hI1 : INT_MIN = -2147483648 := rfl
  have hI2 : INT_MAX = 2147483647 := rfl
  obtain ⟨w, hw, hb⟩ := minimax_spec ai hp ho g.size (-100000) 100000 (by omega) (by omega)
    (g.size * g.size + 1) (g.setCell r c ai.playerChar) (ai.maxDepth - 1) false INT_MIN INT_MAX
    rfl (by omega) (by omega) (by omega) (by omega) (by omega) (by omega) (by omega)
  rw [hw] at hv
  have := congrArg Prod.fst (Option.some.inj hv)
  simp only at this
  omega

/-- C17: for every board of size at most 20 (sizes 1 to 20 included), every AI side and
every search depth, `SmarterAI::chooseMove` returns, and it returns `(-1, -1)` if and only
if the board has no Empty cell; otherwise it returns the coordinates of a cell that is in
bounds and Empty.  The depth counter is an unbounded integer here, which is the C++
arithmetic as long as `maxDepth - 1 - N * N` is not below `INT_MIN`. -/
theorem chooseMove_none_iff_no_empty_cell (aiChar : Char) (depth : Int) (g : HexGame)
    (ha : aiChar ≠ '.') (hsize : g.size ≤ 20) :
    ∃ m : Int × Int,
      (chooseMove (SmarterAI.ofChar aiChar depth) g).map Prod.fst = some m ∧
      (m = (-1, -1) ↔ ¬ ∃ r c : Int, g.inBounds r c = true ∧ g.board r c = '.') ∧
      (m ≠ (-1, -1) → g.inBounds m.1 m.2 = true ∧ g.board m.1 m.2 = '.') := by
  have ho := ofChar_opponent_ne_empty aiChar depth
  have hp : (SmarterAI.ofChar aiChar depth).playerChar ≠ '.' := ha
  obtain ⟨sc, m, hsc, hm, hcase⟩ := chooseMove_spec _ hp ho g
  have hI1 : INT_MIN = -2147483648 := rfl
  have hpos : ∀ p : Int × Int, g.isCellEmpty p.1 p.2 = true → INT_MIN < sc p := by
    rintro ⟨r, c⟩ hpe
    have := firstMove_score_bounds _ hp ho g hsize r c _ _ (hsc r c hpe)
    omega
  refine ⟨m, by rw [hm]; rfl, ?_⟩
  rcases hcase with ⟨rfl, hall⟩ | ⟨hme, _, _⟩
  · have hnone : ¬ ∃ r c : Int, g.inBounds r c = true ∧ g.board r c = '.' := by
      rintro ⟨r, c, hb, he⟩
      have hpe : g.isCellEmpty r c = true := by simp [HexGame.isCellEmpty, hb, he]
      have h1 := hall (r, c) hpe
      have h2 := hpos (r, c) hpe
      omega
    exact ⟨⟨fun _ => hnone, fun _ => rfl⟩, fun h => absurd rfl h⟩
  · simp only [HexGame.isCellEmpty, Bool.and_eq_true, beq_iff_eq] at hme
    have hb := (inBounds_iff g m.1 m.2).1 hme.1
    have hne : m ≠ (-1, -1) := by
      intro h
      rw [h] at hb
      simp at hb
    exact ⟨⟨fun h => absurd h hne, fun h => absurd ⟨m.1, m.2, hme.1, hme.2⟩ h⟩,
      fun _ => hme⟩

theorem chooseMove_none_iff_no_empty_cell_witness :
    ('O' : Char) ≠ '.' ∧ board5.size ≤ 20 ∧
    ∃ m : Int × Int,
      (chooseMove (SmarterAI.ofChar 'O' 2) board5).map Prod.fst = some m ∧
      (m = (-1, -1) ↔ ¬ ∃ r c : Int, board5.inBounds r c = true ∧ board5.board r c = '.') ∧
      (m ≠ (-1, -1) → board5.inBounds m.1 m.2 = true ∧ board5.board m.1 m.2 = '.') :=
  ⟨by decide, by decide,
    chooseMove_none_iff_no_empty_cell 'O' 2 board5 (by decide) (by decide)⟩

/-- C18: for every board, every AI side and every search depth, `SmarterAI::chooseMove`
returns with the game equal to the game on entry, and every call of `minimax`, whatever
its arguments, that returns does so with the game equal to the game on entry, the early
returns through the alpha-beta cutoff included; a call of `minimax` returns whenever the
fuel of the model exceeds the number of Empty cells, which is the case for every call
made by `chooseMove`. -/
theorem chooseMove_and_minimax_restore_board (aiChar : Char) (depth : Int) (g : HexGame)
    (ha : aiChar ≠ '.') :
    (∃ m : Int × Int, chooseMove (SmarterAI.ofChar aiChar depth) g = some (m, g)) ∧
    (∀ (fuel : Nat) (g1 : HexGame) (d : Int) (isMax : Bool) (alpha beta v : Int)
      (g2 : HexGame),
      minimax (SmarterAI.ofChar aiChar depth) fuel g1 d isMax alpha beta = some (v, g2) →
        g2 = g1) ∧
    (∀ (fuel : Nat) (g1 : HexGame) (d : Int) (isMax : Bool) (alpha beta : Int),
      numEmpty g1 < fuel →
      ∃ v, minimax (SmarterAI.ofChar aiChar depth) fuel g1 d isMax alpha beta =
        some (v, g1)) := by
  have ho := ofChar_opponent_ne_empty aiChar depth
  have hp : (SmarterAI.ofChar aiChar depth).playerChar ≠ '.' := ha
  refine ⟨?_, minimax_frame _, ?_⟩
  · obtain ⟨_, m, _, hm, _⟩ := chooseMove_spec _ hp ho g
    exact ⟨m, hm⟩
  · intro fuel g1 d isMax alpha beta hf
    exact minimax_returns _ hp ho fuel g1 d isMax alpha beta hf

theorem chooseMove_and_minimax_restore_board_witness :
    ('O' : Char) ≠ '.' ∧
    (∃ m : Int × Int, chooseMove (SmarterAI.ofChar 'O' 2) board5 = some (m, board5)) ∧
    (∀ (fuel : Nat) (g1 : HexGame) (d : Int) (isMax : Bool) (alpha beta v : Int)
      (g2 : HexGame),
      minimax (SmarterAI.ofChar 'O' 2) fuel g1 d isMax alpha beta = some (v, g2) →
        g2 = g1) ∧
    (∀ (fuel : Nat) (g1 : HexGame) (d : Int) (isMax : Bool) (alpha beta : Int),
      numEmpty g1 < fuel →
      ∃ v, minimax (SmarterAI.ofChar 'O' 2) fuel g1 d isMax alpha beta = some (v, g1)) :=
  ⟨by decide, chooseMove_and_minimax_restore_board 'O' 2 board5 (by decide)⟩

/-- C19: for every board, every AI side and every search depth, two calls of
`SmarterAI::chooseMove` in succession on the same game object, the second one on the game
the first one left behind, both return, and they return the same cell. -/
theorem chooseMove_twice_same_cell (aiChar : Char) (depth : Int) (g : HexGame)
    (ha : aiChar ≠ '.') :
    ∃ (m : Int × Int) (g1 g2 : HexGame),
      chooseMove (SmarterAI.ofChar aiChar depth) g = some (m, g1) ∧
      chooseMove (SmarterAI.ofChar aiChar depth) g1 = some (m, g2) := by
  have ho := ofChar_opponent_ne_empty aiChar depth
  have hp : (SmarterAI.ofChar aiChar depth).playerChar ≠ '.' := ha
  obtain ⟨_, m, _, hm, _⟩ := chooseMove_spec _ hp ho g
  exact ⟨m, g, g, hm, hm⟩

theorem chooseMove_twice_same_cell_witness :
    ('X' : Char) ≠ '.' ∧
    ∃ (m : Int × Int) (g1 g2 : HexGame),
      chooseMove (SmarterAI.ofChar 'X' 3) board5 = some (m, g1) ∧
      chooseMove (SmarterAI.ofChar 'X' 3) g1 = some (m, g2) :=
  ⟨by decide, chooseMove_twice_same_cell 'X' 3 board5 (by decide)⟩

end Hex

/-! ## The depth-2 search never leaves an avoidable one-move loss open -/

namespace Hex

open Console

theorem reach_mono {ok ok2 S : Int × Int → Prop} (h : ∀ p, ok p → ok2 p) (p : Int × Int)
    (hr : Reach ok S p) : Reach ok2 S p := by
  induction hr with
  | seed p hs hok => exact Reach.seed p hs (h p hok)
  | step p q _ hadj hok ih => exact Reach.step p q ih hadj (h q hok)

/-- A side that is connected on a board is connected on every board of the same size
that holds its stones wherever the first board holds them. -/
theorem console_checkWin_mono (g1 g : HexGame) (s : Char) (hsize : g1.size = g.size)
    (hown : ∀ p, Owned g1 s p → Owned g s p) (h : Console.checkWin g1 s = true) :
    Console.checkWin g s = true := by
  unfold Console.checkWin at h ⊢
  by_cases hs : (s == 'X') = true
  · rw [if_pos hs] at h ⊢
    rw [bfsHorizontal_iff] at h ⊢
    obtain ⟨p, hr, hp⟩ := h
    exact ⟨p, reach_mono hown p hr, by rw [← hsize]; exact hp⟩
  · rw [if_neg hs] at h ⊢
    rw [bfsVertical_iff] at h ⊢
    obtain ⟨p, hr, hp⟩ := h
    exact ⟨p, reach_mono hown p hr, by rw [← hsize]; exact hp⟩

theorem owned_setCell_other (g : HexGame) (r c : Int) (ch s : Char) (hne : ch ≠ s)
    (p : Int × Int) (h : Owned (g.setCell r c ch) s p) : Owned g s p := by
  obtain ⟨hb, hc⟩ := h
  refine ⟨hb, ?_⟩
  by_cases hp : p.1 = r ∧ p.2 = c
  · simp only [HexGame.setCell, hp, and_self, if_true] at hc
    exact absurd hc hne
  · simpa only [HexGame.setCell, hp, if_false] using hc

/-- A stone of another side never connects the side `s`. -/
theorem console_checkWin_setCell_other (g : HexGame) (r c : Int) (ch s : Char) (hne : ch ≠ s)
    (h : Console.checkWin g s = false) : Console.checkWin (g.setCell r c ch) s = false := by
  by_contra hc
  have hc2 : Console.checkWin (g.setCell r c ch) s = true := by simpa using hc
  have := console_checkWin_mono (g.setCell r c ch) g s rfl
    (owned_setCell_other g r c ch s hne) hc2
  rw [h] at this
  cases this

theorem minimax_leaf (ai : SmarterAI) (fuel : Nat) (g : HexGame) (a b : Int) :
    minimax ai (fuel + 1) g 0 true a b =
      some (if checkWin g ai.playerChar = true then 100000 - (ai.maxDepth - 0)
        else if checkWin g ai.opponentChar = true then -100000 + (ai.maxDepth - 0)
        else evaluateBoard ai g, g) := by
  rw [minimax]
  split
  · rfl
  split
  · rfl
  · simp

/-- The cell loop of a minimizing node entered with `alpha = INT_MIN` whose recursive
calls return -99998 for the cells satisfying `W` and at least `-B` for the others: there is
no cutoff, and the loop returns -99998 exactly when it was entered with it or visits an
Empty cell satisfying `W`. -/
theorem minLoop_spec (child : HexGame → Int → Int → Option (Int × HexGame)) (mover : Char)
    (g : HexGame) (W : Int × Int → Prop) (B : Int) (hB : B < 99998)
    (hchild : ∀ r c a b, g.isCellEmpty r c = true →
      ∃ v, child (g.setCell r c mover) a b = some (v, g.setCell r c mover) ∧
        ((W (r, c) ∧ v = -99998) ∨ (¬ W (r, c) ∧ -B ≤ v))) :
    ∀ (l : List (Int × Int)) (best beta : Int), -99998 ≤ beta →
      (best = -99998 ∨ -B ≤ best) →
      ∃ v, minimaxLoop child mover false l g best INT_MIN beta = some (v, g) ∧
        (v = -99998 ↔ (best = -99998 ∨ ∃ p ∈ l, g.isCellEmpty p.1 p.2 = true ∧ W p)) ∧
        (v = -99998 ∨ -B ≤ v) := by
  have hI1 : INT_MIN = -2147483648 := rfl
  intro l
  induction l with
  | nil =>
      intro best beta _ hbest
      refine ⟨best, rfl, ⟨fun h => Or.inl h, ?_⟩, hbest⟩
      rintro (h | ⟨p, hp, _⟩)
      · exact h
      · simp at hp
  | cons a rest ih =>
      intro best beta hbeta hbest
      obtain ⟨r, c⟩ := a
      by_cases he : g.isCellEmpty r c = true
      · obtain ⟨v, hv, hvW⟩ := hchild r c INT_MIN beta he
        rw [minimaxLoop, if_pos he, makeMove_of_empty g r c mover he]
        simp only [hv, undoMove_setCell g r c mover he, Bool.false_eq_true, if_false]
        have hncut : ¬ (min beta (min best v) ≤ INT_MIN) := by omega
        rw [if_neg hncut]
        obtain ⟨w, hw, hiff, hrange⟩ := ih (min best v) (min beta (min best v)) (by omega)
          (by omega)
        refine ⟨w, hw, ?_, hrange⟩
        rw [hiff]
        constructor
        · rintro (h | ⟨p, hp, hpe, hpW⟩)
          · by_cases hb : best = -99998
            · exact Or.inl hb
            · right
              refine ⟨(r, c), List.mem_cons_self _ _, he, ?_⟩
              rcases hvW with ⟨hW, _⟩ | ⟨_, hge⟩
              · exact hW
              · omega
          · exact Or.inr ⟨p, List.mem_cons_of_mem _ hp, hpe, hpW⟩
        · rintro (h | ⟨p, hp, hpe, hpW⟩)
          · left; omega
          · rcases List.mem_cons.1 hp with rfl | hp
            · rcases hvW with ⟨_, hveq⟩ | ⟨hnW, _⟩
              · left; omega
              · exact absurd hpW hnW
            · exact Or.inr ⟨p, hp, hpe, hpW⟩
      · rw [minimaxLoop, if_neg he]
        obtain ⟨w, hw, hiff, hrange⟩ := ih best beta hbeta hbest
        refine ⟨w, hw, ?_, hrange⟩
        rw [hiff]
        constructor
        · rintro (h | ⟨p, hp, hpe, hpW⟩)
          · exact Or.inl h
          · exact Or.inr ⟨p, List.mem_cons_of_mem _ hp, hpe, hpW⟩
        · rintro (h | ⟨p, hp, hpe, hpW⟩)
          · exact Or.inl h
          · rcases List.mem_cons.1 hp with rfl | hp
            · exact absurd hpe he
            · exact Or.inr ⟨p, hp, hpe, hpW⟩

end Hex

namespace Hex

open Console

/-- The minimizing node below a first move of the depth-2 search, on a board `gm` on
which neither side is connected and no reply connects the AI: it returns -99998 exactly
when some Empty cell completes the opponent's connection, and at least -9200 otherwise. -/
theorem minimax_reply_node (ai : SmarterAI) (hmax : ai.maxDepth = 2) (gm : HexGame)
    (hsize : gm.size ≤ 20) (h1 : checkWin gm ai.playerChar = false)
    (h2 : checkWin gm ai.opponentChar = false)
    (hch : ∀ r c, gm.isCellEmpty r c = true →
      checkWin (gm.setCell r c ai.opponentChar) ai.playerChar = false) (fuel : Nat) :
    ∃ v, minimax ai (fuel + 2) gm 1 false INT_MIN INT_MAX = some (v, gm) ∧
      (v = -99998 ↔ ∃ r c, gm.isCellEmpty r c = true ∧
        checkWin (gm.setCell r c ai.opponentChar) ai.opponentChar = true) ∧
      (v = -99998 ∨ -9200 ≤ v) := by
  have hsq : gm.size * gm.size ≤ 400 := Nat.mul_le_mul hsize hsize
  have hI2 : INT_MAX = 2147483647 := rfl
  rw [minimax]
  simp only [h1, h2, Bool.false_eq_true, if_false]
  by_cases hfull : gm.isFull = true
  · have hev := evaluateBoard_bounds ai gm
    simp only [hfull, Bool.or_true, if_true]
    refine ⟨_, rfl, ?_, Or.inr (by omega)⟩
    constructor
    · intro h; omega
    · rintro ⟨r, c, he, _⟩
      simp only [HexGame.isCellEmpty, Bool.and_eq_true, beq_iff_eq] at he
      exact absurd he.2 ((isFull_iff_forall gm).1 hfull r c he.1)
  · have hd : ((1 : Int) == 0) = false := by decide
    simp only [hd, hfull, Bool.or_false, Bool.false_eq_true, if_false, Bool.not_false]
    obtain ⟨v, hv, hiff, hrange⟩ := minLoop_spec
      (fun g1 a b => minimax ai (fuel + 1) g1 (1 - 1) true a b) ai.opponentChar gm
      (fun p => checkWin (gm.setCell p.1 p.2 ai.opponentChar) ai.opponentChar = true)
      9200 (by decide)
      (by
        intro r c a b he
        have hev := evaluateBoard_bounds ai (gm.setCell r c ai.opponentChar)
        have hsz : (gm.setCell r c ai.opponentChar).size = gm.size := rfl
        rw [hsz] at hev
        refine ⟨_, minimax_leaf ai fuel _ a b, ?_⟩
        simp only [hch r c he, Bool.false_eq_true, if_false, hmax]
        by_cases hw : checkWin (gm.setCell r c ai.opponentChar) ai.opponentChar = true
        · left
          rw [if_pos hw]
          exact ⟨hw, by norm_num⟩
        · right
          rw [if_neg hw]
          exact ⟨hw, by omega⟩)
      (allCells gm.size) INT_MAX INT_MAX (by omega) (Or.inr (by omega))
    refine ⟨v, hv, ?_, hrange⟩
    rw [hiff]
    constructor
    · rintro (h | ⟨p, _, hpe, hpW⟩)
      · omega
      · exact ⟨p.1, p.2, hpe, hpW⟩
    · rintro ⟨r, c, he, hw⟩
      right
      refine ⟨(r, c), ?_, he, hw⟩
      rw [mem_allCells_iff_inBounds]
      simp only [HexGame.isCellEmpty, Bool.and_eq_true] at he
      exact he.1

/-- C20: for the minimax engine with search depth 2, on every board of size at most 20
(sizes 2 to 20 included) on which the opponent is not connected and on which no Empty cell
connects the AI at once (so the AI is not connected either): if some Empty cell `m` exists
such that, after the AI has played `m`, no Empty cell completes the opponent's connection,
then `chooseMove` returns an Empty cell with that property. -/
theorem chooseMove_depth2_keeps_opponent_out (aiChar : Char) (g : HexGame)
    (ha : aiChar ≠ '.') (hsize : g.size ≤ 20)
    (hopp : checkWin g (SmarterAI.ofChar aiChar 2).opponentChar = false)
    (hnowin : ∀ r c : Int, g.isCellEmpty r c = true →
      checkWin (g.setCell r c aiChar) aiChar = false)
    (hsafe : ∃ m : Int × Int, g.isCellEmpty m.1 m.2 = true ∧
      NoWinningReply (SmarterAI.ofChar aiChar 2) g m) :
    ∃ m : Int × Int, chooseMove (SmarterAI.ofChar aiChar 2) g = some (m, g) ∧
      g.isCellEmpty m.1 m.2 = true ∧ NoWinningReply (SmarterAI.ofChar aiChar 2) g m := by
  have ho := ofChar_opponent_ne_empty aiChar 2
  have hoa := ofChar_opponent_ne_player aiChar 2
  have hp : (SmarterAI.ofChar aiChar 2).playerChar ≠ '.' := ha
  obtain ⟨sc, m, hsc, hm, hcase⟩ := chooseMove_spec _ hp ho g
  have hI1 : INT_MIN = -2147483648 := rfl
  -- the value of the search below each first move
  have hval : ∀ p : Int × Int, g.isCellEmpty p.1 p.2 = true →
      (sc p = -99998 ↔ ¬ NoWinningReply (SmarterAI.ofChar aiChar 2) g p) ∧
      (sc p = -99998 ∨ -9200 ≤ sc p) := by
    rintro ⟨r, c⟩ he
    have hb : g.inBounds r c = true := by
      simp only [HexGame.isCellEmpty, Bool.and_eq_true] at he
      exact he.1
    rw [inBounds_iff] at hb
    have hpos : 1 ≤ g.size * g.size := by
      have : 1 ≤ g.size := by omega
      exact Nat.mul_le_mul this this
    obtain ⟨k, hk⟩ : ∃ k, g.size * g.size + 1 = k + 2 := ⟨g.size * g.size - 1, by omega⟩
    obtain ⟨v, hv, hiff, hrange⟩ := minimax_reply_node (SmarterAI.ofChar aiChar 2) rfl
      (g.setCell r c aiChar) hsize (hnowin r c he)
      (console_checkWin_setCell_other g r c aiChar _ (fun h => hoa h.symm) hopp)
      (fun r2 c2 _ => console_checkWin_setCell_other _ r2 c2 _ aiChar hoa (hnowin r c he)) k
    have h3 := hsc r c he
    rw [hk] at h3
    have hveq : v = sc (r, c) := by
      have h4 : minimax (SmarterAI.ofChar aiChar 2) (k + 2) (g.setCell r c aiChar) 1 false
          INT_MIN INT_MAX = some (sc (r, c), g.setCell r c aiChar) := h3
      rw [hv] at h4
      exact congrArg Prod.fst (Option.some.inj h4)
    subst hveq
    refine ⟨?_, hrange⟩
    rw [hiff]
    unfold NoWinningReply
    simp only [not_forall, Bool.not_eq_false, exists_prop]
    rfl
  obtain ⟨ms, hmse, hmss⟩ := hsafe
  have hms := hval ms hmse
  have hms2 : -9200 ≤ sc ms := by
    rcases hms.2 with h | h
    · exact absurd hmss (hms.1.1 h)
    · exact h
  rcases hcase with ⟨_, hall⟩ | ⟨hme, _, hall⟩
  · have := hall ms hmse
    omega
  · refine ⟨m, hm, hme, ?_⟩
    have h5 := hall ms hmse
    have hmv := hval m hme
    by_contra hcon
    have := hmv.1.2 hcon
    omega

end Hex

namespace Hex

open Console

/-- A property of the Empty cells of a board holds for all of them once it holds for
those met by the two nested loops over the rows and the columns. -/
theorem forall_empty_of_allCells (g : HexGame) (P : Int → Int → Prop)
    (h : ∀ p ∈ allCells g.size, g.isCellEmpty p.1 p.2 = true → P p.1 p.2) :
    ∀ r c : Int, g.isCellEmpty r c = true → P r c := by
  intro r c he
  refine h (r, c) ?_ he
  rw [mem_allCells_iff_inBounds]
  simp only [HexGame.isCellEmpty, Bool.and_eq_true] at he
  exact he.1

theorem chooseMove_depth2_keeps_opponent_out_witness :
    ('O' : Char) ≠ '.' ∧ cornerBoard.size ≤ 20 ∧
    checkWin cornerBoard (SmarterAI.ofChar 'O' 2).opponentChar = false ∧
    (∀ r c : Int, cornerBoard.isCellEmpty r c = true →
      checkWin (cornerBoard.setCell r c 'O') 'O' = false) ∧
    (∃ m : Int × Int, cornerBoard.isCellEmpty m.1 m.2 = true ∧
      NoWinningReply (SmarterAI.ofChar 'O' 2) cornerBoard m) ∧
    ∃ m : Int × Int, chooseMove (SmarterAI.ofChar 'O' 2) cornerBoard = some (m, cornerBoard) ∧
      cornerBoard.isCellEmpty m.1 m.2 = true ∧
      NoWinningReply (SmarterAI.ofChar 'O' 2) cornerBoard m :=
  have h1 : ∀ r c : Int, cornerBoard.isCellEmpty r c = true →
      checkWin (cornerBoard.setCell r c 'O') 'O' = false :=
    forall_empty_of_allCells cornerBoard _ (by decide)
  have h2 : ∃ m : Int × Int, cornerBoard.isCellEmpty m.1 m.2 = true ∧
      NoWinningReply (SmarterAI.ofChar 'O' 2) cornerBoard m :=
    ⟨(0, 1), by decide, forall_empty_of_allCells (cornerBoard.setCell 0 1 'O') _ (by decide)⟩
  ⟨by decide, by decide, by decide, h1, h2,
    chooseMove_depth2_keeps_opponent_out 'O' cornerBoard (by decide) (by decide) (by decide)
      h1 h2⟩

end Hex

/-! ## The cascade: probes, paths and candidate lists -/

namespace Hex

theorem hexGame_ext (g h : HexGame) (hs : g.size = h.size)
    (hb : ∀ i j, g.board i j = h.board i j) : g = h := by
  obtain ⟨s1, b1⟩ := g
  obtain ⟨s2, b2⟩ := h
  simp only at hs hb
  subst hs
  have : b1 = b2 := by funext i j; exact hb i j
  subst this
  rfl

theorem undoMove_eq_setCell (g : HexGame) (r c : Int) (hb : g.inBounds r c = true) :
    g.undoMove r c = g.setCell r c '.' := by
  simp [HexGame.undoMove, hb]

theorem setCell_empty_self (g : HexGame) (r c : Int) (h : g.isCellEmpty r c = true) :
    g.setCell r c '.' = g := by
  simp only [HexGame.isCellEmpty, Bool.and_eq_true, beq_iff_eq] at h
  refine hexGame_ext _ _ rfl ?_
  intro i j
  by_cases hij : i = r ∧ j = c
  · obtain ⟨rfl, rfl⟩ := hij
    simp [HexGame.setCell, h.2]
  · simp [HexGame.setCell, hij]

theorem setCell_setCell_same (g : HexGame) (r c : Int) (a b : Char) :
    (g.setCell r c a).setCell r c b = g.setCell r c b := by
  refine hexGame_ext _ _ rfl ?_
  intro i j
  by_cases hij : i = r ∧ j = c
  · simp [HexGame.setCell, hij]
  · simp [HexGame.setCell, hij]

theorem setCell_comm (g : HexGame) (r c i j : Int) (a b : Char) (hne : ¬ (i = r ∧ j = c)) :
    (g.setCell r c a).setCell i j b = (g.setCell i j b).setCell r c a := by
  refine hexGame_ext _ _ rfl ?_
  intro x y
  by_cases h1 : x = i ∧ y = j
  · obtain ⟨rfl, rfl⟩ := h1
    simp [HexGame.setCell, hne]
  · by_cases h2 : x = r ∧ y = c
    · obtain ⟨rfl, rfl⟩ := h2
      simp [HexGame.setCell, h1]
    · simp [HexGame.setCell, h1, h2]

/-- A probe `makeMove(i, j, p); ...; undoMove(i, j)` on an in-bounds cell leaves the cell
Empty, whether or not the stone was placed. -/
theorem probe_undo (h : HexGame) (i j : Int) (p : Char) (hb : h.inBounds i j = true) :
    (h.makeMove i j p).2.undoMove i j = h.setCell i j '.' := by
  by_cases he : h.isCellEmpty i j = true
  · rw [makeMove_of_empty h i j p he]
    simp only
    rw [undoMove_eq_setCell (h.setCell i j p) i j hb, setCell_setCell_same]
  · have he2 : h.isCellEmpty i j = false := by simpa using he
    rw [makeMove_of_not_empty h i j p he2]
    simp only
    rw [undoMove_eq_setCell h i j hb]

theorem isCellEmpty_inBounds (g : HexGame) (r c : Int) (h : g.isCellEmpty r c = true) :
    g.inBounds r c = true := by
  simp only [HexGame.isCellEmpty, Bool.and_eq_true] at h
  exact h.1

theorem isCellEmpty_board (g : HexGame) (r c : Int) (h : g.isCellEmpty r c = true) :
    g.board r c = '.' := by
  simp only [HexGame.isCellEmpty, Bool.and_eq_true, beq_iff_eq] at h
  exact h.2

/-- A probe with an X stone on a cell that is Empty in `g`, made while an O stone stands
on the Empty cell `(r, c)` of `g` or after that stone was cleared, leaves one of these two
games. -/
theorem probe_undo_either (g : HexGame) (r c i j : Int) (p : Char)
    (hrc : g.isCellEmpty r c = true) (hij : g.isCellEmpty i j = true) (h : HexGame)
    (hh : h = g.setCell r c 'O' ∨ h = g) :
    (h.makeMove i j p).2.undoMove i j = g.setCell r c 'O' ∨
      (h.makeMove i j p).2.undoMove i j = g := by
  have hb := isCellEmpty_inBounds g i j hij
  rcases hh with hh | hh
  · rw [hh, probe_undo (g.setCell r c 'O') i j p hb]
    by_cases hsame : i = r ∧ j = c
    · obtain ⟨rfl, rfl⟩ := hsame
      right
      rw [setCell_setCell_same, setCell_empty_self g _ _ hij]
    · left
      rw [setCell_comm g r c i j 'O' '.' hsame, setCell_empty_self g _ _ hij]
  · right
    rw [hh, probe_undo g i j p hb, setCell_empty_self g _ _ hij]

theorem backtrack_cells_empty (g : HexGame) (parent : Nat → Int)
    (hpar : ∀ v, parent v = -1 ∨ ∃ u : Nat, parent v = (u : Int) ∧ u < g.size * g.size) :
    ∀ (fuel : Nat) (cur : Int) (acc : List (Int × Int)),
      (cur = -1 ∨ ∃ v : Nat, cur = (v : Int) ∧ v < g.size * g.size) →
      (∀ q ∈ acc, g.isCellEmpty q.1 q.2 = true) →
      ∀ q ∈ backtrack g parent fuel cur acc, g.isCellEmpty q.1 q.2 = true := by
  intro fuel
  induction fuel with
  | zero => intro cur acc _ hacc; simpa [backtrack] using hacc
  | succ fuel ih =>
      intro cur acc hcur hacc
      rw [backtrack]
      by_cases h1 : cur = -1
      · rw [if_pos h1]; exact hacc
      · rw [if_neg h1]
        rcases hcur with hcur | ⟨v, rfl, hv⟩
        · exact absurd hcur h1
        · simp only [Int.toNat_natCast]
          apply ih
          · rcases hpar v with h | ⟨u, hu, hlt⟩
            · exact Or.inl h
            · exact Or.inr ⟨u, hu, hlt⟩
          · have hb := cellOf_inBounds g v hv
            have e1 : ((v : Int) / (g.size : Int)) = (cellOf g v).1 := by
              simp [cellOf]
            have e2 : ((v : Int) % (g.size : Int)) = (cellOf g v).2 := by
              simp [cellOf]
            rw [e1, e2]
            split
            · rename_i hdot
              intro q hq
              rcases List.mem_cons.1 hq with rfl | hq
              · simp only [HexGame.isCellEmpty, hb, Bool.true_and]
                exact hdot
              · exact hacc q hq
            · exact hacc

/-- Every cell that `minMovesCore` writes to `*path` is an Empty cell of the board. -/
theorem core_path_cells_empty (g : HexGame) (own opp : Char)
    (startCell goalCell : Nat → Int × Int) (S G : Int × Int → Prop)
    (E : EdgeSpec g startCell goalCell S G) :
    ∀ q ∈ (minMovesCore g own opp startCell goalCell).2.getD [],
      g.isCellEmpty q.1 q.2 = true := by
  have hp := finalState_parentInv g own opp startCell S E.startIn
  obtain ⟨_, _, h3⟩ := bestStep_fold g (finalState g own opp startCell).dist
    ((List.range g.size).map goalCell) ((-1 : Int), INF)
  have hpath : (minMovesCore g own opp startCell goalCell).2 =
      if (((List.range g.size).map goalCell).foldl
          (bestStep g (finalState g own opp startCell).dist) ((-1 : Int), INF)).1 ≠ -1 ∧
        (((List.range g.size).map goalCell).foldl
          (bestStep g (finalState g own opp startCell).dist) ((-1 : Int), INF)).2 < INF
      then some (backtrack g (finalState g own opp startCell).parent (g.size * g.size + 1)
        (((List.range g.size).map goalCell).foldl
          (bestStep g (finalState g own opp startCell).dist) ((-1 : Int), INF)).1 [])
      else none := rfl
  rw [hpath]
  split
  · simp only [Option.getD_some]
    apply backtrack_cells_empty
    · intro v
      rcases hp.parentLe v with h | ⟨u, hu, hlt, _⟩
      · exact Or.inl h
      · exact Or.inr ⟨u, hu, hlt⟩
    · rcases h3 with h | ⟨p, hp2, h⟩
      · left; rw [h]
      · right
        rw [h]
        exact ⟨cellId g p, rfl, cellId_lt g p (E.goalIn p hp2).1⟩
    · intro q hq; simp at hq
  · intro q hq; simp at hq

theorem threatPath_cells_empty (g : HexGame) :
    ∀ q ∈ (Gui.minMovesForXToWinPath g).2.getD [], g.isCellEmpty q.1 q.2 = true :=
  core_path_cells_empty g 'X' 'O' _ _ _ _ (edgeSpec_X g)

theorem oPath_cells_empty (g : HexGame) :
    ∀ q ∈ (Gui.minMovesForOToWinPath g).2.getD [], g.isCellEmpty q.1 q.2 = true :=
  core_path_cells_empty g 'O' 'X' _ _ _ _ (edgeSpec_O g)

end Hex

namespace Hex

namespace Gui

theorem collectCell_mono (g : HexGame) (r : Nat) (acc : List (Int × Int) × Nat) (c : Nat) :
    acc.2 ≤ (collectCell g r acc c).2 := by
  unfold collectCell
  split
  · split
    · simp
    · exact le_refl _
  · exact le_refl _

theorem collectCell_fold_mono (g : HexGame) (r : Nat) :
    ∀ (cs : List Nat) (acc : List (Int × Int) × Nat),
      acc.2 ≤ (cs.foldl (collectCell g r) acc).2 := by
  intro cs
  induction cs with
  | nil => intro acc; exact le_refl _
  | cons c cs ih =>
      intro acc
      exact le_trans (collectCell_mono g r acc c) (ih _)

theorem collectCell_fold_grow (g : HexGame) (r : Nat) :
    ∀ (cs : List Nat) (acc : List (Int × Int) × Nat), acc.2 < 50 →
      (∃ c ∈ cs, g.isCellEmpty (r : Int) (c : Int) = true) →
      acc.2 < (cs.foldl (collectCell g r) acc).2 := by
  intro cs
  induction cs with
  | nil => intro acc _ h; obtain ⟨c, hc, _⟩ := h; simp at hc
  | cons c0 cs ih =>
      intro acc h50 h
      obtain ⟨c, hc, he⟩ := h
      simp only [List.foldl_cons]
      have hm := collectCell_fold_mono g r cs (collectCell g r acc c0)
      have hs := collectCell_mono g r acc c0
      rcases List.mem_cons.1 hc with rfl | hc
      · have : (collectCell g r acc c).2 = acc.2 + 1 := by
          simp [collectCell, h50, he]
        omega
      · by_cases h2 : (collectCell g r acc c0).2 < 50
        · have := ih (collectCell g r acc c0) h2 ⟨c, hc, he⟩
          omega
        · omega

theorem collectRow_mono (g : HexGame) (acc : List (Int × Int) × Nat) (r : Nat) :
    acc.2 ≤ (collectRow g acc r).2 := by
  unfold collectRow
  split
  · exact collectCell_fold_mono g r _ acc
  · exact le_refl _

theorem collectRow_fold_mono (g : HexGame) :
    ∀ (rs : List Nat) (acc : List (Int × Int) × Nat),
      acc.2 ≤ (rs.foldl (collectRow g) acc).2 := by
  intro rs
  induction rs with
  | nil => intro acc; exact le_refl _
  | cons r rs ih =>
      intro acc
      exact le_trans (collectRow_mono g acc r) (ih _)

theorem collectRow_fold_grow (g : HexGame) :
    ∀ (rs : List Nat) (acc : List (Int × Int) × Nat), acc.2 < 50 →
      (∃ r ∈ rs, ∃ c ∈ List.range g.size, g.isCellEmpty (r : Int) (c : Int) = true) →
      acc.2 < (rs.foldl (collectRow g) acc).2 := by
  intro rs
  induction rs with
  | nil => intro acc _ h; obtain ⟨r, hr, _⟩ := h; simp at hr
  | cons r0 rs ih =>
      intro acc h50 h
      obtain ⟨r, hr, hc⟩ := h
      simp only [List.foldl_cons]
      have hm := collectRow_fold_mono g rs (collectRow g acc r0)
      have hs := collectRow_mono g acc r0
      rcases List.mem_cons.1 hr with rfl | hr
      · have : acc.2 < (collectRow g acc r).2 := by
          unfold collectRow
          rw [if_pos h50]
          exact collectCell_fold_grow g r _ acc h50 hc
        omega
      · by_cases h2 : (collectRow g acc r0).2 < 50
        · have := ih (collectRow g acc r0) h2 ⟨r, hr, hc⟩
          omega
        · omega

/-- The candidate list of the cascade is not empty when the board has an Empty cell. -/
theorem collectEmpty_ne_nil (g : HexGame) (r c : Int) (h : g.isCellEmpty r c = true) :
    collectEmpty g ≠ [] := by
  have hb := (inBounds_iff g r c).1 (isCellEmpty_inBounds g r c h)
  have hgrow := collectRow_fold_grow g (List.range g.size) ([], 0) (by decide)
    ⟨r.toNat, List.mem_range.2 (by omega), c.toNat, List.mem_range.2 (by omega), by
      rw [Int.toNat_of_nonneg hb.1, Int.toNat_of_nonneg hb.2.2.1]; exact h⟩
  have hlen := (collectRow_fold g (List.range g.size) ([], 0) rfl).1
  intro hnil
  unfold collectEmpty at hnil
  rw [hlen, hnil] at hgrow
  simp at hgrow

theorem findWinningCell_mem (keep : Int × Int → Bool) :
    ∀ (L : List (Int × Int)) (g : HexGame) (cell : Int × Int),
      (findWinningCell keep g L).2 = some cell → cell ∈ L := by
  intro L
  induction L with
  | nil => intro g cell h; simp [findWinningCell] at h
  | cons a L ih =>
      intro g cell h
      rw [findWinningCell] at h
      split at h
      · exact List.mem_cons_of_mem _ (ih _ _ h)
      · simp only at h
        split at h
        · simp only [Option.some.injEq] at h
          rw [← h]
          exact List.mem_cons_self _ _
        · exact List.mem_cons_of_mem _ (ih _ _ h)

theorem ruleBlockWinningCell_ok (g : HexGame) (L : List (Int × Int))
    (hL : ∀ q ∈ L, g.isCellEmpty q.1 q.2 = true) (st : HexGame × Best) (h : ChoiceOk g st) :
    ChoiceOk g (ruleBlockWinningCell L st) := by
  obtain ⟨hg, hbest⟩ := h
  refine ⟨by rw [ruleBlockWinningCell_game L st (by rw [hg]; exact hL), hg], ?_⟩
  unfold ruleBlockWinningCell
  split
  · simp only
    cases hres : (findWinningCell (fun _ => true) st.1 L).2 with
    | none => exact hbest
    | some cell => exact Or.inr (hL cell (findWinningCell_mem _ L st.1 cell hres))
  · exact hbest

theorem ruleBlockBottomRow_ok (g : HexGame) (L : List (Int × Int))
    (hL : ∀ q ∈ L, g.isCellEmpty q.1 q.2 = true) (st : HexGame × Best) (h : ChoiceOk g st) :
    ChoiceOk g (ruleBlockBottomRow L st) := by
  obtain ⟨hg, hbest⟩ := h
  refine ⟨by rw [ruleBlockBottomRow_game L st (by rw [hg]; exact hL), hg], ?_⟩
  unfold ruleBlockBottomRow
  split
  · simp only
    cases hres : (findWinningCell (fun cell => cell.1 == (st.1.size : Int) - 1) st.1 L).2 with
    | none => exact hbest
    | some cell => exact Or.inr (hL cell (findWinningCell_mem _ L st.1 cell hres))
  · exact hbest

theorem spoilStep_fold_best (tc : Nat) :
    ∀ (L : List (Int × Int)) (st : SpoilState),
      (L.foldl (spoilStep tc) st).best = st.best ∨
        ∃ q ∈ L, (L.foldl (spoilStep tc) st).best = ⟨q.1, q.2, 5800000⟩ := by
  intro L
  induction L with
  | nil => intro st; exact Or.inl rfl
  | cons a L ih =>
      intro st
      simp only [List.foldl_cons]
      have hstep : (spoilStep tc st a).best = st.best ∨
          (spoilStep tc st a).best = ⟨a.1, a.2, 5800000⟩ := by
        unfold spoilStep
        split
        · exact Or.inl rfl
        · simp only
          split
          · exact Or.inr rfl
          · exact Or.inl rfl
      rcases ih (spoilStep tc st a) with h | ⟨q, hq, h⟩
      · rcases hstep with h2 | h2
        · left; rw [h, h2]
        · right; exact ⟨a, List.mem_cons_self _ _, by rw [h, h2]⟩
      · right; exact ⟨q, List.mem_cons_of_mem _ hq, h⟩

theorem ruleSpoilBottomRow_ok (g : HexGame) (tc : Nat) (L : List (Int × Int))
    (hL : ∀ q ∈ L, g.isCellEmpty q.1 q.2 = true) (st : HexGame × Best) (h : ChoiceOk g st) :
    ChoiceOk g (ruleSpoilBottomRow tc L st) := by
  obtain ⟨hg, hbest⟩ := h
  refine ⟨by rw [ruleSpoilBottomRow_game tc L st (by rw [hg]; exact hL), hg], ?_⟩
  unfold ruleSpoilBottomRow
  split
  · simp only
    split
    · rcases spoilStep_fold_best tc L
        { game := st.1, bestRaise := -1000000000, bestCenter := 1000000, best := st.2 }
        with h | ⟨q, hq, h⟩
      · rw [h]; exact hbest
      · rw [h]; exact Or.inr (hL q hq)
    · exact hbest
  · exact hbest

end Gui

end Hex

namespace Hex

namespace Gui

theorem evaluateMoveForO_game (h : HexGame) (r c plR plC : Int) (tc : Nat)
    (tp : List (Int × Int)) (oc : Nat) (op : List (Int × Int)) :
    (evaluateMoveForO h r c plR plC tc tp oc op).2 = h ∨
      (evaluateMoveForO h r c plR plC tc tp oc op).2 = (h.makeMove r c 'X').2.undoMove r c := by
  unfold evaluateMoveForO
  lift_lets
  intros
  split
  · exact Or.inl rfl
  · split
    · exact Or.inr rfl
    · exact Or.inr rfl

/-- The probe of `evaluateMoveForO` on an Empty cell leaves the game as it found it. -/
theorem evalProbe_game (a : EvalArgs) (g : HexGame) (r c : Int)
    (he : g.isCellEmpty r c = true) : (evalProbe a g r c).2 = g := by
  have hb := isCellEmpty_inBounds g r c he
  unfold evalProbe
  simp only
  rw [makeMove_of_empty g r c 'O' he]
  simp only
  rcases evaluateMoveForO_game (g.setCell r c 'O') r c a.playerLastR a.playerLastC
    a.threatCost a.threatPath a.oPathCost a.oPath with h | h
  · rw [h]; exact undoMove_setCell g r c 'O' he
  · rw [h, probe_undo (g.setCell r c 'O') r c 'X' hb, setCell_setCell_same,
      setCell_empty_self g r c he, undoMove_eq_setCell g r c hb, setCell_empty_self g r c he]

theorem reinforceStep_fold_ok (a : EvalArgs) (g : HexGame) :
    ∀ (L : List (Int × Int)) (st : ScoreState), st.game = g →
      (st.best.bestR = -1 ∨ g.isCellEmpty st.best.bestR st.best.bestC = true) →
      (L.foldl (reinforceStep a) st).game = g ∧
      ((L.foldl (reinforceStep a) st).best.bestR = -1 ∨
        g.isCellEmpty (L.foldl (reinforceStep a) st).best.bestR
          (L.foldl (reinforceStep a) st).best.bestC = true) := by
  intro L
  induction L with
  | nil => intro st hg hb; exact ⟨hg, hb⟩
  | cons q L ih =>
      intro st hg hb
      simp only [List.foldl_cons]
      apply ih
      · unfold reinforceStep
        split
        · exact hg
        · rename_i he
          simp only [Bool.not_eq_true, Bool.not_eq_false] at he
          have hp := evalProbe_game a st.game q.1 q.2 (by simpa using he)
          simp only
          split
          · rw [hp]; exact hg
          · rw [hp]; exact hg
      · unfold reinforceStep
        split
        · exact hb
        · rename_i he
          have he2 : g.isCellEmpty q.1 q.2 = true := by rw [← hg]; simpa using he
          simp only
          split
          · exact Or.inr he2
          · exact hb

theorem ruleReinforceThreatPath_ok (a : EvalArgs) (g : HexGame) (st : HexGame × Best)
    (h : ChoiceOk g st) : ChoiceOk g (ruleReinforceThreatPath a st) := by
  unfold ruleReinforceThreatPath
  split
  · exact reinforceStep_fold_ok a g a.threatPath
      { game := st.1, localBest := -1000000000, best := st.2 } h.1 h.2
  · exact h

theorem mem_insertDesc (x y : Int × Int × Int) :
    ∀ l : List (Int × Int × Int), y ∈ insertDesc x l ↔ y = x ∨ y ∈ l := by
  intro l
  induction l with
  | nil => simp [insertDesc]
  | cons z l ih =>
      unfold insertDesc
      split
      · simp only [List.mem_cons, ih]
        tauto
      · simp only [List.mem_cons]

theorem mem_sortDesc_fold (y : Int × Int × Int) :
    ∀ (l acc : List (Int × Int × Int)),
      y ∈ l.foldl (fun acc x => insertDesc x acc) acc ↔ y ∈ l ∨ y ∈ acc := by
  intro l
  induction l with
  | nil => intro acc; simp
  | cons x l ih =>
      intro acc
      simp only [List.foldl_cons, ih, mem_insertDesc, List.mem_cons]
      tauto

theorem mem_sortDesc (y : Int × Int × Int) (l : List (Int × Int × Int)) :
    y ∈ sortDesc l ↔ y ∈ l := by
  unfold sortDesc
  rw [mem_sortDesc_fold]
  simp

theorem mem_buildXCands (size : Nat) (L : List (Int × Int)) (q : Int × Int)
    (h : q ∈ buildXCands size L) : q ∈ L := by
  unfold buildXCands at h
  simp only [List.mem_map] at h
  obtain ⟨t, ht, rfl⟩ := h
  have ht2 := List.mem_of_mem_take ht
  rw [mem_sortDesc] at ht2
  simp only [List.mem_map] at ht2
  obtain ⟨cell, hcell, rfl⟩ := ht2
  exact hcell

theorem buildOCands_cells (g : HexGame) (oPath L : List (Int × Int))
    (hL : ∀ q ∈ L, g.isCellEmpty q.1 q.2 = true) (t : Int × Int × Int)
    (h : t ∈ buildOCands g oPath L) : g.isCellEmpty t.2.1 t.2.2 = true := by
  unfold buildOCands at h
  simp only at h
  rw [mem_sortDesc, List.mem_append] at h
  rcases h with h | h
  · simp only [List.mem_map, List.mem_filter] at h
    obtain ⟨cell, ⟨_, he⟩, rfl⟩ := h
    exact he
  · simp only [List.mem_map] at h
    obtain ⟨cell, hc, rfl⟩ := h
    exact hL cell hc

theorem buildOCands_ne_nil (g : HexGame) (oPath L : List (Int × Int)) (hne : L ≠ []) :
    (buildOCands g oPath L).take (min 18 (buildOCands g oPath L).length) ≠ [] := by
  obtain ⟨q, hq⟩ := List.exists_mem_of_ne_nil L hne
  have hmem : ((if q.1 ≥ (g.size : Int) - 2 then (200 : Int) else 0) |>
      fun q1 => (if q.1 = (g.size : Int) - 1 then q1 + 400 else q1) -
        (absInt (q.1 - ((g.size / 2 : Nat) : Int)) +
          absInt (q.2 - ((g.size / 2 : Nat) : Int))) * 3, q.1, q.2) ∈ buildOCands g oPath L := by
    unfold buildOCands
    simp only
    rw [mem_sortDesc, List.mem_append]
    right
    simp only [List.mem_map]
    exact ⟨q, hq, rfl⟩
  have hpos : 0 < (buildOCands g oPath L).length := List.length_pos_of_mem hmem
  intro hnil
  have := congrArg List.length hnil
  rw [List.length_take] at this
  simp only [List.length_nil] at this
  omega

end Gui

end Hex

namespace Hex

namespace Gui

theorem evalState_ge (g : HexGame) : -1600000 ≤ evalState g := by
  unfold evalState
  simp only
  omega

theorem replyStep_fold_ok (g : HexGame) (r c : Int) (hrc : g.isCellEmpty r c = true) :
    ∀ (xs : List (Int × Int)) (st : HexGame × Int),
      (∀ q ∈ xs, g.isCellEmpty q.1 q.2 = true) →
      (st.1 = g.setCell r c 'O' ∨ st.1 = g) → -100000000 ≤ st.2 →
      ((xs.foldl replyStep st).1 = g.setCell r c 'O' ∨ (xs.foldl replyStep st).1 = g) ∧
        -100000000 ≤ (xs.foldl replyStep st).2 := by
  intro xs
  induction xs with
  | nil => intro st _ h1 h2; exact ⟨h1, h2⟩
  | cons x xs ih =>
      intro st hxs h1 h2
      simp only [List.foldl_cons]
      apply ih _ (fun q hq => hxs q (List.mem_cons_of_mem _ hq))
      · exact probe_undo_either g r c x.1 x.2 'X' hrc (hxs x (List.mem_cons_self _ _)) st.1 h1
      · unfold replyStep
        simp only
        have := evalState_ge (st.1.makeMove x.1 x.2 'X').2
        split <;> omega

theorem undoMove_either (g : HexGame) (r c : Int) (hrc : g.isCellEmpty r c = true)
    (h : HexGame) (hh : h = g.setCell r c 'O' ∨ h = g) : h.undoMove r c = g := by
  rcases hh with hh | hh
  · rw [hh]; exact undoMove_setCell g r c 'O' hrc
  · rw [hh, undoMove_eq_setCell g r c (isCellEmpty_inBounds g r c hrc),
      setCell_empty_self g r c hrc]

theorem isCellEmpty_ne_neg_one (g : HexGame) (r c : Int) (h : g.isCellEmpty r c = true) :
    r ≠ -1 := by
  have := (inBounds_iff g r c).1 (isCellEmpty_inBounds g r c h)
  omega

/-- The outer loop of the two-ply search keeps its invariant, and it ends with a choice
or a kept candidate as soon as it has visited one candidate. -/
theorem twoPlyLoop_ok (g : HexGame) (L : List (Int × Int))
    (hL : ∀ q ∈ L, g.isCellEmpty q.1 q.2 = true) :
    ∀ (cands : List (Int × Int × Int)) (st : PlyState),
      (∀ t ∈ cands, g.isCellEmpty t.2.1 t.2.2 = true) → PlyOk g st →
      PlyOk g (twoPlyLoop L st cands) ∧
      ((cands ≠ [] ∨ g.isCellEmpty st.chosenR st.chosenC = true) →
        (twoPlyLoop L st cands).best.bestR ≠ -1 ∨
          g.isCellEmpty (twoPlyLoop L st cands).chosenR (twoPlyLoop L st cands).chosenC
            = true) := by
  intro cands
  induction cands with
  | nil =>
      intro st _ hst
      refine ⟨hst, ?_⟩
      rintro (h | h)
      · exact absurd rfl h
      · exact Or.inr h
  | cons cand rest ih =>
      intro st hc hst
      have he := hc cand (List.mem_cons_self _ _)
      have hrest := fun t ht => hc t (List.mem_cons_of_mem _ ht)
      have he2 : (!st.game.isCellEmpty cand.2.1 cand.2.2) = false := by
        rw [hst.game, he]; rfl
      rw [twoPlyLoop]
      simp only [he2, Bool.false_eq_true, if_false]
      rw [hst.game, makeMove_of_empty g cand.2.1 cand.2.2 'O' he]
      simp only
      split
      · refine ⟨⟨undoMove_setCell g _ _ 'O' he, Or.inr he, hst.chosen⟩, fun _ => Or.inl ?_⟩
        exact isCellEmpty_ne_neg_one g _ _ he
      · have hinner : ((if (buildXCands (g.setCell cand.2.1 cand.2.2 'O').size L).isEmpty = true
              then (g.setCell cand.2.1 cand.2.2 'O', evalState (g.setCell cand.2.1 cand.2.2 'O'))
              else (buildXCands (g.setCell cand.2.1 cand.2.2 'O').size L).foldl replyStep
                (g.setCell cand.2.1 cand.2.2 'O', 2000000000)).1 = g.setCell cand.2.1 cand.2.2 'O' ∨
            (if (buildXCands (g.setCell cand.2.1 cand.2.2 'O').size L).isEmpty = true
              then (g.setCell cand.2.1 cand.2.2 'O', evalState (g.setCell cand.2.1 cand.2.2 'O'))
              else (buildXCands (g.setCell cand.2.1 cand.2.2 'O').size L).foldl replyStep
                (g.setCell cand.2.1 cand.2.2 'O', 2000000000)).1 = g) ∧
            -100000000 ≤ (if (buildXCands (g.setCell cand.2.1 cand.2.2 'O').size L).isEmpty = true
              then (g.setCell cand.2.1 cand.2.2 'O', evalState (g.setCell cand.2.1 cand.2.2 'O'))
              else (buildXCands (g.setCell cand.2.1 cand.2.2 'O').size L).foldl replyStep
                (g.setCell cand.2.1 cand.2.2 'O', 2000000000)).2 := by
          split
          · have := evalState_ge (g.setCell cand.2.1 cand.2.2 'O')
            exact ⟨Or.inl rfl, by simp only; omega⟩
          · exact replyStep_fold_ok g _ _ he _ _
              (fun q hq => hL q (mem_buildXCands _ L q hq)) (Or.inl rfl) (by norm_num)
        generalize (if (buildXCands (g.setCell cand.2.1 cand.2.2 'O').size L).isEmpty = true
              then (g.setCell cand.2.1 cand.2.2 'O', evalState (g.setCell cand.2.1 cand.2.2 'O'))
              else (buildXCands (g.setCell cand.2.1 cand.2.2 'O').size L).foldl replyStep
                (g.setCell cand.2.1 cand.2.2 'O', 2000000000)) = inner at hinner ⊢
        obtain ⟨hin1, hin2⟩ := hinner
        have hundo := undoMove_either g _ _ he inner.1 hin1
        rw [hundo]
        split
        · obtain ⟨h1, h2⟩ := ih
            { st with game := g, globalBest := inner.2, chosenR := cand.2.1,
                      chosenC := cand.2.2 } hrest ⟨rfl, hst.best, Or.inr he⟩
          exact ⟨h1, fun _ => h2 (Or.inr he)⟩
        · rename_i hgt
          have hch : g.isCellEmpty st.chosenR st.chosenC = true := by
            rcases hst.chosen with ⟨_, h⟩ | h
            · omega
            · exact h
          obtain ⟨h1, h2⟩ := ih { st with game := g } hrest ⟨rfl, hst.best, hst.chosen⟩
          exact ⟨h1, fun _ => h2 (Or.inr hch)⟩

end Gui

end Hex

namespace Hex

namespace Gui

/-- The two-ply search entered without a choice on a board with candidates ends with a
choice, an Empty cell of the starting game, and with the game restored. -/
theorem twoPly_ok (g : HexGame) (oPath L : List (Int × Int))
    (hL : ∀ q ∈ L, g.isCellEmpty q.1 q.2 = true) (hne : L ≠ []) (st : HexGame × Best)
    (h : ChoiceOk g st) :
    ChoiceOk g (twoPly oPath L st) ∧ (twoPly oPath L st).2.bestR ≠ -1 := by
  obtain ⟨hg, hbest⟩ := h
  have hcands : ∀ t ∈ (buildOCands st.1 oPath L).take (min 18 (buildOCands st.1 oPath L).length),
      g.isCellEmpty t.2.1 t.2.2 = true := by
    intro t ht
    have := List.mem_of_mem_take ht
    rw [hg] at this
    exact buildOCands_cells g oPath L hL t this
  obtain ⟨hok, hprog⟩ := twoPlyLoop_ok g L hL _
    { game := st.1, globalBest := -2000000000, chosenR := -1, chosenC := -1, best := st.2 }
    hcands ⟨hg, hbest, Or.inl ⟨rfl, rfl⟩⟩
  have hp := hprog (Or.inl (buildOCands_ne_nil st.1 oPath L hne))
  have key : ∀ res : PlyState, PlyOk g res →
      (res.best.bestR ≠ -1 ∨ g.isCellEmpty res.chosenR res.chosenC = true) →
      ChoiceOk g (if (res.best.bestR == -1 && res.chosenR != -1) = true then
          (res.game, ⟨res.chosenR, res.chosenC, res.globalBest⟩) else (res.game, res.best)) ∧
        (if (res.best.bestR == -1 && res.chosenR != -1) = true then
          (res.game, (⟨res.chosenR, res.chosenC, res.globalBest⟩ : Best))
          else (res.game, res.best)).2.bestR ≠ -1 := by
    intro res hres hpr
    split
    · rename_i hcond
      simp only [Bool.and_eq_true, beq_iff_eq, bne_iff_ne, ne_eq] at hcond
      have hch : g.isCellEmpty res.chosenR res.chosenC = true := by
        rcases hres.chosen with ⟨h1, _⟩ | h1
        · exact absurd h1 hcond.2
        · exact h1
      exact ⟨⟨hres.game, Or.inr hch⟩, hcond.2⟩
    · rename_i hcond
      simp only [Bool.and_eq_true, beq_iff_eq, bne_iff_ne, ne_eq, not_and, not_not] at hcond
      have hne1 : res.best.bestR ≠ -1 := by
        rcases hpr with h1 | h1
        · exact h1
        · intro h2
          exact isCellEmpty_ne_neg_one g _ _ h1 (hcond h2)
      exact ⟨⟨hres.game, hres.best⟩, hne1⟩
  exact key _ hok hp

theorem openingMove_ok (g : HexGame) (oPath : List (Int × Int))
    (hop : ∀ q ∈ oPath, g.isCellEmpty q.1 q.2 = true) (b : Best)
    (hb : b.bestR = -1 ∨ g.isCellEmpty b.bestR b.bestC = true) :
    (openingMove g oPath b).bestR = -1 ∨
      g.isCellEmpty (openingMove g oPath b).bestR (openingMove g oPath b).bestC = true := by
  unfold openingMove
  simp only
  split
  · rename_i hc
    exact Or.inr hc
  · cases oPath with
    | nil => exact hb
    | cons cell rest => exact Or.inr (hop cell (List.mem_cons_self _ _))

/-- Rule 7 on a board with candidates ends with a choice, an Empty cell of the starting
game, and with the game restored. -/
theorem ruleSearch_ok (a : EvalArgs) (g : HexGame) (L : List (Int × Int))
    (hL : ∀ q ∈ L, g.isCellEmpty q.1 q.2 = true) (hne : L ≠ [])
    (hop : ∀ q ∈ a.oPath, g.isCellEmpty q.1 q.2 = true) (fm : Bool) (st : HexGame × Best)
    (h : ChoiceOk g st) :
    ChoiceOk g (ruleSearch a L fm st).1 ∧ (ruleSearch a L fm st).1.2.bestR ≠ -1 := by
  unfold ruleSearch
  by_cases h1 : (st.2.bestR == -1) = true
  · rw [if_pos h1]
    simp only
    have hst1 : ChoiceOk g (if fm = true then (st.1, openingMove st.1 a.oPath st.2) else st) := by
      split
      · refine ⟨h.1, ?_⟩
        simp only
        rw [h.1]
        exact openingMove_ok g a.oPath hop st.2 h.2
      · exact h
    generalize (if fm = true then (st.1, openingMove st.1 a.oPath st.2) else st) = st1 at hst1 ⊢
    have hst2 : ChoiceOk g (if (st1.2.bestR == -1) = true then twoPly a.oPath L st1 else st1) ∧
        (if (st1.2.bestR == -1) = true then twoPly a.oPath L st1 else st1).2.bestR ≠ -1 := by
      split
      · exact twoPly_ok g a.oPath L hL hne st1 hst1
      · rename_i h2
        exact ⟨hst1, by simpa using h2⟩
    generalize (if (st1.2.bestR == -1) = true then twoPly a.oPath L st1 else st1) = st2
      at hst2 ⊢
    have h3 : (st2.2.bestR == -1) = false := by simpa using hst2.2
    rw [h3]
    exact hst2
  · rw [if_neg h1]
    exact ⟨h, by simpa using h1⟩

theorem ruleOwnPath_of_chosen (a : EvalArgs) (st : HexGame × Best) (h : st.2.bestR ≠ -1) :
    ruleOwnPath a st = st := by
  unfold ruleOwnPath
  have h1 : (st.2.bestR == -1) = false := by simpa using h
  simp [h1]

/-- On a board with an Empty cell on which X needs more than two moves, the cascade ends
with a choice, an Empty cell of the starting game, and with the game restored. -/
theorem cascade_long_threat (g : HexGame) (aiFirstMove : Bool) (plR plC : Int)
    (hc : ¬ minMovesForXToWin g ≤ 2) (hne : collectEmpty g ≠ []) :
    ChoiceOk g (cascade g aiFirstMove plR plC).1 ∧
      (cascade g aiFirstMove plR plC).1.2.bestR ≠ -1 := by
  have hE := collectEmpty_empty g
  have hc2 : ¬ (minMovesForXToWinPath g).1 ≤ 2 := hc
  have hc1 : ¬ (minMovesForXToWinPath g).1 ≤ 1 := by omega
  have h0 : ChoiceOk g (g, ⟨-1, -1, -1000000000⟩) := ⟨rfl, Or.inl rfl⟩
  have e1 : ruleImmediateLoss (minMovesForXToWinPath g).1
      ((minMovesForXToWinPath g).2.getD []) (collectEmpty g) (g, ⟨-1, -1, -1000000000⟩)
        = (g, ⟨-1, -1, -1000000000⟩) := by
    simp [ruleImmediateLoss, hc1]
  have h2 := ruleBlockWinningCell_ok g (collectEmpty g) hE _ h0
  have h3 := ruleBlockBottomRow_ok g (collectEmpty g) hE _ h2
  have h4 := ruleSpoilBottomRow_ok g (minMovesForXToWinPath g).1 (collectEmpty g) hE _ h3
  have e5 : ∀ st, ruleShortThreat (minMovesForXToWinPath g).1
      ((minMovesForXToWinPath g).2.getD []) (collectEmpty g) st = st := by
    intro st
    simp [ruleShortThreat, hc2]
  have h6 := ruleReinforceThreatPath_ok
    ⟨plR, plC, (minMovesForXToWinPath g).1, (minMovesForXToWinPath g).2.getD [],
      (minMovesForOToWinPath g).1, (minMovesForOToWinPath g).2.getD []⟩ g _ h4
  have h7 := ruleSearch_ok
    ⟨plR, plC, (minMovesForXToWinPath g).1, (minMovesForXToWinPath g).2.getD [],
      (minMovesForOToWinPath g).1, (minMovesForOToWinPath g).2.getD []⟩ g (collectEmpty g)
    hE hne (oPath_cells_empty g) aiFirstMove _ h6
  unfold cascade
  simp only
  rw [e1, e5, ruleOwnPath_of_chosen _ _ h7.2]
  exact h7

/-- On a board without Empty cell every rule of the cascade leaves the state alone. -/
theorem cascade_full (g : HexGame) (aiFirstMove : Bool) (plR plC : Int)
    (hfull : ∀ r c : Int, g.isCellEmpty r c = false) :
    (cascade g aiFirstMove plR plC).1 = (g, ⟨-1, -1, -1000000000⟩) := by
  have hnil : ∀ l : List (Int × Int), (∀ q ∈ l, g.isCellEmpty q.1 q.2 = true) → l = [] := by
    intro l hl
    cases l with
    | nil => rfl
    | cons q rest =>
        have := hl q (List.mem_cons_self _ _)
        rw [hfull] at this
        cases this
  have hE := hnil _ (collectEmpty_empty g)
  have hT := hnil _ (threatPath_cells_empty g)
  have hO := hnil _ (oPath_cells_empty g)
  unfold cascade
  simp only [hE, hT, hO]
  have e1 : ∀ tc st, ruleImmediateLoss tc [] [] st = st := by
    intro tc st
    unfold ruleImmediateLoss
    split
    · rename_i h
      simp only [Bool.and_eq_true] at h
      simp [firstEmptyOn, findBlocker, h.1]
    · rfl
  have e2 : ∀ st, ruleBlockWinningCell [] st = st := by
    intro st
    simp [ruleBlockWinningCell, findWinningCell]
  have e3 : ∀ st, ruleBlockBottomRow [] st = st := by
    intro st
    simp [ruleBlockBottomRow, findWinningCell]
  have e4 : ∀ tc st, ruleSpoilBottomRow tc [] st = st := by
    intro tc st
    simp [ruleSpoilBottomRow]
  have e5 : ∀ tc st, ruleShortThreat tc [] [] st = st := by
    intro tc st
    simp [ruleShortThreat]
  have e6 : ∀ (a : EvalArgs) st, a.threatPath = [] → ruleReinforceThreatPath a st = st := by
    intro a st ha
    simp [ruleReinforceThreatPath, ha]
  have e7 : ∀ (a : EvalArgs) fm, a.oPath = [] →
      (ruleSearch a [] fm (g, ⟨-1, -1, -1000000000⟩)).1 = (g, ⟨-1, -1, -1000000000⟩) := by
    intro a fm ha
    have hop : openingMove g a.oPath ⟨-1, -1, -1000000000⟩ = ⟨-1, -1, -1000000000⟩ := by
      simp [openingMove, hfull, ha]
    have htp : twoPly a.oPath [] (g, ⟨-1, -1, -1000000000⟩) = (g, ⟨-1, -1, -1000000000⟩) := by
      simp [twoPly, buildOCands, ha, sortDesc, twoPlyLoop]
    have hlf : localFallback a [] (g, ⟨-1, -1, -1000000000⟩) = (g, ⟨-1, -1, -1000000000⟩) := by
      simp [localFallback, fallbackScan]
    unfold ruleSearch
    cases fm <;> simp [hop, htp, hlf]
  have e8 : ∀ (a : EvalArgs) st, a.oPath = [] → ruleOwnPath a st = st := by
    intro a st ha
    simp [ruleOwnPath, ha]
  rw [e1, e2, e3, e4, e5, e6 _ _ rfl, e7 _ _ rfl, e8 _ _ rfl]

end Gui

end Hex

/-! ## The cascade selects a cell exactly when the board has an Empty cell -/

namespace Hex

/-- C16: for every board (the sizes 7 to 11 included) and whatever the flag `aiFirstMove`
and X's last move, the heuristic cascade selects no cell if and only if the board has no
Empty cell; whenever it selects a cell, that cell is in bounds and Empty on the board the
cascade was started on, the final `makeMove` of O succeeds, and the game it leaves is the
starting game with an O stone on that one cell. -/
theorem cascade_selects_iff_empty_cell_exists (g : HexGame) (aiFirstMove : Bool)
    (plR plC : Int) :
    (Gui.chosenCell g aiFirstMove plR plC = none ↔
      ¬ ∃ r c : Int, g.inBounds r c = true ∧ g.board r c = '.') ∧
    (∀ q : Int × Int, Gui.chosenCell g aiFirstMove plR plC = some q →
      g.inBounds q.1 q.2 = true ∧ g.board q.1 q.2 = '.' ∧
      ((Gui.cascade g aiFirstMove plR plC).1.1.makeMove q.1 q.2 'O').1 = true ∧
      (Gui.triggerAIMove g aiFirstMove plR plC).1 = g.setCell q.1 q.2 'O') := by
  by_cases hex : ∃ r c : Int, g.inBounds r c = true ∧ g.board r c = '.'
  · obtain ⟨r, c, hb, hd⟩ := hex
    have he : g.isCellEmpty r c = true := by simp [HexGame.isCellEmpty, hb, hd]
    have hne := Gui.collectEmpty_ne_nil g r c he
    have hok : Gui.ChoiceOk g (Gui.cascade g aiFirstMove plR plC).1 ∧
        (Gui.cascade g aiFirstMove plR plC).1.2.bestR ≠ -1 := by
      by_cases hc : Gui.minMovesForXToWin g ≤ 2
      · obtain ⟨cell, hcell, hcas, _⟩ := Gui.cascade_short_threat g aiFirstMove plR plC hc hne
        have hce := Gui.collectEmpty_empty g cell hcell
        rw [hcas]
        exact ⟨⟨rfl, Or.inr hce⟩, Gui.isCellEmpty_ne_neg_one g _ _ hce⟩
      · exact Gui.cascade_long_threat g aiFirstMove plR plC hc hne
    obtain ⟨⟨hgame, hbest⟩, hsel⟩ := hok
    have hbe : g.isCellEmpty (Gui.cascade g aiFirstMove plR plC).1.2.bestR
        (Gui.cascade g aiFirstMove plR plC).1.2.bestC = true := by
      rcases hbest with h | h
      · exact absurd h hsel
      · exact h
    have hbne : ((Gui.cascade g aiFirstMove plR plC).1.2.bestR != -1) = true := by
      simpa using hsel
    constructor
    · constructor
      · intro h
        simp [Gui.chosenCell, hbne] at h
      · intro h
        exact absurd ⟨r, c, hb, hd⟩ h
    · intro q hq
      simp only [Gui.chosenCell, hbne, if_true, Option.some.injEq] at hq
      subst hq
      refine ⟨isCellEmpty_inBounds g _ _ hbe, isCellEmpty_board g _ _ hbe, ?_, ?_⟩
      · rw [hgame, makeMove_of_empty g _ _ 'O' hbe]
      · simp only [Gui.triggerAIMove, hbne, if_true]
        rw [hgame, makeMove_of_empty g _ _ 'O' hbe]
  · have hfull : ∀ r c : Int, g.isCellEmpty r c = false := by
      intro r c
      by_contra h
      have h2 : g.isCellEmpty r c = true := by simpa using h
      exact hex ⟨r, c, isCellEmpty_inBounds g r c h2, isCellEmpty_board g r c h2⟩
    have hcas := Gui.cascade_full g aiFirstMove plR plC hfull
    have hnone : Gui.chosenCell g aiFirstMove plR plC = none := by
      simp [Gui.chosenCell, hcas]
    exact ⟨⟨fun _ => hex, fun _ => hnone⟩, fun q hq => by rw [hnone] at hq; cases hq⟩

end Hex

/-! ## Terminal scores of minimax, immediate wins and the probe of evaluateMoveForO -/

namespace Hex

open Console

/-- Inside the 32-bit range an integer is its own 32-bit value. -/
theorem wrap32_of_range (x : Int) (h1 : INT_MIN ≤ x) (h2 : x ≤ INT_MAX) : wrap32 x = x := by
  have hI1 : INT_MIN = -2147483648 := rfl
  have hI2 : INT_MAX = 2147483647 := rfl
  unfold wrap32
  omega

/-- C21: for every board, remaining depth `d` and all values of `isMaximizing`, `alpha`
and `beta`, with `maxDepth - d` between `-2147383647` and `2147483647` (the range in which
neither `maxDepth - d` nor one of the two scores overflows a 32-bit `int`): when the
searching side is connected, `minimax` returns exactly `100000 - (maxDepth - d)`; when it
is not but the opponent is connected, `minimax` returns exactly
`-100000 + (maxDepth - d)`; both values lie in the `int` range and are the values of the
32-bit computation; hence of two wins of the searching side the one detected with more
remaining depth has the strictly higher score. -/
theorem minimax_terminal_scores (ai : SmarterAI) (fuel : Nat) (g : HexGame) (d : Int)
    (isMax : Bool) (alpha beta : Int)
    (hlo : -2147383647 ≤ ai.maxDepth - d) (hhi : ai.maxDepth - d ≤ 2147483647) :
    (checkWin g ai.playerChar = true →
      minimax ai (fuel + 1) g d isMax alpha beta = some (100000 - (ai.maxDepth - d), g)) ∧
    (checkWin g ai.playerChar = false → checkWin g ai.opponentChar = true →
      minimax ai (fuel + 1) g d isMax alpha beta = some (-100000 + (ai.maxDepth - d), g)) ∧
    (INT_MIN ≤ 100000 - (ai.maxDepth - d) ∧ 100000 - (ai.maxDepth - d) ≤ INT_MAX ∧
      INT_MIN ≤ -100000 + (ai.maxDepth - d) ∧ -100000 + (ai.maxDepth - d) ≤ INT_MAX) ∧
    (wrap32 (100000 - wrap32 (ai.maxDepth - d)) = 100000 - (ai.maxDepth - d) ∧
      wrap32 (-100000 + wrap32 (ai.maxDepth - d)) = -100000 + (ai.maxDepth - d)) ∧
    (∀ (g2 : HexGame) (d2 : Int) (isMax2 : Bool) (alpha2 beta2 : Int),
      -2147383647 ≤ ai.maxDepth - d2 → ai.maxDepth - d2 ≤ 2147483647 →
      checkWin g ai.playerChar = true → checkWin g2 ai.playerChar = true → d < d2 →
      ∃ v v2 : Int, minimax ai (fuel + 1) g d isMax alpha beta = some (v, g) ∧
        minimax ai (fuel + 1) g2 d2 isMax2 alpha2 beta2 = some (v2, g2) ∧ v < v2 ∧
        wrap32 (100000 - wrap32 (ai.maxDepth - d)) = v ∧
        wrap32 (100000 - wrap32 (ai.maxDepth - d2)) = v2) := by
  have hI1 : INT_MIN = -2147483648 := rfl
  have hI2 : INT_MAX = 2147483647 := rfl
  have hwin : ∀ (g1 : HexGame) (d1 : Int) (b : Bool) (a1 b1 : Int),
      checkWin g1 ai.playerChar = true →
      minimax ai (fuel + 1) g1 d1 b a1 b1 = some (100000 - (ai.maxDepth - d1), g1) := by
    intro g1 d1 b a1 b1 h
    rw [minimax, if_pos h]
  have hw : ∀ d1 : Int, -2147383647 ≤ ai.maxDepth - d1 → ai.maxDepth - d1 ≤ 2147483647 →
      wrap32 (100000 - wrap32 (ai.maxDepth - d1)) = 100000 - (ai.maxDepth - d1) ∧
      wrap32 (-100000 + wrap32 (ai.maxDepth - d1)) = -100000 + (ai.maxDepth - d1) := by
    intro d1 h1 h2
    rw [wrap32_of_range (ai.maxDepth - d1) (by omega) (by omega)]
    exact ⟨wrap32_of_range _ (by omega) (by omega), wrap32_of_range _ (by omega) (by omega)⟩
  refine ⟨hwin g d isMax alpha beta, ?_, ⟨by omega, by omega, by omega, by omega⟩,
    hw d hlo hhi, ?_⟩
  · intro h1 h2
    rw [minimax]
    simp [h1, h2]
  · intro g2 d2 isMax2 alpha2 beta2 hlo2 hhi2 h1 h2 hlt
    exact ⟨_, _, hwin g d isMax alpha beta h1, hwin g2 d2 isMax2 alpha2 beta2 h2, by omega,
      (hw d hlo hhi).1, (hw d2 hlo2 hhi2).1⟩

theorem minimax_terminal_scores_witness :
    -2147383647 ≤ (SmarterAI.ofChar 'X' 2).maxDepth - 1 ∧
    (SmarterAI.ofChar 'X' 2).maxDepth - 1 ≤ 2147483647 ∧
    checkWin filledBoard (SmarterAI.ofChar 'X' 2).playerChar = true ∧
    minimax (SmarterAI.ofChar 'X' 2) (0 + 1) filledBoard 1 true INT_MIN INT_MAX
      = some (100000 - ((SmarterAI.ofChar 'X' 2).maxDepth - 1), filledBoard) ∧
    checkWin filledBoard (SmarterAI.ofChar 'O' 2).playerChar = false ∧
    checkWin filledBoard (SmarterAI.ofChar 'O' 2).opponentChar = true ∧
    minimax (SmarterAI.ofChar 'O' 2) (0 + 1) filledBoard 1 false INT_MIN INT_MAX
      = some (-100000 + ((SmarterAI.ofChar 'O' 2).maxDepth - 1), filledBoard) :=
  ⟨by decide, by decide, by decide,
    (minimax_terminal_scores (SmarterAI.ofChar 'X' 2) 0 filledBoard 1 true
      INT_MIN INT_MAX (by decide) (by decide)).1 (by decide),
    by decide, by decide,
    (minimax_terminal_scores (SmarterAI.ofChar 'O' 2) 0 filledBoard 1 false
      INT_MIN INT_MAX (by decide) (by decide)).2.1 (by decide) (by decide)⟩

/-- A first move of `chooseMove` that does not connect the AI scores at most 99998. -/
theorem firstMove_score_lt_win (ai : SmarterAI) (hp : ai.playerChar ≠ '.')
    (ho : ai.opponentChar ≠ '.') (g : HexGame) (hsize : g.size ≤ 20) (r c : Int)
    (he : g.isCellEmpty r c = true)
    (hnw : checkWin (g.setCell r c ai.playerChar) ai.playerChar = false) (v : Int)
    (g2 : HexGame)
    (hv : minimax ai (g.size * g.size + 1) (g.setCell r c ai.playerChar) (ai.maxDepth - 1)
      false INT_MIN INT_MAX = some (v, g2)) : v ≤ 99998 := by
  have hsq : g.size * g.size ≤ 400 := Nat.mul_le_mul hsize hsize
  have hI1 : INT_MIN = -2147483648 := rfl
  have hI2 : INT_MAX = 2147483647 := rfl
  have hle := numEmpty_le g
  have hdec := numEmpty_setCell g r c ai.playerChar he hp
  rw [minimax, if_neg (by simp [hnw])] at hv
  split at hv
  · have := congrArg Prod.fst (Option.some.inj hv)
    simp only at this
    omega
  split at hv
  · have hev := evaluateBoard_bounds ai (g.setCell r c ai.playerChar)
    have hsz : (g.setCell r c ai.playerChar).size = g.size := rfl
    rw [hsz] at hev
    have := congrArg Prod.fst (Option.some.inj hv)
    simp only at this
    omega
  · rename_i _ hnf
    simp only [Bool.or_eq_true, not_or, Bool.not_eq_true] at hnf
    simp only [Bool.false_eq_true, if_false, Bool.not_false] at hv
    obtain ⟨w, hw, hwb⟩ := minimaxLoop_spec
      (fun g1 a b => minimax ai (g.size * g.size) g1 (ai.maxDepth - 1 - 1) true a b)
      ai.opponentChar false (g.setCell r c ai.playerChar) (-100000) 99998
      (by
        intro r2 c2 a b he2
        have hdec2 := numEmpty_setCell (g.setCell r c ai.playerChar) r2 c2 _ he2 ho
        exact minimax_spec ai hp ho g.size (-100000) 99998 (by omega) (by omega)
          (g.size * g.size) _ (ai.maxDepth - 1 - 1) true a b rfl (by omega) (by omega)
          (by omega) (by omega) (by omega) (by omega) (by omega))
      (allCells (g.setCell r c ai.playerChar).size) INT_MAX INT_MIN INT_MAX
      (by intro h; cases h) (by intro _; omega)
    rw [hw] at hv
    have := congrArg Prod.fst (Option.some.inj hv)
    simp only at this
    have := hwb (Or.inl (exists_empty_of_not_isFull _ hnf.2))
    omega

/-- C27: for every board of size at most 20 (sizes 1 to 20 included), every AI side and
every search depth: if some Empty cell, once played by the AI side, makes
`checkWin(AI side)` true, then `chooseMove` returns an Empty cell with that property. -/
theorem chooseMove_takes_immediate_win (aiChar : Char) (depth : Int) (g : HexGame)
    (ha : aiChar ≠ '.') (hsize : g.size ≤ 20)
    (hwin : ∃ r c : Int, g.isCellEmpty r c = true ∧
      checkWin (g.setCell r c aiChar) aiChar = true) :
    ∃ m : Int × Int, chooseMove (SmarterAI.ofChar aiChar depth) g = some (m, g) ∧
      g.isCellEmpty m.1 m.2 = true ∧ checkWin (g.setCell m.1 m.2 aiChar) aiChar = true := by
  have ho := ofChar_opponent_ne_empty aiChar depth
  have hp : (SmarterAI.ofChar aiChar depth).playerChar ≠ '.' := ha
  obtain ⟨sc, m, hsc, hm, hcase⟩ := chooseMove_spec _ hp ho g
  have hI1 : INT_MIN = -2147483648 := rfl
  obtain ⟨r, c, he, hw⟩ := hwin
  have hscw : sc (r, c) = 99999 := by
    have h1 := hsc r c he
    have hw2 : checkWin (g.setCell r c (SmarterAI.ofChar aiChar depth).playerChar)
        (SmarterAI.ofChar aiChar depth).playerChar = true := hw
    rw [minimax, if_pos hw2] at h1
    have := congrArg Prod.fst (Option.some.inj h1)
    simp only [ofChar_maxDepth] at this
    omega
  rcases hcase with ⟨_, hall⟩ | ⟨hme, _, hall⟩
  · have := hall (r, c) he
    omega
  · obtain ⟨mr, mc⟩ := m
    refine ⟨(mr, mc), hm, hme, ?_⟩
    simp only at hme ⊢
    by_contra hcon
    have hnw : checkWin (g.setCell mr mc aiChar) aiChar = false := by simpa using hcon
    have h1 := firstMove_score_lt_win _ hp ho g hsize mr mc hme hnw _ _ (hsc mr mc hme)
    have h2 := hall (r, c) he
    omega

theorem chooseMove_takes_immediate_win_witness :
    ('X' : Char) ≠ '.' ∧ cornerBoard.size ≤ 20 ∧
    (∃ r c : Int, cornerBoard.isCellEmpty r c = true ∧
      checkWin (cornerBoard.setCell r c 'X') 'X' = true) ∧
    ∃ m : Int × Int, chooseMove (SmarterAI.ofChar 'X' 2) cornerBoard = some (m, cornerBoard) ∧
      cornerBoard.isCellEmpty m.1 m.2 = true ∧
      checkWin (cornerBoard.setCell m.1 m.2 'X') 'X' = true :=
  ⟨by decide, by decide, ⟨0, 1, by decide, by decide⟩,
    chooseMove_takes_immediate_win 'X' 2 cornerBoard (by decide) (by decide)
      ⟨0, 1, by decide, by decide⟩⟩

namespace Gui

/-- Called on a game in which `(r, c)` holds an O stone and O is not connected,
`evaluateMoveForO` leaves the game with that cell Empty: its probe `makeMove(r, c, 'X')`
fails on the occupied cell and the `undoMove(r, c)` that follows clears the O stone. -/
theorem evaluateMoveForO_clears_stone (h : HexGame) (r c plR plC : Int) (tc : Nat)
    (tp : List (Int × Int)) (oc : Nat) (op : List (Int × Int))
    (hb : h.inBounds r c = true) (hnw : checkWin h 'O' = false) :
    (evaluateMoveForO h r c plR plC tc tp oc op).2 = h.setCell r c '.' := by
  have hp := probe_undo h r c 'X' hb
  unfold evaluateMoveForO
  lift_lets
  intros
  split
  · rename_i hw
    rw [hnw] at hw
    cases hw
  · split
    · exact hp
    · exact hp

end Gui

/-- C30 (failing input): on the 5×5 game `board5` with the candidate O stone just placed
on `(1,3)`, `evaluateMoveForO(1, 3, ...)` returns, whatever its other arguments, with the
cell `(1,3)` Empty: the game it leaves is `board5` itself, not the game it was called
on. -/
theorem evaluateMoveForO_removes_candidate_stone :
    (board5.setCell 1 3 'O').board 1 3 = 'O' ∧
    ∀ (plR plC : Int) (tc : Nat) (tp : List (Int × Int)) (oc : Nat) (op : List (Int × Int)),
      (Gui.evaluateMoveForO (board5.setCell 1 3 'O') 1 3 plR plC tc tp oc op).2 = board5 ∧
      (Gui.evaluateMoveForO (board5.setCell 1 3 'O') 1 3 plR plC tc tp oc op).2.board 1 3
        = '.' := by
  refine ⟨by decide, ?_⟩
  intro plR plC tc tp oc op
  have h := Gui.evaluateMoveForO_clears_stone (board5.setCell 1 3 'O') 1 3 plR plC tc tp oc op
    (by decide) (by decide)
  rw [setCell_setCell_same, setCell_empty_self board5 1 3 (by decide)] at h
  rw [h]
  exact ⟨rfl, by decide⟩

end Hex

/-! ## One-move threats: the cost test and the place-and-check scan -/

namespace Hex

theorem stepCost_le_one (g : HexGame) (own : Char) (p : Int × Int) : stepCost g own p ≤ 1 := by
  unfold stepCost
  split <;> omega

/-- A route charged at most 1 has at most one cell, met once, that `own` does not hold. -/
theorem routeCost_le_one (g : HexGame) (own : Char) :
    ∀ route : List (Int × Int), routeCost g own route ≤ 1 →
      (∀ p ∈ route, stepCost g own p = 0) ∨
      ∃ e ∈ route, stepCost g own e = 1 ∧ ∀ p ∈ route, p = e ∨ stepCost g own p = 0 := by
  intro route
  induction route with
  | nil => intro _; left; intro p hp; simp at hp
  | cons a rest ih =>
      intro h
      have hsum : routeCost g own (a :: rest) = stepCost g own a + routeCost g own rest := by
        simp [routeCost]
      have ha := stepCost_le_one g own a
      rcases ih (by omega) with h0 | ⟨e, he, he1, hall⟩
      · by_cases ha0 : stepCost g own a = 0
        · left
          intro p hp
          rcases List.mem_cons.1 hp with rfl | hp
          · exact ha0
          · exact h0 p hp
        · right
          refine ⟨a, List.mem_cons_self _ _, by omega, ?_⟩
          intro p hp
          rcases List.mem_cons.1 hp with rfl | hp
          · exact Or.inl rfl
          · exact Or.inr (h0 p hp)
      · have hrest : 1 ≤ routeCost g own rest := by
          have : ∀ l : List (Int × Int), e ∈ l → 1 ≤ routeCost g own l := by
            intro l
            induction l with
            | nil => intro hm; simp at hm
            | cons b l ihl =>
                intro hm
                have hs : routeCost g own (b :: l) = stepCost g own b + routeCost g own l := by
                  simp [routeCost]
                rcases List.mem_cons.1 hm with rfl | hm
                · omega
                · have := ihl hm
                  omega
          exact this rest he
        right
        refine ⟨e, List.mem_cons_of_mem _ he, he1, ?_⟩
        intro p hp
        rcases List.mem_cons.1 hp with rfl | hp
        · exact Or.inr (by omega)
        · exact hall p hp

/-- A route without repeated cells all of whose cells but `e` are held by `own` is
charged at most 1. -/
theorem routeCost_nodup_le_one (g : HexGame) (own : Char) (e : Int × Int) :
    ∀ route : List (Int × Int), route.Nodup →
      (∀ p ∈ route, p = e ∨ stepCost g own p = 0) →
      routeCost g own route ≤ 1 ∧ (e ∉ route → routeCost g own route = 0) := by
  intro route
  induction route with
  | nil => intro _ _; simp [routeCost]
  | cons a rest ih =>
      intro hn hall
      have hsum : routeCost g own (a :: rest) = stepCost g own a + routeCost g own rest := by
        simp [routeCost]
      obtain ⟨hna, hnr⟩ := List.nodup_cons.1 hn
      obtain ⟨h1, h2⟩ := ih hnr (fun p hp => hall p (List.mem_cons_of_mem _ hp))
      have ha := stepCost_le_one g own a
      rcases hall a (List.mem_cons_self _ _) with rfl | ha0
      · have := h2 hna
        refine ⟨by omega, fun hne => absurd (List.mem_cons_self _ _) hne⟩
      · refine ⟨by omega, fun hne => ?_⟩
        have := h2 (fun hm => hne (List.mem_cons_of_mem _ hm))
        omega

theorem gui_checkWin_X_iff (g : HexGame) :
    Gui.checkWin g 'X' = true ↔
      ∃ route : List (Int × Int),
        IsRoute (Owned g 'X') (fun p => p.2 = 0) (fun p => p.2 = (g.size : Int) - 1) route := by
  have h := gui_checkWin_iff g 'X' (Or.inl rfl)
  unfold WinningChain at h
  rw [onStartEdge_X, onTargetEdge_X] at h
  exact h

/-- A connected X has cost 0. -/
theorem cost_zero_of_checkWin (g : HexGame) (hwin : Gui.checkWin g 'X' = true) :
    Gui.minMovesForXToWin g = 0 := by
  have hXO : ('X' : Char) ≠ 'O' := by decide
  have := (@core_zero_iff g 'X' 'O' _ _ _ _ (edgeSpec_X g) hXO).2
  apply this
  have hb : bfsHorizontal g 'X' = true := hwin
  rw [bfsHorizontal_iff] at hb
  exact hb

/-- When one X stone on an Empty cell connects X, the cost of X is at most 1. -/
theorem cost_le_one_of_winning_cell (g : HexGame) (r c : Int)
    (he : g.isCellEmpty r c = true) (hwin : Gui.checkWin (g.setCell r c 'X') 'X' = true) :
    Gui.minMovesForXToWin g ≤ 1 := by
  rw [gui_checkWin_X_iff] at hwin
  obtain ⟨route, hok, hchain, ⟨a, ha, hsa⟩, ⟨z, hz, hgz⟩⟩ := hwin
  obtain ⟨route2, hok2, hchain2, ha2, hz2, hnd⟩ :=
    exists_nodup_route route a z hok hchain ha hz
  have hdot := isCellEmpty_board g r c he
  have hstep : ∀ p ∈ route2, p = (r, c) ∨ stepCost g 'X' p = 0 := by
    intro p hp
    by_cases hpe : p.1 = r ∧ p.2 = c
    · exact Or.inl (Prod.ext hpe.1 hpe.2)
    · right
      have hb := (hok2 p hp).2
      simp only [HexGame.setCell, hpe, if_false] at hb
      simp [stepCost, hb]
  have hnot : ∀ p ∈ route2, NotOwnedBy g 'O' p := by
    intro p hp
    refine ⟨(hok2 p hp).1, ?_⟩
    by_cases hpe : p.1 = r ∧ p.2 = c
    · rw [hpe.1, hpe.2, hdot]; decide
    · have hb := (hok2 p hp).2
      simp only [HexGame.setCell, hpe, if_false] at hb
      rw [hb]; decide
  have hroute : IsRoute (NotOwnedBy g 'O') (fun p => p.2 = 0)
      (fun p => p.2 = (g.size : Int) - 1) route2 :=
    ⟨hnot, hchain2, ⟨a, ha2, hsa⟩, ⟨z, hz2, hgz⟩⟩
  obtain ⟨z3, hz3, hw⟩ := @walk_of_route g 'X' 'O' _ _ route2 hroute
  have hle := @core_le_walk g 'X' 'O' _ _ _ _ (edgeSpec_X g) z3 _ hz3 hw
  have hc := (routeCost_nodup_le_one g 'X' (r, c) route2 hnd hstep).1
  exact le_trans hle hc

/-- The cost of X is at most 1 exactly when X is connected or one X stone on an Empty
cell connects X. -/
theorem cost_le_one_iff (g : HexGame) (hwf : WellFormed g) :
    Gui.minMovesForXToWin g ≤ 1 ↔
      (Gui.checkWin g 'X' = true ∨
        ∃ r c : Int, g.isCellEmpty r c = true ∧ Gui.checkWin (g.setCell r c 'X') 'X' = true) := by
  have hXO : ('X' : Char) ≠ 'O' := by decide
  have hBI : 1 < blockedCost := by decide
  have hINF : 1 < INF := by decide
  constructor
  · intro hle
    have hlt : (minMovesCore g 'X' 'O' (fun r => ((r : Int), 0))
        (fun r => ((r : Int), (g.size : Int) - 1))).1 < INF := by
      have : Gui.minMovesForXToWin g = (minMovesCore g 'X' 'O' (fun r => ((r : Int), 0))
        (fun r => ((r : Int), (g.size : Int) - 1))).1 := rfl
      omega
    obtain ⟨z, hz, hw⟩ := core_walk (edgeSpec_X g) hlt
    have hk : (minMovesCore g 'X' 'O' (fun r => ((r : Int), 0))
        (fun r => ((r : Int), (g.size : Int) - 1))).1 ≤ 1 := hle
    rcases route_of_walk hw with hbig | ⟨route, hroute, hcost⟩
    · omega
    · obtain ⟨hok, hchain, hhead, hlast⟩ := hroute
      have hlast2 : ∃ z2, route.getLast? = some z2 ∧ z2.2 = (g.size : Int) - 1 := by
        obtain ⟨z2, hz2, hz3⟩ := hlast
        exact ⟨z2, hz2, by rw [hz3]; exact hz⟩
      have hownedOf : ∀ p ∈ route, stepCost g 'X' p = 0 → Owned g 'X' p := by
        intro p hp h0
        refine ⟨(hok p hp).1, ?_⟩
        unfold stepCost at h0
        split at h0
        · rename_i hb
          simpa using hb
        · omega
      rcases routeCost_le_one g 'X' route (by omega) with h0 | ⟨e, he, he1, hall⟩
      · left
        rw [gui_checkWin_X_iff]
        exact ⟨route, fun p hp => hownedOf p hp (h0 p hp), hchain, hhead, hlast2⟩
      · right
        have hne : g.board e.1 e.2 ≠ 'X' := by
          intro hx
          simp [stepCost, hx] at he1
        have hdot : g.board e.1 e.2 = '.' := by
          rcases hwf e.1 e.2 (hok e he).1 with h | h | h
          · exact h
          · exact absurd h hne
          · exact absurd h (hok e he).2
        refine ⟨e.1, e.2, by simp [HexGame.isCellEmpty, (hok e he).1, hdot], ?_⟩
        rw [gui_checkWin_X_iff]
        refine ⟨route, ?_, hchain, hhead, hlast2⟩
        intro p hp
        rcases hall p hp with rfl | h0
        · exact ⟨(hok p hp).1, setCell_board_self g p.1 p.2 'X'⟩
        · have ho := hownedOf p hp h0
          refine ⟨ho.1, ?_⟩
          simp only [HexGame.setCell]
          split
          · rfl
          · exact ho.2
  · rintro (hwin | ⟨r, c, he, hwin⟩)
    · have := cost_zero_of_checkWin g hwin
      omega
    · exact cost_le_one_of_winning_cell g r c he hwin

/-- For every board whose cells are `'.'`, `'X'` or `'O'`, `isXOneMoveFromWin()` is true
if and only if `checkWin('X')` already holds or there is an Empty cell on which
`makeMove(r, c, 'X')` makes `checkWin('X')` true; the cell ranges over all the Empty
cells of the board, not over the candidates of the cascade. -/
theorem isXOneMoveFromWin_iff_place_and_check (g : HexGame) (hwf : WellFormed g) :
    Gui.isXOneMoveFromWin g = true ↔
      (Gui.checkWin g 'X' = true ∨
        ∃ r c : Int, g.isCellEmpty r c = true ∧
          Gui.checkWin (g.makeMove r c 'X').2 'X' = true) := by
  have h := cost_le_one_iff g hwf
  unfold Gui.isXOneMoveFromWin
  rw [decide_eq_true_iff, h]
  constructor
  · rintro (h1 | ⟨r, c, he, hw⟩)
    · exact Or.inl h1
    · exact Or.inr ⟨r, c, he, by rw [makeMove_of_empty g r c 'X' he]; exact hw⟩
  · rintro (h1 | ⟨r, c, he, hw⟩)
    · exact Or.inl h1
    · exact Or.inr ⟨r, c, he, by rw [makeMove_of_empty g r c 'X' he] at hw; exact hw⟩

theorem isXOneMoveFromWin_iff_place_and_check_witness :
    WellFormed board5 ∧
    (Gui.isXOneMoveFromWin board5 = true ↔
      (Gui.checkWin board5 'X' = true ∨
        ∃ r c : Int, board5.isCellEmpty r c = true ∧
          Gui.checkWin (board5.makeMove r c 'X').2 'X' = true)) :=
  ⟨board5_wellFormed, isXOneMoveFromWin_iff_place_and_check board5 board5_wellFormed⟩

/-- On `wallGapBoard`, a position of a finished game in which O is connected, the cost
of X is 536870912, below the sentinel `INF`, the path written is the single cell `(3,1)`,
so its length is not the cost, and X is not connected on the board with an X stone on the
cell of the path. -/
theorem path_length_differs_from_cost_wallGapBoard :
    Gui.minMovesForXToWin wallGapBoard = 536870912 ∧
    Gui.minMovesForXToWin wallGapBoard < INF ∧
    (Gui.minMovesForXToWinPath wallGapBoard).2 = some [(3, 1)] ∧
    Gui.checkWin (wallGapBoard.setCell 3 1 'X') 'X' = false := by
  have h : Gui.minMovesForXToWinPath wallGapBoard = (536870912, some [(3, 1)]) := by decide!
  have h1 : Gui.minMovesForXToWin wallGapBoard = 536870912 := by
    unfold Gui.minMovesForXToWin
    rw [h]
  refine ⟨h1, ?_, ?_, ?_⟩
  · rw [h1]; decide
  · rw [h]
  · decide!

end Hex

/-! ## evaluateBoard in terms of stones and adjacent pairs -/

namespace Hex

open Console

theorem foldl_add_if {α : Type} (P : α → Bool) (k : Int) :
    ∀ (l : List α) (s0 : Int),
      l.foldl (fun s d => if P d = true then s + k else s) s0 = s0 + k * (l.countP P : Int) := by
  intro l
  induction l with
  | nil => intro s0; simp
  | cons a l ih =>
      intro s0
      simp only [List.foldl_cons, List.countP_cons]
      rw [ih]
      by_cases h : P a = true
      · simp only [h, if_true]
        push_cast
        ring
      · simp only [h, if_false]
        simp

theorem foldl_add_weight {α : Type} (Q : α → Bool) (w : α → Int) :
    ∀ (l : List α) (s0 : Int),
      l.foldl (fun s p => if Q p = true then s + w p else s) s0
        = s0 + (l.map fun p => if Q p = true then w p else 0).sum := by
  intro l
  induction l with
  | nil => intro s0; simp
  | cons a l ih =>
      intro s0
      simp only [List.foldl_cons, List.map_cons, List.sum_cons]
      rw [ih]
      by_cases h : Q a = true
      · simp only [h, if_true]; ring
      · simp [h]

/-- The number of neighbours of `p` on the board that hold `s`, as `scorePlayer` counts
them. -/
theorem scoreNeighbours_eq (g : HexGame) (s : Char) (r c score : Int) :
    scoreNeighbours g s r c score = score + 3 * ((kHexDirections.countP fun d =>
      g.inBounds (r + d.1) (c + d.2) && g.getCell (r + d.1) (c + d.2) == s : Nat) : Int) := by
  have h : ∀ l : List (Int × Int),
      l.foldl (fun s1 d =>
          if (g.inBounds (r + d.1) (c + d.2) && g.getCell (r + d.1) (c + d.2) == s) = true
          then s1 + 3 else s1) score
        = score + 3 * ((l.countP fun d =>
          g.inBounds (r + d.1) (c + d.2) && g.getCell (r + d.1) (c + d.2) == s : Nat) : Int) :=
    fun l => foldl_add_if (fun d => g.inBounds (r + d.1) (c + d.2) &&
      g.getCell (r + d.1) (c + d.2) == s) 3 l score
  unfold scoreNeighbours
  exact h kHexDirections

theorem allCells_nodup (n : Nat) : (allCells n).Nodup := by
  unfold allCells
  rw [List.nodup_flatten]
  constructor
  · intro l hl
    simp only [List.mem_map, List.mem_range] at hl
    obtain ⟨r, _, rfl⟩ := hl
    refine (List.nodup_range n).map ?_
    intro a b h
    simpa using h
  · rw [List.pairwise_map]
    refine (List.nodup_range n).imp ?_
    intro a b hab
    rw [List.disjoint_left]
    intro p hp hq
    simp only [List.mem_map, List.mem_range] at hp hq
    obtain ⟨c1, _, rfl⟩ := hp
    obtain ⟨c2, _, h2⟩ := hq
    simp only [Prod.mk.injEq, Nat.cast_inj] at h2
    exact hab h2.1.symm

theorem mem_ownedCells (g : HexGame) (s : Char) (p : Int × Int) :
    p ∈ ownedCells g s ↔ g.inBounds p.1 p.2 = true ∧ g.board p.1 p.2 = s := by
  unfold ownedCells
  rw [Finset.mem_filter, List.mem_toFinset, mem_allCells_iff_inBounds]

theorem kHexDirections_nodup : kHexDirections.Nodup := by decide

/-- The neighbours counted by `scorePlayer` around `p` are the owned cells adjacent
to `p`. -/
theorem neighbour_count_eq (g : HexGame) (s : Char) (p : Int × Int) :
    (kHexDirections.countP fun d =>
      g.inBounds (p.1 + d.1) (p.2 + d.2) && g.getCell (p.1 + d.1) (p.2 + d.2) == s)
      = ((ownedCells g s).filter fun q => HexAdj p q).card := by
  rw [List.countP_eq_length_filter, ← List.toFinset_card_of_nodup
    (kHexDirections_nodup.filter _)]
  apply Finset.card_bij (fun d _ => (p.1 + d.1, p.2 + d.2))
  · intro d hd
    simp only [List.mem_toFinset, List.mem_filter, Bool.and_eq_true, beq_iff_eq] at hd
    obtain ⟨hd1, hb, hc⟩ := hd
    rw [Finset.mem_filter, mem_ownedCells]
    simp only [HexGame.getCell, hb, Bool.not_true, Bool.false_eq_true, if_false] at hc
    refine ⟨⟨hb, hc⟩, ?_⟩
    rw [hexAdj_iff]
    exact ⟨d, hd1, rfl⟩
  · intro d1 _ d2 _ h
    simp only [Prod.mk.injEq] at h
    exact Prod.ext (by omega) (by omega)
  · intro q hq
    rw [Finset.mem_filter, mem_ownedCells, hexAdj_iff] at hq
    obtain ⟨⟨hb, hc⟩, d, hd, rfl⟩ := hq
    refine ⟨d, ?_, rfl⟩
    simp only [List.mem_toFinset, List.mem_filter, Bool.and_eq_true, beq_iff_eq]
    refine ⟨hd, hb, ?_⟩
    simp only [HexGame.getCell, hb, Bool.not_true, Bool.false_eq_true, if_false]
    exact hc

end Hex

namespace Hex

open Console

/-- The ordered pairs of adjacent owned cells are twice the unordered ones. -/
theorem ordered_pairs_eq_twice (g : HexGame) (s : Char) :
    ((ownedCells g s ×ˢ ownedCells g s).filter
      fun pq : (Int × Int) × (Int × Int) => HexAdj pq.1 pq.2).card = 2 * pairCount g s := by
  have hsplit := Finset.filter_card_add_filter_neg_card_eq_card
    (s := (ownedCells g s ×ˢ ownedCells g s).filter
      fun pq : (Int × Int) × (Int × Int) => HexAdj pq.1 pq.2)
    (fun pq : (Int × Int) × (Int × Int) =>
      pq.1.1 < pq.2.1 ∨ (pq.1.1 = pq.2.1 ∧ pq.1.2 < pq.2.2))
  have hU : (((ownedCells g s ×ˢ ownedCells g s).filter
      fun pq : (Int × Int) × (Int × Int) => HexAdj pq.1 pq.2).filter
      fun pq : (Int × Int) × (Int × Int) =>
        pq.1.1 < pq.2.1 ∨ (pq.1.1 = pq.2.1 ∧ pq.1.2 < pq.2.2)).card = pairCount g s := by
    unfold pairCount
    congr 1
    ext pq
    simp only [Finset.mem_filter, Finset.mem_product]
    tauto
  have hV : (((ownedCells g s ×ˢ ownedCells g s).filter
      fun pq : (Int × Int) × (Int × Int) => HexAdj pq.1 pq.2).filter
      fun pq : (Int × Int) × (Int × Int) =>
        ¬ (pq.1.1 < pq.2.1 ∨ (pq.1.1 = pq.2.1 ∧ pq.1.2 < pq.2.2))).card = pairCount g s := by
    unfold pairCount
    apply Finset.card_bij (fun pq _ => (pq.2, pq.1))
    · intro pq hpq
      simp only [Finset.mem_filter, Finset.mem_product] at hpq ⊢
      obtain ⟨⟨⟨h1, h2⟩, hadj⟩, hnlt⟩ := hpq
      have hne := hexAdj_ne hadj
      refine ⟨⟨h2, h1⟩, ?_, hexAdj_symm hadj⟩
      by_contra hcon
      apply hne
      apply Prod.ext <;> omega
    · intro a _ b _ h
      simp only [Prod.mk.injEq] at h
      exact Prod.ext h.2 h.1
    · intro pq hpq
      simp only [Finset.mem_filter, Finset.mem_product] at hpq
      obtain ⟨⟨h1, h2⟩, hlt, hadj⟩ := hpq
      refine ⟨(pq.2, pq.1), ?_, rfl⟩
      simp only [Finset.mem_filter, Finset.mem_product]
      refine ⟨⟨⟨h2, h1⟩, hexAdj_symm hadj⟩, ?_⟩
      omega
  rw [hU, hV] at hsplit
  omega

theorem sum_neighbours_eq (g : HexGame) (s : Char) :
    (∑ p ∈ ownedCells g s, ((ownedCells g s).filter fun q => HexAdj p q).card)
      = 2 * pairCount g s := by
  rw [← ordered_pairs_eq_twice, Finset.card_filter, Finset.sum_product]
  apply Finset.sum_congr rfl
  intro p _
  rw [Finset.card_filter]

/-- The value of `scorePlayer`: 5 for each stone of the side and 3 for each ordered pair
(stone, neighbouring stone), that is 6 for each adjacent pair. -/
theorem scorePlayer_eq (g : HexGame) (s : Char) :
    scorePlayer g s = 5 * (stoneCount g s : Int) + 6 * (pairCount g s : Int) := by
  have hstep : (fun (score : Int) (p : Int × Int) =>
      if (g.getCell p.1 p.2 == s) = true then scoreNeighbours g s p.1 p.2 (score + 5)
      else score)
      = fun score p => if (g.getCell p.1 p.2 == s) = true then
          score + (5 + 3 * (((ownedCells g s).filter fun q => HexAdj p q).card : Int))
        else score := by
    funext score p
    split
    · rw [scoreNeighbours_eq, neighbour_count_eq]
      ring
    · rfl
  unfold scorePlayer
  rw [hstep, foldl_add_weight, zero_add, ← List.sum_toFinset _ (allCells_nodup g.size)]
  have hfilter : (∑ p ∈ (allCells g.size).toFinset,
      if (g.getCell p.1 p.2 == s) = true then
        (5 + 3 * (((ownedCells g s).filter fun q => HexAdj p q).card : Int)) else 0)
      = ∑ p ∈ ownedCells g s,
        (5 + 3 * (((ownedCells g s).filter fun q => HexAdj p q).card : Int)) := by
    unfold ownedCells
    rw [Finset.sum_filter]
    apply Finset.sum_congr rfl
    intro p hp
    rw [List.mem_toFinset, mem_allCells_iff_inBounds] at hp
    simp [HexGame.getCell, hp]
  rw [hfilter, Finset.sum_add_distrib, Finset.sum_const, ← Finset.mul_sum]
  have h2 := sum_neighbours_eq g s
  have h3 : (∑ p ∈ ownedCells g s, (((ownedCells g s).filter fun q => HexAdj p q).card : Int))
      = ((2 * pairCount g s : Nat) : Int) := by
    rw [← h2]
    push_cast
    rfl
  rw [h3]
  unfold stoneCount
  push_cast
  simp only [nsmul_eq_mul]
  ring

/-- C22 (counterexample): on `board5`, where X holds four stones forming two adjacent
pairs and O holds none, `evaluateBoard` for the side X returns 32, while
`(5 * S + 3 * P)` of X minus that of O is 26. -/
theorem evaluateBoard_board5 :
    evaluateBoard (SmarterAI.ofChar 'X' 2) board5 = 32 ∧
    stoneCount board5 'X' = 4 ∧ pairCount board5 'X' = 2 ∧
    specScore board5 'X' - specScore board5 'O' = 26 ∧
    evaluateBoard (SmarterAI.ofChar 'X' 2) board5
      ≠ specScore board5 (SmarterAI.ofChar 'X' 2).playerChar
        - specScore board5 (SmarterAI.ofChar 'X' 2).opponentChar := by
  decide!

/-- C22 (amended): for every board, `evaluateBoard` returns
`(5 * S_own + 6 * P_own) - (5 * S_opp + 6 * P_opp)`, where `S` is the number of cells owned
by the side and `P` the number of unordered pairs of hex-adjacent cells both owned by it:
`scorePlayer` adds 3 for a pair from each of its two cells. -/
theorem evaluateBoard_eq_stones_and_pairs (ai : SmarterAI) (g : HexGame) :
    evaluateBoard ai g =
      (5 * (stoneCount g ai.playerChar : Int) + 6 * (pairCount g ai.playerChar : Int)) -
      (5 * (stoneCount g ai.opponentChar : Int) + 6 * (pairCount g ai.opponentChar : Int)) := by
  unfold evaluateBoard
  rw [scorePlayer_eq, scorePlayer_eq]

end Hex

/-! ## The cutoff of minimax does not change the value at the root -/

namespace Hex

open Console

theorem failSoft_refl (alpha beta v : Int) : FailSoft alpha beta v v :=
  ⟨fun _ => le_refl _, fun _ => le_refl _, fun _ _ => rfl⟩

theorem exhaustiveLoop_max_ge (child : HexGame → Int) (mover : Char) (g : HexGame) :
    ∀ (l : List (Int × Int)) (B : Int), B ≤ exhaustiveLoop child mover true g l B := by
  intro l
  induction l with
  | nil => intro B; exact le_refl _
  | cons a l ih =>
      intro B
      obtain ⟨r, c⟩ := a
      rw [exhaustiveLoop]
      split
      · simp only [if_true]
        exact le_trans (le_max_left _ _) (ih _)
      · exact ih B

theorem exhaustiveLoop_min_le (child : HexGame → Int) (mover : Char) (g : HexGame) :
    ∀ (l : List (Int × Int)) (B : Int), exhaustiveLoop child mover false g l B ≤ B := by
  intro l
  induction l with
  | nil => intro B; exact le_refl _
  | cons a l ih =>
      intro B
      obtain ⟨r, c⟩ := a
      rw [exhaustiveLoop]
      split
      · simp only [Bool.false_eq_true, if_false]
        exact le_trans (ih _) (min_le_left _ _)
      · exact ih B

/-- The cell loop of a maximizing node against the exhaustive loop.  `a0` is the `alpha`
the node was entered with, `b` and `B` the running `bestScore` of the two loops. -/
theorem maxLoop_failSoft (child : HexGame → Int → Int → Option (Int × HexGame))
    (V : HexGame → Int) (mover : Char) (g : HexGame) (a0 beta : Int)
    (hchild : ∀ r c a b, g.isCellEmpty r c = true → a0 ≤ a → a < b → b = beta →
      ∃ v, child (g.setCell r c mover) a b = some (v, g.setCell r c mover) ∧
        FailSoft a b v (V (g.setCell r c mover))) :
    ∀ (l : List (Int × Int)) (b B : Int), max a0 b < beta →
      (b ≤ a0 → B ≤ b) → (a0 < b → b = B) →
      ∃ v, minimaxLoop child mover true l g b (max a0 b) beta = some (v, g) ∧
        FailSoft a0 beta v (exhaustiveLoop V mover true g l B) := by
  intro l
  induction l with
  | nil =>
      intro b B hlt h1 h2
      refine ⟨b, rfl, ?_⟩
      rw [exhaustiveLoop]
      exact ⟨h1, fun h => by omega, fun h _ => h2 h⟩
  | cons cell rest ih =>
      intro b B hlt h1 h2
      obtain ⟨r, c⟩ := cell
      by_cases he : g.isCellEmpty r c = true
      · obtain ⟨v, hv, hf1, hf2, hf3⟩ := hchild r c (max a0 b) beta he (le_max_left _ _) hlt rfl
        rw [minimaxLoop, if_pos he, makeMove_of_empty g r c mover he, exhaustiveLoop, if_pos he]
        simp only [hv, undoMove_setCell g r c mover he, if_true]
        generalize V (g.setCell r c mover) = Vp at hf1 hf2 hf3 ⊢
        by_cases hcut : beta ≤ max (max a0 b) (max b v)
        · rw [if_pos hcut]
          have hvb : beta ≤ v := by omega
          have hge := exhaustiveLoop_max_ge V mover g rest (max B Vp)
          have := hf2 hvb
          exact ⟨_, rfl, fun h => by omega, fun _ => by omega, fun _ h => by omega⟩
        · rw [if_neg hcut]
          have hvb : v < beta := by omega
          have hmax : max (max a0 b) (max b v) = max a0 (max b v) := by omega
          rw [hmax]
          apply ih (max b v) (max B Vp) (by omega)
          · intro h
            have hva : v ≤ max a0 b := by omega
            have := hf1 hva
            have := h1 (by omega)
            omega
          · intro h
            by_cases hva : v ≤ max a0 b
            · have := hf1 hva
              have hb : a0 < b := by omega
              have := h2 hb
              omega
            · have := hf3 (by omega) hvb
              by_cases hb : a0 < b
              · have := h2 hb
                omega
              · have := h1 (by omega)
                omega
      · rw [minimaxLoop, if_neg he, exhaustiveLoop, if_neg he]
        exact ih b B hlt h1 h2

/-- The cell loop of a minimizing node against the exhaustive loop.  `b0` is the `beta`
the node was entered with. -/
theorem minLoop_failSoft (child : HexGame → Int → Int → Option (Int × HexGame))
    (V : HexGame → Int) (mover : Char) (g : HexGame) (alpha b0 : Int)
    (hchild : ∀ r c a b, g.isCellEmpty r c = true → a = alpha → a < b → b ≤ b0 →
      ∃ v, child (g.setCell r c mover) a b = some (v, g.setCell r c mover) ∧
        FailSoft a b v (V (g.setCell r c mover))) :
    ∀ (l : List (Int × Int)) (b B : Int), alpha < min b0 b →
      (b0 ≤ b → b ≤ B) → (b < b0 → b = B) →
      ∃ v, minimaxLoop child mover false l g b alpha (min b0 b) = some (v, g) ∧
        FailSoft alpha b0 v (exhaustiveLoop V mover false g l B) := by
  intro l
  induction l with
  | nil =>
      intro b B hlt h1 h2
      refine ⟨b, rfl, ?_⟩
      rw [exhaustiveLoop]
      exact ⟨fun h => by omega, h1, fun _ h => h2 h⟩
  | cons cell rest ih =>
      intro b B hlt h1 h2
      obtain ⟨r, c⟩ := cell
      by_cases he : g.isCellEmpty r c = true
      · obtain ⟨v, hv, hf1, hf2, hf3⟩ := hchild r c alpha (min b0 b) he rfl hlt
          (min_le_left _ _)
        rw [minimaxLoop, if_pos he, makeMove_of_empty g r c mover he, exhaustiveLoop, if_pos he]
        simp only [hv, undoMove_setCell g r c mover he, Bool.false_eq_true, if_false]
        generalize V (g.setCell r c mover) = Vp at hf1 hf2 hf3 ⊢
        by_cases hcut : min (min b0 b) (min b v) ≤ alpha
        · rw [if_pos hcut]
          have hvb : v ≤ alpha := by omega
          have hle := exhaustiveLoop_min_le V mover g rest (min B Vp)
          have := hf1 hvb
          exact ⟨_, rfl, fun _ => by omega, fun h => by omega, fun h _ => by omega⟩
        · rw [if_neg hcut]
          have hvb : alpha < v := by omega
          have hmin : min (min b0 b) (min b v) = min b0 (min b v) := by omega
          rw [hmin]
          apply ih (min b v) (min B Vp) (by omega)
          · intro h
            have hva : min b0 b ≤ v := by omega
            have := hf2 hva
            have := h1 (by omega)
            omega
          · intro h
            by_cases hva : min b0 b ≤ v
            · have := hf2 hva
              have hb : b < b0 := by omega
              have := h2 hb
              omega
            · have := hf3 hvb (by omega)
              by_cases hb : b < b0
              · have := h2 hb
                omega
              · have := h1 (by omega)
                omega
      · rw [minimaxLoop, if_neg he, exhaustiveLoop, if_neg he]
        exact ih b B hlt h1 h2

/-- Alpha-beta pruning is sound: on a window `alpha < beta` inside `[INT_MIN, INT_MAX]`
the pruned search returns, with the board restored, a score related to the exhaustive
value as `FailSoft` says. -/
theorem minimax_failSoft (ai : SmarterAI) (hp : ai.playerChar ≠ '.')
    (ho : ai.opponentChar ≠ '.') :
    ∀ (fuel : Nat) (g : HexGame) (depth : Int) (isMax : Bool) (alpha beta : Int),
      numEmpty g < fuel → alpha < beta → INT_MIN ≤ alpha → beta ≤ INT_MAX →
      ∃ v, minimax ai fuel g depth isMax alpha beta = some (v, g) ∧
        FailSoft alpha beta v (minimaxExhaustive ai fuel g depth isMax) := by
  have hI1 : INT_MIN = -2147483648 := rfl
  have hI2 : INT_MAX = 2147483647 := rfl
  intro fuel
  induction fuel with
  | zero => intro g _ _ _ _ h; omega
  | succ fuel ih =>
      intro g depth isMax alpha beta hf hab hlo hhi
      rw [minimax, minimaxExhaustive]
      split
      · exact ⟨_, rfl, failSoft_refl _ _ _⟩
      split
      · exact ⟨_, rfl, failSoft_refl _ _ _⟩
      split
      · exact ⟨_, rfl, failSoft_refl _ _ _⟩
      · cases isMax
        · simp only [Bool.false_eq_true, if_false, Bool.not_false]
          have hmin : min beta INT_MAX = beta := by omega
          have := minLoop_failSoft
            (fun g1 a b => minimax ai fuel g1 (depth - 1) true a b)
            (fun g1 => minimaxExhaustive ai fuel g1 (depth - 1) true)
            ai.opponentChar g alpha beta
            (by
              intro r c a b he ha hab2 hb
              have hdec := numEmpty_setCell g r c _ he ho
              exact ih _ (depth - 1) true a b (by omega) hab2 (by omega) (by omega))
            (allCells g.size) INT_MAX INT_MAX (by omega) (fun _ => le_refl _) (fun _ => rfl)
          rw [hmin] at this
          exact this
        · simp only [if_true, Bool.not_true]
          have hmax : max alpha INT_MIN = alpha := by omega
          have := maxLoop_failSoft
            (fun g1 a b => minimax ai fuel g1 (depth - 1) false a b)
            (fun g1 => minimaxExhaustive ai fuel g1 (depth - 1) false)
            ai.playerChar g alpha beta
            (by
              intro r c a b he ha hab2 hb
              have hdec := numEmpty_setCell g r c _ he hp
              exact ih _ (depth - 1) false a b (by omega) hab2 (by omega) (by omega))
            (allCells g.size) INT_MIN INT_MIN (by omega) (fun _ => le_refl _) (fun _ => rfl)
          rw [hmax] at this
          exact this

end Hex

namespace Hex

open Console

/-- With the full window the pruned search returns the exhaustive value, provided the
scores stay inside the 32-bit range. -/
theorem minimax_full_window (ai : SmarterAI) (hp : ai.playerChar ≠ '.')
    (ho : ai.opponentChar ≠ '.') (fuel : Nat) (g : HexGame) (depth : Int) (isMax : Bool)
    (hsize : g.size ≤ 20) (hf : numEmpty g < fuel)
    (hK1 : -2000000000 ≤ ai.maxDepth - depth) (hK2 : ai.maxDepth - depth ≤ 2000000000) :
    minimax ai fuel g depth isMax INT_MIN INT_MAX
      = some (minimaxExhaustive ai fuel g depth isMax, g) := by
  have hI1 : INT_MIN = -2147483648 := rfl
  have hI2 : INT_MAX = 2147483647 := rfl
  have hsq : g.size * g.size ≤ 400 := Nat.mul_le_mul hsize hsize
  have hle := numEmpty_le g
  obtain ⟨v, hv, _, _, hf3⟩ := minimax_failSoft ai hp ho fuel g depth isMax INT_MIN INT_MAX hf
    (by omega) (le_refl _) (le_refl _)
  obtain ⟨w, hw, hw1, hw2⟩ := minimax_spec ai hp ho g.size (-2000100400) 2000100400
    (by omega) (by omega) fuel g depth isMax INT_MIN INT_MAX rfl hf
    (by omega) (by omega) (by omega) (by omega) (by omega) (by omega)
  rw [hw] at hv
  have hvw : w = v := congrArg Prod.fst (Option.some.inj hv)
  subst hvw
  rw [hw, hf3 (by omega) (by omega)]

theorem chooseLoop_eq_exhaustive (ai : SmarterAI) (fuel : Nat) (g : HexGame)
    (hsc : ∀ r c, g.isCellEmpty r c = true →
      minimax ai fuel (g.setCell r c ai.playerChar) (ai.maxDepth - 1) false INT_MIN INT_MAX =
        some (minimaxExhaustive ai fuel (g.setCell r c ai.playerChar) (ai.maxDepth - 1) false,
          g.setCell r c ai.playerChar)) :
    ∀ (l : List (Int × Int)) (bs : Int) (bm : Int × Int),
      chooseLoop ai fuel l g bs bm = some (chooseLoopExhaustive ai fuel g l bs bm, g) := by
  intro l
  induction l with
  | nil => intro bs bm; rfl
  | cons cell rest ih =>
      intro bs bm
      obtain ⟨r, c⟩ := cell
      by_cases he : g.isCellEmpty r c = true
      · rw [chooseLoop, if_pos he, makeMove_of_empty g r c _ he, chooseLoopExhaustive,
          if_pos he]
        simp only [hsc r c he, undoMove_setCell g r c _ he]
        split
        · exact ih _ _
        · exact ih _ _
      · rw [chooseLoop, if_neg he, chooseLoopExhaustive, if_neg he]
        exact ih _ _

/-- C26: for every board of size at most 20, every AI side, remaining depth and side to
move, `minimax` called with the full window (`alpha = INT_MIN`, `beta = INT_MAX`) returns
the value of the exhaustive minimax, the search with the test `beta <= alpha` deleted;
consequently `chooseMove` selects the same cell with and without pruning.  The scores are
unbounded integers here, which is the C++ arithmetic for `|maxDepth - depth|` up to
`2000000000`. -/
theorem minimax_pruning_keeps_value (aiChar : Char) (maxDepth : Int) (g : HexGame)
    (ha : aiChar ≠ '.') (hsize : g.size ≤ 20) :
    (∀ (fuel : Nat) (depth : Int) (isMax : Bool), numEmpty g < fuel →
      -2000000000 ≤ maxDepth - depth → maxDepth - depth ≤ 2000000000 →
      minimax (SmarterAI.ofChar aiChar maxDepth) fuel g depth isMax INT_MIN INT_MAX
        = some (minimaxExhaustive (SmarterAI.ofChar aiChar maxDepth) fuel g depth isMax, g)) ∧
    chooseMove (SmarterAI.ofChar aiChar maxDepth) g
      = some (chooseMoveExhaustive (SmarterAI.ofChar aiChar maxDepth) g, g) := by
  have ho := ofChar_opponent_ne_empty aiChar maxDepth
  have hp : (SmarterAI.ofChar aiChar maxDepth).playerChar ≠ '.' := ha
  constructor
  · intro fuel depth isMax hf hK1 hK2
    exact minimax_full_window _ hp ho fuel g depth isMax hsize hf hK1 hK2
  · unfold chooseMove chooseMoveExhaustive
    apply chooseLoop_eq_exhaustive
    intro r c he
    have hle := numEmpty_le (g.setCell r c (SmarterAI.ofChar aiChar maxDepth).playerChar)
    have hsz : (g.setCell r c (SmarterAI.ofChar aiChar maxDepth).playerChar).size = g.size := rfl
    rw [hsz] at hle
    have hm : (SmarterAI.ofChar aiChar maxDepth).maxDepth = maxDepth := rfl
    exact minimax_full_window _ hp ho _ _ _ false hsize (by omega) (by rw [hm]; omega)
      (by rw [hm]; omega)

theorem minimax_pruning_keeps_value_witness :
    ('O' : Char) ≠ '.' ∧ board5.size ≤ 20 ∧
    (∀ (fuel : Nat) (depth : Int) (isMax : Bool), numEmpty board5 < fuel →
      -2000000000 ≤ 2 - depth → 2 - depth ≤ 2000000000 →
      minimax (SmarterAI.ofChar 'O' 2) fuel board5 depth isMax INT_MIN INT_MAX
        = some (minimaxExhaustive (SmarterAI.ofChar 'O' 2) fuel board5 depth isMax, board5)) ∧
    chooseMove (SmarterAI.ofChar 'O' 2) board5
      = some (chooseMoveExhaustive (SmarterAI.ofChar 'O' 2) board5, board5) :=
  ⟨by decide, by decide, minimax_pruning_keeps_value 'O' 2 board5 (by decide) (by decide)⟩

end Hex

/-! ## The choice of the short-threat rule -/

namespace Hex

namespace Gui

theorem threatStep_lex (g : HexGame) (tc : Nat) (P : List (Int × Int)) (st : ThreatState)
    (a : Int × Int) (ha : g.isCellEmpty a.1 a.2 = true) (hr : 0 ≤ raiseOf g tc a)
    (h : ThreatLex g tc P st) : ThreatLex g tc (P ++ [a]) (threatStep tc st a) := by
  obtain ⟨hg, hsel⟩ := h
  have hu := undoMove_makeMove g a.1 a.2 'O' ha
  unfold threatStep
  simp only [hg, hu]
  have hraise : (minMovesForXToWin (g.makeMove a.1 a.2 'O').2 : Int) - (tc : Int)
      = raiseOf g tc a := rfl
  have hcen : absInt (a.1 - ((g.size / 2 : Nat) : Int)) +
      absInt (a.2 - ((g.size / 2 : Nat) : Int)) = centreDist g a := rfl
  rw [hraise, hcen]
  split
  · rename_i hcond
    refine ⟨rfl, Or.inr ⟨a, by simp, rfl, rfl, rfl, rfl, ?_⟩⟩
    intro q hq
    rcases List.mem_append.1 hq with hq | hq
    · rcases hsel with ⟨hP, _⟩ | ⟨cell, _, _, e1, e2, e3, hall⟩
      · rw [hP] at hq; simp at hq
      · obtain ⟨n1, n2⟩ := hall q hq
        rw [e1, e2, e3] at hcond
        unfold NotBetter
        constructor
        · rcases hcond with h1 | h1 | h1 <;> omega
        · intro heq
          have heq2 : raiseOf g tc q = raiseOf g tc cell := by
            rcases hcond with h1 | h1 | h1 <;> omega
          obtain ⟨n3, n4⟩ := n2 heq2
          constructor
          · rcases hcond with h1 | h1 | h1 <;> omega
          · intro hrow
            have hrow2 : q.1 = cell.1 := by
              rcases hcond with h1 | h1 | h1 <;> omega
            have := n4 hrow2
            rcases hcond with h1 | h1 | h1 <;> omega
    · simp only [List.mem_singleton] at hq
      subst hq
      exact ⟨le_refl _, fun _ => ⟨le_refl _, fun _ => le_refl _⟩⟩
  · rename_i hcond
    rcases hsel with ⟨_, hbr⟩ | ⟨cell, hcell, e0, e1, e2, e3, hall⟩
    · exact absurd (Or.inl (by omega)) hcond
    · refine ⟨rfl, Or.inr ⟨cell, List.mem_append_left _ hcell, e0, e1, e2, e3, ?_⟩⟩
      intro q hq
      rcases List.mem_append.1 hq with hq | hq
      · exact hall q hq
      · simp only [List.mem_singleton] at hq
        subst hq
        rw [e1, e2, e3] at hcond
        unfold NotBetter
        refine ⟨?_, fun heq => ⟨?_, fun hrow => ?_⟩⟩
        · by_contra hlt
          exact hcond (Or.inl (by omega))
        · by_contra hlt
          exact hcond (Or.inr (Or.inl ⟨heq, by omega⟩))
        · by_contra hlt
          exact hcond (Or.inr (Or.inr ⟨heq, hrow, by omega⟩))

theorem threatStep_fold_lex (g : HexGame) (tc : Nat) :
    ∀ (L P : List (Int × Int)) (st : ThreatState),
      (∀ q ∈ L, g.isCellEmpty q.1 q.2 = true ∧ 0 ≤ raiseOf g tc q) →
      ThreatLex g tc P st → ThreatLex g tc (P ++ L) (L.foldl (threatStep tc) st) := by
  intro L
  induction L with
  | nil => intro P st _ h; simpa using h
  | cons a L ih =>
      intro P st hL h
      obtain ⟨ha, hr⟩ := hL a (List.mem_cons_self _ _)
      have := ih (P ++ [a]) (threatStep tc st a)
        (fun q hq => hL q (List.mem_cons_of_mem _ hq)) (threatStep_lex g tc P st a ha hr h)
      simpa using this

/-- Under a short threat (`threatCost <= 2`) with at least one candidate, the cascade
leaves the board as it found it and chooses a candidate that no candidate beats in the
order of the short-threat rule. -/
theorem cascade_short_threat_lex (g : HexGame) (aiFirstMove : Bool) (plR plC : Int)
    (hc : minMovesForXToWin g ≤ 2) (hne : collectEmpty g ≠ []) :
    ∃ cell ∈ collectEmpty g,
      cascade g aiFirstMove plR plC =
        ((g, ⟨cell.1, cell.2, 4000000⟩), aiFirstMove) ∧
      ∀ q ∈ collectEmpty g, NotBetter g (minMovesForXToWin g) cell q := by
  have hE := collectEmpty_empty g
  generalize hst1 : ruleImmediateLoss (minMovesForXToWinPath g).1
    ((minMovesForXToWinPath g).2.getD []) (collectEmpty g) (g, ⟨-1, -1, -1000000000⟩) = st1
  have h1 : st1.1 = g := by
    rw [← hst1]; exact ruleImmediateLoss_game _ _ _ _ hE
  generalize hst2 : ruleBlockWinningCell (collectEmpty g) st1 = st2
  have h2 : st2.1 = g := by
    rw [← hst2, ruleBlockWinningCell_game _ _ (by rw [h1]; exact hE), h1]
  generalize hst3 : ruleBlockBottomRow (collectEmpty g) st2 = st3
  have h3 : st3.1 = g := by
    rw [← hst3, ruleBlockBottomRow_game _ _ (by rw [h2]; exact hE), h2]
  generalize hst4 : ruleSpoilBottomRow (minMovesForXToWinPath g).1 (collectEmpty g) st3 = st4
  have h4 : st4.1 = g := by
    rw [← hst4, ruleSpoilBottomRow_game _ _ _ (by rw [h3]; exact hE), h3]
  have hfold := fun b1 => threatStep_fold_lex g (minMovesForXToWin g) (collectEmpty g) []
    { game := st4.1, bestRaise := -1, bestCenter := 1000000, bestRowBias := -1, best := b1 }
    (fun q hq => ⟨hE q hq, raiseOf_nonneg g q (hE q hq)⟩) ⟨h4, Or.inl ⟨rfl, rfl⟩⟩
  have hloop : ∀ b1 : Best, ∃ cell ∈ collectEmpty g,
      (((collectEmpty g).foldl (threatStep (minMovesForXToWin g))
          { game := st4.1, bestRaise := -1, bestCenter := 1000000, bestRowBias := -1,
            best := b1 }).game,
        ((collectEmpty g).foldl (threatStep (minMovesForXToWin g))
          { game := st4.1, bestRaise := -1, bestCenter := 1000000, bestRowBias := -1,
            best := b1 }).best) = (g, (⟨cell.1, cell.2, 4000000⟩ : Best)) ∧
      ∀ q ∈ collectEmpty g, NotBetter g (minMovesForXToWin g) cell q := by
    intro b1
    obtain ⟨k1, k3⟩ := hfold b1
    simp only [List.nil_append] at k3
    rcases k3 with ⟨k3, _⟩ | ⟨cell, hcell, k4, _, _, _, k6⟩
    · exact absurd k3 hne
    · exact ⟨cell, hcell, Prod.ext k1 k4, k6⟩
  have hshort : ∃ cell ∈ collectEmpty g,
      ruleShortThreat (minMovesForXToWin g) ((minMovesForXToWinPath g).2.getD [])
        (collectEmpty g) st4 = (g, ⟨cell.1, cell.2, 4000000⟩) ∧
      ∀ q ∈ collectEmpty g, NotBetter g (minMovesForXToWin g) cell q := by
    unfold ruleShortThreat
    rw [if_pos hc]
    exact hloop _
  obtain ⟨cell, hcell, hres, hmax⟩ := hshort
  refine ⟨cell, hcell, ?_, hmax⟩
  have hrow := isCellEmpty_row_ne g cell (hE cell hcell)
  have hchoose : cascade g aiFirstMove plR plC =
      (ruleOwnPath ⟨plR, plC, (minMovesForXToWinPath g).1, (minMovesForXToWinPath g).2.getD [],
          (minMovesForOToWinPath g).1, (minMovesForOToWinPath g).2.getD []⟩
        (ruleSearch ⟨plR, plC, (minMovesForXToWinPath g).1, (minMovesForXToWinPath g).2.getD [],
          (minMovesForOToWinPath g).1, (minMovesForOToWinPath g).2.getD []⟩ (collectEmpty g)
          aiFirstMove
          (ruleReinforceThreatPath ⟨plR, plC, (minMovesForXToWinPath g).1,
            (minMovesForXToWinPath g).2.getD [],
            (minMovesForOToWinPath g).1, (minMovesForOToWinPath g).2.getD []⟩
            (ruleShortThreat (minMovesForXToWin g) ((minMovesForXToWinPath g).2.getD [])
              (collectEmpty g) st4))).1,
       (ruleSearch ⟨plR, plC, (minMovesForXToWinPath g).1, (minMovesForXToWinPath g).2.getD [],
          (minMovesForOToWinPath g).1, (minMovesForOToWinPath g).2.getD []⟩ (collectEmpty g)
          aiFirstMove
          (ruleReinforceThreatPath ⟨plR, plC, (minMovesForXToWinPath g).1,
            (minMovesForXToWinPath g).2.getD [],
            (minMovesForOToWinPath g).1, (minMovesForOToWinPath g).2.getD []⟩
            (ruleShortThreat (minMovesForXToWin g) ((minMovesForXToWinPath g).2.getD [])
              (collectEmpty g) st4))).2) := by
    rw [← hst4, ← hst3, ← hst2, ← hst1]
    rfl
  rw [hchoose, hres]
  simp [ruleReinforceThreatPath, ruleSearch, ruleOwnPath, hrow]

theorem chosenCell_of_cascade (g : HexGame) (aiFirstMove : Bool) (plR plC : Int)
    (cell : Int × Int) (score : Int) (fm : Bool) (he : g.isCellEmpty cell.1 cell.2 = true)
    (h : cascade g aiFirstMove plR plC = ((g, ⟨cell.1, cell.2, score⟩), fm)) :
    chosenCell g aiFirstMove plR plC = some cell := by
  have hne := isCellEmpty_ne_neg_one g cell.1 cell.2 he
  unfold chosenCell
  simp only [h]
  simp [hne]

end Gui

end Hex

namespace Hex

/-- On every board on which X's cost is at most 2 and at least one cell is Empty, the
cascade chooses one of its candidates (the first 50 Empty cells in row-major order) that
no candidate beats: no candidate raises `minMovesForXToWin` more when it
receives an O stone; among the candidates with the same raise none has a greater row,
and among those none has a smaller `|r - N/2| + |c - N/2|`.  On a board of at most 50
cells the candidates are all the Empty cells. -/
theorem cascade_short_threat_choice (g : HexGame) (aiFirstMove : Bool) (plR plC : Int)
    (hc : Gui.minMovesForXToWin g ≤ 2) (hex : ∃ r c : Int, g.isCellEmpty r c = true) :
    ∃ cell : Int × Int, Gui.chosenCell g aiFirstMove plR plC = some cell ∧
      cell ∈ Gui.collectEmpty g ∧
      (∀ q ∈ Gui.collectEmpty g, Gui.NotBetter g (Gui.minMovesForXToWin g) cell q) ∧
      (g.size * g.size ≤ 50 → ∀ q : Int × Int, g.isCellEmpty q.1 q.2 = true →
        Gui.NotBetter g (Gui.minMovesForXToWin g) cell q) := by
  obtain ⟨r, c, he⟩ := hex
  have hne := Gui.collectEmpty_ne_nil g r c he
  obtain ⟨cell, hcell, hcas, hall⟩ := Gui.cascade_short_threat_lex g aiFirstMove plR plC hc hne
  have hce := Gui.collectEmpty_empty g cell hcell
  refine ⟨cell, Gui.chosenCell_of_cascade _ _ _ _ cell _ _ hce hcas, hcell, hall, ?_⟩
  intro hsmall q hq
  exact hall q (Gui.mem_collectEmpty_of_small g hsmall q hq)

theorem cascade_short_threat_choice_witness :
    Gui.minMovesForXToWin singleGapBoard ≤ 2 ∧
    (∃ r c : Int, singleGapBoard.isCellEmpty r c = true) ∧
    ∃ cell : Int × Int, Gui.chosenCell singleGapBoard false 6 3 = some cell ∧
      cell ∈ Gui.collectEmpty singleGapBoard ∧
      (∀ q ∈ Gui.collectEmpty singleGapBoard,
        Gui.NotBetter singleGapBoard (Gui.minMovesForXToWin singleGapBoard) cell q) ∧
      (singleGapBoard.size * singleGapBoard.size ≤ 50 →
        ∀ q : Int × Int, singleGapBoard.isCellEmpty q.1 q.2 = true →
          Gui.NotBetter singleGapBoard (Gui.minMovesForXToWin singleGapBoard) cell q) :=
  ⟨by decide!, ⟨6, 4, by decide⟩,
    cascade_short_threat_choice singleGapBoard false 6 3 (by decide!) ⟨6, 4, by decide⟩⟩

end Hex

/-! ## The first move of the cascade -/

namespace Hex

/-- On a board whose only stone is an X stone in column `xc`, a path of X's cost search
that ends in column `j` is charged at least `j`, and at least `j + 1` when it has not
reached the column of the stone. -/
theorem walk_single_stone (g : HexGame) (xr xc : Int) (hX : g.board xr xc = 'X')
    (hrest : ∀ i j : Int, g.inBounds i j = true → ¬ (i = xr ∧ j = xc) → g.board i j = '.')
    {p : Int × Int} {k : Nat} (hw : Walk g 'X' 'O' (fun p => p.2 = 0) p k) :
    p.2 + 1 ≤ (k : Int) + (if xc ≤ p.2 then 1 else 0) := by
  have hcost : ∀ q : Int × Int, g.inBounds q.1 q.2 = true →
      (q.1 = xr ∧ q.2 = xc ∧ stepCost g 'X' q = 0 ∧ cellCost 'X' 'O' (g.board q.1 q.2) = 0) ∨
      (¬ (q.1 = xr ∧ q.2 = xc) ∧ stepCost g 'X' q = 1 ∧
        cellCost 'X' 'O' (g.board q.1 q.2) = 1) := by
    intro q hb
    by_cases hq : q.1 = xr ∧ q.2 = xc
    · left
      refine ⟨hq.1, hq.2, ?_, ?_⟩
      · rw [stepCost, hq.1, hq.2, hX]; rfl
      · rw [hq.1, hq.2, hX]; rfl
    · right
      have hd := hrest q.1 q.2 hb hq
      refine ⟨hq, ?_, ?_⟩
      · rw [stepCost, hd]; rfl
      · rw [hd]; rfl
  induction hw with
  | seed p hs hb =>
      simp only at hs
      rcases hcost p hb with ⟨_, h2, _, h4⟩ | ⟨_, _, h4⟩
      · rw [h4, hs]
        have : xc ≤ 0 := by omega
        simp [this]
      · rw [h4, hs]
        split <;> simp
  | step p q k _ hadj hb _ ih =>
      have hcol : q.2 ≤ p.2 + 1 := by
        unfold HexAdj kHexDirections at hadj
        simp only [List.mem_cons, Prod.mk.injEq, List.mem_singleton, List.not_mem_nil,
          or_false] at hadj
        omega
      rcases hcost q hb with ⟨_, h2, h3, _⟩ | ⟨_, h3, _⟩
      · rw [h3]
        split at ih <;> split <;> push_cast <;> omega
      · rw [h3]
        split at ih <;> split <;> push_cast <;> omega

/-- On a board whose only stone is one X stone, X needs at least `N - 1` moves. -/
theorem single_stone_cost (g : HexGame) (xr xc : Int) (hX : g.board xr xc = 'X')
    (hrest : ∀ i j : Int, g.inBounds i j = true → ¬ (i = xr ∧ j = xc) → g.board i j = '.')
    (hsize : g.size ≤ 11) : g.size ≤ Gui.minMovesForXToWin g + 1 := by
  have hcore : Gui.minMovesForXToWin g = (minMovesCore g 'X' 'O' (fun r => ((r : Int), 0))
      (fun r => ((r : Int), (g.size : Int) - 1))).1 := rfl
  have hINF : INF = 1000000000 := rfl
  by_cases hlt : (minMovesCore g 'X' 'O' (fun r => ((r : Int), 0))
      (fun r => ((r : Int), (g.size : Int) - 1))).1 < INF
  · obtain ⟨z, hz, hw⟩ := core_walk (edgeSpec_X g) hlt
    have := walk_single_stone g xr xc hX hrest hw
    rw [hcore]
    split at this <;> omega
  · omega

namespace Gui

theorem findWinningCell_none (keep : Int × Int → Bool) (g : HexGame) :
    ∀ L : List (Int × Int),
      (∀ q ∈ L, g.isCellEmpty q.1 q.2 = true ∧ checkWin (g.setCell q.1 q.2 'X') 'X' = false) →
      findWinningCell keep g L = (g, none) := by
  intro L
  induction L with
  | nil => intro _; rfl
  | cons a L ih =>
      intro h
      obtain ⟨he, hw⟩ := h a (List.mem_cons_self _ _)
      have hrest := ih (fun q hq => h q (List.mem_cons_of_mem _ hq))
      rw [findWinningCell]
      split
      · exact hrest
      · simp only [makeMove_of_empty g a.1 a.2 'X' he, hw, undoMove_setCell g a.1 a.2 'X' he,
          Bool.false_eq_true, if_false]
        exact hrest

theorem foldl_count_if (P : Nat → Bool) :
    ∀ (l : List Nat) (n0 : Nat),
      l.foldl (fun n c => if P c = true then n + 1 else n) n0 = n0 + l.countP P := by
  intro l
  induction l with
  | nil => intro n0; simp
  | cons a l ih =>
      intro n0
      simp only [List.foldl_cons, List.countP_cons]
      rw [ih]
      by_cases h : P a = true
      · simp only [h, if_true]; omega
      · simp [h]

theorem countP_range_le_one (P : Nat → Bool) (n c0 : Nat)
    (h : ∀ c, c < n → P c = true → c = c0) : (List.range n).countP P ≤ 1 := by
  have h1 : (List.range n).countP P ≤ (List.range n).countP (fun c => c == c0) := by
    apply List.countP_mono_left
    intro c hc hp
    simpa using h c (List.mem_range.1 hc) hp
  have h2 : (List.range n).countP (fun c => c == c0) = (List.range n).count c0 := rfl
  have h3 := List.nodup_iff_count_le_one.1 (List.nodup_range n) c0
  omega

end Gui

/-- On a board whose only stone is an X stone, O has a route down a column that avoids
the stone, and the path `minMovesForOToWin` writes is not empty. -/
theorem single_stone_oPath (g : HexGame) (xr xc : Int) (hX : g.board xr xc = 'X')
    (hrest : ∀ i j : Int, g.inBounds i j = true → ¬ (i = xr ∧ j = xc) → g.board i j = '.')
    (h7 : 7 ≤ g.size) (h11 : g.size ≤ 11) :
    ∃ (cell : Int × Int) (rest : List (Int × Int)),
      (Gui.minMovesForOToWinPath g).2 = some (cell :: rest) := by
  -- a column other than the column of the stone
  obtain ⟨j, hj0, hj1, hjx⟩ : ∃ j : Int, 0 ≤ j ∧ j ≤ 1 ∧ j ≠ xc := by
    by_cases h : xc = 0
    · exact ⟨1, by omega, by omega, by omega⟩
    · exact ⟨0, by omega, by omega, fun hh => h hh.symm⟩
  have hok : ∀ r : Nat, r < g.size → NotOwnedBy g 'X' ((r : Int), j) := by
    intro r hr
    have hb : g.inBounds (r : Int) j = true := by
      rw [inBounds_iff]; omega
    refine ⟨hb, ?_⟩
    simp only
    rw [hrest (r : Int) j hb (fun h => hjx h.2)]
    decide
  have hreach : ∀ r : Nat, r < g.size →
      Reach (NotOwnedBy g 'X') (fun p => p.1 = 0) ((r : Int), j) := by
    intro r
    induction r with
    | zero => intro hr; exact Reach.seed _ (by simp) (hok 0 hr)
    | succ r ih =>
        intro hr
        refine Reach.step ((r : Int), j) _ (ih (by omega)) ?_ (hok (r + 1) hr)
        unfold HexAdj kHexDirections
        simp
  have hex : ∃ route, IsRoute (NotOwnedBy g 'X') (fun p => p.1 = 0)
      (fun p => p.1 = (g.size : Int) - 1) route := by
    rw [← exists_reach_iff_route]
    refine ⟨(((g.size - 1 : Nat) : Int), j), hreach (g.size - 1) (by omega), ?_⟩
    simp only
    omega
  obtain ⟨route, hroute, hpath⟩ :=
    @core_path_route g 'O' 'X' _ _ _ _ (edgeSpec_O g) (by omega) hex
  have hpath2 : (Gui.minMovesForOToWinPath g).2
      = some (route.filter fun p => g.board p.1 p.2 == '.') := hpath
  obtain ⟨hcells, _, ⟨a, ha, _⟩, _⟩ := hroute
  have hfilter : route.filter (fun p => g.board p.1 p.2 == '.') = route := by
    rw [List.filter_eq_self]
    intro p hp
    obtain ⟨hb, hnx⟩ := hcells p hp
    have : g.board p.1 p.2 = '.' := by
      apply hrest p.1 p.2 hb
      intro h
      apply hnx
      rw [h.1, h.2]
      exact hX
    simp [this]
  rw [hfilter] at hpath2
  cases route with
  | nil => simp at ha
  | cons cell rest => exact ⟨cell, rest, hpath2⟩

end Hex

namespace Hex

namespace Gui

/-- Collecting the one-element lists of the casts of a list of naturals is mapping the
cast over it. -/
theorem flatMap_cast (l : List Nat) :
    (l.flatMap fun a => [(a : Int)]) = l.map (fun a : Nat => (a : Int)) := by
  induction l with
  | nil => rfl
  | cons a l ih => simp [List.flatMap_cons, ih]

/-- When X needs more than three moves, no candidate connects X at once and X holds less
than `boardSize / 3` cells of the last row, the first six rules of the cascade select
nothing and the opening rule decides the first move. -/
theorem cascade_opening (g : HexGame) (plR plC : Int) (hcost : 3 < minMovesForXToWin g)
    (hnowin : ∀ q ∈ collectEmpty g, checkWin (g.setCell q.1 q.2 'X') 'X' = false)
    (hbottom : (List.range g.size).foldl
      (fun n c => if g.board ((g.size : Int) - 1) (c : Int) == 'X' then n + 1 else n) 0
        < g.size / 3)
    (hopen : (openingMove g ((minMovesForOToWinPath g).2.getD []) ⟨-1, -1, -1000000000⟩).bestR
      ≠ -1) :
    cascade g true plR plC =
      ((g, openingMove g ((minMovesForOToWinPath g).2.getD []) ⟨-1, -1, -1000000000⟩),
        false) := by
  have hE := collectEmpty_empty g
  have hc3 : ¬ (minMovesForXToWinPath g).1 ≤ 3 := by
    have : minMovesForXToWin g = (minMovesForXToWinPath g).1 := rfl
    omega
  have hc2 : ¬ (minMovesForXToWinPath g).1 ≤ 2 := by omega
  have hc1 : ¬ (minMovesForXToWinPath g).1 ≤ 1 := by omega
  have e1 : ruleImmediateLoss (minMovesForXToWinPath g).1
      ((minMovesForXToWinPath g).2.getD []) (collectEmpty g) (g, ⟨-1, -1, -1000000000⟩)
        = (g, ⟨-1, -1, -1000000000⟩) := by
    simp [ruleImmediateLoss, hc1]
  have hfw : ∀ keep, findWinningCell keep g (collectEmpty g) = (g, none) :=
    fun keep => findWinningCell_none keep g _ (fun q hq => ⟨hE q hq, hnowin q hq⟩)
  have e2 : ruleBlockWinningCell (collectEmpty g) (g, ⟨-1, -1, -1000000000⟩)
      = (g, ⟨-1, -1, -1000000000⟩) := by
    simp [ruleBlockWinningCell, hfw]
  have e3 : ruleBlockBottomRow (collectEmpty g) (g, ⟨-1, -1, -1000000000⟩)
      = (g, ⟨-1, -1, -1000000000⟩) := by
    simp [ruleBlockBottomRow, hfw]
  have e4 : ruleSpoilBottomRow (minMovesForXToWinPath g).1 (collectEmpty g)
      (g, ⟨-1, -1, -1000000000⟩) = (g, ⟨-1, -1, -1000000000⟩) := by
    unfold ruleSpoilBottomRow
    split
    · lift_lets
      intro bottomX
      split
      · rename_i h
        simp only [Bool.or_eq_true, decide_eq_true_eq] at h
        rcases h with h | h
        · exact absurd h (not_le.2 hbottom)
        · exact absurd h hc3
      · rfl
    · rfl
  have e5 : ∀ st, ruleShortThreat (minMovesForXToWinPath g).1
      ((minMovesForXToWinPath g).2.getD []) (collectEmpty g) st = st := by
    intro st
    simp [ruleShortThreat, hc2]
  have e6 : ruleReinforceThreatPath
      ⟨plR, plC, (minMovesForXToWinPath g).1, (minMovesForXToWinPath g).2.getD [],
        (minMovesForOToWinPath g).1, (minMovesForOToWinPath g).2.getD []⟩
      (g, ⟨-1, -1, -1000000000⟩) = (g, ⟨-1, -1, -1000000000⟩) := by
    simp [ruleReinforceThreatPath, hc3]
  have hopen2 : ((openingMove g ((minMovesForOToWinPath g).2.getD [])
      ⟨-1, -1, -1000000000⟩).bestR == -1) = false := by simpa using hopen
  have e7 : ruleSearch
      ⟨plR, plC, (minMovesForXToWinPath g).1, (minMovesForXToWinPath g).2.getD [],
        (minMovesForOToWinPath g).1, (minMovesForOToWinPath g).2.getD []⟩ (collectEmpty g)
      true (g, ⟨-1, -1, -1000000000⟩)
      = ((g, openingMove g ((minMovesForOToWinPath g).2.getD []) ⟨-1, -1, -1000000000⟩),
          false) := by
    unfold ruleSearch
    simp [hopen2]
  unfold cascade
  simp only
  rw [e1, e2, e3, e4, e5, e6, e7]
  simp only
  rw [ruleOwnPath_of_chosen _ _ hopen]

end Gui

/-- C24: for every board size `N` from 7 to 11, on a board holding exactly one X stone
and no O stone, with the first-move flag set, the cascade chooses the centre cell
`(N/2, N/2)` when that cell is Empty, and otherwise (the X stone is on the centre) the
first cell of the path written by `minMovesForOToWin`, which is not empty. -/
theorem cascade_first_move (g : HexGame) (xr xc plR plC : Int) (h7 : 7 ≤ g.size)
    (h11 : g.size ≤ 11) (hX : g.board xr xc = 'X')
    (hrest : ∀ i j : Int, g.inBounds i j = true → ¬ (i = xr ∧ j = xc) → g.board i j = '.') :
    (g.isCellEmpty ((g.size / 2 : Nat) : Int) ((g.size / 2 : Nat) : Int) = true →
      Gui.chosenCell g true plR plC
        = some (((g.size / 2 : Nat) : Int), ((g.size / 2 : Nat) : Int))) ∧
    (g.isCellEmpty ((g.size / 2 : Nat) : Int) ((g.size / 2 : Nat) : Int) = false →
      ∃ (cell : Int × Int) (rest : List (Int × Int)),
        (Gui.minMovesForOToWinPath g).2 = some (cell :: rest) ∧
        Gui.chosenCell g true plR plC = some cell) := by
  have hcost := single_stone_cost g xr xc hX hrest h11
  have hnowin : ∀ q ∈ Gui.collectEmpty g,
      Gui.checkWin (g.setCell q.1 q.2 'X') 'X' = false := by
    intro q hq
    by_contra hcon
    have hw : Gui.checkWin (g.setCell q.1 q.2 'X') 'X' = true := by simpa using hcon
    have := cost_le_one_of_winning_cell g q.1 q.2 (Gui.collectEmpty_empty g q hq) hw
    omega
  have hbottom : (List.range g.size).foldl
      (fun n c => if g.board ((g.size : Int) - 1) (c : Int) == 'X' then n + 1 else n) 0
        < g.size / 3 := by
    have e : (do let a ← List.range g.size; pure (a : Int) : List Int)
        = (List.range g.size).map (fun a : Nat => (a : Int)) := by
      simp only [List.bind_eq_flatMap, List.pure_def]
      exact Gui.flatMap_cast _
    rw [e, List.foldl_map]
    have hfold := Gui.foldl_count_if
      (fun c => g.board ((g.size : Int) - 1) (c : Int) == 'X') (List.range g.size) 0
    have hle := Gui.countP_range_le_one
      (fun c => g.board ((g.size : Int) - 1) (c : Int) == 'X') g.size xc.toNat
      (by
        intro c hc hp
        simp only [beq_iff_eq] at hp
        have hb : g.inBounds ((g.size : Int) - 1) (c : Int) = true := by
          rw [inBounds_iff]; omega
        by_contra hne
        have hd := hrest _ _ hb (by
          intro h
          apply hne
          omega)
        rw [hd] at hp
        exact absurd hp (by decide))
    rw [hfold]
    omega
  have hpath := single_stone_oPath g xr xc hX hrest h7 h11
  constructor
  · intro hcentre
    have hop : Gui.openingMove g ((Gui.minMovesForOToWinPath g).2.getD [])
        ⟨-1, -1, -1000000000⟩
        = ⟨((g.size / 2 : Nat) : Int), ((g.size / 2 : Nat) : Int), 3500000⟩ := by
      unfold Gui.openingMove
      simp only [hcentre, if_true]
    have hcas := Gui.cascade_opening g plR plC (by omega) hnowin hbottom
      (by rw [hop]; simp only; omega)
    rw [hop] at hcas
    exact Gui.chosenCell_of_cascade g true plR plC
      (((g.size / 2 : Nat) : Int), ((g.size / 2 : Nat) : Int)) _ _ hcentre hcas
  · intro hcentre
    obtain ⟨cell, rest, hp⟩ := hpath
    have hce : g.isCellEmpty cell.1 cell.2 = true := by
      apply oPath_cells_empty g cell
      rw [hp]
      simp
    have hop : Gui.openingMove g ((Gui.minMovesForOToWinPath g).2.getD [])
        ⟨-1, -1, -1000000000⟩ = ⟨cell.1, cell.2, 3400000⟩ := by
      unfold Gui.openingMove
      simp only [hcentre, Bool.false_eq_true, if_false, hp, Option.getD_some]
    have hcas := Gui.cascade_opening g plR plC (by omega) hnowin hbottom
      (by rw [hop]; exact Gui.isCellEmpty_ne_neg_one g _ _ hce)
    rw [hop] at hcas
    exact ⟨cell, rest, hp, Gui.chosenCell_of_cascade g true plR plC cell _ _ hce hcas⟩

theorem cascade_first_move_witness :
    7 ≤ centreStoneBoard.size ∧ centreStoneBoard.size ≤ 11 ∧
    centreStoneBoard.board 3 3 = 'X' ∧
    (∀ i j : Int, centreStoneBoard.inBounds i j = true → ¬ (i = 3 ∧ j = 3) →
      centreStoneBoard.board i j = '.') ∧
    (centreStoneBoard.isCellEmpty ((centreStoneBoard.size / 2 : Nat) : Int)
        ((centreStoneBoard.size / 2 : Nat) : Int) = true →
      Gui.chosenCell centreStoneBoard true 3 3
        = some (((centreStoneBoard.size / 2 : Nat) : Int),
            ((centreStoneBoard.size / 2 : Nat) : Int))) ∧
    (centreStoneBoard.isCellEmpty ((centreStoneBoard.size / 2 : Nat) : Int)
        ((centreStoneBoard.size / 2 : Nat) : Int) = false →
      ∃ (cell : Int × Int) (rest : List (Int × Int)),
        (Gui.minMovesForOToWinPath centreStoneBoard).2 = some (cell :: rest) ∧
        Gui.chosenCell centreStoneBoard true 3 3 = some cell) :=
  have hrest : ∀ i j : Int, centreStoneBoard.inBounds i j = true → ¬ (i = 3 ∧ j = 3) →
      centreStoneBoard.board i j = '.' := by
    intro i j _ hij
    simp [centreStoneBoard, hij]
  ⟨by decide, by decide, by decide, hrest,
    cascade_first_move centreStoneBoard 3 3 3 3 (by decide) (by decide) (by decide) hrest⟩

end Hex

/-! ## A full board has a winner -/

namespace Hex

theorem galeX_true_cases (g : HexGame) (p : Int × Int) (h : galeX g p = true) :
    p.2 < 0 ∨ (g.size : Int) ≤ p.2 ∨
      (0 ≤ p.1 ∧ p.1 < g.size ∧ 0 ≤ p.2 ∧ p.2 < g.size ∧ g.board p.1 p.2 = 'X') := by
  unfold galeX at h
  split_ifs at h with h1 h2
  · rcases h1 with h1 | h1
    · exact Or.inl h1
    · exact Or.inr (Or.inl h1)
  · refine Or.inr (Or.inr ⟨by omega, by omega, by omega, by omega, ?_⟩)
    simpa using h

theorem galeX_false_cases (g : HexGame) (p : Int × Int) (h : galeX g p = false) :
    0 ≤ p.2 ∧ p.2 < g.size ∧ (0 ≤ p.1 → p.1 < g.size → g.board p.1 p.2 ≠ 'X') := by
  unfold galeX at h
  split_ifs at h with h1 h2
  · exact ⟨by omega, by omega, fun _ _ => by omega⟩
  · refine ⟨by omega, by omega, fun _ _ => ?_⟩
    simpa using h

/-- The offsets of two consecutive neighbours, listed for the six directions. -/
theorem galeDir_pair (k : Nat) (hk : k < 6) :
    (galeDR k = 0 ∧ galeDC k = 1 ∧ galeDR (k + 5) = 1 ∧ galeDC (k + 5) = 0) ∨
    (galeDR k = -1 ∧ galeDC k = 1 ∧ galeDR (k + 5) = 0 ∧ galeDC (k + 5) = 1) ∨
    (galeDR k = -1 ∧ galeDC k = 0 ∧ galeDR (k + 5) = -1 ∧ galeDC (k + 5) = 1) ∨
    (galeDR k = 0 ∧ galeDC k = -1 ∧ galeDR (k + 5) = -1 ∧ galeDC (k + 5) = 0) ∨
    (galeDR k = 1 ∧ galeDC k = -1 ∧ galeDR (k + 5) = 0 ∧ galeDC (k + 5) = -1) ∨
    (galeDR k = 1 ∧ galeDC k = 0 ∧ galeDR (k + 5) = 1 ∧ galeDC (k + 5) = -1) := by
  interval_cases k <;> decide

theorem galeDR_mod (k : Nat) : galeDR (k % 6) = galeDR k := by
  unfold galeDR
  rw [Nat.mod_mod]

theorem galeDC_mod (k : Nat) : galeDC (k % 6) = galeDC k := by
  unfold galeDC
  rw [Nat.mod_mod]

theorem galeDR_next (k : Nat) (hk : k < 6) :
    galeDR (k + 5) + galeDR ((k + 1) % 6) = galeDR k := by
  interval_cases k <;> decide

theorem galeDC_next (k : Nat) (hk : k < 6) :
    galeDC (k + 5) + galeDC ((k + 1) % 6) = galeDC k := by
  interval_cases k <;> decide

theorem galeDR_back (k : Nat) (hk : k < 6) :
    galeDR (k + 5) + galeDR ((k + 1) % 6 + 1) = 0 := by
  interval_cases k <;> decide

theorem galeDC_back (k : Nat) (hk : k < 6) :
    galeDC (k + 5) + galeDC ((k + 1) % 6 + 1) = 0 := by
  interval_cases k <;> decide

theorem galeDR_turn (k : Nat) (hk : k < 6) : galeDR ((k + 5) % 6 + 1) = galeDR k := by
  interval_cases k <;> decide

theorem galeDC_turn (k : Nat) (hk : k < 6) : galeDC ((k + 5) % 6 + 1) = galeDC k := by
  interval_cases k <;> decide

theorem galeDR_across (k : Nat) (hk : k < 6) :
    galeDR (k + 5) = galeDR k + galeDR (k + 4) := by
  interval_cases k <;> decide

theorem galeDC_across (k : Nat) (hk : k < 6) :
    galeDC (k + 5) = galeDC k + galeDC (k + 4) := by
  interval_cases k <;> decide

/-- The `k`-th neighbour of a cell is hex-adjacent to it. -/
theorem galeDir_adj (p : Int × Int) (k : Nat) :
    HexAdj p (p.1 + galeDR k, p.2 + galeDC k) := by
  have hm : k % 6 < 6 := Nat.mod_lt _ (by decide)
  unfold HexAdj
  simp only [add_sub_cancel_left]
  rw [← galeDR_mod, ← galeDC_mod]
  generalize k % 6 = m at hm
  interval_cases m <;> decide

/-- The O cell of the edge after a step that moved the X cell is the old O cell. -/
theorem galeOther_moved (a : Int × Int) (k : Nat) (hk : k < 6) :
    galeOther ((a.1 + galeDR (k + 5), a.2 + galeDC (k + 5)), (k + 1) % 6)
      = galeOther (a, k) := by
  unfold galeOther
  have h1 := galeDR_next k hk
  have h2 := galeDC_next k hk
  simp only
  exact Prod.ext (by simp only; omega) (by simp only; omega)

/-- The O cell of the edge after a step that kept the X cell is the cell `t`. -/
theorem galeOther_kept (a : Int × Int) (k : Nat) :
    galeOther (a, (k + 5) % 6) = (a.1 + galeDR (k + 5), a.2 + galeDC (k + 5)) := by
  unfold galeOther
  simp only [galeDR_mod, galeDC_mod]

/-- A step from an edge inside the board leads to an edge of the box. -/
theorem galeStep_box (g : HexGame) (s : GaleState) (h : GaleInside g s) :
    GaleBox g (galeStep g s) := by
  obtain ⟨⟨ar, ac⟩, k⟩ := s
  obtain ⟨⟨hk, hXa, hOb, h1, h2, h3, h4, h5, h6⟩, h7, h8⟩ := h
  have hd := galeDir_pair k hk
  have hb := galeX_false_cases g _ hOb
  simp only [galeOther] at hb h5 h6 h8
  simp only at h1 h2 h3 h4 h7 hk
  unfold galeStep
  simp only
  split
  · rename_i ht
    have htl := galeX_true_cases g _ ht
    simp only at htl
    refine ⟨Nat.mod_lt _ (by decide), ht, ?_, ?_⟩
    · rw [galeOther_moved (ar, ac) k hk]
      exact hOb
    · rw [galeOther_moved (ar, ac) k hk]
      simp only [galeOther]
      omega
  · rename_i ht
    have ht2 : galeX g (ar + galeDR (k + 5), ac + galeDC (k + 5)) = false := by
      simpa using ht
    have htl := galeX_false_cases g _ ht2
    simp only at htl
    refine ⟨Nat.mod_lt _ (by decide), hXa, ?_, ?_⟩
    · rw [galeOther_kept (ar, ac) k]
      exact ht2
    · rw [galeOther_kept (ar, ac) k]
      simp only
      omega

theorem galeBox_inside_or_won (g : HexGame) (s : GaleState) (h : GaleBox g s) :
    GaleInside g s ∨ GaleWon g s := by
  have h2 := h
  obtain ⟨_, _, _, _, _, _, h4, _, h6⟩ := h2
  by_cases hw : s.1.2 + 1 = g.size ∨ (galeOther s).1 + 1 = g.size
  · exact Or.inr ⟨h, hw⟩
  · exact Or.inl ⟨h, by omega, by omega⟩

/-- Stepping back undoes a step. -/
theorem galePrev_step (g : HexGame) (s : GaleState) (h : GaleInside g s) :
    galePrev g (galeStep g s) = s := by
  obtain ⟨⟨ar, ac⟩, k⟩ := s
  obtain ⟨⟨hk, hXa, hOb, -⟩, -⟩ := h
  simp only at hk hXa
  unfold galeStep
  simp only
  split
  · rename_i ht
    unfold galePrev
    simp only
    have e1 : ar + galeDR (k + 5) + galeDR ((k + 1) % 6 + 1) = ar := by
      have := galeDR_back k hk
      omega
    have e2 : ac + galeDC (k + 5) + galeDC ((k + 1) % 6 + 1) = ac := by
      have := galeDC_back k hk
      omega
    rw [e1, e2, if_pos hXa]
    have : ((k + 1) % 6 + 5) % 6 = k := by omega
    rw [this]
  · rename_i ht
    unfold galePrev
    simp only
    rw [galeDR_turn k hk, galeDC_turn k hk]
    have hOb2 : galeX g (ar + galeDR k, ac + galeDC k) = false := hOb
    rw [hOb2]
    have : ((k + 5) % 6 + 1) % 6 = k := by omega
    simp [this]

end Hex

namespace Hex

/-- A step from an edge inside a board without Empty cells keeps both cells of the edge
connected to their first line. -/
theorem galeStep_chain (g : HexGame)
    (hfull : ∀ r c : Int, g.inBounds r c = true → g.board r c = 'X' ∨ g.board r c = 'O')
    (s : GaleState) (h : GaleInside g s) (hc : GaleChain g s) :
    GaleChain g (galeStep g s) := by
  have hbox := galeStep_box g s h
  obtain ⟨⟨ar, ac⟩, k⟩ := s
  obtain ⟨⟨hk, hXa, hOb, h1, h2, h3, h4, h5, h6⟩, h7, h8⟩ := h
  obtain ⟨hca, hcb⟩ := hc
  have hd := galeDir_pair k hk
  have hb := galeX_false_cases g _ hOb
  simp only [galeOther] at hb h5 h6 h8 hcb
  simp only at h1 h2 h3 h4 h7 hk hca
  unfold galeStep at hbox ⊢
  simp only at hbox ⊢
  split at hbox
  · rename_i ht
    rw [if_pos ht]
    obtain ⟨-, -, -, b1, b2, b3, b4, -, -⟩ := hbox
    simp only at b1 b2 b3 b4
    have htl := galeX_true_cases g _ ht
    simp only at htl
    refine ⟨?_, ?_⟩
    · simp only
      by_cases hl : ac + galeDC (k + 5) = -1
      · exact Or.inl hl
      · right
        have hown : Owned g 'X' (ar + galeDR (k + 5), ac + galeDC (k + 5)) := by
          refine ⟨?_, ?_⟩
          · rw [inBounds_iff]
            simp only
            omega
          · rcases htl with h | h | h
            · omega
            · omega
            · exact h.2.2.2.2
        rcases hca with hca | hca
        · exact Reach.seed _ (by simp only; omega) hown
        · exact Reach.step _ _ hca (galeDir_adj (ar, ac) (k + 5)) hown
    · rw [galeOther_moved (ar, ac) k hk]
      exact hcb
  · rename_i ht
    rw [if_neg ht]
    have ht2 : galeX g (ar + galeDR (k + 5), ac + galeDC (k + 5)) = false := by
      simpa using ht
    have htl := galeX_false_cases g _ ht2
    simp only at htl
    obtain ⟨-, -, -, -, -, -, -, b5, b6⟩ := hbox
    rw [galeOther_kept (ar, ac) k] at b5 b6
    simp only at b5 b6
    refine ⟨hca, ?_⟩
    rw [galeOther_kept (ar, ac) k]
    simp only
    by_cases hl : ar + galeDR (k + 5) = -1
    · exact Or.inl hl
    · right
      have hin : g.inBounds (ar + galeDR (k + 5)) (ac + galeDC (k + 5)) = true := by
        rw [inBounds_iff]
        omega
      have hown : Owned g 'O' (ar + galeDR (k + 5), ac + galeDC (k + 5)) := by
        refine ⟨hin, ?_⟩
        rcases hfull _ _ hin with h | h
        · exact absurd h (htl.2.2 (by omega) (by omega))
        · exact h
      rcases hcb with hcb | hcb
      · exact Reach.seed _ (by simp only; omega) hown
      · have hadj := galeDir_adj (ar + galeDR k, ac + galeDC k) (k + 4)
        have e : (ar + galeDR (k + 5), ac + galeDC (k + 5))
            = ((ar + galeDR k, ac + galeDC k).1 + galeDR (k + 4),
                (ar + galeDR k, ac + galeDC k).2 + galeDC (k + 4)) := by
          have e1 := galeDR_across k hk
          have e2 := galeDC_across k hk
          exact Prod.ext (by simp only; omega) (by simp only; omega)
        rw [e]
        rw [e] at hown
        exact Reach.step _ _ hcb hadj hown

theorem galeWalk_succ (g : HexGame) (n : Nat) :
    galeWalk g (n + 1) = galeStep g (galeWalk g n) := by
  unfold galeWalk
  rw [Function.iterate_succ_apply']

theorem galeStart_box (g : HexGame) (hN : 1 ≤ g.size) : GaleBox g galeStart := by
  refine ⟨by decide, ?_, ?_, ?_⟩
  · simp [galeX, galeStart]
  · simp [galeX, galeStart, galeOther, galeDR, galeDC]
    omega
  · simp [galeStart, galeOther, galeDR, galeDC]
    omega

/-- The edge before the first one is outside the board. -/
theorem galePrev_start (g : HexGame) : galePrev g galeStart = ((-1, -1), 0) := by
  simp [galePrev, galeStart, galeX, galeDR, galeDC]

/-- As long as every edge met lies inside the board, no edge is met twice. -/
theorem galeWalk_no_repeat (g : HexGame) (hin : ∀ n, GaleInside g (galeWalk g n)) :
    ∀ i j : Nat, i < j → galeWalk g i ≠ galeWalk g j := by
  intro i
  induction i with
  | zero =>
    intro j hj heq
    obtain ⟨m, rfl⟩ : ∃ m, j = m + 1 := ⟨j - 1, by omega⟩
    rw [galeWalk_succ] at heq
    have h1 := galePrev_step g _ (hin m)
    rw [← heq] at h1
    have h2 : galeWalk g 0 = galeStart := rfl
    rw [h2, galePrev_start] at h1
    have h3 := (hin m).1.2.2.2.1
    rw [← h1] at h3
    simp at h3
  | succ i ih =>
    intro j hj heq
    obtain ⟨m, rfl⟩ : ∃ m, j = m + 1 := ⟨j - 1, by omega⟩
    rw [galeWalk_succ, galeWalk_succ] at heq
    have h1 := galePrev_step g _ (hin i)
    have h2 := galePrev_step g _ (hin m)
    rw [heq, h2] at h1
    exact ih m (by omega) h1.symm

theorem galeStates_card (g : HexGame) : (galeStates g).card = g.size * g.size * 6 := by
  unfold galeStates
  rw [Finset.card_product, Finset.card_product, Int.card_Icc, Int.card_Icc,
    Finset.card_range]
  have e1 : ((g.size : Int) - 1 + 1 - 0).toNat = g.size := by omega
  have e2 : ((g.size : Int) - 2 + 1 - -1).toNat = g.size := by omega
  rw [e1, e2]

theorem mem_galeStates (g : HexGame) (s : GaleState) (h : GaleInside g s) :
    s ∈ galeStates g := by
  obtain ⟨⟨ar, ac⟩, k⟩ := s
  obtain ⟨⟨hk, -, -, h1, h2, h3, -⟩, h7, -⟩ := h
  simp only at hk h1 h2 h3 h7
  unfold galeStates
  simp only [Finset.mem_product, Finset.mem_Icc, Finset.mem_range]
  omega

/-- The walk along the border meets an edge whose X cell is in the last column or whose
O cell is in the last row. -/
theorem galeWalk_reaches_won (g : HexGame) (hN : 1 ≤ g.size) :
    ∃ n, GaleWon g (galeWalk g n) := by
  by_contra hno
  have hno2 : ∀ n, ¬ GaleWon g (galeWalk g n) := fun n hn => hno ⟨n, hn⟩
  have hin : ∀ n, GaleInside g (galeWalk g n) := by
    intro n
    induction n with
    | zero =>
      rcases galeBox_inside_or_won g _ (galeStart_box g hN) with h | h
      · exact h
      · exact absurd h (hno2 0)
    | succ n ih =>
      have hb := galeStep_box g _ ih
      rw [← galeWalk_succ] at hb
      rcases galeBox_inside_or_won g _ hb with h | h
      · exact h
      · exact absurd h (hno2 (n + 1))
  have hcard : (galeStates g).card < (Finset.range (g.size * g.size * 6 + 1)).card := by
    rw [galeStates_card, Finset.card_range]
    omega
  have hmaps : ∀ n ∈ Finset.range (g.size * g.size * 6 + 1), galeWalk g n ∈ galeStates g :=
    fun n _ => mem_galeStates g _ (hin n)
  obtain ⟨i, -, j, -, hne, heq⟩ :=
    Finset.exists_ne_map_eq_of_card_lt_of_maps_to hcard hmaps
  rcases Nat.lt_or_gt_of_ne hne with hlt | hlt
  · exact galeWalk_no_repeat g hin i j hlt heq
  · exact galeWalk_no_repeat g hin j i hlt heq.symm

/-- Before the first edge of `GaleWon`, every edge of the walk is inside the board and
both its cells are connected to their first line. -/
theorem galeWalk_chain (g : HexGame) (hN : 1 ≤ g.size)
    (hfull : ∀ r c : Int, g.inBounds r c = true → g.board r c = 'X' ∨ g.board r c = 'O')
    (n : Nat) (hbefore : ∀ m, m < n → ¬ GaleWon g (galeWalk g m)) :
    GaleBox g (galeWalk g n) ∧ GaleChain g (galeWalk g n) := by
  induction n with
  | zero =>
    refine ⟨galeStart_box g hN, Or.inl rfl, Or.inl ?_⟩
    simp [galeWalk, galeStart, galeOther, galeDR]
  | succ n ih =>
    obtain ⟨hb, hc⟩ := ih (fun m hm => hbefore m (by omega))
    have hi : GaleInside g (galeWalk g n) := by
      rcases galeBox_inside_or_won g _ hb with h | h
      · exact h
      · exact absurd h (hbefore n (by omega))
    rw [galeWalk_succ]
    exact ⟨galeStep_box g _ hi, galeStep_chain g hfull _ hi hc⟩

/-- On a board of size at least 1 without Empty cells, X connects the first column to
the last one or O connects the first row to the last one. -/
theorem full_board_connected (g : HexGame) (hN : 1 ≤ g.size)
    (hfull : ∀ r c : Int, g.inBounds r c = true → g.board r c = 'X' ∨ g.board r c = 'O') :
    bfsHorizontal g 'X' = true ∨ bfsVertical g 'O' = true := by
  classical
  have hex := galeWalk_reaches_won g hN
  have hw := Nat.find_spec hex
  have hmin : ∀ m, m < Nat.find hex → ¬ GaleWon g (galeWalk g m) :=
    fun m hm => Nat.find_min hex hm
  obtain ⟨-, hca, hcb⟩ := galeWalk_chain g hN hfull _ hmin
  obtain ⟨-, hwon⟩ := hw
  rcases hwon with hwon | hwon
  · left
    rw [bfsHorizontal_iff]
    rcases hca with hca | hca
    · omega
    · exact ⟨_, hca, by omega⟩
  · right
    rw [bfsVertical_iff]
    rcases hcb with hcb | hcb
    · omega
    · exact ⟨_, hcb, by omega⟩

/-- C25: on every board of size at least 1 without Empty cell (each cell of the board
holds X or O), at least one of `checkWin('X')` and `checkWin('O')` is true, for the
`checkWin` of both programs; the board is full, and the outcome "board full with no
winner" (the draw branch) does not occur. -/
theorem full_board_has_winner (g : HexGame) (hN : 1 ≤ g.size)
    (hfull : ∀ r c : Int, g.inBounds r c = true → g.board r c = 'X' ∨ g.board r c = 'O') :
    (Gui.checkWin g 'X' = true ∨ Gui.checkWin g 'O' = true) ∧
    (Console.checkWin g 'X' = true ∨ Console.checkWin g 'O' = true) ∧
    g.isFull = true ∧
    ¬ (g.isFull = true ∧ Gui.checkWin g 'X' = false ∧ Gui.checkWin g 'O' = false) ∧
    ¬ (g.isFull = true ∧ Console.checkWin g 'X' = false ∧
        Console.checkWin g 'O' = false) := by
  have h := full_board_connected g hN hfull
  have hg : Gui.checkWin g 'X' = true ∨ Gui.checkWin g 'O' = true := by
    rcases h with h | h
    · left
      simpa [Gui.checkWin, Gui.hasHorizontalConnection] using h
    · right
      simpa [Gui.checkWin, Gui.hasVerticalConnection] using h
  have hcs : Console.checkWin g 'X' = true ∨ Console.checkWin g 'O' = true := by
    rcases h with h | h
    · left
      simpa [Console.checkWin] using h
    · right
      simpa [Console.checkWin] using h
  have hf : g.isFull = true := by
    rw [isFull_iff_forall]
    intro r c hb
    rcases hfull r c hb with h | h <;> rw [h] <;> decide
  refine ⟨hg, hcs, hf, ?_, ?_⟩
  · rintro ⟨-, h1, h2⟩
    rcases hg with h | h
    · rw [h1] at h; exact absurd h (by decide)
    · rw [h2] at h; exact absurd h (by decide)
  · rintro ⟨-, h1, h2⟩
    rcases hcs with h | h
    · rw [h1] at h; exact absurd h (by decide)
    · rw [h2] at h; exact absurd h (by decide)

theorem full_board_has_winner_witness :
    1 ≤ filledBoard.size ∧
    (∀ r c : Int, filledBoard.inBounds r c = true →
      filledBoard.board r c = 'X' ∨ filledBoard.board r c = 'O') ∧
    (Gui.checkWin filledBoard 'X' = true ∨ Gui.checkWin filledBoard 'O' = true) ∧
    (Console.checkWin filledBoard 'X' = true ∨ Console.checkWin filledBoard 'O' = true) ∧
    filledBoard.isFull = true ∧
    ¬ (filledBoard.isFull = true ∧ Gui.checkWin filledBoard 'X' = false ∧
        Gui.checkWin filledBoard 'O' = false) ∧
    ¬ (filledBoard.isFull = true ∧ Console.checkWin filledBoard 'X' = false ∧
        Console.checkWin filledBoard 'O' = false) :=
  have hfull : ∀ r c : Int, filledBoard.inBounds r c = true →
      filledBoard.board r c = 'X' ∨ filledBoard.board r c = 'O' := by
    intro r c _
    by_cases h : r = 0 <;> simp [filledBoard, h]
  ⟨by decide, hfull, full_board_has_winner filledBoard (by decide) hfull⟩

end Hex

/-! ## With a route present the written path has as many cells as the cost -/

namespace Hex

theorem relaxStep_stepInv {g : HexGame} {own opp : Char} {d v : Nat} {st : CostState}
    (dir : Int × Int) (hd : st.dist v ≤ d) (hs : StepInv g own st) :
    StepInv g own (relaxStep g own opp d v st dir) ∧
      (relaxStep g own opp d v st dir).dist v ≤ d := by
  rcases relaxStep_cases g own opp d v st dir with h | ⟨hb, hlt, h⟩
  · rw [h]; exact ⟨hs, hd⟩
  · rw [h]
    have hcq := cellOf_cellId g ((cellOf g v).1 + dir.1, (cellOf g v).2 + dir.2) hb
    have hne : v ≠ cellId g ((cellOf g v).1 + dir.1, (cellOf g v).2 + dir.2) := by
      intro heq
      rw [← heq] at hlt
      omega
    refine ⟨?_, ?_⟩
    · intro w u hw
      simp only at hw ⊢
      by_cases hwn : w = cellId g ((cellOf g v).1 + dir.1, (cellOf g v).2 + dir.2)
      · subst hwn
        simp only [if_true] at hw ⊢
        have huv : u = v := by exact_mod_cast hw.symm
        subst huv
        simp only [hne, if_false]
        rw [hcq]
        omega
      · simp only [hwn, if_false] at hw ⊢
        have h1 := hs w u hw
        by_cases hun : u = cellId g ((cellOf g v).1 + dir.1, (cellOf g v).2 + dir.2)
        · subst hun
          simp only [if_true]
          omega
        · simp only [hun, if_false]
          exact h1
    · simp only [hne, if_false]
      exact hd

theorem relaxStep_fold_stepInv {g : HexGame} {own opp : Char} {d v : Nat} :
    ∀ (ds : List (Int × Int)) (st : CostState), st.dist v ≤ d → StepInv g own st →
      StepInv g own (ds.foldl (relaxStep g own opp d v) st) := by
  intro ds
  induction ds with
  | nil => intro st _ hs; exact hs
  | cons x ds ih =>
      intro st hd hs
      obtain ⟨h1, h2⟩ := @relaxStep_stepInv g own opp d v st x hd hs
      exact ih _ h2 h1

/-- The relaxation loop keeps the distances along the parent pointers apart. -/
theorem relaxLoop_stepInv {g : HexGame} {own opp : Char} :
    ∀ (fuel : Nat) (st : CostState), StepInv g own st →
      StepInv g own (relaxLoop g own opp fuel st) := by
  intro fuel
  induction fuel with
  | zero => intro st hs; exact hs
  | succ fuel ih =>
      intro st hs
      unfold relaxLoop
      cases htop : pqTop st.pq with
      | none => exact hs
      | some e =>
          obtain ⟨d, v⟩ := e
          have hs1 : StepInv g own { st with pq := st.pq.erase (d, v) } := hs
          simp only
          by_cases hstale : d ≠ st.dist v ∨ d ≥ INF
          · rw [if_pos hstale]
            exact ih _ hs1
          · rw [if_neg hstale]
            have hd : st.dist v ≤ d := by
              by_contra hne
              exact hstale (Or.inl (fun h' => hne (by omega)))
            exact ih _ (relaxStep_fold_stepInv kHexDirections _ hd hs1)

theorem costSeed_parent (g : HexGame) (own opp : Char) :
    ∀ (l : List (Int × Int)) (st : CostState),
      (l.foldl (costSeed g own opp) st).parent = st.parent := by
  intro l
  induction l with
  | nil => intro st; rfl
  | cons p l ih =>
      intro st
      rw [List.foldl_cons, ih]
      unfold costSeed
      simp only
      split <;> rfl

theorem finalState_stepInv (g : HexGame) (own opp : Char) (startCell : Nat → Int × Int) :
    StepInv g own (finalState g own opp startCell) := by
  apply relaxLoop_stepInv
  intro v u hvu
  rw [costSeed_parent] at hvu
  simp only at hvu
  omega

theorem routeCost_append_singleton (g : HexGame) (own : Char) (route : List (Int × Int))
    (p : Int × Int) :
    routeCost g own (route ++ [p]) = routeCost g own route + stepCost g own p := by
  simp [routeCost]

/-- The route that the backtracking loop follows from a cell of distance below
`INT_MAX / 4`: besides the facts of `backtrack_route` it visits no cell twice and its
charge is at most the distance of the cell. -/
theorem backtrack_route_cost {g : HexGame} {own opp : Char} {S : Int × Int → Prop}
    {st : CostState} (hp : ParentInv g st) (ht : TreeInv g own opp S st)
    (hs : StepInv g own st) {v k : Nat} (h : ChainLen st.parent v k) :
    v < g.size * g.size → st.dist v < blockedCost →
    ∃ route : List (Int × Int), (∀ p ∈ route, NotOwnedBy g opp p) ∧ route.Chain' HexAdj ∧
      (∃ a, route.head? = some a ∧ S a) ∧ route.getLast? = some (cellOf g v) ∧
      (∀ acc, backtrack g st.parent (k + 1) (v : Int) acc
        = route.filter (fun p => g.board p.1 p.2 == '.') ++ acc) ∧
      routeCost g own route ≤ st.dist v ∧
      (∀ p ∈ route, ∃ a, OnChain st.parent a v ∧ a < g.size * g.size ∧ p = cellOf g a) ∧
      route.Nodup := by
  have hBI : blockedCost < INF := by decide
  induction h with
  | root v hr =>
      intro hv hd
      obtain ⟨hs0, hc⟩ := ht.rootSeed v hv (by omega) hr
      have hno : g.board (cellOf g v).1 (cellOf g v).2 ≠ opp :=
        not_opp_of_cellCost_lt (by rw [← hc]; exact hd)
      refine ⟨[cellOf g v], ?_, by simp, ⟨_, rfl, hs0⟩, rfl, ?_, ?_, ?_, by simp⟩
      · intro p hpm
        simp only [List.mem_singleton] at hpm
        subst hpm
        exact ⟨cellOf_inBounds g v hv, hno⟩
      · intro acc
        have hne : ¬ ((v : Int) = -1) := by omega
        have hcell := cellOf_cast g v
        simp only [Prod.ext_iff] at hcell
        simp only [backtrack, hne, if_false, hcell.1, hcell.2, List.filter_cons,
          List.filter_nil]
        split <;> simp
      · rw [hc, cellCost_eq_stepCost g own opp _ hno]
        simp [routeCost]
      · intro p hpm
        simp only [List.mem_singleton] at hpm
        exact ⟨v, OnChain.self, hv, hpm⟩
  | step v u k hu hk ih =>
      intro hv hd
      obtain ⟨_, hadj, hno⟩ := ht.edge v u hu
      have hule : u < g.size * g.size ∧ st.dist u ≤ st.dist v := by
        rcases hp.parentLe v with h1 | ⟨u', h1, h2, h3⟩
        · rw [h1] at hu; omega
        · have : u = u' := by rw [hu] at h1; exact_mod_cast h1
          subst this; exact ⟨h2, h3⟩
      obtain ⟨route, r1, r2, r3, r4, r5, r6, r7, r8⟩ := ih hule.1 (by omega)
      refine ⟨route ++ [cellOf g v], ?_, ?_, ?_, by simp, ?_, ?_, ?_, ?_⟩
      · intro p hpm
        rcases List.mem_append.1 hpm with hpm | hpm
        · exact r1 p hpm
        · simp only [List.mem_singleton] at hpm
          subst hpm
          exact ⟨cellOf_inBounds g v hv, hno⟩
      · apply List.Chain'.append r2 (by simp)
        intro x hx y hy
        simp only [List.head?_cons, Option.mem_def, Option.some.injEq] at hy
        rw [Option.mem_def, r4] at hx
        cases hx; subst hy; exact hadj
      · obtain ⟨a, ha, hsa⟩ := r3
        refine ⟨a, ?_, hsa⟩
        cases route with
        | nil => simp at ha
        | cons b rest => simpa using ha
      · intro acc
        have hne : ¬ ((v : Int) = -1) := by omega
        have hcell := cellOf_cast g v
        simp only [Prod.ext_iff] at hcell
        rw [backtrack]
        simp only [hne, if_false, hcell.1, hcell.2, Int.toNat_natCast, hu, r5,
          List.filter_append, List.filter_cons, List.filter_nil, List.append_assoc]
        split <;> simp
      · rw [routeCost_append_singleton]
        have := hs v u hu
        omega
      · intro p hpm
        rcases List.mem_append.1 hpm with hpm | hpm
        · obtain ⟨a, ha, hal, hpa⟩ := r7 p hpm
          exact ⟨a, OnChain.step v u hu ha, hal, hpa⟩
        · simp only [List.mem_singleton] at hpm
          exact ⟨v, OnChain.self, hv, hpm⟩
      · rw [List.nodup_append]
        refine ⟨r8, by simp, ?_⟩
        intro p hp1 hp2
        simp only [List.mem_singleton] at hp2
        obtain ⟨a, ha, hal, hpa⟩ := r7 p hp1
        have hav : a = v := by
          have h1 := cellId_cellOf g a
          have h2 := cellId_cellOf g v
          rw [← hpa, hp2, h2] at h1
          exact h1.symm
        subst hav
        obtain ⟨j, hj, hcj⟩ := onChain_chainLen ha hk
        have := chainLen_unique hcj (ChainLen.step a u k hu hk)
        omega

end Hex

namespace Hex

section Core

variable {g : HexGame} {own opp : Char} {startCell goalCell : Nat → Int × Int}
  {S G : Int × Int → Prop}

/-- With a route present, the path written by `minMovesCore` lists the Empty cells of a
route that visits no cell twice and whose charge is at most the returned cost. -/
theorem core_path_route_cost (E : EdgeSpec g startCell goalCell S G) (hsize : g.size ≤ 23170)
    (hex : ∃ route, IsRoute (NotOwnedBy g opp) S G route) :
    ∃ route, IsRoute (NotOwnedBy g opp) S G route ∧
      (minMovesCore g own opp startCell goalCell).2
        = some (route.filter fun p => g.board p.1 p.2 == '.') ∧
      route.Nodup ∧
      routeCost g own route ≤ (minMovesCore g own opp startCell goalCell).1 := by
  have hsmall := @core_lt_blocked g own opp startCell goalCell S G E hsize hex
  have hBI : blockedCost < INF := by decide
  have hp := finalState_parentInv g own opp startCell S E.startIn
  have ht := finalState_treeInv g own opp startCell S E.startIn
  have hs := finalState_stepInv g own opp startCell
  obtain ⟨_, _, h3⟩ := bestStep_fold g (finalState g own opp startCell).dist
    ((List.range g.size).map goalCell) ((-1 : Int), INF)
  have hcost : (minMovesCore g own opp startCell goalCell).1 =
      if (((List.range g.size).map goalCell).foldl
          (bestStep g (finalState g own opp startCell).dist) ((-1 : Int), INF)).2 ≥ INF
      then INF
      else (((List.range g.size).map goalCell).foldl
          (bestStep g (finalState g own opp startCell).dist) ((-1 : Int), INF)).2 := rfl
  have hpath : (minMovesCore g own opp startCell goalCell).2 =
      if (((List.range g.size).map goalCell).foldl
            (bestStep g (finalState g own opp startCell).dist) ((-1 : Int), INF)).1 ≠ -1 ∧
          (((List.range g.size).map goalCell).foldl
            (bestStep g (finalState g own opp startCell).dist) ((-1 : Int), INF)).2 < INF
      then some (backtrack g (finalState g own opp startCell).parent (g.size * g.size + 1)
        (((List.range g.size).map goalCell).foldl
          (bestStep g (finalState g own opp startCell).dist) ((-1 : Int), INF)).1 [])
      else none := rfl
  rcases h3 with h3 | ⟨p, hpm, h3⟩
  · rw [h3] at hcost
    simp only [ge_iff_le, le_refl, if_true] at hcost
    omega
  · rw [h3] at hcost hpath
    simp only at hcost hpath
    have hdist : (finalState g own opp startCell).dist (cellId g p) < blockedCost := by
      split at hcost <;> omega
    have hce : (minMovesCore g own opp startCell goalCell).1
        = (finalState g own opp startCell).dist (cellId g p) := by
      split at hcost <;> omega
    have hcond : ((cellId g p : Nat) : Int) ≠ -1 ∧
        (finalState g own opp startCell).dist (cellId g p) < INF := ⟨by omega, by omega⟩
    rw [if_pos hcond] at hpath
    obtain ⟨hpb, hpg⟩ := E.goalIn p hpm
    have hlt := cellId_lt g p hpb
    obtain ⟨k, hk⟩ := hp.rooted (cellId g p)
    have hklt := chainLen_lt hp hlt hk
    obtain ⟨route, r1, r2, r3, r4, r5, r6, _, r8⟩ := backtrack_route_cost hp ht hs hk hlt hdist
    refine ⟨route, ⟨r1, r2, r3, ⟨p, ?_, hpg⟩⟩, ?_, r8, ?_⟩
    · rw [r4, cellOf_cellId g p hpb]
    · rw [hpath]
      have e2 : g.size * g.size + 1 = k + (g.size * g.size - k) + 1 := by omega
      rw [e2, backtrack_of_chainLen g _ hk, r5]
      simp
    · rw [hce]
      exact r6

/-- With a route present on a board of `'.'`, `'X'` and `'O'`, the path written by
`minMovesCore` has exactly as many cells as the returned cost, all different, and they
are the Empty cells of a route. -/
theorem core_path_length (E : EdgeSpec g startCell goalCell S G) (hwf : WellFormed g)
    (hsize : g.size ≤ 23170)
    (hoo : (own = 'X' ∧ opp = 'O') ∨ (own = 'O' ∧ opp = 'X'))
    (hex : ∃ route, IsRoute (NotOwnedBy g opp) S G route) :
    ∃ route, IsRoute (NotOwnedBy g opp) S G route ∧
      (minMovesCore g own opp startCell goalCell).2
        = some (route.filter fun p => g.board p.1 p.2 == '.') ∧
      (route.filter fun p => g.board p.1 p.2 == '.').length
        = (minMovesCore g own opp startCell goalCell).1 ∧
      (route.filter fun p => g.board p.1 p.2 == '.').Nodup := by
  obtain ⟨route, hr, hpath, hnd, hc⟩ := @core_path_route_cost g own opp startCell goalCell
    S G E hsize hex
  refine ⟨route, hr, hpath, ?_, hnd.filter _⟩
  have hmin := (@core_eq_min g own opp startCell goalCell S G E hwf hsize hoo hex).2 route hr
  rw [routeCost_eq_emptyCount g hwf own opp hoo route hr.1] at hc
  have hlen : (route.filter fun p => g.board p.1 p.2 == '.').length = emptyCount g route := by
    unfold emptyCount
    rw [List.countP_eq_length_filter]
  omega

end Core

theorem fillPath_cons (g : HexGame) (s : Char) (p : Int × Int) (path : List (Int × Int)) :
    fillPath g s (p :: path) = fillPath (g.makeMove p.1 p.2 s).2 s path := rfl

/-- Filling a list of different Empty cells puts the stone on exactly these cells. -/
theorem fillPath_board (s : Char) :
    ∀ (path : List (Int × Int)) (g : HexGame), path.Nodup →
      (∀ p ∈ path, g.isCellEmpty p.1 p.2 = true) →
      (fillPath g s path).size = g.size ∧
      ∀ q : Int × Int, (fillPath g s path).board q.1 q.2
        = if q ∈ path then s else g.board q.1 q.2 := by
  intro path
  induction path with
  | nil =>
      intro g _ _
      exact ⟨rfl, fun q => by simp [fillPath]⟩
  | cons p path ih =>
      intro g hnd he
      rw [List.nodup_cons] at hnd
      rw [fillPath_cons, makeMove_of_empty g p.1 p.2 s (he p (List.mem_cons_self _ _))]
      simp only
      have he2 : ∀ q ∈ path, (g.setCell p.1 p.2 s).isCellEmpty q.1 q.2 = true := by
        intro q hq
        have hqe := he q (List.mem_cons_of_mem _ hq)
        have hne : ¬ (q.1 = p.1 ∧ q.2 = p.2) := by
          intro h
          apply hnd.1
          have : q = p := Prod.ext h.1 h.2
          rw [← this]
          exact hq
        simp only [HexGame.isCellEmpty, HexGame.setCell, HexGame.inBounds, hne, if_false]
          at hqe ⊢
        exact hqe
      obtain ⟨h1, h2⟩ := ih (g.setCell p.1 p.2 s) hnd.2 he2
      refine ⟨by rw [h1]; rfl, ?_⟩
      intro q
      rw [h2 q]
      by_cases hqp : q = p
      · subst hqp
        simp [hnd.1, HexGame.setCell]
      · have hne : ¬ (q.1 = p.1 ∧ q.2 = p.2) := fun h => hqp (Prod.ext h.1 h.2)
        simp [hqp, HexGame.setCell, hne]

/-- A route of cells not owned by the opponent becomes a chain of own stones when its
Empty cells are filled. -/
theorem route_owned_after_fill (g : HexGame) (hwf : WellFormed g) (own opp : Char)
    (hoo : (own = 'X' ∧ opp = 'O') ∨ (own = 'O' ∧ opp = 'X'))
    (route : List (Int × Int)) (hr : ∀ p ∈ route, NotOwnedBy g opp p)
    (hnd : (route.filter fun p => g.board p.1 p.2 == '.').Nodup) :
    (fillPath g own (route.filter fun p => g.board p.1 p.2 == '.')).size = g.size ∧
    ∀ p ∈ route,
      Owned (fillPath g own (route.filter fun p => g.board p.1 p.2 == '.')) own p := by
  have hempty : ∀ p ∈ route.filter (fun p => g.board p.1 p.2 == '.'),
      g.isCellEmpty p.1 p.2 = true := by
    intro p hp
    rw [List.mem_filter] at hp
    have hb := (hr p hp.1).1
    simp only [HexGame.isCellEmpty, hb, Bool.true_and]
    exact hp.2
  obtain ⟨h1, h2⟩ := fillPath_board own _ g hnd hempty
  refine ⟨h1, ?_⟩
  intro p hp
  obtain ⟨hb, hno⟩ := hr p hp
  refine ⟨?_, ?_⟩
  · simp only [HexGame.inBounds, h1]
    exact hb
  · rw [h2 p]
    split
    · rfl
    · rename_i hnm
      have hne : g.board p.1 p.2 ≠ '.' := by
        intro h
        apply hnm
        rw [List.mem_filter]
        exact ⟨hp, by simp [h]⟩
      rcases hwf p.1 p.2 hb with h | h | h
      · exact absurd h hne
      · rcases hoo with ⟨rfl, rfl⟩ | ⟨rfl, rfl⟩
        · exact h
        · exact absurd h hno
      · rcases hoo with ⟨rfl, rfl⟩ | ⟨rfl, rfl⟩
        · exact absurd h hno
        · exact h

/-- Where a route of the side exists, on a board of `'.'`, `'X'` and `'O'` of size at most
23170: the path written by `minMovesForXToWin` / `minMovesForOToWin` has exactly as many
cells as the returned cost, the cells are pairwise different, and placing a stone of the
side on each of them gives a board on which `checkWin` of the side is true. -/
theorem path_is_cost_many_cells_of_route (g : HexGame) (hwf : WellFormed g)
    (hsize : g.size ≤ 23170) :
    ((∃ route, SideRoute g 'X' route) →
      ∃ path, (Gui.minMovesForXToWinPath g).2 = some path ∧
        path.length = Gui.minMovesForXToWin g ∧ path.Nodup ∧
        Gui.checkWin (fillPath g 'X' path) 'X' = true) ∧
    ((∃ route, SideRoute g 'O' route) →
      ∃ path, (Gui.minMovesForOToWinPath g).2 = some path ∧
        path.length = Gui.minMovesForOToWin g ∧ path.Nodup ∧
        Gui.checkWin (fillPath g 'O' path) 'O' = true) := by
  constructor
  · intro hex
    have hex2 : ∃ route, IsRoute (NotOwnedBy g 'O') (fun p => p.2 = 0)
        (fun p => p.2 = (g.size : Int) - 1) route := by
      simpa only [SideRoute, onStartEdge_X, onTargetEdge_X, opponent, if_true] using hex
    obtain ⟨route, hr, hpath, hlen, hnd⟩ := @core_path_length g 'X' 'O' _ _ _ _
      (edgeSpec_X g) hwf hsize (Or.inl ⟨rfl, rfl⟩) hex2
    refine ⟨_, hpath, hlen, hnd, ?_⟩
    obtain ⟨hsz, hown⟩ := route_owned_after_fill g hwf 'X' 'O' (Or.inl ⟨rfl, rfl⟩) route
      hr.1 hnd
    rw [gui_checkWin_iff _ 'X' (Or.inl rfl)]
    refine ⟨route, hown, hr.2.1, ?_, ?_⟩
    · simpa only [onStartEdge_X] using hr.2.2.1
    · simpa only [onTargetEdge_X, hsz] using hr.2.2.2
  · intro hex
    have ho : opponent 'O' = 'X' := by decide
    have hex2 : ∃ route, IsRoute (NotOwnedBy g 'X') (fun p => p.1 = 0)
        (fun p => p.1 = (g.size : Int) - 1) route := by
      simpa only [SideRoute, onStartEdge_O, onTargetEdge_O, ho] using hex
    obtain ⟨route, hr, hpath, hlen, hnd⟩ := @core_path_length g 'O' 'X' _ _ _ _
      (edgeSpec_O g) hwf hsize (Or.inr ⟨rfl, rfl⟩) hex2
    refine ⟨_, hpath, hlen, hnd, ?_⟩
    obtain ⟨hsz, hown⟩ := route_owned_after_fill g hwf 'O' 'X' (Or.inr ⟨rfl, rfl⟩) route
      hr.1 hnd
    rw [gui_checkWin_iff _ 'O' (Or.inr rfl)]
    refine ⟨route, hown, hr.2.1, ?_, ?_⟩
    · simpa only [onStartEdge_O] using hr.2.2.1
    · simpa only [onTargetEdge_O, hsz] using hr.2.2.2

theorem path_is_cost_many_cells_of_route_witness :
    WellFormed board5 ∧ board5.size ≤ 23170 ∧ (∃ route, SideRoute board5 'X' route) ∧
    ∃ path, (Gui.minMovesForXToWinPath board5).2 = some path ∧
      path.length = Gui.minMovesForXToWin board5 ∧ path.Nodup ∧
      Gui.checkWin (fillPath board5 'X' path) 'X' = true :=
  ⟨board5_wellFormed, by decide, ⟨_, board5_route⟩,
    (path_is_cost_many_cells_of_route board5 board5_wellFormed (by decide)).1
      ⟨_, board5_route⟩⟩

end Hex

/-! ## The two cost searches are mirror images of each other -/

namespace Hex

theorem swapXO_swapXO (ch : Char) : swapXO (swapXO ch) = ch := by
  unfold swapXO
  by_cases h1 : ch = 'X'
  · subst h1; decide
  · by_cases h2 : ch = 'O'
    · subst h2; decide
    · simp [h1, h2]

theorem mirror_mirror (g : HexGame) : mirror (mirror g) = g := by
  cases g
  simp [mirror, swapXO_swapXO]

theorem mirror_inBounds (g : HexGame) (r c : Int) :
    (mirror g).inBounds r c = g.inBounds c r := by
  have h : ((mirror g).inBounds r c = true) ↔ (g.inBounds c r = true) := by
    rw [inBounds_iff, inBounds_iff]
    simp only [mirror]
    constructor <;> intro h <;> omega
  cases h1 : (mirror g).inBounds r c <;> cases h2 : g.inBounds c r <;> simp_all

/-- The six directions are closed under the exchange of rows and columns. -/
theorem hexAdj_transpose (p q : Int × Int) (h : HexAdj p q) : HexAdj (p.2, p.1) (q.2, q.1) := by
  unfold HexAdj kHexDirections at h ⊢
  simp only [List.mem_cons, Prod.mk.injEq, List.mem_singleton, List.not_mem_nil, or_false]
    at h ⊢
  omega

theorem cellCost_swapXO (own opp : Char)
    (hoo : (own = 'X' ∧ opp = 'O') ∨ (own = 'O' ∧ opp = 'X')) (ch : Char) :
    cellCost opp own (swapXO ch) = cellCost own opp ch := by
  unfold cellCost swapXO
  by_cases h1 : ch = 'X'
  · subst h1
    rcases hoo with ⟨rfl, rfl⟩ | ⟨rfl, rfl⟩ <;> decide
  · by_cases h2 : ch = 'O'
    · subst h2
      rcases hoo with ⟨rfl, rfl⟩ | ⟨rfl, rfl⟩ <;> decide
    · rcases hoo with ⟨rfl, rfl⟩ | ⟨rfl, rfl⟩ <;> simp [h1, h2]

theorem swapXO_ne (own opp : Char)
    (hoo : (own = 'X' ∧ opp = 'O') ∨ (own = 'O' ∧ opp = 'X')) (ch : Char) (h : ch ≠ opp) :
    swapXO ch ≠ own := by
  unfold swapXO
  rcases hoo with ⟨rfl, rfl⟩ | ⟨rfl, rfl⟩
  · by_cases h1 : ch = 'X'
    · simp [h1]
    · simp [h1, h]
  · simp [h]
    by_cases h2 : ch = 'O'
    · simp [h2]
    · simp [h2]

theorem stepCost_mirror (g : HexGame) (own opp : Char)
    (hoo : (own = 'X' ∧ opp = 'O') ∨ (own = 'O' ∧ opp = 'X')) (q : Int × Int) :
    stepCost (mirror g) opp (q.2, q.1) = stepCost g own q := by
  unfold stepCost mirror swapXO
  simp only
  by_cases h1 : g.board q.1 q.2 = 'X'
  · rcases hoo with ⟨rfl, rfl⟩ | ⟨rfl, rfl⟩ <;> simp [h1]
  · by_cases h2 : g.board q.1 q.2 = 'O'
    · rcases hoo with ⟨rfl, rfl⟩ | ⟨rfl, rfl⟩ <;> simp [h2]
    · rcases hoo with ⟨rfl, rfl⟩ | ⟨rfl, rfl⟩ <;> simp [h1, h2]

/-- A path of the search of `own` on a board is, cell by cell transposed, a path of the
search of the other side on the mirrored board, with the same charge. -/
theorem walk_mirror {g : HexGame} {own opp : Char} {S : Int × Int → Prop}
    (hoo : (own = 'X' ∧ opp = 'O') ∨ (own = 'O' ∧ opp = 'X')) {p : Int × Int} {k : Nat}
    (hw : Walk g own opp S p k) :
    Walk (mirror g) opp own (fun q => S (q.2, q.1)) (p.2, p.1) k := by
  induction hw with
  | seed p hs hb =>
      have h := @Walk.seed (mirror g) opp own (fun q => S (q.2, q.1)) (p.2, p.1) hs
        (by rw [mirror_inBounds]; exact hb)
      have e : cellCost opp own ((mirror g).board (p.2, p.1).1 (p.2, p.1).2)
          = cellCost own opp (g.board p.1 p.2) := cellCost_swapXO own opp hoo _
      rw [e] at h
      exact h
  | step p q k _ hadj hb ho ih =>
      have h := Walk.step (p.2, p.1) (q.2, q.1) k ih (hexAdj_transpose p q hadj)
        (by rw [mirror_inBounds]; exact hb)
        (swapXO_ne own opp hoo _ ho)
      rw [stepCost_mirror g own opp hoo q] at h
      exact h

section Core

variable {g : HexGame} {own opp : Char} {startCell goalCell startCell2 goalCell2 : Nat → Int × Int}
  {S G : Int × Int → Prop}

/-- The cost of the mirrored search on the mirrored board is at most the cost of the
search on the board. -/
theorem core_mirror_le (hoo : (own = 'X' ∧ opp = 'O') ∨ (own = 'O' ∧ opp = 'X'))
    (E : EdgeSpec g startCell goalCell S G)
    (E2 : EdgeSpec (mirror g) startCell2 goalCell2 (fun q => S (q.2, q.1))
      (fun q => G (q.2, q.1))) :
    (minMovesCore (mirror g) opp own startCell2 goalCell2).1
      ≤ (minMovesCore g own opp startCell goalCell).1 := by
  by_cases hlt : (minMovesCore g own opp startCell goalCell).1 < INF
  · obtain ⟨z, hz, hw⟩ := core_walk E hlt
    exact core_le_walk E2 (z := (z.2, z.1)) hz (walk_mirror hoo hw)
  · have := @core_le_INF (mirror g) opp own startCell2 goalCell2 _ _ E2
    omega

end Core

/-- C33: for every board `B`, `minMovesForOToWin` on `B` returns the same cost as
`minMovesForXToWin` on the board obtained from `B` by transposing rows and columns and
exchanging X and O stones; and `minMovesForXToWin` on `B` the same cost as
`minMovesForOToWin` on that board. -/
theorem minMovesForOToWin_eq_mirror (g : HexGame) :
    Gui.minMovesForOToWin g = Gui.minMovesForXToWin (mirror g) ∧
    Gui.minMovesForXToWin g = Gui.minMovesForOToWin (mirror g) := by
  have hsz : ((mirror g).size : Int) = (g.size : Int) := rfl
  have hOX : (('O' : Char) = 'X' ∧ ('X' : Char) = 'O') ∨ (('O' : Char) = 'O' ∧ ('X' : Char) = 'X') :=
    Or.inr ⟨rfl, rfl⟩
  have hXO : (('X' : Char) = 'X' ∧ ('O' : Char) = 'O') ∨ (('X' : Char) = 'O' ∧ ('O' : Char) = 'X') :=
    Or.inl ⟨rfl, rfl⟩
  have EX := edgeSpec_X g
  have EO := edgeSpec_O g
  have EXm := edgeSpec_X (mirror g)
  have EOm := edgeSpec_O (mirror g)
  rw [hsz] at EXm EOm
  have EXmm := edgeSpec_X (mirror (mirror g))
  have EOmm := edgeSpec_O (mirror (mirror g))
  have hsz2 : ((mirror (mirror g)).size : Int) = (g.size : Int) := rfl
  rw [hsz2] at EXmm EOmm
  have a1 := @core_mirror_le g 'O' 'X' _ _ _ _ _ _ hOX EO EXm
  have a2 := @core_mirror_le (mirror g) 'X' 'O' _ _ _ _ _ _ hXO EXm EOmm
  have b1 := @core_mirror_le g 'X' 'O' _ _ _ _ _ _ hXO EX EOm
  have b2 := @core_mirror_le (mirror g) 'O' 'X' _ _ _ _ _ _ hOX EOm EXmm
  simp only [mirror_mirror] at a2 b2
  unfold Gui.minMovesForOToWin Gui.minMovesForXToWin Gui.minMovesForOToWinPath
    Gui.minMovesForXToWinPath
  rw [hsz]
  exact ⟨le_antisymm a2 a1, le_antisymm b2 b1⟩

end Hex

/-! ## chooseMove returns the first cell of maximal score -/

namespace Hex

open Console

/-- The nested loops visit the cells in row-major order: rows ascending, then columns
ascending. -/
theorem allCells_sorted (n : Nat) :
    (allCells n).Pairwise (fun p q => p.1 < q.1 ∨ (p.1 = q.1 ∧ p.2 < q.2)) := by
  unfold allCells
  rw [List.pairwise_flatten]
  constructor
  · intro l hl
    simp only [List.mem_map, List.mem_range] at hl
    obtain ⟨r, _, rfl⟩ := hl
    rw [List.pairwise_map]
    refine (List.pairwise_lt_range n).imp ?_
    intro a b hab
    right
    refine ⟨rfl, ?_⟩
    show (a : Int) < (b : Int)
    exact_mod_cast hab
  · rw [List.pairwise_map]
    refine (List.pairwise_lt_range n).imp ?_
    intro a b hab p hp q hq
    simp only [List.mem_map, List.mem_range] at hp hq
    obtain ⟨c1, _, rfl⟩ := hp
    obtain ⟨c2, _, rfl⟩ := hq
    left
    show (a : Int) < (b : Int)
    exact_mod_cast hab

/-- The cell loop of `chooseMove`, with the position of the returned cell: the loop
returns the incoming `bestMove`, no Empty cell of the list scoring above the incoming
`bestScore`, or an Empty cell `m` of the list that scores above `bestScore`, strictly above
every Empty cell listed before it and at least as high as every Empty cell listed after
it. -/
theorem chooseLoop_first (ai : SmarterAI) (fuel : Nat) (g : HexGame) (sc : Int × Int → Int)
    (hsc : ∀ r c, g.isCellEmpty r c = true →
      minimax ai fuel (g.setCell r c ai.playerChar) (ai.maxDepth - 1) false INT_MIN INT_MAX =
        some (sc (r, c), g.setCell r c ai.playerChar)) :
    ∀ (l : List (Int × Int)) (bs : Int) (bm : Int × Int),
      ∃ m, chooseLoop ai fuel l g bs bm = some (m, g) ∧
        ((m = bm ∧ ∀ p ∈ l, g.isCellEmpty p.1 p.2 = true → sc p ≤ bs) ∨
         (∃ pre post : List (Int × Int), l = pre ++ m :: post ∧
            g.isCellEmpty m.1 m.2 = true ∧ bs < sc m ∧
            (∀ p ∈ pre, g.isCellEmpty p.1 p.2 = true → sc p < sc m) ∧
            (∀ p ∈ post, g.isCellEmpty p.1 p.2 = true → sc p ≤ sc m))) := by
  intro l
  induction l with
  | nil =>
      intro bs bm
      exact ⟨bm, rfl, Or.inl ⟨rfl, fun p hp => by simp at hp⟩⟩
  | cons a rest ih =>
      intro bs bm
      obtain ⟨r, c⟩ := a
      by_cases he : g.isCellEmpty r c = true
      · rw [chooseLoop, if_pos he, makeMove_of_empty g r c _ he]
        simp only [hsc r c he, undoMove_setCell g r c _ he]
        by_cases hgt : sc (r, c) > bs
        · rw [if_pos hgt]
          obtain ⟨m, hm, hcase⟩ := ih (sc (r, c)) (r, c)
          refine ⟨m, hm, Or.inr ?_⟩
          rcases hcase with ⟨rfl, hall⟩ | ⟨pre, post, hl, hme, hlt, hpre, hpost⟩
          · exact ⟨[], rest, rfl, he, hgt, fun p hp => by simp at hp, hall⟩
          · refine ⟨(r, c) :: pre, post, by rw [hl]; rfl, hme, by omega, ?_, hpost⟩
            intro p hp hpe
            rcases List.mem_cons.1 hp with rfl | hp
            · exact hlt
            · exact hpre p hp hpe
        · rw [if_neg hgt]
          obtain ⟨m, hm, hcase⟩ := ih bs bm
          refine ⟨m, hm, ?_⟩
          rcases hcase with ⟨rfl, hall⟩ | ⟨pre, post, hl, hme, hlt, hpre, hpost⟩
          · left
            refine ⟨rfl, ?_⟩
            intro p hp hpe
            rcases List.mem_cons.1 hp with rfl | hp
            · omega
            · exact hall p hp hpe
          · right
            refine ⟨(r, c) :: pre, post, by rw [hl]; rfl, hme, hlt, ?_, hpost⟩
            intro p hp hpe
            rcases List.mem_cons.1 hp with rfl | hp
            · omega
            · exact hpre p hp hpe
      · rw [chooseLoop, if_neg he]
        obtain ⟨m, hm, hcase⟩ := ih bs bm
        refine ⟨m, hm, ?_⟩
        rcases hcase with ⟨rfl, hall⟩ | ⟨pre, post, hl, hme, hlt, hpre, hpost⟩
        · left
          refine ⟨rfl, ?_⟩
          intro p hp hpe
          rcases List.mem_cons.1 hp with rfl | hp
          · exact absurd hpe he
          · exact hall p hp hpe
        · right
          refine ⟨(r, c) :: pre, post, by rw [hl]; rfl, hme, hlt, ?_, hpost⟩
          intro p hp hpe
          rcases List.mem_cons.1 hp with rfl | hp
          · exact absurd hpe he
          · exact hpre p hp hpe

/-- C31: on every board of size at most 20 with at least one Empty cell, for every AI
side and search depth, `chooseMove` returns the first cell in row-major order (rows
ascending, then columns ascending) among the Empty cells whose score
`minimax(board with the AI stone there, maxDepth - 1, minimizing, INT_MIN, INT_MAX)` is
maximal: `sc` is that score, the returned cell `m` is Empty, no Empty cell scores higher,
and every Empty cell with the same score comes at or after `m`. -/
theorem chooseMove_first_of_maximal_score (aiChar : Char) (depth : Int) (g : HexGame)
    (ha : aiChar ≠ '.') (hsize : g.size ≤ 20)
    (hex : ∃ r c : Int, g.isCellEmpty r c = true) :
    ∃ (sc : Int × Int → Int) (m : Int × Int),
      (∀ r c, g.isCellEmpty r c = true →
        minimax (SmarterAI.ofChar aiChar depth) (g.size * g.size + 1) (g.setCell r c aiChar)
          (depth - 1) false INT_MIN INT_MAX = some (sc (r, c), g.setCell r c aiChar)) ∧
      chooseMove (SmarterAI.ofChar aiChar depth) g = some (m, g) ∧
      g.isCellEmpty m.1 m.2 = true ∧
      (∀ p : Int × Int, g.isCellEmpty p.1 p.2 = true → sc p ≤ sc m) ∧
      (∀ p : Int × Int, g.isCellEmpty p.1 p.2 = true → sc p = sc m →
        m.1 < p.1 ∨ (m.1 = p.1 ∧ m.2 ≤ p.2)) := by
  have ho := ofChar_opponent_ne_empty aiChar depth
  have hp : (SmarterAI.ofChar aiChar depth).playerChar ≠ '.' := ha
  obtain ⟨sc, _, hsc, -, -⟩ := chooseMove_spec _ hp ho g
  have hlow : ∀ p : Int × Int, g.isCellEmpty p.1 p.2 = true → -100000 ≤ sc p := by
    intro p hpe
    exact (firstMove_score_bounds _ hp ho g hsize p.1 p.2 _ _ (hsc p.1 p.2 hpe)).1
  have hmem : ∀ p : Int × Int, g.isCellEmpty p.1 p.2 = true → p ∈ allCells g.size := by
    intro p hpe
    rw [mem_allCells_iff_inBounds]
    exact isCellEmpty_inBounds g p.1 p.2 hpe
  obtain ⟨m, hm, hcase⟩ := chooseLoop_first _ (g.size * g.size + 1) g sc hsc
    (allCells g.size) INT_MIN (-1, -1)
  have hI : INT_MIN = -2147483648 := rfl
  refine ⟨sc, m, hsc, hm, ?_⟩
  rcases hcase with ⟨-, hall⟩ | ⟨pre, post, hl, hme, -, hpre, hpost⟩
  · obtain ⟨r, c, he⟩ := hex
    have h1 := hall (r, c) (hmem (r, c) he) he
    have h2 := hlow (r, c) he
    omega
  · have hsort := allCells_sorted g.size
    rw [hl, List.pairwise_append] at hsort
    have hafter := (List.pairwise_cons.1 hsort.2.1).1
    refine ⟨hme, ?_, ?_⟩
    · intro p hpe
      have h := hmem p hpe
      rw [hl] at h
      rcases List.mem_append.1 h with h | h
      · exact le_of_lt (hpre p h hpe)
      · rcases List.mem_cons.1 h with rfl | h
        · exact le_refl _
        · exact hpost p h hpe
    · intro p hpe heq
      have h := hmem p hpe
      rw [hl] at h
      rcases List.mem_append.1 h with h | h
      · have := hpre p h hpe
        omega
      · rcases List.mem_cons.1 h with rfl | h
        · exact Or.inr ⟨rfl, le_refl _⟩
        · rcases hafter p h with h1 | ⟨h1, h2⟩
          · exact Or.inl h1
          · exact Or.inr ⟨h1, le_of_lt h2⟩

theorem chooseMove_first_of_maximal_score_witness :
    ('X' : Char) ≠ '.' ∧ cornerBoard.size ≤ 20 ∧
    (∃ r c : Int, cornerBoard.isCellEmpty r c = true) ∧
    ∃ (sc : Int × Int → Int) (m : Int × Int),
      (∀ r c, cornerBoard.isCellEmpty r c = true →
        minimax (SmarterAI.ofChar 'X' 2) (cornerBoard.size * cornerBoard.size + 1)
          (cornerBoard.setCell r c 'X') (2 - 1) false INT_MIN INT_MAX
            = some (sc (r, c), cornerBoard.setCell r c 'X')) ∧
      chooseMove (SmarterAI.ofChar 'X' 2) cornerBoard = some (m, cornerBoard) ∧
      cornerBoard.isCellEmpty m.1 m.2 = true ∧
      (∀ p : Int × Int, cornerBoard.isCellEmpty p.1 p.2 = true → sc p ≤ sc m) ∧
      (∀ p : Int × Int, cornerBoard.isCellEmpty p.1 p.2 = true → sc p = sc m →
        m.1 < p.1 ∨ (m.1 = p.1 ∧ m.2 ≤ p.2)) :=
  ⟨by decide, by decide, ⟨0, 1, by decide⟩,
    chooseMove_first_of_maximal_score 'X' 2 cornerBoard (by decide) (by decide)
      ⟨0, 1, by decide⟩⟩

end Hex

/-! ## The relaxation loop terminates -/

namespace Hex

/-- One relaxation step never raises the termination measure: a push adds one pair to
the queue and lowers the distance of one cell of the board by at least one. -/
theorem relaxStep_measure (g : HexGame) (own opp : Char) (d v : Nat) (st : CostState)
    (dir : Int × Int) :
    costMeasure g (relaxStep g own opp d v st dir) ≤ costMeasure g st := by
  rcases relaxStep_cases g own opp d v st dir with h | ⟨hb, hlt, h⟩
  · rw [h]
  · rw [h]
    have hs := sum_lower (g.size * g.size) st.dist
      (cellId g ((cellOf g v).1 + dir.1, (cellOf g v).2 + dir.2))
      (d + stepCost g own ((cellOf g v).1 + dir.1, (cellOf g v).2 + dir.2))
      (cellId_lt g _ hb) hlt
    unfold costMeasure
    simp only [List.length_cons]
    omega

theorem relaxStep_fold_measure (g : HexGame) (own opp : Char) (d v : Nat) :
    ∀ (ds : List (Int × Int)) (st : CostState),
      costMeasure g (ds.foldl (relaxStep g own opp d v) st) ≤ costMeasure g st := by
  intro ds
  induction ds with
  | nil => intro st; exact le_refl _
  | cons x ds ih =>
      intro st
      exact le_trans (ih _) (relaxStep_measure g own opp d v st x)

/-- One iteration of the relaxation loop on a non-empty queue strictly lowers the
termination measure. -/
theorem relaxLoop_one_measure (g : HexGame) (own opp : Char) (st : CostState)
    (hne : st.pq ≠ []) :
    costMeasure g (relaxLoop g own opp 1 st) < costMeasure g st := by
  unfold relaxLoop
  cases htop : pqTop st.pq with
  | none => exact absurd (pqTop_eq_none htop) hne
  | some e =>
      obtain ⟨d, v⟩ := e
      have hlen := costMeasure_erase g st (d, v) (pqTop_mem htop)
      simp only
      split
      · simp only [relaxLoop]
        omega
      · simp only [relaxLoop]
        have := relaxStep_fold_measure g own opp d v kHexDirections
          { st with pq := st.pq.erase (d, v) }
        omega

/-- With fuel above the termination measure the relaxation loop stops on an empty
queue. -/
theorem relaxLoop_ends_empty (g : HexGame) (own opp : Char) :
    ∀ (fuel : Nat) (st : CostState), costMeasure g st < fuel →
      (relaxLoop g own opp fuel st).pq = [] := by
  intro fuel
  induction fuel with
  | zero => intro st hf; omega
  | succ fuel ih =>
      intro st hf
      unfold relaxLoop
      cases htop : pqTop st.pq with
      | none => exact pqTop_eq_none htop
      | some e =>
          obtain ⟨d, v⟩ := e
          have hlen := costMeasure_erase g st (d, v) (pqTop_mem htop)
          simp only
          split
          · exact ih _ (by omega)
          · have := relaxStep_fold_measure g own opp d v kHexDirections
              { st with pq := st.pq.erase (d, v) }
            exact ih _ (by omega)

/-- Once the relaxation loop has stopped on an empty queue, more fuel changes nothing. -/
theorem relaxLoop_more_fuel (g : HexGame) (own opp : Char) :
    ∀ (fuel : Nat) (st : CostState), (relaxLoop g own opp fuel st).pq = [] →
      ∀ extra, relaxLoop g own opp (fuel + extra) st = relaxLoop g own opp fuel st := by
  intro fuel
  induction fuel with
  | zero =>
      intro st h extra
      simp only [relaxLoop] at h
      cases extra with
      | zero => rfl
      | succ extra =>
          rw [Nat.zero_add]
          simp only [relaxLoop, h, pqTop]
  | succ fuel ih =>
      intro st h extra
      have e : fuel + 1 + extra = (fuel + extra) + 1 := by omega
      rw [e]
      unfold relaxLoop at h ⊢
      cases htop : pqTop st.pq with
      | none => rfl
      | some e =>
          obtain ⟨d, v⟩ := e
          rw [htop] at h
          simp only at h ⊢
          split
          · rename_i hs
            rw [if_pos hs] at h
            exact ih _ h extra
          · rename_i hs
            rw [if_neg hs] at h
            exact ih _ h extra

/-- The queue of the seeded state has at most `size` pairs and every distance is at most
`INF`, so the fuel of `minMovesCore` exceeds the termination measure. -/
theorem seeded_measure (g : HexGame) (own opp : Char) (startCell : Nat → Int × Int)
    (S : Int × Int → Prop)
    (hin : ∀ p ∈ (List.range g.size).map startCell, g.inBounds p.1 p.2 = true ∧ S p) :
    costMeasure g (((List.range g.size).map startCell).foldl (costSeed g own opp)
      { dist := fun _ => INF, parent := fun _ => -1, pq := [] }) < relaxFuel g := by
  have h0 : SeedInv g own opp S { dist := fun _ => INF, parent := fun _ => -1, pq := [] } :=
    ⟨fun _ => le_refl _, by simp, by simp, by simp, by simp⟩
  obtain ⟨h1, _, _, h4⟩ := costSeed_fold g own opp S _ _ hin h0
  have h5 := sum_dist_le (g.size * g.size) _ h1.distLe
  simp only [List.length_nil, List.length_map, List.length_range, zero_add] at h4
  unfold costMeasure relaxFuel
  omega

/-- C34: for every board of every size `N ≥ 0` the relaxation loop of
`minMovesForXToWin` and of `minMovesForOToWin` terminates.  An iteration on a non-empty
queue strictly lowers the measure "queue length plus sum of the recorded distances", a
natural number; a relaxation step either changes nothing or pushes one pair and strictly
lowers the recorded distance of that one cell to a value not below the popped distance,
the other distances being kept; the loop leaves a non-empty queue only where its fuel does
not exceed the measure; and from the seeded state of either function the loop ends with
the queue empty, whatever further fuel it is given. -/
theorem relaxLoop_terminates (g : HexGame) :
    (∀ (own opp : Char) (st : CostState), st.pq ≠ [] →
      costMeasure g (relaxLoop g own opp 1 st) < costMeasure g st) ∧
    (∀ (own opp : Char) (d v : Nat) (st : CostState) (dir : Int × Int),
      relaxStep g own opp d v st dir = st ∨
      ∃ nv, nv < g.size * g.size ∧
        (relaxStep g own opp d v st dir).pq
          = ((relaxStep g own opp d v st dir).dist nv, nv) :: st.pq ∧
        (relaxStep g own opp d v st dir).dist nv < st.dist nv ∧
        d ≤ (relaxStep g own opp d v st dir).dist nv ∧
        ∀ i, i ≠ nv → (relaxStep g own opp d v st dir).dist i = st.dist i) ∧
    (∀ (own opp : Char) (fuel : Nat) (st : CostState), costMeasure g st < fuel →
      (relaxLoop g own opp fuel st).pq = []) ∧
    ((finalState g 'X' 'O' (fun r => ((r : Int), 0))).pq = [] ∧
      ∀ extra, relaxLoop g 'X' 'O' (relaxFuel g + extra)
          (((List.range g.size).map fun r : Nat => ((r : Int), (0 : Int))).foldl
            (costSeed g 'X' 'O') { dist := fun _ => INF, parent := fun _ => -1, pq := [] })
        = finalState g 'X' 'O' (fun r => ((r : Int), 0))) ∧
    ((finalState g 'O' 'X' (fun c => (0, (c : Int)))).pq = [] ∧
      ∀ extra, relaxLoop g 'O' 'X' (relaxFuel g + extra)
          (((List.range g.size).map fun c : Nat => ((0 : Int), (c : Int))).foldl
            (costSeed g 'O' 'X') { dist := fun _ => INF, parent := fun _ => -1, pq := [] })
        = finalState g 'O' 'X' (fun c => (0, (c : Int)))) := by
  refine ⟨fun own opp st h => relaxLoop_one_measure g own opp st h, ?_,
    fun own opp fuel st h => relaxLoop_ends_empty g own opp fuel st h, ?_, ?_⟩
  · intro own opp d v st dir
    rcases relaxStep_cases g own opp d v st dir with h | ⟨hb, hlt, h⟩
    · exact Or.inl h
    · right
      refine ⟨cellId g ((cellOf g v).1 + dir.1, (cellOf g v).2 + dir.2), cellId_lt g _ hb,
        ?_, ?_, ?_, ?_⟩
      · rw [h]
        simp
      · rw [h]
        simpa using hlt
      · rw [h]
        simp
      · intro i hi
        rw [h]
        simp [hi]
  · have hX := seeded_measure g 'X' 'O' (fun r => ((r : Int), 0)) (fun p => p.2 = 0)
      (edgeSpec_X g).startIn
    have hpq := relaxLoop_ends_empty g 'X' 'O' _ _ hX
    exact ⟨hpq, fun extra => relaxLoop_more_fuel g 'X' 'O' _ _ hpq extra⟩
  · have hO := seeded_measure g 'O' 'X' (fun c => (0, (c : Int))) (fun p => p.1 = 0)
      (edgeSpec_O g).startIn
    have hpq := relaxLoop_ends_empty g 'O' 'X' _ _ hO
    exact ⟨hpq, fun extra => relaxLoop_more_fuel g 'O' 'X' _ _ hpq extra⟩

end Hex

/-! ## A stone of the side lowers its cost by at most one -/

namespace Hex

theorem cellCost_le_blocked (own opp ch : Char) : cellCost own opp ch ≤ blockedCost := by
  unfold cellCost
  split
  · exact le_refl _
  · split <;> decide

theorem cellCost_le_one (own opp ch : Char) (h : ch ≠ opp) : cellCost own opp ch ≤ 1 := by
  unfold cellCost
  simp only [beq_iff_eq, h, if_false]
  split <;> omega

/-- A path of the search on the board with a further stone of `own` on a cell that the
opponent did not hold is matched on the board without the stone by a path to the same
cell charged at most one more. -/
theorem walk_unsetCell_own {g : HexGame} {own opp : Char} {S : Int × Int → Prop} (r c : Int)
    (hq : g.board r c ≠ opp) {z : Int × Int} {k' : Nat}
    (hw : Walk (g.setCell r c own) own opp S z k') :
    (∃ k, k ≤ k' + 1 ∧ Walk g own opp S z k) ∧
      ((∃ k, k ≤ k' ∧ Walk g own opp S z k) ∨ (∃ k, k ≤ k' + 1 ∧ Walk g own opp S (r, c) k)) := by
  have hboard : ∀ p : Int × Int, (g.setCell r c own).board p.1 p.2 =
      if p.1 = r ∧ p.2 = c then own else g.board p.1 p.2 := fun _ => rfl
  induction hw with
  | seed p hs hb =>
      have hb2 : g.inBounds p.1 p.2 = true := hb
      have hw0 := @Walk.seed g own opp S p hs hb2
      by_cases hp : p.1 = r ∧ p.2 = c
      · have hpe : p = (r, c) := Prod.ext hp.1 hp.2
        subst hpe
        have h1 : cellCost own opp (g.board (r, c).1 (r, c).2) ≤ 1 :=
          cellCost_le_one own opp _ hq
        exact ⟨⟨_, by omega, hw0⟩, Or.inr ⟨_, by omega, hw0⟩⟩
      · rw [hboard]
        simp only [hp, if_false]
        exact ⟨⟨_, by omega, hw0⟩, Or.inl ⟨_, le_refl _, hw0⟩⟩
  | step p q k _ hadj hb ho ih =>
      obtain ⟨⟨k1, hk1, hw1⟩, ih2⟩ := ih
      have hb2 : g.inBounds q.1 q.2 = true := hb
      by_cases hp : q.1 = r ∧ q.2 = c
      · have hqe : q = (r, c) := Prod.ext hp.1 hp.2
        subst hqe
        have hs1 : stepCost g own (r, c) ≤ 1 := by
          unfold stepCost
          split <;> omega
        have hgoal : ∃ k0, k0 ≤ k + stepCost (g.setCell r c own) own (r, c) + 1 ∧
            Walk g own opp S (r, c) k0 := by
          rcases ih2 with ⟨k2, hk2, hw2⟩ | ⟨k2, hk2, hw2⟩
          · exact ⟨_, by omega, Walk.step p (r, c) k2 hw2 hadj hb2 hq⟩
          · exact ⟨k2, by omega, hw2⟩
        exact ⟨hgoal, Or.inr hgoal⟩
      · have ho2 : g.board q.1 q.2 ≠ opp := by
          rw [hboard] at ho
          simpa only [hp, if_false] using ho
        have hsc : stepCost (g.setCell r c own) own q = stepCost g own q := by
          unfold stepCost
          rw [hboard]
          simp only [hp, if_false]
        rw [hsc]
        refine ⟨⟨_, by omega, Walk.step p q k1 hw1 hadj hb2 ho2⟩, ?_⟩
        rcases ih2 with ⟨k2, hk2, hw2⟩ | ⟨k2, hk2, hw2⟩
        · exact Or.inl ⟨_, by omega, Walk.step p q k2 hw2 hadj hb2 ho2⟩
        · exact Or.inr ⟨k2, by omega, hw2⟩

/-- The cells of a path of the search: a start-edge cell followed by cells the opponent
does not own. -/
theorem walk_chain {g : HexGame} {own opp : Char} {S : Int × Int → Prop} {z : Int × Int}
    {k : Nat} (hw : Walk g own opp S z k) :
    ∃ (p : Int × Int) (route : List (Int × Int)), S p ∧ g.inBounds p.1 p.2 = true ∧
      List.Chain' HexAdj (p :: route) ∧ (∀ x ∈ route, NotOwnedBy g opp x) ∧
      (p :: route).getLast? = some z := by
  induction hw with
  | seed p hs hb => exact ⟨p, [], hs, hb, by simp, by simp, rfl⟩
  | step p q k _ hadj hb ho ih =>
      obtain ⟨a, route, hs, hab, hc, hok, hl⟩ := ih
      refine ⟨a, route ++ [q], hs, hab, ?_, ?_, ?_⟩
      · show List.Chain' HexAdj ((a :: route) ++ [q])
        apply List.Chain'.append hc (by simp)
        intro x hx y hy
        simp only [List.head?_cons, Option.mem_def, Option.some.injEq] at hy
        rw [Option.mem_def, hl] at hx
        cases hx
        subst hy
        exact hadj
      · intro x hx
        rcases List.mem_append.1 hx with hx | hx
        · exact hok x hx
        · simp only [List.mem_singleton] at hx
          subst hx
          exact ⟨hb, ho⟩
      · rw [← List.cons_append]
        exact List.getLast?_concat _

/-- Every cell that a path of the search reaches is reached by a path charged at most
`INT_MAX / 4` plus the number of cells. -/
theorem walk_bounded {g : HexGame} {own opp : Char} {S : Int × Int → Prop} {z : Int × Int}
    {k : Nat} (hw : Walk g own opp S z k) :
    ∃ k0, k0 ≤ blockedCost + g.size * g.size ∧ Walk g own opp S z k0 := by
  obtain ⟨p, route, hs, hpb, hc, hok, hl⟩ := walk_chain hw
  obtain ⟨r', h1, h2, h3, h4, h5⟩ := @exists_nodup_route
    (fun x => g.inBounds x.1 x.2 = true ∧ (x = p ∨ g.board x.1 x.2 ≠ opp))
    (p :: route) p z
    (by
      intro x hx
      rcases List.mem_cons.1 hx with rfl | hx
      · exact ⟨hpb, Or.inl rfl⟩
      · exact ⟨(hok x hx).1, Or.inr (hok x hx).2⟩)
    hc rfl hl
  cases r' with
  | nil => simp at h3
  | cons b rest =>
      simp only [List.head?_cons, Option.some.injEq] at h3
      subst h3
      rw [List.nodup_cons] at h5
      have hok2 : ∀ x ∈ rest, NotOwnedBy g opp x := by
        intro x hx
        obtain ⟨hxb, hxo⟩ := h1 x (List.mem_cons_of_mem _ hx)
        refine ⟨hxb, ?_⟩
        rcases hxo with rfl | hxo
        · exact absurd hx h5.1
        · exact hxo
      have hw2 := walk_of_chain rest b z _ (@Walk.seed g own opp S b hs hpb) h2 hok2 h4
      refine ⟨_, ?_, hw2⟩
      have hlen := nodup_length_le g rest h5.2 (fun x hx => (hok2 x hx).1)
      have hrc := routeCost_le_length g own rest
      have hcc := cellCost_le_blocked own opp (g.board b.1 b.2)
      omega

section Core

variable {g : HexGame} {own opp : Char} {startCell goalCell : Nat → Int × Int}
  {S G : Int × Int → Prop}

/-- A cost below the sentinel is at most `INT_MAX / 4` plus the number of cells. -/
theorem core_lt_INF_bound (E : EdgeSpec g startCell goalCell S G)
    (h : (minMovesCore g own opp startCell goalCell).1 < INF) :
    (minMovesCore g own opp startCell goalCell).1 ≤ blockedCost + g.size * g.size := by
  obtain ⟨z, hz, hw⟩ := core_walk E h
  obtain ⟨k0, hk0, hw0⟩ := walk_bounded hw
  exact le_trans (core_le_walk E hz hw0) hk0

/-- A further stone of `own` on a cell that the opponent did not hold lowers the cost of
`own` by at most one. -/
theorem core_setCell_own_lower (r c : Int) (E : EdgeSpec g startCell goalCell S G)
    (E' : EdgeSpec (g.setCell r c own) startCell goalCell S G) (hq : g.board r c ≠ opp) :
    (minMovesCore g own opp startCell goalCell).1
      ≤ (minMovesCore (g.setCell r c own) own opp startCell goalCell).1 + 1 := by
  by_cases hlt : (minMovesCore (g.setCell r c own) own opp startCell goalCell).1 < INF
  · obtain ⟨z, hz, hw⟩ := core_walk E' hlt
    obtain ⟨⟨k, hk, hw0⟩, -⟩ := walk_unsetCell_own r c hq hw
    exact le_trans (core_le_walk E hz hw0) hk
  · have := @core_le_INF g own opp startCell goalCell S G E
    omega

/-- On a board of size at most 20000, a cost that is the sentinel stays the sentinel when
a stone of `own` is placed on a cell that the opponent did not hold. -/
theorem core_setCell_own_INF (r c : Int) (E : EdgeSpec g startCell goalCell S G)
    (E' : EdgeSpec (g.setCell r c own) startCell goalCell S G)
    (hq : g.board r c ≠ opp) (hsize : g.size ≤ 20000)
    (hinf : (minMovesCore g own opp startCell goalCell).1 = INF) :
    (minMovesCore (g.setCell r c own) own opp startCell goalCell).1 = INF := by
  by_contra hcon
  have hle := @core_le_INF (g.setCell r c own) own opp startCell goalCell S G E'
  have hlt : (minMovesCore (g.setCell r c own) own opp startCell goalCell).1 < INF := by
    omega
  have hb := @core_lt_INF_bound (g.setCell r c own) own opp startCell goalCell S G E' hlt
  have hlow := @core_setCell_own_lower g own opp startCell goalCell S G r c E E' hq
  have hsz : (g.setCell r c own).size = g.size := rfl
  rw [hsz] at hb
  have hsq : g.size * g.size ≤ 20000 * 20000 := Nat.mul_le_mul hsize hsize
  have hB : blockedCost = 536870911 := by decide
  have hI : INF = 1000000000 := rfl
  omega

end Core

/-- C32: for every board of size at most 20000, every Empty cell and each side `s`,
placing one stone of `s` on that cell lowers `minMovesFor{s}ToWin` by at most 1 (and
does not raise it); and if the cost is the sentinel `INF` before the placement, it is
the sentinel afterwards. -/
theorem own_stone_lowers_cost_by_at_most_one (g : HexGame) (r c : Int)
    (h : g.isCellEmpty r c = true) (hsize : g.size ≤ 20000) :
    (Gui.minMovesForXToWin (g.makeMove r c 'X').2 ≤ Gui.minMovesForXToWin g ∧
      Gui.minMovesForXToWin g ≤ Gui.minMovesForXToWin (g.makeMove r c 'X').2 + 1) ∧
    (Gui.minMovesForOToWin (g.makeMove r c 'O').2 ≤ Gui.minMovesForOToWin g ∧
      Gui.minMovesForOToWin g ≤ Gui.minMovesForOToWin (g.makeMove r c 'O').2 + 1) ∧
    (Gui.minMovesForXToWin g = INF → Gui.minMovesForXToWin (g.makeMove r c 'X').2 = INF) ∧
    (Gui.minMovesForOToWin g = INF → Gui.minMovesForOToWin (g.makeMove r c 'O').2 = INF) := by
  have hdot := isCellEmpty_board g r c h
  have hX : g.board r c ≠ 'X' := by rw [hdot]; decide
  have hO : g.board r c ≠ 'O' := by rw [hdot]; decide
  rw [makeMove_of_empty g r c 'X' h, makeMove_of_empty g r c 'O' h]
  refine ⟨⟨?_, ?_⟩, ⟨?_, ?_⟩, ?_, ?_⟩
  · exact core_setCell_own r c (edgeSpec_X g) (edgeSpec_X (g.setCell r c 'X')) (by decide)
  · exact core_setCell_own_lower r c (edgeSpec_X g) (edgeSpec_X (g.setCell r c 'X')) hO
  · exact core_setCell_own r c (edgeSpec_O g) (edgeSpec_O (g.setCell r c 'O')) (by decide)
  · exact core_setCell_own_lower r c (edgeSpec_O g) (edgeSpec_O (g.setCell r c 'O')) hX
  · exact core_setCell_own_INF r c (edgeSpec_X g) (edgeSpec_X (g.setCell r c 'X'))
      hO hsize
  · exact core_setCell_own_INF r c (edgeSpec_O g) (edgeSpec_O (g.setCell r c 'O'))
      hX hsize

theorem own_stone_lowers_cost_by_at_most_one_witness :
    edgeWallBoard.isCellEmpty 0 0 = true ∧ edgeWallBoard.size ≤ 20000 ∧
    Gui.minMovesForXToWin edgeWallBoard = INF ∧
    (Gui.minMovesForXToWin (edgeWallBoard.makeMove 0 0 'X').2
        ≤ Gui.minMovesForXToWin edgeWallBoard ∧
      Gui.minMovesForXToWin edgeWallBoard
        ≤ Gui.minMovesForXToWin (edgeWallBoard.makeMove 0 0 'X').2 + 1) ∧
    (Gui.minMovesForOToWin (edgeWallBoard.makeMove 0 0 'O').2
        ≤ Gui.minMovesForOToWin edgeWallBoard ∧
      Gui.minMovesForOToWin edgeWallBoard
        ≤ Gui.minMovesForOToWin (edgeWallBoard.makeMove 0 0 'O').2 + 1) ∧
    (Gui.minMovesForXToWin edgeWallBoard = INF →
      Gui.minMovesForXToWin (edgeWallBoard.makeMove 0 0 'X').2 = INF) ∧
    (Gui.minMovesForOToWin edgeWallBoard = INF →
      Gui.minMovesForOToWin (edgeWallBoard.makeMove 0 0 'O').2 = INF) :=
  ⟨by decide, by decide, by decide!,
    own_stone_lowers_cost_by_at_most_one edgeWallBoard 0 0 (by decide) (by decide)⟩

end Hex

/-! ## The written path on the boards of a game that is not over -/

namespace Hex

/-- On a board of size at least 1, a side whose opponent is not connected has a route:
a sequence of cells the opponent does not own from its starting edge to its target
edge. -/
theorem exists_route_of_not_connected (g : HexGame) (hN : 1 ≤ g.size) :
    (Gui.checkWin g 'O' = false → ∃ route, SideRoute g 'X' route) ∧
    (Gui.checkWin g 'X' = false → ∃ route, SideRoute g 'O' route) := by
  constructor
  · intro hO
    have hfull : ∀ r c : Int, (fillOthers g 'O' 'X').inBounds r c = true →
        (fillOthers g 'O' 'X').board r c = 'X' ∨ (fillOthers g 'O' 'X').board r c = 'O' := by
      intro r c _
      simp only [fillOthers]
      split
      · exact Or.inr rfl
      · exact Or.inl rfl
    rcases full_board_connected (fillOthers g 'O' 'X') hN hfull with h | h
    · rw [bfsHorizontal_iff] at h
      obtain ⟨p, hp, hg⟩ := h
      have hmono : ∀ q, Owned (fillOthers g 'O' 'X') 'X' q → NotOwnedBy g 'O' q := by
        rintro q ⟨hb, hq⟩
        refine ⟨hb, ?_⟩
        intro ho
        simp only [fillOthers, ho, if_true] at hq
        exact absurd hq (by decide)
      have hr := reach_mono hmono p hp
      have hroute : ∃ route, IsRoute (NotOwnedBy g 'O') (fun p => p.2 = 0)
          (fun p => p.2 = (g.size : Int) - 1) route :=
        exists_reach_iff_route.1 ⟨p, hr, hg⟩
      simpa only [SideRoute, onStartEdge_X, onTargetEdge_X, opponent, if_true] using hroute
    · rw [bfsVertical_iff] at h
      obtain ⟨p, hp, hg⟩ := h
      have hmono : ∀ q, Owned (fillOthers g 'O' 'X') 'O' q → Owned g 'O' q := by
        rintro q ⟨hb, hq⟩
        refine ⟨hb, ?_⟩
        by_contra hne
        simp only [fillOthers, hne, if_false] at hq
        exact absurd hq (by decide)
      have hr := reach_mono hmono p hp
      have hwin : bfsVertical g 'O' = true := (bfsVertical_iff g 'O').2 ⟨p, hr, hg⟩
      have : Gui.checkWin g 'O' = true := by
        simpa [Gui.checkWin, Gui.hasVerticalConnection] using hwin
      rw [hO] at this
      exact absurd this (by decide)
  · intro hX
    have hfull : ∀ r c : Int, (fillOthers g 'X' 'O').inBounds r c = true →
        (fillOthers g 'X' 'O').board r c = 'X' ∨ (fillOthers g 'X' 'O').board r c = 'O' := by
      intro r c _
      simp only [fillOthers]
      split
      · exact Or.inl rfl
      · exact Or.inr rfl
    rcases full_board_connected (fillOthers g 'X' 'O') hN hfull with h | h
    · rw [bfsHorizontal_iff] at h
      obtain ⟨p, hp, hg⟩ := h
      have hmono : ∀ q, Owned (fillOthers g 'X' 'O') 'X' q → Owned g 'X' q := by
        rintro q ⟨hb, hq⟩
        refine ⟨hb, ?_⟩
        by_contra hne
        simp only [fillOthers, hne, if_false] at hq
        exact absurd hq (by decide)
      have hr := reach_mono hmono p hp
      have hwin : bfsHorizontal g 'X' = true := (bfsHorizontal_iff g 'X').2 ⟨p, hr, hg⟩
      have : Gui.checkWin g 'X' = true := by
        simpa [Gui.checkWin, Gui.hasHorizontalConnection] using hwin
      rw [hX] at this
      exact absurd this (by decide)
    · rw [bfsVertical_iff] at h
      obtain ⟨p, hp, hg⟩ := h
      have hmono : ∀ q, Owned (fillOthers g 'X' 'O') 'O' q → NotOwnedBy g 'X' q := by
        rintro q ⟨hb, hq⟩
        refine ⟨hb, ?_⟩
        intro ho
        simp only [fillOthers, ho, if_true] at hq
        exact absurd hq (by decide)
      have hr := reach_mono hmono p hp
      have hroute : ∃ route, IsRoute (NotOwnedBy g 'X') (fun p => p.1 = 0)
          (fun p => p.1 = (g.size : Int) - 1) route :=
        exists_reach_iff_route.1 ⟨p, hr, hg⟩
      have ho : opponent 'O' = 'X' := by decide
      simpa only [SideRoute, onStartEdge_O, onTargetEdge_O, ho] using hroute

/-- A cost below the sentinel is returned only on a board of size at least 1. -/
theorem size_pos_of_cost_lt_INF (g : HexGame) :
    (Gui.minMovesForXToWin g < INF → 1 ≤ g.size) ∧
    (Gui.minMovesForOToWin g < INF → 1 ≤ g.size) := by
  constructor
  · intro h
    obtain ⟨z, _, hw⟩ := core_walk (edgeSpec_X g) h
    have hb := walk_inBounds hw
    rw [inBounds_iff] at hb
    omega
  · intro h
    obtain ⟨z, _, hw⟩ := core_walk (edgeSpec_O g) h
    have hb := walk_inBounds hw
    rw [inBounds_iff] at hb
    omega

/-- With a route of the side present the cost of the side is below the sentinel. -/
theorem cost_lt_INF_of_route (g : HexGame) (hsize : g.size ≤ 23170) :
    ((∃ route, SideRoute g 'X' route) → Gui.minMovesForXToWin g < INF) ∧
    ((∃ route, SideRoute g 'O' route) → Gui.minMovesForOToWin g < INF) := by
  have hBI : blockedCost < INF := by decide
  constructor
  · intro hex
    have hex2 : ∃ route, IsRoute (NotOwnedBy g 'O') (fun p => p.2 = 0)
        (fun p => p.2 = (g.size : Int) - 1) route := by
      simpa only [SideRoute, onStartEdge_X, onTargetEdge_X, opponent, if_true] using hex
    have := @core_lt_blocked g 'X' 'O' _ _ _ _ (edgeSpec_X g) hsize hex2
    exact lt_trans this hBI
  · intro hex
    have ho : opponent 'O' = 'X' := by decide
    have hex2 : ∃ route, IsRoute (NotOwnedBy g 'X') (fun p => p.1 = 0)
        (fun p => p.1 = (g.size : Int) - 1) route := by
      simpa only [SideRoute, onStartEdge_O, onTargetEdge_O, ho] using hex
    have := @core_lt_blocked g 'O' 'X' _ _ _ _ (edgeSpec_O g) hsize hex2
    exact lt_trans this hBI

/-- C7: on every board of size at most 23170 and for each side `s` whose opponent is not
connected (on the boards of a game that is not over, on which `triggerAIMove` calls the
two functions with a path pointer, that is both sides): on a board of size at least 1 the
cost of `s` is finite, and when the cost of `s` is finite the path written by
`minMovesFor{s}ToWin` is exactly the list of the Empty cells, in route order from the
starting edge towards the target edge, of some hex-adjacent route of cells not owned by
the opponent from the starting edge of `s` to its target edge; every reported cell is in
bounds and Empty, and none holds a stone of `s`. -/
theorem path_lists_empty_cells_while_game_open (g : HexGame) (hsize : g.size ≤ 23170) :
    (Gui.checkWin g 'O' = false →
      (1 ≤ g.size → Gui.minMovesForXToWin g < INF) ∧
      (Gui.minMovesForXToWin g < INF →
        ∃ route, SideRoute g 'X' route ∧
          (Gui.minMovesForXToWinPath g).2
            = some (route.filter fun p => g.board p.1 p.2 == '.') ∧
          ∀ q ∈ route.filter (fun p => g.board p.1 p.2 == '.'),
            g.isCellEmpty q.1 q.2 = true ∧ g.board q.1 q.2 ≠ 'X')) ∧
    (Gui.checkWin g 'X' = false →
      (1 ≤ g.size → Gui.minMovesForOToWin g < INF) ∧
      (Gui.minMovesForOToWin g < INF →
        ∃ route, SideRoute g 'O' route ∧
          (Gui.minMovesForOToWinPath g).2
            = some (route.filter fun p => g.board p.1 p.2 == '.') ∧
          ∀ q ∈ route.filter (fun p => g.board p.1 p.2 == '.'),
            g.isCellEmpty q.1 q.2 = true ∧ g.board q.1 q.2 ≠ 'O')) := by
  have hcells : ∀ (s : Char) (route : List (Int × Int)), s ≠ '.' → SideRoute g s route →
      ∀ q ∈ route.filter (fun p => g.board p.1 p.2 == '.'),
        g.isCellEmpty q.1 q.2 = true ∧ g.board q.1 q.2 ≠ s := by
    intro s route hs hr q hq
    rw [List.mem_filter] at hq
    have hb := (hr.1 q hq.1).1
    have hdot : g.board q.1 q.2 = '.' := by simpa using hq.2
    refine ⟨?_, ?_⟩
    · simp only [HexGame.isCellEmpty, hb, Bool.true_and]
      exact hq.2
    · rw [hdot]
      exact fun h => hs h.symm
  refine ⟨?_, ?_⟩
  · intro hO
    refine ⟨?_, ?_⟩
    · intro hN
      exact (cost_lt_INF_of_route g hsize).1 ((exists_route_of_not_connected g hN).1 hO)
    · intro hfin
      have hN := (size_pos_of_cost_lt_INF g).1 hfin
      obtain ⟨route, hr, hp⟩ := (path_lists_empty_cells_of_route g hsize).1
        ((exists_route_of_not_connected g hN).1 hO)
      exact ⟨route, hr, hp, hcells 'X' route (by decide) hr⟩
  · intro hX
    refine ⟨?_, ?_⟩
    · intro hN
      exact (cost_lt_INF_of_route g hsize).2 ((exists_route_of_not_connected g hN).2 hX)
    · intro hfin
      have hN := (size_pos_of_cost_lt_INF g).2 hfin
      obtain ⟨route, hr, hp⟩ := (path_lists_empty_cells_of_route g hsize).2
        ((exists_route_of_not_connected g hN).2 hX)
      exact ⟨route, hr, hp, hcells 'O' route (by decide) hr⟩

theorem path_lists_empty_cells_while_game_open_witness :
    board5.size ≤ 23170 ∧ Gui.checkWin board5 'X' = false ∧
    Gui.checkWin board5 'O' = false ∧ 1 ≤ board5.size ∧
    (Gui.checkWin board5 'O' = false →
      (1 ≤ board5.size → Gui.minMovesForXToWin board5 < INF) ∧
      (Gui.minMovesForXToWin board5 < INF →
        ∃ route, SideRoute board5 'X' route ∧
          (Gui.minMovesForXToWinPath board5).2
            = some (route.filter fun p => board5.board p.1 p.2 == '.') ∧
          ∀ q ∈ route.filter (fun p => board5.board p.1 p.2 == '.'),
            board5.isCellEmpty q.1 q.2 = true ∧ board5.board q.1 q.2 ≠ 'X')) ∧
    (Gui.checkWin board5 'X' = false →
      (1 ≤ board5.size → Gui.minMovesForOToWin board5 < INF) ∧
      (Gui.minMovesForOToWin board5 < INF →
        ∃ route, SideRoute board5 'O' route ∧
          (Gui.minMovesForOToWinPath board5).2
            = some (route.filter fun p => board5.board p.1 p.2 == '.') ∧
          ∀ q ∈ route.filter (fun p => board5.board p.1 p.2 == '.'),
            board5.isCellEmpty q.1 q.2 = true ∧ board5.board q.1 q.2 ≠ 'O')) :=
  ⟨by decide, by decide, by decide, by decide,
    path_lists_empty_cells_while_game_open board5 (by decide)⟩

/-- C28: on every board of `'.'`, `'X'` and `'O'` of size at most 23170 and for each side
`s` whose opponent is not connected (on the boards of a game that is not over, on which
`triggerAIMove` calls the two functions with a path pointer, that is both sides): on a
board of size at least 1 the cost of `s` is finite, and when the cost
`k = minMovesFor{s}ToWin` is finite the reported path consists of exactly `k` pairwise
distinct cells, and placing a stone of `s` on every cell of the path yields a board on
which `checkWin(s)` is true. -/
theorem path_has_cost_many_cells_while_game_open (g : HexGame) (hwf : WellFormed g)
    (hsize : g.size ≤ 23170) :
    (Gui.checkWin g 'O' = false →
      (1 ≤ g.size → Gui.minMovesForXToWin g < INF) ∧
      (Gui.minMovesForXToWin g < INF →
        ∃ path, (Gui.minMovesForXToWinPath g).2 = some path ∧
          path.length = Gui.minMovesForXToWin g ∧ path.Nodup ∧
          Gui.checkWin (fillPath g 'X' path) 'X' = true)) ∧
    (Gui.checkWin g 'X' = false →
      (1 ≤ g.size → Gui.minMovesForOToWin g < INF) ∧
      (Gui.minMovesForOToWin g < INF →
        ∃ path, (Gui.minMovesForOToWinPath g).2 = some path ∧
          path.length = Gui.minMovesForOToWin g ∧ path.Nodup ∧
          Gui.checkWin (fillPath g 'O' path) 'O' = true)) := by
  refine ⟨?_, ?_⟩
  · intro hO
    refine ⟨?_, ?_⟩
    · intro hN
      exact (cost_lt_INF_of_route g hsize).1 ((exists_route_of_not_connected g hN).1 hO)
    · intro hfin
      have hN := (size_pos_of_cost_lt_INF g).1 hfin
      exact (path_is_cost_many_cells_of_route g hwf hsize).1
        ((exists_route_of_not_connected g hN).1 hO)
  · intro hX
    refine ⟨?_, ?_⟩
    · intro hN
      exact (cost_lt_INF_of_route g hsize).2 ((exists_route_of_not_connected g hN).2 hX)
    · intro hfin
      have hN := (size_pos_of_cost_lt_INF g).2 hfin
      exact (path_is_cost_many_cells_of_route g hwf hsize).2
        ((exists_route_of_not_connected g hN).2 hX)

theorem path_has_cost_many_cells_while_game_open_witness :
    WellFormed board5 ∧ board5.size ≤ 23170 ∧ Gui.checkWin board5 'X' = false ∧
    Gui.checkWin board5 'O' = false ∧ 1 ≤ board5.size ∧
    (Gui.checkWin board5 'O' = false →
      (1 ≤ board5.size → Gui.minMovesForXToWin board5 < INF) ∧
      (Gui.minMovesForXToWin board5 < INF →
        ∃ path, (Gui.minMovesForXToWinPath board5).2 = some path ∧
          path.length = Gui.minMovesForXToWin board5 ∧ path.Nodup ∧
          Gui.checkWin (fillPath board5 'X' path) 'X' = true)) ∧
    (Gui.checkWin board5 'X' = false →
      (1 ≤ board5.size → Gui.minMovesForOToWin board5 < INF) ∧
      (Gui.minMovesForOToWin board5 < INF →
        ∃ path, (Gui.minMovesForOToWinPath board5).2 = some path ∧
          path.length = Gui.minMovesForOToWin board5 ∧ path.Nodup ∧
          Gui.checkWin (fillPath board5 'O' path) 'O' = true)) :=
  ⟨board5_wellFormed, by decide, by decide, by decide, by decide,
    path_has_cost_many_cells_while_game_open board5 board5_wellFormed (by decide)⟩

end Hex

/-! ## The place-and-check scan runs over the candidates only -/

namespace Hex

namespace Gui

end Gui

/-- The two tests on concrete boards of games that are not over.  On `board5` (cost 1,
21 Empty cells, all of them candidates) the cost test is true and the scan over the
candidates finds `(2,2)`.  On `centreStoneBoard` (cost 6) rule 1 leaves `bestR == -1`,
the cost test is false and the scan finds no cell. -/
theorem cost_test_and_scan_examples :
    Gui.checkWin board5 'X' = false ∧ Gui.checkWin board5 'O' = false ∧
    Gui.isXOneMoveFromWin board5 = true ∧
    (Gui.findWinningCell (fun _ => true) board5 (Gui.collectEmpty board5)).2
      = some (2, 2) ∧
    Gui.checkWin centreStoneBoard 'X' = false ∧
    Gui.checkWin centreStoneBoard 'O' = false ∧
    (Gui.ruleImmediateLoss (Gui.minMovesForXToWinPath centreStoneBoard).1
      ((Gui.minMovesForXToWinPath centreStoneBoard).2.getD [])
      (Gui.collectEmpty centreStoneBoard)
      (centreStoneBoard, ⟨-1, -1, -1000000000⟩)).2.bestR = -1 ∧
    Gui.isXOneMoveFromWin centreStoneBoard = false ∧
    (Gui.findWinningCell (fun _ => true) centreStoneBoard
      (Gui.collectEmpty centreStoneBoard)).2 = none := by
  refine ⟨by decide!, by decide!, by decide!, by decide!, by decide!, by decide!,
    by decide!, by decide!, by decide!⟩

/-- The loop of the scan taken alone, on the candidates of `lateGapBoard`: the cost test
`isXOneMoveFromWin()` is true, X is not connected and an X stone on the Empty cell `(7,4)`
connects X, yet the loop over `emptyCells`, which holds 50 cells without `(7,4)`, finds
no cell.  Not every Empty cell is a candidate here, and the cascade does not run the scan
on this board (see `rule_one_preempts_scan_late_gap`). -/
theorem place_and_check_scan_misses_late_gap :
    Gui.isXOneMoveFromWin lateGapBoard = true ∧
    Gui.checkWin lateGapBoard 'X' = false ∧
    lateGapBoard.isCellEmpty 7 4 = true ∧
    Gui.checkWin (lateGapBoard.makeMove 7 4 'X').2 'X' = true ∧
    (Gui.collectEmpty lateGapBoard).length = 50 ∧
    (7, 4) ∉ Gui.collectEmpty lateGapBoard ∧
    (Gui.findWinningCell (fun _ => true) lateGapBoard (Gui.collectEmpty lateGapBoard)).2
      = none ∧
    (Gui.ruleBlockWinningCell (Gui.collectEmpty lateGapBoard)
      (lateGapBoard, ⟨-1, -1, -1000000000⟩)).2.bestR = -1 := by
  refine ⟨by decide!, by decide!, by decide, by decide!, by decide!, by decide!, by decide!,
    by decide!⟩

/-- On `lateGapBoard` the cascade does not run the scan: rule 1 has selected `(7,4)`, the
cell of the threat path, so `bestR` is 7 when rule 2 is reached and rule 2 leaves the
choice as it is. -/
theorem rule_one_preempts_scan_late_gap :
    (Gui.ruleImmediateLoss (Gui.minMovesForXToWinPath lateGapBoard).1
      ((Gui.minMovesForXToWinPath lateGapBoard).2.getD [])
      (Gui.collectEmpty lateGapBoard)
      (lateGapBoard, ⟨-1, -1, -1000000000⟩)).2.bestR = 7 ∧
    (Gui.ruleImmediateLoss (Gui.minMovesForXToWinPath lateGapBoard).1
      ((Gui.minMovesForXToWinPath lateGapBoard).2.getD [])
      (Gui.collectEmpty lateGapBoard)
      (lateGapBoard, ⟨-1, -1, -1000000000⟩)).2.bestC = 4 ∧
    (Gui.ruleBlockWinningCell (Gui.collectEmpty lateGapBoard)
      (lateGapBoard, ⟨7, 4, 7000000⟩)).2.bestR = 7 ∧
    (Gui.ruleBlockWinningCell (Gui.collectEmpty lateGapBoard)
      (lateGapBoard, ⟨7, 4, 7000000⟩)).2.bestC = 4 := by
  refine ⟨by decide!, by decide!, by decide!, by decide!⟩

end Hex
